import Mathlib

/-! # CINN schedule IR: a shallow embedding

The loop-nest IR of `cinn/ir/ir_schedule.h`, the schedule primitives it declares
and the composite schedules of `cinn/hlir/pe/ir_schedule_pe.cc`.

The header `ir_schedule.h` only declares the primitives; their bodies live in
`ir_schedule.cc`, which is not part of the sources at hand.  Every primitive below
is therefore modelled from the specification text and says so in its comment.
The composite schedules are translated from `ir_schedule_pe.cc` line by line.
-/

namespace cinn

/-! ## Index expressions -/

/-- Iteration variables.  A variable is either named by the lowering step, or it is the
`index`-th variable created by splitting `parent`, or the variable of a fused loop. -/
inductive Var where
  | named (name : String)
  | split (parent : Var) (index : Nat)
  | fused (outer inner : Var)
  deriving DecidableEq, Repr

/-- Integer index expressions (loop bounds and the iteration values of schedule blocks). -/
inductive Expr where
  | IntImm (value : Int)
  | _Var_ (v : Var)
  | Add (a b : Expr)
  | Sub (a b : Expr)
  | Mul (a b : Expr)
  | Div (a b : Expr)
  | Mod (a b : Expr)
  | Min (a b : Expr)
  deriving DecidableEq, Repr

/-- An environment gives every iteration variable its current value. -/
abbrev Env := Var → Int

/-- Evaluation of an index expression; `/` and `%` truncate as C++ `int` does. -/
def Expr.eval (env : Env) : Expr → Int
  | .IntImm v => v
  | ._Var_ x => env x
  | .Add a b => a.eval env + b.eval env
  | .Sub a b => a.eval env - b.eval env
  | .Mul a b => a.eval env * b.eval env
  | .Div a b => (a.eval env).tdiv (b.eval env)
  | .Mod a b => (a.eval env).tmod (b.eval env)
  | .Min a b => min (a.eval env) (b.eval env)

/-- Simultaneous replacement of variables by expressions; the first pair of `σ` whose
variable matches wins, a variable without a pair stays. -/
def Expr.subst (σ : List (Var × Expr)) : Expr → Expr
  | .IntImm v => .IntImm v
  | ._Var_ x => (σ.lookup x).getD (._Var_ x)
  | .Add a b => .Add (a.subst σ) (b.subst σ)
  | .Sub a b => .Sub (a.subst σ) (b.subst σ)
  | .Mul a b => .Mul (a.subst σ) (b.subst σ)
  | .Div a b => .Div (a.subst σ) (b.subst σ)
  | .Mod a b => .Mod (a.subst σ) (b.subst σ)
  | .Min a b => .Min (a.subst σ) (b.subst σ)

/-! ## Tensor values (bodies of schedule blocks) -/

/-- The value a schedule block computes: constants, tensor reads and arithmetic. -/
inductive Value where
  | Const (c : Int)
  | Load (tensor : String) (indices : List Expr)
  | Add (a b : Value)
  | Sub (a b : Value)
  | Mul (a b : Value)
  deriving DecidableEq, Repr

/-- Tensor contents: the value stored at each index of each tensor. -/
abbrev Memory := String → List Int → Int

/-- Evaluation of a block body under the iteration variables `env` and tensor contents `mem`. -/
def Value.eval (mem : Memory) (env : Env) : Value → Int
  | .Const c => c
  | .Load t idx => mem t (idx.map (Expr.eval env))
  | .Add a b => a.eval mem env + b.eval mem env
  | .Sub a b => a.eval mem env - b.eval mem env
  | .Mul a b => a.eval mem env * b.eval mem env

/-- Replacement of iteration variables inside the read indices of a body. -/
def Value.subst (σ : List (Var × Expr)) : Value → Value
  | .Const c => .Const c
  | .Load t idx => .Load t (idx.map (Expr.subst σ))
  | .Add a b => .Add (a.subst σ) (b.subst σ)
  | .Sub a b => .Sub (a.subst σ) (b.subst σ)
  | .Mul a b => .Mul (a.subst σ) (b.subst σ)

/-- The tensors a body reads, in order of appearance. -/
def Value.reads : Value → List String
  | .Const _ => []
  | .Load t _ => [t]
  | .Add a b => a.reads ++ b.reads
  | .Sub a b => a.reads ++ b.reads
  | .Mul a b => a.reads ++ b.reads

/-! ## The loop-nest AST -/

/-- The loop-kind tag of a loop. -/
inductive ForType where
  | Serial
  | Parallel
  | Vectorized
  | Unrolled
  | GPUThread
  | GPUBlock
  deriving DecidableEq, Repr

/-- The header of a `For` node.  The lower bound is `0` and the step `1`.  `extent` is the
constant extent; when `clip` is `some c` the loop is a boundary loop whose upper bound is
`1 + min (extent - 1) c`, the shape the generated code prints for a split that does not divide
(`j_inner < 1 + cinn_min(7, 499 + -8 * j_outer)`). -/
structure Loop where
  loop_var : Var
  extent : Nat
  clip : Option Expr := none
  for_type : ForType := ForType.Serial
  bind_axis : Option String := none
  vectorize_factor : Option Int := none
  deriving DecidableEq, Repr

/-- The upper bound expression of a loop. -/
def Loop.bound (l : Loop) : Expr :=
  match l.clip with
  | none => .IntImm l.extent
  | some c => .Add (.IntImm 1) (.Min (.IntImm ((l.extent : Int) - 1)) c)

/-- The number of iterations a loop runs under `env` (none when the bound is not positive). -/
def Loop.tripCount (l : Loop) (env : Env) : Nat := (l.bound.eval env).toNat

/-- A schedule block with the bindings of its iteration variables: the block `name` writes
`tensor` at `indices` (expressions over `iter_vars`) the value `body`; `iter_values` binds the
iteration variables to expressions over the enclosing loop variables; `memory_type` is the
storage scope of the written buffer. -/
structure ScheduleBlockRealize where
  name : String
  iter_vars : List Var := []
  iter_values : List Expr := []
  tensor : String := name
  indices : List Expr := iter_vars.map Expr._Var_
  body : Value := Value.Const 0
  memory_type : String := "global"
  deriving DecidableEq, Repr

/-- A statement sequence (`ir::Block`): empty, or a `For` loop with its body followed by the
rest of the sequence, or a schedule block followed by the rest of the sequence. -/
inductive Block where
  | nil
  | For (loop : Loop) (body : Block) (rest : Block)
  | Realize (block : ScheduleBlockRealize) (rest : Block)
  deriving DecidableEq, Repr

/-- Concatenation of two statement sequences. -/
def Block.append : Block → Block → Block
  | .nil, b => b
  | .For l body rest, b => .For l body (rest.append b)
  | .Realize r rest, b => .Realize r (rest.append b)

/-- One executed instance of a schedule block: its name and the values of its iteration
variables. -/
abbrev Instance := String × List Int

/-- Execution of a statement sequence: the schedule-block instances in execution order.  A
loop runs its body for `loop_var = 0, 1, ..` below its upper bound. -/
def Block.exec : Block → Env → List Instance
  | .nil, _ => []
  | .For l body rest, env =>
      (List.range (l.tripCount env)).flatMap
        (fun i => body.exec (Function.update env l.loop_var (i : Int))) ++ rest.exec env
  | .Realize r rest, env => (r.name, r.iter_values.map (Expr.eval env)) :: rest.exec env

/-- Replacement of loop variables in every loop bound and iteration value of a sequence. -/
def Block.subst (σ : List (Var × Expr)) : Block → Block
  | .nil => .nil
  | .For l body rest =>
      .For { l with clip := l.clip.map (Expr.subst σ) } (body.subst σ) (rest.subst σ)
  | .Realize r rest =>
      .Realize { r with iter_values := r.iter_values.map (Expr.subst σ) } (rest.subst σ)

/-- A perfect nest: the loops `ls`, outermost first, each the only statement of its parent,
around `body`. -/
def Block.nest : List Loop → Block → Block
  | [], body => body
  | l :: ls, body => .For l (Block.nest ls body) .nil

/-- Failures of the schedule engine. -/
inductive ScheduleError where
  | NotFoundError
  | ReplaceError
  | ExtentMismatch
  | MultiplePlaceholders
  | EmptyLoops
  | NotContiguous
  | NotSameNest
  | AxisCollision
  | InvalidAxis
  | NotInlinable
  | InvalidScope
  | CheckFailed
  | NonConstantExtent
  | OutOfRange
  | NotReduceLoop
  deriving DecidableEq, Repr

/-! ## Split -/

/-- Ceiling division of naturals. -/
def ceilDiv (a b : Nat) : Nat := (a + b - 1) / b

/-- Sum of two index expressions, dropping a zero summand. -/
def Expr.simpAdd (a b : Expr) : Expr :=
  if a = .IntImm 0 then b else if b = .IntImm 0 then a else .Add a b

/-- Product of two index expressions, collapsing a zero factor. -/
def Expr.simpMul (a b : Expr) : Expr :=
  if a = .IntImm 0 ∨ b = .IntImm 0 then .IntImm 0 else .Mul a b

/-- Modelled from the spec: the factor resolution of `IRSchedule::Split`, whose body
(`ir_schedule.cc`) is missing.  The spec, section 4.2: the factor list holds at most one `-1`
meaning "infer from remaining extent"; the product of the resulting extents equals the
original extent or covers it via ceiling division; the call fails when there is more than one
`-1` or when the factors produce an extent mismatch.  A factor that is neither `-1` nor
positive, and an empty list, can match no extent. -/
def Split.resolve (extent : Nat) (factors : List Int) : Except ScheduleError (List Nat) :=
  if 1 < factors.count (-1) then .error .MultiplePlaceholders
  else if factors = [] ∨ factors.any (fun f => decide (f = 0 ∨ f < -1)) then
    .error .ExtentMismatch
  else
    let product := ((factors.filter (fun f => decide (f ≠ -1))).map Int.toNat).prod
    if factors.count (-1) = 0 then
      if product = extent then .ok (factors.map Int.toNat) else .error .ExtentMismatch
    else
      .ok (factors.map (fun f => if f = -1 then ceilDiv extent product else f.toNat))

/-- Modelled from the spec: the value of the original iteration variable `x` in terms of the
new loop variables `split x i, split x (i+1), ..` with extents `fs`, given the combined index
`acc` of the loops further out:  `(..(acc * f_i + x_i) * f_(i+1) + ..) + x_last`. -/
def Split.index (x : Var) : List Nat → Nat → Expr → Expr
  | [], _, acc => acc
  | f :: fs, i, acc =>
      Split.index x fs (i + 1)
        (Expr.simpAdd (Expr.simpMul (.IntImm f) acc) (._Var_ (.split x i)))

/-- Modelled from the spec: the nested loops that replace the loop `l`: one loop per resolved
factor, outermost first, each inheriting the tag of `l`.  When the extents only cover the
original extent (`clipped`), the innermost loop is the boundary loop and is clipped via
`min` against what remains of the original extent: its upper bound is
`1 + min (f - 1) ((extent - 1) + -f * acc)`. -/
def Split.nest (l : Loop) (clipped : Bool) : List Nat → Nat → Expr → Block → Block
  | [], _, _, body => body
  | [f], i, acc, body =>
      .For { l with
              loop_var := .split l.loop_var i
              extent := f
              clip := if clipped then
                  some (.Add (.IntImm ((l.extent : Int) - 1))
                    (Expr.simpMul (.IntImm (-(f : Int))) acc))
                else none }
        body .nil
  | f :: g :: fs, i, acc, body =>
      .For { l with loop_var := .split l.loop_var i, extent := f, clip := none }
        (Split.nest l clipped (g :: fs) (i + 1)
          (Expr.simpAdd (Expr.simpMul (.IntImm f) acc) (._Var_ (.split l.loop_var i))) body)
        .nil

/-- Modelled from the spec: `IRSchedule::Split` on one loop `l` with body `body`: the resolved
extents and the nest that replaces the loop; the original variable is replaced in the body by
its value in terms of the new variables.  A boundary loop has no constant extent to split. -/
def Split.apply (l : Loop) (factors : List Int) (body : Block) :
    Except ScheduleError (List Nat × Block) :=
  if l.clip.isSome then .error .NonConstantExtent
  else
    match Split.resolve l.extent factors with
    | .error e => .error e
    | .ok fs =>
        .ok (fs, Split.nest l (decide (l.extent < fs.prod)) fs 0 (.IntImm 0)
          (body.subst [(l.loop_var, Split.index l.loop_var fs 0 (.IntImm 0))]))

/-! ## Fuse -/

/-- Modelled from the spec: the Euclidean index decomposition of `IRSchedule::Fuse`, whose
body (`ir_schedule.cc`) is missing.  For the loops `(x, E)`, outermost first, and the fused
index `q`, the innermost variable is `q % E_n`, the next one `(q / E_n) % E_(n-1)` and so on:
successive division and modulo by the inner extents.  The result pairs every original variable
with its expression and also returns the remaining quotient. -/
def Fuse.index : List (Var × Nat) → Expr → List (Var × Expr) × Expr
  | [], q => ([], q)
  | (x, e) :: rest, q =>
      let inner := Fuse.index rest q
      ((x, .Mod inner.2 (.IntImm e)) :: inner.1, .Div inner.2 (.IntImm e))

/-- The decomposition of `Fuse.index` on numbers: the index tuple, outermost first, recovered
from the fused index `v`, and the remaining quotient. -/
def Fuse.decompose : List Nat → Nat → List Nat × Nat
  | [], v => ([], v)
  | e :: rest, v =>
      let inner := Fuse.decompose rest v
      ((inner.2 % e) :: inner.1, inner.2 / e)

/-- The position of an index tuple in the row-major (lexicographic) order of a nest with the
given extents: `(..(t_1 * E_2 + t_2) * E_3 + ..) + t_n`. -/
def Fuse.flatten : List Nat → List Nat → Nat
  | _ :: es, t :: ts => t * es.prod + Fuse.flatten es ts
  | _, _ => 0

/-- The variable of a fused loop, built from the variables of the loops it replaces. -/
def Fuse.var : List Var → Var
  | [] => .named "fused"
  | [x] => x
  | x :: y :: xs => .fused x (Fuse.var (y :: xs))

/-- Modelled from the spec: `n + 1` loops are directly nested, outer to inner and contiguous,
when each is the only statement in the body of the one before; `collect` returns their headers
and the innermost body, and fails otherwise. -/
def Fuse.collect : Nat → Loop → Block → Except ScheduleError (List Loop × Block)
  | 0, l, body => .ok ([l], body)
  | n + 1, l, .For l2 body2 .nil =>
      match Fuse.collect n l2 body2 with
      | .ok (ls, inner) => .ok (l :: ls, inner)
      | .error e => .error e
  | _ + 1, _, _ => .error .NotContiguous

/-- Modelled from the spec: `IRSchedule::Fuse` on the loop `l` with body `body` and the `n`
loops nested directly below it: a single loop whose extent is the product of the extents, with
the original variables replaced in the body by the Euclidean decomposition of the fused
variable.  The fused loop keeps the tag of the outermost loop.  Returns the fused header and
the statement that replaces the nest. -/
def Fuse.apply (n : Nat) (l : Loop) (body : Block) : Except ScheduleError (Loop × Block) :=
  match Fuse.collect n l body with
  | .error e => .error e
  | .ok (ls, inner) =>
      if ls.any (fun l => l.clip.isSome) then .error .NonConstantExtent
      else
        let fused : Loop :=
          { l with loop_var := Fuse.var (ls.map Loop.loop_var)
                   extent := (ls.map Loop.extent).prod }
        let σ := (Fuse.index (ls.map (fun l => (l.loop_var, l.extent)))
          (._Var_ fused.loop_var)).1
        .ok (fused, .For fused (inner.subst σ) .nil)

/-- The index tuples of a perfect nest with the given extents in execution order: the
lexicographic order, outermost index most significant. -/
def lexTuples : List Nat → List (List Nat)
  | [] => [[]]
  | e :: es => (List.range e).flatMap (fun i => (lexTuples es).map (fun t => i :: t))

/-- The environment inside a nest: the loop variables bound to the indices `t`, outermost
first (an inner loop shadows an outer loop of the same variable). -/
def bindLoops : List Loop → List Nat → Env → Env
  | l :: ls, i :: t, env => bindLoops ls t (Function.update env l.loop_var (i : Int))
  | _, _, env => env

/-! ## Modules, handles and node lookup -/

/-- A module (`ir::ModuleExpr`): the expression trees being scheduled together, each one the
AST of a computation kernel. -/
structure ModuleExpr where
  exprs : List Block
  deriving DecidableEq, Repr

/-- A handle to a `For` node (the `Expr` a caller holds): the index of the expression tree,
the path to the node (the index of a statement in the root sequence, then in the body of that
loop, and so on) and the header the node had when the handle was obtained. -/
structure LoopHandle where
  expr : Nat
  path : List Nat
  loop : Loop
  deriving DecidableEq, Repr

/-- The constant extent of a loop (`ir::GetLoopExtent`, declared in `ir_schedule.h`). -/
def GetLoopExtent (loop : LoopHandle) : Int := loop.loop.extent

/-- Modelled from the spec: the schedule blocks of a statement sequence in the order a
depth-first traversal encounters them. -/
def Block.GetAllBlocks : Block → List ScheduleBlockRealize
  | .nil => []
  | .For _ body rest => body.GetAllBlocks ++ rest.GetAllBlocks
  | .Realize r rest => r :: rest.GetAllBlocks

/-- Modelled from the spec: `ScheduleHelper::GetAllBlocks`, the ordered sequence of all
schedule blocks reachable in the module's trees, in depth-first order. -/
def ModuleExpr.GetAllBlocks (m : ModuleExpr) : List ScheduleBlockRealize :=
  m.exprs.flatMap Block.GetAllBlocks

/-- Modelled from the spec: `ScheduleHelper::GetBlock`, the block of the given name; fails
with `NotFoundError` when the name is absent or ambiguous. -/
def ModuleExpr.GetBlock (m : ModuleExpr) (block_name : String) :
    Except ScheduleError ScheduleBlockRealize :=
  match m.GetAllBlocks.filter (fun b => decide (b.name = block_name)) with
  | [b] => .ok b
  | _ => .error .NotFoundError

/-- The `For` node at `path`: its header and body. -/
def Block.getFor : Block → List Nat → Option (Loop × Block)
  | .For l body _, [0] => some (l, body)
  | .For _ body _, 0 :: k :: p => body.getFor (k :: p)
  | .For _ _ rest, (k + 1) :: p => rest.getFor (k :: p)
  | .Realize _ rest, (k + 1) :: p => rest.getFor (k :: p)
  | _, _ => none

/-- All loops of a statement sequence with their paths, in depth-first order; `pre` is the
path of the enclosing body and `i` the index of the first statement. -/
def Block.allLoops : Block → List Nat → Nat → List (List Nat × Loop)
  | .nil, _, _ => []
  | .For l body rest, pre, i =>
      (pre ++ [i], l) :: (body.allLoops (pre ++ [i]) 0 ++ rest.allLoops pre (i + 1))
  | .Realize _ rest, pre, i => rest.allLoops pre (i + 1)

/-- The chain of loops enclosing the block `name`, outermost first, with their paths, found by
walking from the root down to the block. -/
def Block.GetLoops (name : String) : Block → List Nat → Nat → Option (List (List Nat × Loop))
  | .nil, _, _ => none
  | .For l body rest, pre, i =>
      match body.GetLoops name (pre ++ [i]) 0 with
      | some ls => some ((pre ++ [i], l) :: ls)
      | none => rest.GetLoops name pre (i + 1)
  | .Realize r rest, pre, i =>
      if r.name = name then some [] else rest.GetLoops name pre (i + 1)

/-- The loops of the block `name` in the first tree, from index `k` on, that holds it. -/
def GetLoopsIn (name : String) : List Block → Nat → Except ScheduleError (List LoopHandle)
  | [], _ => .error .NotFoundError
  | e :: es, k =>
      match e.GetLoops name [] 0 with
      | some ls => .ok (ls.map (fun pl => { expr := k, path := pl.1, loop := pl.2 }))
      | none => GetLoopsIn name es (k + 1)

/-- Modelled from the spec: `ScheduleHelper::GetLoops(block_name)`, the ordered chain of
enclosing loops of a schedule block from outermost to innermost. -/
def ModuleExpr.GetLoopsByName (m : ModuleExpr) (block_name : String) :
    Except ScheduleError (List LoopHandle) :=
  GetLoopsIn block_name m.exprs 0

/-- Modelled from the spec: `ScheduleHelper::GetLoops(block)`. -/
def ModuleExpr.GetLoops (m : ModuleExpr) (block : ScheduleBlockRealize) :
    Except ScheduleError (List LoopHandle) :=
  m.GetLoopsByName block.name

/-- Replacement of the `For` node at `path` by the statements `f header body` computes; fails
with `ReplaceError` when there is no `For` node at the path. -/
def Block.modifyFor (f : Loop → Block → Except ScheduleError Block) :
    Block → List Nat → Except ScheduleError Block
  | .For l body rest, [0] =>
      match f l body with
      | .ok b => .ok (b.append rest)
      | .error e => .error e
  | .For l body rest, 0 :: k :: p =>
      match body.modifyFor f (k :: p) with
      | .ok body' => .ok (.For l body' rest)
      | .error e => .error e
  | .For l body rest, (k + 1) :: p =>
      match rest.modifyFor f (k :: p) with
      | .ok rest' => .ok (.For l body rest')
      | .error e => .error e
  | .Realize r rest, (k + 1) :: p =>
      match rest.modifyFor f (k :: p) with
      | .ok rest' => .ok (.Realize r rest')
      | .error e => .error e
  | _, _ => .error .ReplaceError

/-- Replacement of the `i`-th element of a list by what `f` computes from it. -/
def modifyNth {α : Type} (f : α → Except ScheduleError α) :
    List α → Nat → Except ScheduleError (List α)
  | [], _ => .error .ReplaceError
  | x :: xs, 0 =>
      match f x with
      | .ok y => .ok (y :: xs)
      | .error e => .error e
  | x :: xs, i + 1 =>
      match modifyNth f xs i with
      | .ok ys => .ok (x :: ys)
      | .error e => .error e

/-- Modelled from the spec: `ScheduleHelper::Replace` for a loop handle: the node the handle
points to is located in the current trees and replaced by what `f` computes; fails with
`ReplaceError` when no `For` node with the header of the handle is at its path (the handle
is stale). -/
def ModuleExpr.Replace (m : ModuleExpr) (loop : LoopHandle)
    (f : Loop → Block → Except ScheduleError Block) : Except ScheduleError ModuleExpr :=
  match modifyNth (fun e => e.modifyFor
      (fun l body => if l = loop.loop then f l body else .error .ReplaceError) loop.path)
      m.exprs loop.expr with
  | .ok es => .ok { exprs := es }
  | .error e => .error e

/-- The headers of the first `n` loops found by going down from a statement through first
statements, with their paths; `path` is the path of the statement. -/
def Block.chain : Nat → Block → List Nat → List (List Nat × Loop)
  | n + 1, .For l body _, path => (path, l) :: body.chain n (path ++ [0])
  | _, _, _ => []

/-! ## The schedule primitives on a module -/

/-- Modelled from the spec: `IRSchedule::Split(loop, factors)`: replaces one loop with the
nested loops of `Split.apply` and returns handles to the new loops, outermost first. -/
def IRSchedule.Split (ir_sch : ModuleExpr) (loop : LoopHandle) (factors : List Int) :
    Except ScheduleError (ModuleExpr × List LoopHandle) :=
  match ir_sch.Replace loop (fun l body =>
      match Split.apply l factors body with
      | .ok (_, nest) => .ok nest
      | .error e => .error e) with
  | .error e => .error e
  | .ok m =>
      match Split.apply loop.loop factors .nil with
      | .error e => .error e
      | .ok (fs, nest) =>
          .ok (m, (nest.chain fs.length loop.path).map
            (fun pl => { expr := loop.expr, path := pl.1, loop := pl.2 }))

/-- The handles form a chain of directly nested loops when they lie in one tree and each
path extends the path before it by the first statement of the body. -/
def contiguous : List LoopHandle → Bool
  | a :: b :: rest => decide (b.expr = a.expr) && decide (b.path = a.path ++ [0])
      && contiguous (b :: rest)
  | _ => true

/-- Modelled from the spec: `IRSchedule::Fuse(loops)`: the loops must be directly nested,
outer to inner and contiguous; they are collapsed into the single loop of `Fuse.apply`, whose
handle is returned.  Fails on an empty list and on loops that are not contiguous. -/
def IRSchedule.Fuse (ir_sch : ModuleExpr) (loops : List LoopHandle) :
    Except ScheduleError (ModuleExpr × LoopHandle) :=
  match loops with
  | [] => .error .EmptyLoops
  | first :: rest =>
      if contiguous (first :: rest) = false then .error .NotContiguous
      else
        match ir_sch.Replace first (fun l body =>
            match Fuse.collect rest.length l body with
            | .error e => .error e
            | .ok (ls, _) =>
                if ls = (first :: rest).map LoopHandle.loop then
                  match Fuse.apply rest.length l body with
                  | .ok (_, stmt) => .ok stmt
                  | .error e => .error e
                else .error .ReplaceError) with
        | .error e => .error e
        | .ok m =>
            if ((first :: rest).map LoopHandle.loop).any (fun l => l.clip.isSome) then
              .error .NonConstantExtent
            else
              .ok (m, { first with loop :=
                { first.loop with
                    loop_var := Fuse.var ((first :: rest).map (fun h => h.loop.loop_var))
                    extent := ((first :: rest).map (fun h => h.loop.extent)).prod } })

/-- Modelled from the spec: the loop-kind change shared by `Parallel`, `Vectorize` and
`Unroll` (`IRSchedule::MutateForType`): the tag of the loop becomes `for_type`; a vectorized
loop also records its factor.  Vectorize and unroll fail on a loop without constant extent. -/
def IRSchedule.MutateForType (ir_sch : ModuleExpr) (loop : LoopHandle) (for_type : ForType)
    (factor : Int := -1) : Except ScheduleError ModuleExpr :=
  ir_sch.Replace loop (fun l body =>
    if (for_type = .Vectorized ∨ for_type = .Unrolled) ∧ l.clip.isSome then
      .error .NonConstantExtent
    else
      .ok (.For { l with
                    for_type := for_type
                    vectorize_factor := if for_type = .Vectorized then some factor
                      else l.vectorize_factor }
        body .nil))

/-- Modelled from the spec: `IRSchedule::Parallel`. -/
def IRSchedule.Parallel (ir_sch : ModuleExpr) (loop : LoopHandle) :
    Except ScheduleError ModuleExpr :=
  IRSchedule.MutateForType ir_sch loop .Parallel

/-- Modelled from the spec: `IRSchedule::Vectorize`. -/
def IRSchedule.Vectorize (ir_sch : ModuleExpr) (loop : LoopHandle) (factor : Int) :
    Except ScheduleError ModuleExpr :=
  IRSchedule.MutateForType ir_sch loop .Vectorized factor

/-- Modelled from the spec: `IRSchedule::Unroll`. -/
def IRSchedule.Unroll (ir_sch : ModuleExpr) (loop : LoopHandle) :
    Except ScheduleError ModuleExpr :=
  IRSchedule.MutateForType ir_sch loop .Unrolled

/-- The loop-kind tag an axis name stands for: a block axis or a thread axis of the GPU. -/
def axisForType (thread_axis : String) : Option ForType :=
  if thread_axis ∈ ["blockIdx.x", "blockIdx.y", "blockIdx.z"] then some .GPUBlock
  else if thread_axis ∈ ["threadIdx.x", "threadIdx.y", "threadIdx.z"] then some .GPUThread
  else none

/-- Modelled from the spec: `IRSchedule::Bind(loop, thread_axis)`: marks the loop as executing
across the named axis; at most one loop may bind to a given axis name within a kernel (one
expression tree of the module), so the call fails with an axis collision when another loop of
the same tree is already bound to the name. -/
def IRSchedule.Bind (ir_sch : ModuleExpr) (loop : LoopHandle) (thread_axis : String) :
    Except ScheduleError ModuleExpr :=
  match axisForType thread_axis with
  | none => .error .InvalidAxis
  | some for_type =>
      match ir_sch.exprs[loop.expr]? with
      | none => .error .ReplaceError
      | some kernel =>
          match kernel.getFor loop.path with
          | none => .error .ReplaceError
          | some (l, _) =>
              if l ≠ loop.loop then .error .ReplaceError
              else if (kernel.allLoops [] 0).any (fun pl =>
                  decide (pl.1 ≠ loop.path) && decide (pl.2.bind_axis = some thread_axis)) then
                .error .AxisCollision
              else
                ir_sch.Replace loop (fun l body =>
                  .ok (.For { l with for_type := for_type, bind_axis := some thread_axis }
                    body .nil))

/-- Modelled from the spec: `IRSchedule::MergeExprs`: concatenates all per-function trees of
the module into one combined sequence. -/
def IRSchedule.MergeExprs (ir_sch : ModuleExpr) : ModuleExpr :=
  match ir_sch.exprs with
  | [] => { exprs := [] }
  | es => { exprs := [es.foldr Block.append .nil] }

/-! ## ComputeInline -/

/-- Modelled from the spec: the substitution of `ComputeInline` inside one body: every read of
`tensor` at indices `idx` becomes the defining expression `defn` with the iteration variables
`vars` of the inlined block replaced by `idx`. -/
def Value.inline (tensor : String) (vars : List Var) (defn : Value) : Value → Value
  | .Const c => .Const c
  | .Load t idx => if t = tensor then defn.subst (vars.zip idx) else .Load t idx
  | .Add a b =>
      .Add (Value.inline tensor vars defn a) (Value.inline tensor vars defn b)
  | .Sub a b =>
      .Sub (Value.inline tensor vars defn a) (Value.inline tensor vars defn b)
  | .Mul a b =>
      .Mul (Value.inline tensor vars defn a) (Value.inline tensor vars defn b)

/-- Every read of `tensor` in the body has `rank` indices. -/
def Value.readsRanked (tensor : String) (rank : Nat) : Value → Bool
  | .Const _ => true
  | .Load t idx => decide (t = tensor → idx.length = rank)
  | .Add a b => a.readsRanked tensor rank && b.readsRanked tensor rank
  | .Sub a b => a.readsRanked tensor rank && b.readsRanked tensor rank
  | .Mul a b => a.readsRanked tensor rank && b.readsRanked tensor rank

/-- Removal of the schedule block `name` as a standalone step; a loop left without any
statement goes with it. -/
def Block.removeBlock (name : String) : Block → Block
  | .nil => .nil
  | .For l body rest =>
      match body.removeBlock name with
      | .nil => rest.removeBlock name
      | body' => .For l body' (rest.removeBlock name)
  | .Realize r rest =>
      if r.name = name then rest.removeBlock name else .Realize r (rest.removeBlock name)

/-- Application of `f` to the body of every schedule block. -/
def Block.mapBodies (f : Value → Value) : Block → Block
  | .nil => .nil
  | .For l body rest => .For l (body.mapBodies f) (rest.mapBodies f)
  | .Realize r rest => .Realize { r with body := f r.body } (rest.mapBodies f)

/-- Modelled from the spec: a block can be inlined when it has a single def-use pattern that
inverts into a substitution: it writes its tensor exactly at its (distinct) iteration
variables, does not read that tensor itself, is the only block writing it, and every read of
the tensor elsewhere has as many indices as the block has iteration variables. -/
def inlinable (ir_sch : ModuleExpr) (b : ScheduleBlockRealize) : Bool :=
  decide (b.indices = b.iter_vars.map Expr._Var_) && decide b.iter_vars.Nodup
    && decide (b.tensor ∉ b.body.reads)
    && decide ((ir_sch.GetAllBlocks.filter (fun r => decide (r.tensor = b.tensor))).length = 1)
    && ir_sch.GetAllBlocks.all (fun r => r.body.readsRanked b.tensor b.iter_vars.length)

/-- Modelled from the spec: `IRSchedule::ComputeInline(schedule_block)`: removes the block as
a standalone step and substitutes its defining expression at each use site. -/
def IRSchedule.ComputeInline (ir_sch : ModuleExpr) (schedule_block : ScheduleBlockRealize) :
    Except ScheduleError ModuleExpr :=
  match ir_sch.GetBlock schedule_block.name with
  | .error e => .error e
  | .ok b =>
      if inlinable ir_sch b then
        .ok ⟨ir_sch.exprs.map (fun e =>
          (e.removeBlock b.name).mapBodies (Value.inline b.tensor b.iter_vars b.body))⟩
      else .error .NotInlinable

/-- The environment that binds the variables `vars` to the values `vals` over `env`. -/
def bindVars (vars : List Var) (vals : List Int) (env : Env) : Env :=
  fun x => ((vars.zip vals).lookup x).getD (env x)

/-! ## Composite schedules (`cinn/hlir/pe/ir_schedule_pe.cc`) -/

/-- The value of a C++ `int` expression: two's complement wrap-around to 32 bits. -/
def int32 (x : Int) : Int := (x + 2 ^ 31) % 2 ^ 32 - 2 ^ 31

/-- Element `i` of a vector (`v[i]`); an index out of range is reported as a failure. -/
def vectorAt {α : Type} (v : List α) (i : Nat) : Except ScheduleError α :=
  match v[i]? with
  | some x => .ok x
  | none => .error .OutOfRange

/-- The loop `for (idx = 0; idx < n; ++idx) body` over the schedule state. -/
def forLoop (n : Nat) (body : ModuleExpr → Except ScheduleError ModuleExpr) :
    ModuleExpr → Except ScheduleError ModuleExpr :=
  match n with
  | 0 => fun ir_sch => .ok ir_sch
  | n + 1 => fun ir_sch =>
      match body ir_sch with
      | .ok ir_sch' => forLoop n body ir_sch'
      | .error e => .error e

/-- `IRCudaScheduleInjective` (ir_schedule_pe.cc, lines 133-159).  `max_num_threads` is
`target.max_num_threads()`; the log line at the end has no effect on the schedule. -/
def IRCudaScheduleInjective (ir_sch : ModuleExpr) (output_shape : List Int)
    (max_num_threads : Int) : Except ScheduleError ModuleExpr := do
  let all_blocks := ir_sch.GetAllBlocks
  let loops ← ir_sch.GetLoops (← vectorAt all_blocks 0)
  let (ir_sch, fused) ← IRSchedule.Fuse ir_sch loops
  let num_thread : Int := max_num_threads
  let num_block : Int := 1024
  let vector_width : Int := 1
  let prod_size : Int := output_shape.foldl (fun acc d => int32 (acc * d)) 1
  let need_block_split : Bool :=
    if prod_size > int32 (int32 (num_thread * num_block) * vector_width) then true else false
  if need_block_split then
    let (ir_sch, splited) ← IRSchedule.Split ir_sch fused [num_block, num_thread, -1]
    let ir_sch ← IRSchedule.Bind ir_sch (← vectorAt splited 0) "blockIdx.x"
    IRSchedule.Bind ir_sch (← vectorAt splited 1) "threadIdx.x"
  else
    if prod_size > num_thread then
      let (ir_sch, splited) ← IRSchedule.Split ir_sch fused [-1, num_thread]
      let ir_sch ← IRSchedule.Bind ir_sch (← vectorAt splited 0) "blockIdx.x"
      IRSchedule.Bind ir_sch (← vectorAt splited 1) "threadIdx.x"
    else
      IRSchedule.Bind ir_sch fused "threadIdx.x"

/-- The first half of `IRScheduleInjectiveCPU` (ir_schedule_pe.cc, lines 106-118): the fusion
of the leading loops and the parallel mark.  Returns the schedule and the local `dims`.
`GetBasicFactor` is evaluated by the caller of the second half. -/
def IRScheduleInjectiveCPU.fusion (ir_sch : ModuleExpr) (output_shape : List Int) :
    Except ScheduleError (ModuleExpr × Int) := do
  let all_blocks := ir_sch.GetAllBlocks
  let loops ← ir_sch.GetLoops (← vectorAt all_blocks 0)
  let dims : Int := output_shape.length
  let fused ← vectorAt loops 0
  if dims ≥ 5 then
    let (ir_sch, fused) ←
      IRSchedule.Fuse ir_sch [← vectorAt loops 0, ← vectorAt loops 1, ← vectorAt loops 2]
    let dims := dims - 2
    let ir_sch ← IRSchedule.Parallel ir_sch fused
    pure (ir_sch, dims)
  else if dims ≥ 3 then
    let (ir_sch, fused) ← IRSchedule.Fuse ir_sch [← vectorAt loops 0, ← vectorAt loops 1]
    let dims := dims - 1
    let ir_sch ← IRSchedule.Parallel ir_sch fused
    pure (ir_sch, dims)
  else
    let ir_sch ← IRSchedule.Parallel ir_sch fused
    pure (ir_sch, dims)

/-- `IRScheduleInjectiveCPU` (ir_schedule_pe.cc, lines 102-131).  `basic_factor` is the value
of `GetBasicFactor(GetTensor(all_blocks[0])->type(), target)` and `GetVectorizeFactor` the
function of that name; both live outside the sources at hand. -/
def IRScheduleInjectiveCPU (ir_sch : ModuleExpr) (output_shape : List Int)
    (basic_factor : Int) (GetVectorizeFactor : Int → Int → Int) (vectorizable : Bool := true) :
    Except ScheduleError ModuleExpr := do
  let factor := basic_factor
  let (ir_sch, dims) ← IRScheduleInjectiveCPU.fusion ir_sch output_shape
  if vectorizable then
    let all_blocks := ir_sch.GetAllBlocks
    let loops ← ir_sch.GetLoops (← vectorAt all_blocks 0)
    if dims - 1 < 0 then throw .OutOfRange
    let last ← vectorAt loops (dims - 1).toNat
    let last_shape := GetLoopExtent last
    let factor := GetVectorizeFactor last_shape factor
    let (ir_sch, splited) ← IRSchedule.Split ir_sch last [-1, factor]
    let ir_sch ← IRSchedule.Vectorize ir_sch (← vectorAt splited 1) factor
    if dims = 1 then
      IRSchedule.Parallel ir_sch (← vectorAt splited 0)
    else
      pure ir_sch
  else
    pure ir_sch

/-- No loop of the statement sequence is bound to a GPU axis. -/
def Block.unbound : Block → Bool
  | .nil => true
  | .For l body rest => decide (l.bind_axis = none) && body.unbound && rest.unbound
  | .Realize _ rest => rest.unbound

/-- The handles of the loops `ls` of a perfect nest whose outermost loop is at `path` in
tree `k`. -/
def nestHandles (k : Nat) : List Loop → List Nat → List LoopHandle
  | [], _ => []
  | l :: ls, path => { expr := k, path := path, loop := l } :: nestHandles k ls (path ++ [0])

/-! ## Reorder -/

/-- Modelled from the spec: the new order of a chain of loops: walking down the chain, every
position that holds a requested loop takes the next loop of the requested order (`pending`);
the other loops stay where they are. -/
def Reorder.chain : List Loop → Nat → List Nat → List Loop → List Loop
  | [], _, _, _ => []
  | l :: rest, pos, req, pending =>
      if pos ∈ req then
        match pending with
        | p :: ps => p :: Reorder.chain rest (pos + 1) req ps
        | [] => l :: Reorder.chain rest (pos + 1) req []
      else l :: Reorder.chain rest (pos + 1) req pending

/-- Modelled from the spec: `IRSchedule::Reorder` on the nest that starts at loop `l` with body
`body`; `req` lists the requested loops, in the requested order, by their depth below `l`.
The loops must come from one flat nest; the rewrite is syntactic: the headers are rearranged
and the innermost body is kept. -/
def Reorder.apply (req : List Nat) (l : Loop) (body : Block) : Except ScheduleError Block :=
  if req.Nodup then
    match Fuse.collect (req.foldl max 0) l body with
    | .error _ => .error .NotSameNest
    | .ok (chain, inner) =>
        .ok (Block.nest (Reorder.chain chain 0 req (req.filterMap (fun k => chain[k]?))) inner)
  else .error .NotSameNest

/-- The handle with the shortest path among `a` and `hs`. -/
def outermost (a : LoopHandle) (hs : List LoopHandle) : LoopHandle :=
  hs.foldl (fun a h => if h.path.length < a.path.length then h else a) a

/-- Modelled from the spec: `IRSchedule::Reorder(loops)`: rewrites the nest so that the loops
appear in the requested order; fails when the loops are not from the same nest. -/
def IRSchedule.Reorder (ir_sch : ModuleExpr) (loops : List LoopHandle) :
    Except ScheduleError ModuleExpr :=
  match loops with
  | [] => .ok ir_sch
  | first :: others =>
      let top := outermost first others
      if loops.all (fun h => decide (h.expr = top.expr)
          && decide (h.path = top.path ++ List.replicate (h.path.length - top.path.length) 0))
      then
        ir_sch.Replace top (fun l body =>
          match Fuse.collect ((loops.map (fun h => h.path.length - top.path.length)).foldl max 0)
              l body with
          | .error _ => .error .NotSameNest
          | .ok (chain, _) =>
              if loops.all (fun h =>
                  decide (chain[h.path.length - top.path.length]? = some h.loop)) then
                Reorder.apply (loops.map (fun h => h.path.length - top.path.length)) l body
              else .error .ReplaceError)
      else .error .NotSameNest

/-- What the composite schedules read of an `ir::Tensor`: its name and its shape. -/
structure Tensor where
  name : String
  shape : List Int
  deriving DecidableEq, Repr

/-- `CHECK_GE(v.size(), n)` and `CHECK_EQ`: a failed check is fatal. -/
def CHECK (cond : Bool) : Except ScheduleError Unit :=
  if cond then .ok () else .error .CheckFailed

/-- A kernel of one loop `v` of extent `e` around the schedule block `name`. -/
def singleLoopKernel (name : String) (v : String) (e : Nat) : Block :=
  Block.nest [{ loop_var := .named v, extent := e }]
    (.Realize { name := name, tensor := name, iter_vars := [.named "x"],
                iter_values := [._Var_ (.named v)], indices := [._Var_ (.named "x")] } .nil)

/-- A module of one kernel with the three blocks of a shuffle reduce: the reshape of `A`
(32 elements), the internal block over a 4 by 8 nest that reads the reshape, and the out
block over a 4 by 8 nest that reads the internal one. -/
def shuffleReduceModule : ModuleExpr :=
  ⟨[(Block.nest [{ loop_var := .named "i", extent := 32 }]
      (.Realize { name := "reshape", tensor := "reshape", iter_vars := [.named "x"],
                  iter_values := [._Var_ (.named "i")], indices := [._Var_ (.named "x")],
                  body := .Load "A" [._Var_ (.named "x")] } .nil)).append
    ((Block.nest [{ loop_var := .named "a", extent := 4 }, { loop_var := .named "b", extent := 8 }]
      (.Realize { name := "internal", tensor := "internal",
                  iter_vars := [.named "x", .named "y"],
                  iter_values := [._Var_ (.named "a"), ._Var_ (.named "b")],
                  indices := [._Var_ (.named "x"), ._Var_ (.named "y")],
                  body := .Load "reshape"
                    [.Add (.Mul (._Var_ (.named "x")) (.IntImm 8)) (._Var_ (.named "y"))] }
        .nil)).append
    (Block.nest [{ loop_var := .named "c", extent := 4 }, { loop_var := .named "d", extent := 8 }]
      (.Realize { name := "out", tensor := "out", iter_vars := [.named "x", .named "y"],
                  iter_values := [._Var_ (.named "c"), ._Var_ (.named "d")],
                  indices := [._Var_ (.named "x"), ._Var_ (.named "y")],
                  body := .Load "internal" [._Var_ (.named "x"), ._Var_ (.named "y")] }
        .nil)))]⟩

/-- The module `shuffleReduceModule` after inlining its block `reshape`: the loop of the
reshape is gone and the internal block reads `A` directly. -/
def shuffleReduceInlined : ModuleExpr :=
  ⟨[(Block.nest [{ loop_var := .named "a", extent := 4 }, { loop_var := .named "b", extent := 8 }]
      (.Realize { name := "internal", tensor := "internal",
                  iter_vars := [.named "x", .named "y"],
                  iter_values := [._Var_ (.named "a"), ._Var_ (.named "b")],
                  indices := [._Var_ (.named "x"), ._Var_ (.named "y")],
                  body := .Load "A"
                    [.Add (.Mul (._Var_ (.named "x")) (.IntImm 8)) (._Var_ (.named "y"))] }
        .nil)).append
    (Block.nest [{ loop_var := .named "c", extent := 4 }, { loop_var := .named "d", extent := 8 }]
      (.Realize { name := "out", tensor := "out", iter_vars := [.named "x", .named "y"],
                  iter_values := [._Var_ (.named "c"), ._Var_ (.named "d")],
                  indices := [._Var_ (.named "x"), ._Var_ (.named "y")],
                  body := .Load "internal" [._Var_ (.named "x"), ._Var_ (.named "y")] }
        .nil))]⟩

/-- The block `reshape` of `shuffleReduceModule`. -/
def reshapeBlock : ScheduleBlockRealize :=
  { name := "reshape", tensor := "reshape", iter_vars := [.named "x"],
    iter_values := [._Var_ (.named "i")], indices := [._Var_ (.named "x")],
    body := .Load "A" [._Var_ (.named "x")] }

/-- No loop of the statement sequence is bound to the axis `axis`. -/
def Block.freeOf (axis : String) : Block → Bool
  | .nil => true
  | .For l body rest =>
      decide (l.bind_axis ≠ some axis) && body.freeOf axis && rest.freeOf axis
  | .Realize _ rest => rest.freeOf axis

/-- The last element of a vector (`v.back()`); an empty vector is reported as a failure. -/
def vectorBack {α : Type} (v : List α) : Except ScheduleError α :=
  match v.getLast? with
  | some x => .ok x
  | none => .error .OutOfRange

/-- Element `i` of a vector for an `int` index; a negative index is out of range. -/
def vectorAtInt {α : Type} (v : List α) (i : Int) : Except ScheduleError α :=
  if i < 0 then .error .OutOfRange else vectorAt v i.toNat

/-- The first loop of `IRCudaScheduleReduce` (ir_schedule_pe.cc, lines 255-257): `n`
iterations of `parallel_thread_num *= output_shape[idx]; --idx`, the product being an `int`. -/
def IRCudaScheduleReduce.threads (output_shape : List Int) :
    Nat → Int → Int → Except ScheduleError Int
  | 0, _, parallel_thread_num => .ok parallel_thread_num
  | n + 1, idx, parallel_thread_num =>
      match vectorAtInt output_shape idx with
      | .error e => .error e
      | .ok d =>
          IRCudaScheduleReduce.threads output_shape n (idx - 1) (int32 (parallel_thread_num * d))

/-- The body of the two fusing loops of `IRCudaScheduleReduce` (lines 264-268 with the
local `index`, lines 282-286 with `0`): the loops of the last block are fetched again and
`loops[index]`, `loops[index + 1]` are fused. -/
def IRCudaScheduleReduce.fuseAt (index : Int) (ir_sch : ModuleExpr) :
    Except ScheduleError ModuleExpr := do
  let all_blocks := ir_sch.GetAllBlocks
  let loops ← ir_sch.GetLoops (← vectorBack all_blocks)
  let (ir_sch, _) ←
    IRSchedule.Fuse ir_sch [← vectorAtInt loops index, ← vectorAtInt loops (index + 1)]
  pure ir_sch

/-- The thread binding of `IRCudaScheduleReduce` (ir_schedule_pe.cc, lines 270-280): the
loop at `index` is bound to `threadIdx.x`, after a split by `{-1, max_block_size}` when
`parallel_thread_num` exceeds `max_block_size = 1024`. -/
def IRCudaScheduleReduce.bindThread (ir_sch : ModuleExpr) (index parallel_thread_num : Int) :
    Except ScheduleError ModuleExpr := do
  let max_block_size : Int := 1024
  if parallel_thread_num > max_block_size then
    let all_blocks := ir_sch.GetAllBlocks
    let loops ← ir_sch.GetLoops (← vectorBack all_blocks)
    let (ir_sch, splited) ←
      IRSchedule.Split ir_sch (← vectorAtInt loops index) [-1, max_block_size]
    IRSchedule.Bind ir_sch (← vectorAt splited 1) "threadIdx.x"
  else
    let all_blocks := ir_sch.GetAllBlocks
    let loops ← ir_sch.GetLoops (← vectorBack all_blocks)
    IRSchedule.Bind ir_sch (← vectorAtInt loops index) "threadIdx.x"

/-- The block binding of `IRCudaScheduleReduce` (ir_schedule_pe.cc, lines 282-292): the
loops before `index` are fused pairwise into one, which is bound to `blockIdx.x` when
`index > 0`. -/
def IRCudaScheduleReduce.bindBlock (ir_sch : ModuleExpr) (index : Int) :
    Except ScheduleError ModuleExpr := do
  let ir_sch ← forLoop (int32 (index - 1)).toNat (IRCudaScheduleReduce.fuseAt 0) ir_sch
  if index > 0 then
    let all_blocks := ir_sch.GetAllBlocks
    let loops ← ir_sch.GetLoops (← vectorBack all_blocks)
    IRSchedule.Bind ir_sch (← vectorAtInt loops 0) "blockIdx.x"
  else
    pure ir_sch

/-- `IRCudaScheduleReduce` (ir_schedule_pe.cc, lines 250-293); the two bindings are
`IRCudaScheduleReduce.bindThread` and `IRCudaScheduleReduce.bindBlock`.  The bounds of the
`for` loops are `int` values obtained from `output_shape.size()`; a loop
`for (idx = a; idx < b; ++idx)` whose body does not read `idx` runs `b - a` times. -/
def IRCudaScheduleReduce (ir_sch : ModuleExpr) (output_shape : List Int)
    (last_dimension_num : Int) : Except ScheduleError ModuleExpr := do
  let size : Int := output_shape.length
  let parallel_thread_num ← IRCudaScheduleReduce.threads output_shape
    (int32 (size - 1) - int32 (int32 size - last_dimension_num) + 1).toNat (int32 (size - 1)) 1
  let index : Int := int32 (size - last_dimension_num)
  let all_blocks := ir_sch.GetAllBlocks
  let _loops ← ir_sch.GetLoops (← vectorBack all_blocks)
  let ir_sch ← forLoop
    (int32 (int32 size - 1) - int32 (size - last_dimension_num)).toNat
    (IRCudaScheduleReduce.fuseAt index) ir_sch
  let ir_sch ← IRCudaScheduleReduce.bindThread ir_sch index parallel_thread_num
  IRCudaScheduleReduce.bindBlock ir_sch index

/-- What a schedule shows of a loop header: extent, loop-kind tag, bound axis and whether the
loop is a clipped boundary loop. -/
def Loop.header (l : Loop) : Nat × ForType × Option String × Bool :=
  (l.extent, l.for_type, l.bind_axis, l.clip.isSome)

/-- The `while` loop of `IRCudaScheduleConv` (ir_schedule_pe.cc, lines 492-495):
`while (w * thread_z > 1024 && thread_z % 2 == 0) { thread_z = thread_z / 2; f_inner =
f_inner * 2; }` on `int` values.  Every round halves `thread_z`, so the loop is over after at
most as many rounds as the magnitude of `thread_z`, which is what the caller passes as the
number of rounds.  Returns the final `(thread_z, f_inner)`. -/
def IRCudaScheduleConv.halve (w : Int) : Nat → Int → Int → Int × Int
  | 0, thread_z, f_inner => (thread_z, f_inner)
  | rounds + 1, thread_z, f_inner =>
      if int32 (w * thread_z) > 1024 ∧ thread_z.tmod 2 = 0 then
        IRCudaScheduleConv.halve w rounds (thread_z.tdiv 2) (int32 (f_inner * 2))
      else (thread_z, f_inner)

/-- The schedule-table key of `IRCudaScheduleConv` (ir_schedule_pe.cc, lines 471-478):
`"CudaDirectConvSchedule "` followed by the decimal renderings (`std::to_string`) of the four
dims of `input_pad`, of `weights` and of `output`, separated by single spaces. -/
def IRCudaScheduleConv.key (input_pad weights output : Tensor) :
    Except ScheduleError String := do
  pure ("CudaDirectConvSchedule " ++ toString (← vectorAt input_pad.shape 0) ++ " " ++
    toString (← vectorAt input_pad.shape 1) ++ " " ++ toString (← vectorAt input_pad.shape 2)
    ++ " " ++
    toString (← vectorAt input_pad.shape 3) ++ " " ++ toString (← vectorAt weights.shape 0)
    ++ " " ++
    toString (← vectorAt weights.shape 1) ++ " " ++ toString (← vectorAt weights.shape 2)
    ++ " " ++
    toString (← vectorAt weights.shape 3) ++ " " ++ toString (← vectorAt output.shape 0)
    ++ " " ++
    toString (← vectorAt output.shape 1) ++ " " ++ toString (← vectorAt output.shape 2)
    ++ " " ++
    toString (← vectorAt output.shape 3))

/-- The primitive calls that end the generic path of `IRCudaScheduleConv`
(ir_schedule_pe.cc, lines 497-516).  `CacheWrite` and `ComputeAt` stand for the primitives
of these names, which the sources at hand only declare; the cache block `CacheWrite`
returns is not used. -/
def IRCudaScheduleConv.tiling
    (CacheWrite : ModuleExpr → ScheduleBlockRealize → Int → String →
      Except ScheduleError ModuleExpr)
    (ComputeAt : ModuleExpr → ScheduleBlockRealize → LoopHandle →
      Except ScheduleError ModuleExpr)
    (ir_sch : ModuleExpr) (thread_z f_inner rc_factor : Int) :
    Except ScheduleError ModuleExpr := do
  let all_blocks := ir_sch.GetAllBlocks
  let ir_sch ← CacheWrite ir_sch (← vectorAt all_blocks 1) 0 "local"
  let all_blocks := ir_sch.GetAllBlocks
  let loops ← ir_sch.GetLoops (← vectorAt all_blocks 2)
  let (ir_sch, _) ← IRSchedule.Split ir_sch (← vectorAt loops 1) [-1, thread_z, f_inner]
  let all_blocks := ir_sch.GetAllBlocks
  let loops ← ir_sch.GetLoops (← vectorAt all_blocks 2)
  let ir_sch ← IRSchedule.Reorder ir_sch
    [← vectorAt loops 1, ← vectorAt loops 4, ← vectorAt loops 2, ← vectorAt loops 5,
     ← vectorAt loops 3]
  let all_blocks := ir_sch.GetAllBlocks
  let loops ← ir_sch.GetLoops (← vectorAt all_blocks 2)
  let ir_sch ← IRSchedule.Bind ir_sch (← vectorAt loops 1) "blockIdx.z"
  let ir_sch ← IRSchedule.Bind ir_sch (← vectorAt loops 2) "blockIdx.y"
  let ir_sch ← IRSchedule.Bind ir_sch (← vectorAt loops 3) "threadIdx.z"
  let ir_sch ← IRSchedule.Bind ir_sch (← vectorAt loops 4) "threadIdx.x"
  let all_blocks := ir_sch.GetAllBlocks
  let loops ← ir_sch.GetLoops (← vectorAt all_blocks 2)
  let ir_sch ← ComputeAt ir_sch (← vectorAt all_blocks 1) (← vectorAt loops 4)
  let all_blocks := ir_sch.GetAllBlocks
  let loops ← ir_sch.GetLoops (← vectorAt all_blocks 1)
  let (ir_sch, _) ← IRSchedule.Split ir_sch (← vectorAt loops 6) [-1, rc_factor]
  pure ir_sch

/-- The generic path of `IRCudaScheduleConv` (ir_schedule_pe.cc, lines 486-517), taken when
the key is not in the table.  `GetInnerSplitter` and `SplitEven` stand for the functions of
these names, which live outside the sources at hand; `/` and `%` are those of `int`. -/
def IRCudaScheduleConv.generic
    (GetInnerSplitter : Int → Int → Int) (SplitEven : Int → Int)
    (CacheWrite : ModuleExpr → ScheduleBlockRealize → Int → String →
      Except ScheduleError ModuleExpr)
    (ComputeAt : ModuleExpr → ScheduleBlockRealize → LoopHandle →
      Except ScheduleError ModuleExpr)
    (ir_sch : ModuleExpr) (all_blocks : List ScheduleBlockRealize) (c h w rc : Int) :
    Except ScheduleError ModuleExpr := do
  let ir_sch ← IRSchedule.ComputeInline ir_sch (← vectorAt all_blocks 0)
  let f_inner := GetInnerSplitter c h
  let block_z := SplitEven (c.tdiv f_inner)
  let thread_z := ((c.tdiv f_inner).tdiv block_z)
  let rc_factor := SplitEven rc
  let halved := IRCudaScheduleConv.halve w thread_z.natAbs thread_z f_inner
  let thread_z := halved.1
  let f_inner := halved.2
  CHECK (decide (int32 (w * thread_z) ≤ 1024))
  IRCudaScheduleConv.tiling CacheWrite ComputeAt ir_sch thread_z f_inner rc_factor

/-- `IRCudaScheduleConv` (ir_schedule_pe.cc, lines 447-518).  `res` holds the keys of the
schedule-parameter table `ScheduleParam::get_cuda_instance().GetParam()`; `GetTensor` and
`GetReadTensor` are the functions of these names declared in `ir_schedule.h`;
`IRCudaScheduleConv2` is the schedule for a saved parameter set; the log lines have no
effect on the schedule. -/
def IRCudaScheduleConv (res : List String)
    (GetTensor : ScheduleBlockRealize → Tensor)
    (GetReadTensor : ScheduleBlockRealize → Int → Tensor)
    (GetInnerSplitter : Int → Int → Int) (SplitEven : Int → Int)
    (IRCudaScheduleConv2 : ModuleExpr → Tensor → Tensor → Tensor → String →
      Except ScheduleError ModuleExpr)
    (CacheWrite : ModuleExpr → ScheduleBlockRealize → Int → String →
      Except ScheduleError ModuleExpr)
    (ComputeAt : ModuleExpr → ScheduleBlockRealize → LoopHandle →
      Except ScheduleError ModuleExpr)
    (ir_sch : ModuleExpr) : Except ScheduleError ModuleExpr := do
  let all_blocks := ir_sch.GetAllBlocks
  CHECK (decide (all_blocks.length = 3))
  let input_pad := GetTensor (← vectorAt all_blocks 0)
  let output := GetTensor (← vectorAt all_blocks 2)
  let all_blocks := ir_sch.GetAllBlocks
  CHECK (decide (all_blocks.length = 3))
  let weights := GetReadTensor (← vectorAt all_blocks 2) 2
  let _n ← vectorAt output.shape 0
  let c ← vectorAt output.shape 1
  let h ← vectorAt output.shape 2
  let w ← vectorAt output.shape 3
  let rc ← vectorAt input_pad.shape 1
  let key ← IRCudaScheduleConv.key input_pad weights output
  if res.count key = 0 then
    IRCudaScheduleConv.generic GetInnerSplitter SplitEven CacheWrite ComputeAt ir_sch
      all_blocks c h w rc
  else
    IRCudaScheduleConv2 ir_sch input_pad weights output key

/-- A module of three blocks as lowering a direct convolution produces it, for the output
shape `(1, 1, 1, w)` with one input channel and a 3 by 3 filter: the padded input
`input_pad` (shape `(1, 1, 3, w + 2)`), the dilated weights, and the output block with its
seven loops. -/
def convModule (w : Nat) : ModuleExpr :=
  ⟨[Block.nest [{ loop_var := .named "pn", extent := 1 }, { loop_var := .named "pc", extent := 1 },
                { loop_var := .named "ph", extent := 3 },
                { loop_var := .named "pw", extent := w + 2 }]
      (.Realize { name := "input_pad", tensor := "input_pad",
                  iter_vars := [.named "a", .named "b", .named "c", .named "d"],
                  iter_values := [._Var_ (.named "pn"), ._Var_ (.named "pc"),
                                  ._Var_ (.named "ph"), ._Var_ (.named "pw")],
                  body := .Load "input" [._Var_ (.named "a"), ._Var_ (.named "b"),
                                         ._Var_ (.named "c"), ._Var_ (.named "d")] } .nil),
    Block.nest [{ loop_var := .named "wo", extent := 1 }, { loop_var := .named "wi", extent := 1 },
                { loop_var := .named "wy", extent := 3 }, { loop_var := .named "wx", extent := 3 }]
      (.Realize { name := "weights_dilation", tensor := "weights_dilation",
                  iter_vars := [.named "a", .named "b", .named "c", .named "d"],
                  iter_values := [._Var_ (.named "wo"), ._Var_ (.named "wi"),
                                  ._Var_ (.named "wy"), ._Var_ (.named "wx")],
                  body := .Load "weights" [._Var_ (.named "a"), ._Var_ (.named "b"),
                                           ._Var_ (.named "c"), ._Var_ (.named "d")] } .nil),
    Block.nest [{ loop_var := .named "n", extent := 1 }, { loop_var := .named "c", extent := 1 },
                { loop_var := .named "h", extent := 1 }, { loop_var := .named "w", extent := w },
                { loop_var := .named "rc", extent := 1 }, { loop_var := .named "ry", extent := 3 },
                { loop_var := .named "rx", extent := 3 }]
      (.Realize { name := "Conv2d_nchw_out", tensor := "Conv2d_nchw_out",
                  iter_vars := [.named "a", .named "b", .named "c", .named "d", .named "e",
                                .named "f", .named "g"],
                  iter_values := [._Var_ (.named "n"), ._Var_ (.named "c"), ._Var_ (.named "h"),
                                  ._Var_ (.named "w"), ._Var_ (.named "rc"),
                                  ._Var_ (.named "ry"), ._Var_ (.named "rx")],
                  indices := [._Var_ (.named "a"), ._Var_ (.named "b"), ._Var_ (.named "c"),
                              ._Var_ (.named "d")],
                  body := .Add
                    (.Load "Conv2d_nchw_out" [._Var_ (.named "a"), ._Var_ (.named "b"),
                                              ._Var_ (.named "c"), ._Var_ (.named "d")])
                    (.Mul
                      (.Load "input_pad" [._Var_ (.named "a"), ._Var_ (.named "e"),
                        .Add (._Var_ (.named "c")) (._Var_ (.named "f")),
                        .Add (._Var_ (.named "d")) (._Var_ (.named "g"))])
                      (.Load "weights_dilation" [._Var_ (.named "b"), ._Var_ (.named "e"),
                        ._Var_ (.named "f"), ._Var_ (.named "g")])) } .nil)]⟩

/-- The tensors of the blocks of `convModule w`. -/
def convTensor (w : Nat) (block : ScheduleBlockRealize) : Tensor :=
  if block.name = "input_pad" then ⟨"input_pad", [1, 1, 3, (w : Int) + 2]⟩
  else if block.name = "weights_dilation" then ⟨"weights_dilation", [1, 1, 3, 3]⟩
  else ⟨"Conv2d_nchw_out", [1, 1, 1, (w : Int)]⟩

/-! ## Broadcast shapes (`cinn/hlir/pe/broadcast.cc`) -/

/-- The shape expressions `GetBroadcastShape` tells apart: integer constants, symbolic dims
(`ir::_Var_`) and the `ir::Max` of two dims it builds itself. -/
inductive ShapeExpr where
  | IntImm (value : Int)
  | _Var_ (name : String)
  | Max (a b : ShapeExpr)
  deriving DecidableEq, Repr

/-- Failures of the broadcast helpers: a failed `CHECK`, the `LOG(FATAL)` for incompatible
dims, and an element access outside a vector. -/
inductive BroadcastError where
  | CheckFailed
  | IncompatibleDims
  | OutOfRange
  deriving DecidableEq, Repr

/-- `e.As<ir::_Var_>()` is not null. -/
def ShapeExpr.isVar : ShapeExpr → Bool
  | ._Var_ _ => true
  | _ => false

/-- `Expr::as_int32`: the value of an integer constant, a failed check otherwise. -/
def ShapeExpr.as_int32 : ShapeExpr → Except BroadcastError Int
  | .IntImm v => .ok v
  | _ => .error .CheckFailed

/-- Element `i` of a vector for an `int` index. -/
def elemAt {α : Type} (v : List α) (i : Int) : Except BroadcastError α :=
  if i < 0 then .error .OutOfRange
  else
    match v[i.toNat]? with
    | some x => .ok x
    | none => .error .OutOfRange

/-- The output parameters of `GetBroadcastShape`: `common_shape`, the two flag vectors
(recorded from the last dim to the first) and `axis_offset`. -/
structure BroadcastShape where
  common_shape : List ShapeExpr
  broadcast_flag1 : List Bool
  broadcast_flag2 : List Bool
  axis_offset : Int
  deriving DecidableEq, Repr

/-- One round of output: `common_shape->insert(common_shape->begin(), d)` and an
`emplace_back` on each flag vector. -/
def GetBroadcastShape.insert (out : BroadcastShape) (d : ShapeExpr) (flag1 flag2 : Bool) :
    BroadcastShape :=
  { out with common_shape := d :: out.common_shape
             broadcast_flag1 := out.broadcast_flag1 ++ [flag1]
             broadcast_flag2 := out.broadcast_flag2 ++ [flag2] }

/-- The loop of lines 54-61: `n` rounds from `i` on, each appending a dim 1 to `shape2_new`
and copying the dim `shape1[size1 - i]`. -/
def GetBroadcastShape.pad (shape1 : List ShapeExpr) (size1 : Int) :
    Nat → Int → List ShapeExpr → BroadcastShape →
      Except BroadcastError (List ShapeExpr × BroadcastShape)
  | 0, _, shape2_new, out => .ok (shape2_new, out)
  | n + 1, i, shape2_new, out => do
      let d ← elemAt shape1 (size1 - i)
      GetBroadcastShape.pad shape1 size1 n (i + 1) (shape2_new ++ [.IntImm 1])
        (GetBroadcastShape.insert out d true false)

/-- The body of the loop of lines 70-107 for the pair of dims `a` of `shape1` and `b` of
`shape2_new`. -/
def GetBroadcastShape.dim (MathEqual : ShapeExpr → ShapeExpr → Bool) (a b : ShapeExpr)
    (out : BroadcastShape) : Except BroadcastError BroadcastShape :=
  if MathEqual a b then .ok (GetBroadcastShape.insert out a true true)
  else if MathEqual (.IntImm 1) a then
    if MathEqual (.IntImm 1) b then .error .CheckFailed
    else .ok (GetBroadcastShape.insert out b false true)
  else if MathEqual (.IntImm 1) b then
    if MathEqual (.IntImm 1) a then .error .CheckFailed
    else .ok (GetBroadcastShape.insert out a true false)
  else if a.isVar && b.isVar then .ok (GetBroadcastShape.insert out (.Max a b) true true)
  else if a.isVar then .ok (GetBroadcastShape.insert out b true true)
  else if b.isVar then .ok (GetBroadcastShape.insert out a true true)
  else .error .IncompatibleDims

/-- The loop of lines 70-107: `n` rounds from `i` on over the dims both shapes have, from
right to left; returns the final `i`. -/
def GetBroadcastShape.common (MathEqual : ShapeExpr → ShapeExpr → Bool)
    (shape1 shape2_new : List ShapeExpr) (size1 size2 : Int) :
    Nat → Int → BroadcastShape → Except BroadcastError (Int × BroadcastShape)
  | 0, i, out => .ok (i, out)
  | n + 1, i, out => do
      let a ← elemAt shape1 (size1 - i)
      let b ← elemAt shape2_new (size2 - i)
      let out ← GetBroadcastShape.dim MathEqual a b out
      GetBroadcastShape.common MathEqual shape1 shape2_new size1 size2 n (i + 1) out

/-- The loop of lines 112-116: `n` rounds from `i` on copying the leading dims of the longer
shape; `first_longer` says whether that is `shape1`. -/
def GetBroadcastShape.leading (shape : List ShapeExpr) (max_size : Int) (first_longer : Bool) :
    Nat → Int → BroadcastShape → Except BroadcastError BroadcastShape
  | 0, _, out => .ok out
  | n + 1, i, out => do
      let d ← elemAt shape (max_size - i)
      GetBroadcastShape.leading shape max_size first_longer n (i + 1)
        (if first_longer then GetBroadcastShape.insert out d true false
         else GetBroadcastShape.insert out d false true)

/-- A fatal `CHECK` of the broadcast helpers. -/
def BroadcastError.CHECK (cond : Bool) : Except BroadcastError Unit :=
  if cond then .ok () else .error .CheckFailed

/-- The lines 47-62 of `GetBroadcastShape`: the checks on a defined `axis` and the padding of
`shape2`.  The sizes are `size_t` values, their differences converted to `int`. -/
def GetBroadcastShape.aligned (shape1 shape2 : List ShapeExpr) (out : BroadcastShape)
    (axis : Option Int) : Except BroadcastError (List ShapeExpr × BroadcastShape) :=
  match axis with
  | none => .ok (shape2, out)
  | some axis_val => do
      BroadcastError.CHECK (decide (axis_val ≥ -1))
      BroadcastError.CHECK (decide (shape1.length ≥ shape2.length))
      BroadcastError.CHECK
        (decide (axis_val ≤ int32 ((shape1.length : Int) - (shape2.length : Int))))
      if axis_val ≥ 0 then
        let axis_offset := int32 ((shape1.length : Int) - (shape2.length : Int) - axis_val)
        GetBroadcastShape.pad shape1 (int32 shape1.length) axis_offset.toNat 1 shape2
          { out with axis_offset := axis_offset }
      else .ok (shape2, out)

/-- `GetBroadcastShape` (broadcast.cc, lines 35-118).  `out` holds the output parameters as
the caller passes them; `axis` is `none` for an undefined expression and otherwise its
`as_int32()`; `MathEqual` is the function of this name from `cinn/common/ir_util.h`.  The
condition of line 68, `axis_offset <= 0`, compares the pointer, which is not null, so `i`
starts at `*axis_offset + 1`. -/
def GetBroadcastShape (MathEqual : ShapeExpr → ShapeExpr → Bool)
    (shape1 shape2 : List ShapeExpr) (out : BroadcastShape) (axis : Option Int) :
    Except BroadcastError BroadcastShape := do
  let size1 : Int := int32 shape1.length
  let (shape2_new, out) ← GetBroadcastShape.aligned shape1 shape2 out axis
  let size2 : Int := int32 shape2_new.length
  let i : Int := out.axis_offset + 1
  let (i, out) ← GetBroadcastShape.common MathEqual shape1 shape2_new size1 size2
    (min size1 size2 + 1 - i).toNat i out
  if size1 ≠ size2 then
    let max_size := max size1 size2
    let shape := if size1 > size2 then shape1 else shape2_new
    GetBroadcastShape.leading shape max_size (decide (size1 > size2))
      (max_size + 1 - i).toNat i out
  else .ok out

/-- `GetBroadcastOutShape` (broadcast.cc, lines 120-142): the dims appended to
`common_shape`. -/
def GetBroadcastOutShape (MathEqual : ShapeExpr → ShapeExpr → Bool)
    (input_shape1 input_shape2 : List Int) (common_shape : List Int) (axis : Int) :
    Except BroadcastError (List Int) := do
  let shape1 := input_shape1.map ShapeExpr.IntImm
  let shape2 := input_shape2.map ShapeExpr.IntImm
  let out ← GetBroadcastShape MathEqual shape1 shape2
    { common_shape := [], broadcast_flag1 := [], broadcast_flag2 := [], axis_offset := 0 }
    (some axis)
  let dims ← out.common_shape.mapM ShapeExpr.as_int32
  pure (common_shape ++ dims)

/-- The loop of `GetBroadcastIndice` (lines 158-173): `n` rounds from `i` on.  `rank_b` is
`tensor_b->shape.size()`; the comparison of line 167 is one of `size_t` values. -/
def GetBroadcastIndice.loop (indice : List Expr) (rank_b : Nat) (axis_offset : Int)
    (broadcast_flags1 broadcast_flags2 : List Bool) (flag_size : Int) :
    Nat → Int → List Expr × List Expr → Except BroadcastError (List Expr × List Expr)
  | 0, _, r => .ok r
  | n + 1, i, (broadcast_indice1, broadcast_indice2) => do
      let broadcast_indice1 ←
        if (← elemAt broadcast_flags1 (flag_size - 1 - i)) then
          pure (broadcast_indice1 ++ [← elemAt indice i])
        else pure (broadcast_indice1 ++ [Expr.IntImm 0])
      let broadcast_indice2 ←
        if (← elemAt broadcast_flags2 (flag_size - 1 - i)) then
          pure (broadcast_indice2 ++ [← elemAt indice i])
        else if (flag_size - i) % 2 ^ 64 ≤ ((rank_b : Int) + axis_offset) % 2 ^ 64 ∧
            broadcast_indice2.length < rank_b then
          pure (broadcast_indice2 ++ [Expr.IntImm 0])
        else pure broadcast_indice2
      GetBroadcastIndice.loop indice rank_b axis_offset broadcast_flags1 broadcast_flags2
        flag_size n (i + 1) (broadcast_indice1, broadcast_indice2)

/-- `GetBroadcastIndice` (broadcast.cc, lines 144-175).  Of `tensor_b` only the number of
dims is used (`rank_b`) and `tensor_a` is not used; the two index vectors come in as the
caller passes them and go out filled. -/
def GetBroadcastIndice (indice : List Expr) (rank_b : Nat) (axis_offset : Int)
    (broadcast_indice1 broadcast_indice2 : List Expr)
    (broadcast_flags1 broadcast_flags2 : List Bool) :
    Except BroadcastError (List Expr × List Expr) :=
  if broadcast_indice1.isEmpty && broadcast_indice2.isEmpty then do
    let flag_size : Int := int32 broadcast_flags1.length
    BroadcastError.CHECK (decide ((indice.length : Int) % 2 ^ 64 ≥ flag_size % 2 ^ 64))
    GetBroadcastIndice.loop indice rank_b axis_offset broadcast_flags1 broadcast_flags2
      flag_size flag_size.toNat 0 (broadcast_indice1, broadcast_indice2)
  else .ok (broadcast_indice1, broadcast_indice2)

/-- The index function of `Broadcast` (broadcast.cc, lines 177-201): the indices at which
the tensors `a` and `b` of shapes `a_shape`, `b_shape` are read for the output index
`indice`. -/
def Broadcast.indices (MathEqual : ShapeExpr → ShapeExpr → Bool)
    (a_shape b_shape : List ShapeExpr) (axis : Option Int) (indice : List Expr) :
    Except BroadcastError (List Expr × List Expr) := do
  let out ← GetBroadcastShape MathEqual a_shape b_shape
    { common_shape := [], broadcast_flag1 := [], broadcast_flag2 := [], axis_offset := 0 } axis
  GetBroadcastIndice indice b_shape.length out.axis_offset [] []
    out.broadcast_flag1 out.broadcast_flag2

/-- As the claim words it: the broadcast of one aligned pair of dims is their common value or
the member that is not 1; there is none when the dims differ and neither is 1. -/
def broadcastPair (a b : Int) : Option Int :=
  if a = b then some a else if a = 1 then some b else if b = 1 then some a else none

/-- The broadcasts of the pairs of two shapes of the same rank, when every pair has one. -/
def broadcastPairs : List Int → List Int → Option (List Int)
  | a :: s1, b :: s2 =>
      match broadcastPair a b, broadcastPairs s1 s2 with
      | some d, some ds => some (d :: ds)
      | _, _ => none
  | _, _ => some []

/-- As the claim words it: the NumPy-style broadcast of `s1` with a shape `s2` of no higher
rank: the shapes are aligned from the right, the leading dims of `s1` without a partner are
copied, and each aligned pair gives its broadcast. -/
def numpyBroadcast (s1 s2 : List Int) : Option (List Int) :=
  (broadcastPairs (s1.drop (s1.length - s2.length)) s2).map
    (fun ds => s1.take (s1.length - s2.length) ++ ds)

/-- As the claim words it: `s2` right-padded by `rank(s1) - rank(s2) - axis` ones when
`axis >= 0`, and `s2` itself when `axis = -1`. -/
def paddedShape (s1 s2 : List Int) (axis : Int) : List Int :=
  if axis ≥ 0 then s2 ++ List.replicate (s1.length - s2.length - axis.toNat) 1 else s2

/-! ## Shape inference of `depthwise_conv2d` (`cinn/hlir/op/nn.cc`) -/

/-- Failures of shape inference: a failed `CHECK`, the `LOG(FATAL)` for a data layout that
is not supported, and an element access outside a vector. -/
inductive InferShapeError where
  | CheckFailed
  | UnsupportedLayout
  | OutOfRange
  deriving DecidableEq, Repr

/-- The attributes `InferShapeForDepthwiseConv2d` looks up in the attribute map; an absent
attribute is `none`. -/
structure DepthwiseConv2dAttrs where
  padding : Option (List Int) := none
  stride : Option (List Int) := none
  data_format : Option String := none
  deriving DecidableEq, Repr

/-- A fatal `CHECK_EQ` of shape inference. -/
def InferShapeError.CHECK (cond : Bool) : Except InferShapeError Unit :=
  if cond then .ok () else .error .CheckFailed

/-- Element `i` of a vector. -/
def dimAt {α : Type} (v : List α) (i : Nat) : Except InferShapeError α :=
  match v[i]? with
  | some x => .ok x
  | none => .error .OutOfRange

/-- `InferShapeForDepthwiseConv2d` (nn.cc, lines 923-957).  The dims are `int` values; `/`
truncates. -/
def InferShapeForDepthwiseConv2d (inputs_shape : List (List Int))
    (attrs : DepthwiseConv2dAttrs) : Except InferShapeError (List (List Int)) := do
  InferShapeError.CHECK (decide (inputs_shape.length = 2))
  let input ← dimAt inputs_shape 0
  let filter ← dimAt inputs_shape 1
  InferShapeError.CHECK (decide (input.length = 4))
  InferShapeError.CHECK (decide (filter.length = 4))
  let padding := attrs.padding.getD [0, 0]
  let stride := attrs.stride.getD [1, 1]
  let data_format := attrs.data_format.getD "NCHW"
  InferShapeError.CHECK (decide (padding.length = 2))
  InferShapeError.CHECK (decide (stride.length = 2))
  if data_format = "NCHW" then
    let out_shape_h := int32 ((int32 (int32 ((← dimAt input 2) - (← dimAt filter 2)) +
      int32 (2 * (← dimAt padding 0)))).tdiv (← dimAt stride 0) + 1)
    let out_shape_w := int32 ((int32 (int32 ((← dimAt input 3) - (← dimAt filter 3)) +
      int32 (2 * (← dimAt padding 1)))).tdiv (← dimAt stride 1) + 1)
    pure [[← dimAt input 0, int32 ((← dimAt filter 1) * (← dimAt input 1)), out_shape_h,
      out_shape_w]]
  else if data_format = "NHWC" then
    let out_shape_h := int32 ((int32 (int32 ((← dimAt input 1) - (← dimAt filter 1)) +
      int32 (2 * (← dimAt padding 0)))).tdiv (← dimAt stride 0) + 1)
    let out_shape_w := int32 ((int32 (int32 ((← dimAt input 2) - (← dimAt filter 2)) +
      int32 (2 * (← dimAt padding 1)))).tdiv (← dimAt stride 1) + 1)
    pure [[← dimAt input 0, out_shape_h, out_shape_w,
      int32 ((← dimAt filter 1) * (← dimAt input 3))]]
  else .error .UnsupportedLayout

/-! ## Shape inference of convolution and pooling (`cinn/hlir/op/nn.cc`) -/

/-- The sum of two C++ `int` values. -/
def addInt (a b : Int) : Int := int32 (a + b)

/-- The difference of two C++ `int` values. -/
def subInt (a b : Int) : Int := int32 (a - b)

/-- The product of two C++ `int` values. -/
def mulInt (a b : Int) : Int := int32 (a * b)

/-- The quotient of two C++ `int` values; `/` truncates. -/
def divInt (a b : Int) : Int := int32 (a.tdiv b)

/-- Element `i` of a vector for an `int` index. -/
def dimAtInt {α : Type} (v : List α) (i : Int) : Except InferShapeError α :=
  if i < 0 then .error .OutOfRange else dimAt v i.toNat

/-- The assignment `v[i] = x` for an `int` index. -/
def setDimInt (v : List Int) (i : Int) (x : Int) : Except InferShapeError (List Int) :=
  if i < 0 ∨ v.length ≤ i.toNat then .error .OutOfRange else .ok (v.set i.toNat x)

/-- The attributes the pooling shape functions look up in the attribute map; an absent
attribute is `none`. -/
structure PoolAttrs where
  kernel_size : Option (List Int) := none
  stride_size : Option (List Int) := none
  padding_size : Option (List Int) := none
  ceil_mode : Option Bool := none
  exclusive : Option Bool := none
  global_pooling : Option Bool := none
  data_format : Option String := none
  adaptive : Option Bool := none
  deriving DecidableEq, Repr

/-- One output extent of a pooling, as `InferShapeForPool2d` and `InferShapeForPool3d` write
it: `(in - kernel + pad_a + pad_b + stride - 1) / stride + 1` in ceil mode and
`(in - kernel + pad_a + pad_b) / stride + 1` otherwise, on `int` values. -/
def poolExtent (ceil_mode : Bool) (input kernel pad_a pad_b stride : Int) : Int :=
  if ceil_mode then
    addInt (divInt (subInt (addInt (addInt (addInt (subInt input kernel) pad_a) pad_b) stride) 1)
      stride) 1
  else addInt (divInt (addInt (addInt (subInt input kernel) pad_a) pad_b) stride) 1

/-- `InferShapeForPool2d` (nn.cc, lines 1397-1479).  An unsupported `data_format` is only
logged (`LOG(ERROR)`), which leaves the two axes at `-1`; `attrs.at("kernel_size")` of the
adaptive case throws when the attribute is absent. -/
def InferShapeForPool2d (inputs_shape : List (List Int)) (attrs : PoolAttrs) :
    Except InferShapeError (List (List Int)) := do
  let input ← dimAt inputs_shape 0
  InferShapeError.CHECK (decide (input.length = 4) || decide (input.length = 5))
  let kernel_size := attrs.kernel_size.getD []
  let stride_size := attrs.stride_size.getD []
  let padding_size := attrs.padding_size.getD []
  let ceil_mode := attrs.ceil_mode.getD false
  let data_format := attrs.data_format.getD "NCHW"
  let global_pooling := attrs.global_pooling.getD false
  let adaptive := attrs.adaptive.getD false
  InferShapeError.CHECK (decide (kernel_size.length = 2))
  InferShapeError.CHECK (decide (stride_size.length = 2))
  let output_shape1 := input
  let (height_axis, width_axis) : Int × Int :=
    if data_format = "NCHW" then (2, 3)
    else if data_format = "NHWC" then (1, 2)
    else if data_format = "AnyLayout" then (2, 3)
    else (-1, -1)
  let (kernel_size, padding_size) ←
    if global_pooling then do
      pure ([← dimAtInt input height_axis, ← dimAtInt input width_axis], [0, 0, 0, 0])
    else pure (kernel_size, padding_size)
  let output_shape1 ← setDimInt output_shape1 height_axis
    (poolExtent ceil_mode (← dimAtInt input height_axis) (← dimAt kernel_size 0)
      (← dimAt padding_size 0) (← dimAt padding_size 2) (← dimAt stride_size 0))
  let output_shape1 ← setDimInt output_shape1 width_axis
    (poolExtent ceil_mode (← dimAtInt input width_axis) (← dimAt kernel_size 1)
      (← dimAt padding_size 1) (← dimAt padding_size 3) (← dimAt stride_size 1))
  if adaptive then
    match attrs.kernel_size with
    | none => .error .OutOfRange
    | some kernel_size =>
      let kernel_size ←
        if kernel_size.length = 1 then do pure (kernel_size ++ [← dimAt kernel_size 0])
        else pure kernel_size
      InferShapeError.CHECK (decide (kernel_size.length ≥ 2))
      let output_shape1 ← setDimInt output_shape1 height_axis (← dimAt kernel_size 0)
      let output_shape1 ← setDimInt output_shape1 width_axis (← dimAt kernel_size 1)
      pure [output_shape1]
  else pure [output_shape1]

/-- The attributes the convolution shape functions look up in the attribute map; an absent
attribute is `none`. -/
structure Conv2dAttrs where
  padding : Option (List Int) := none
  stride : Option (List Int) := none
  dilation : Option (List Int) := none
  groups : Option Int := none
  data_format : Option String := none
  conv_type : Option String := none
  output_shape : Option (List Int) := none
  deriving DecidableEq, Repr

/-- One output extent of a convolution, as the convolution shape functions write it:
`(in - ((filter - 1) * dilation + 1) + 2 * padding) / stride + 1` on `int` values. -/
def convExtent (input filter dilation padding stride : Int) : Int :=
  addInt (divInt (addInt (subInt input (addInt (mulInt (subInt filter 1) dilation) 1))
    (mulInt 2 padding)) stride) 1

/-- `InferShapeForConv2dNCHWc` (nn.cc, lines 700-754); the log line has no effect on the
result. -/
def InferShapeForConv2dNCHWc (inputs_shape : List (List Int)) (attrs : Conv2dAttrs) :
    Except InferShapeError (List (List Int)) := do
  InferShapeError.CHECK (!inputs_shape.isEmpty && !(inputs_shape.headD []).isEmpty)
  let padding := attrs.padding.getD [0, 0]
  let stride := attrs.stride.getD [1, 1]
  let dilation := attrs.dilation.getD [1, 1]
  let data_format := attrs.data_format.getD "NCHWc"
  InferShapeError.CHECK (decide (padding.length = 2))
  InferShapeError.CHECK (decide (stride.length = 2))
  let input ← dimAt inputs_shape 0
  InferShapeError.CHECK (decide (input.length = 5))
  let filter ← dimAt inputs_shape 1
  InferShapeError.CHECK (decide (filter.length = 6))
  InferShapeError.CHECK (decide (data_format = "NCHWc"))
  let out_shape_h := convExtent (← dimAt input 2) (← dimAt filter 2) (← dimAt dilation 0)
    (← dimAt padding 0) (← dimAt stride 0)
  let out_shape_w := convExtent (← dimAt input 3) (← dimAt filter 3) (← dimAt dilation 1)
    (← dimAt padding 1) (← dimAt stride 1)
  let batch ← dimAt input 0
  let h_in ← dimAt input 2
  let w_in ← dimAt input 3
  let _oc ← dimAt filter 0
  let h_f ← dimAt filter 2
  let w_f ← dimAt filter 3
  let pad_h ← dimAt padding 0
  let pad_w ← dimAt padding 1
  let ic_bn ← dimAt input 4
  let ic_chunk ← dimAt input 1
  let oc_bn ← dimAt filter 5
  let oc_chunk ← dimAt filter 0
  let packed_out_shape := [batch, oc_chunk, out_shape_h, out_shape_w, oc_bn]
  let pad_h_bound := addInt (addInt (mulInt (subInt out_shape_h 1) (← dimAt stride 0))
    (mulInt (subInt h_f 1) (← dimAt dilation 0))) 1
  let pad_w_bound := addInt (addInt (mulInt (subInt out_shape_w 1) (← dimAt stride 1))
    (mulInt (subInt w_f 1) (← dimAt dilation 1))) 1
  let input_pad_h := min pad_h_bound (addInt h_in (mulInt 2 pad_h))
  let input_pad_w := min pad_w_bound (addInt w_in (mulInt 2 pad_w))
  let input_pad_shape := [batch, ic_chunk, input_pad_h, input_pad_w, ic_bn]
  pure [packed_out_shape, packed_out_shape, input_pad_shape]

/-- The NCHW branch of `InferShapeForConv2d` (nn.cc, lines 490-553).  `conv2d_factors` gives
the entries `ic_bn`, `oc_bn` and `fc_bn` of the map `pe::GetConv2dFactors` fills for the key
`pe::GenerateX86ConvKey` builds from the shapes and attributes; both live outside the sources
at hand. -/
def InferShapeForConv2d.nchw
    (conv2d_factors : List Int → List Int → List Int → List Int → List Int → String → Int)
    (input filter padding stride dilation : List Int) (groups : Int) (conv_type : String)
    (output_shape : Option (List Int)) : Except InferShapeError (List (List Int)) := do
  let (out_shape_h, out_shape_w) ←
    if conv_type = "forward" then do
      pure (convExtent (← dimAt input 2) (← dimAt filter 2) (← dimAt dilation 0)
              (← dimAt padding 0) (← dimAt stride 0),
            convExtent (← dimAt input 3) (← dimAt filter 3) (← dimAt dilation 1)
              (← dimAt padding 1) (← dimAt stride 1))
    else if conv_type = "backward_data" ∨ conv_type = "backward_filter" then
      match output_shape with
      | none => .error .CheckFailed
      | some shape => do
        InferShapeError.CHECK (decide (shape.length = 4))
        pure (← dimAt shape 2, ← dimAt shape 3)
    else pure (0, 0)
  let batch ← dimAt input 0
  let oc ← dimAt filter 0
  let ic ← dimAt input 1
  let fc ← dimAt filter 1
  let h_in ← dimAt input 2
  let w_in ← dimAt input 3
  let h_f ← dimAt filter 2
  let w_f ← dimAt filter 3
  let pad_h ← dimAt padding 0
  let pad_w ← dimAt padding 1
  let factors := conv2d_factors input filter stride padding dilation
  let ic_bn := factors "ic_bn"
  let oc_bn := factors "oc_bn"
  let fc_bn := factors "fc_bn"
  let oc_chunk := divInt oc oc_bn
  let ic_chunk := divInt ic ic_bn
  let fc_chunk := divInt fc fc_bn
  let packed_out_shape := [batch, oc_chunk, out_shape_h, out_shape_w, oc_bn]
  let input_pad_shape := [batch, ic_chunk, addInt h_in (mulInt 2 pad_h),
    addInt w_in (mulInt 2 pad_w), ic_bn]
  let weights_dilation_shape := [oc_chunk, fc_chunk,
    addInt (mulInt (← dimAt dilation 0) (subInt h_f 1)) 1,
    addInt (mulInt (← dimAt dilation 1) (subInt w_f 1)) 1, fc_bn, oc_bn]
  let res_shape ←
    if conv_type = "forward" then pure [batch, oc, out_shape_h, out_shape_w]
    else if conv_type = "backward_data" then
      pure [oc, mulInt ic groups, out_shape_h, out_shape_w]
    else if conv_type = "backward_filter" then
      pure [fc, divInt ic groups, out_shape_h, out_shape_w]
    else pure []
  pure [res_shape, packed_out_shape, weights_dilation_shape, input_pad_shape]

/-- `InferShapeForConv2d` (nn.cc, lines 453-567); the log lines have no effect on the
result. -/
def InferShapeForConv2d
    (conv2d_factors : List Int → List Int → List Int → List Int → List Int → String → Int)
    (inputs_shape : List (List Int)) (attrs : Conv2dAttrs) :
    Except InferShapeError (List (List Int)) := do
  InferShapeError.CHECK (!inputs_shape.isEmpty && !(inputs_shape.headD []).isEmpty)
  let padding := attrs.padding.getD [0, 0]
  let stride := attrs.stride.getD [1, 1]
  let dilation := attrs.dilation.getD [1, 1]
  let groups := attrs.groups.getD 1
  let data_format := attrs.data_format.getD "NCHW"
  let conv_type := attrs.conv_type.getD "forward"
  InferShapeError.CHECK (decide (padding.length = 2))
  InferShapeError.CHECK (decide (stride.length = 2))
  let input ← dimAt inputs_shape 0
  InferShapeError.CHECK (decide (input.length ≥ 3))
  InferShapeError.CHECK (decide (conv_type = "forward" ∨ conv_type = "backward_data" ∨
    conv_type = "backward_filter"))
  if data_format = "NCHW" then do
    let filter ← dimAt inputs_shape 1
    InferShapeForConv2d.nchw conv2d_factors input filter padding stride dilation groups
      conv_type attrs.output_shape
  else if data_format = "NHWC" then do
    let filter ← dimAt inputs_shape 1
    let out_shape_h := convExtent (← dimAt input 1) (← dimAt filter 2) (← dimAt dilation 0)
      (← dimAt padding 0) (← dimAt stride 0)
    let out_shape_w := convExtent (← dimAt input 2) (← dimAt filter 3) (← dimAt dilation 1)
      (← dimAt padding 1) (← dimAt stride 1)
    pure [[← dimAt input 0, out_shape_h, out_shape_w, ← dimAt filter 0]]
  else .error .UnsupportedLayout

/-- `InferDtypeForConv2d` (nn.cc, lines 569-573): four times the type of the first input. -/
def InferDtypeForConv2d {Ty : Type} (inputs_type : List Ty) :
    Except InferShapeError (List Ty) := do
  InferShapeError.CHECK (!inputs_type.isEmpty)
  let t ← dimAt inputs_type 0
  pure [t, t, t, t]

/-- The number of outputs the operator `conv2d` is registered with (nn.cc, line 2047,
`set_num_outputs(4)`). -/
def conv2d_num_outputs : Nat := 4

/-! ## CUDA device code generation (`cinn/backends/codegen_cuda_dev.cc`) -/

/-- Failures of the code generator: an element access outside a vector, `CINN_NOT_IMPLEMENTED`,
and a loop that is still running when its rounds are used up. -/
inductive CodegenError where
  | OutOfRange
  | NotImplemented
  | OutOfFuel
  deriving DecidableEq, Repr

/-- A function argument (`ir::Argument`) as `PrintFuncArg` looks at it: a buffer with its
direction, the printed element type and the tensor name; a variable with the handle flag of
its type, the printed type and the name; or neither. -/
inductive Argument where
  | buffer (is_input : Bool) (dtype_repr : String) (tensor_name : String)
  | var (is_cpp_handle : Bool) (type_repr : String) (name : String)
  | other
  deriving DecidableEq, Repr

/-- A lowered function (`ir::_LoweredFunc_`) as `PrintFunctionDeclaration` looks at it;
`cuda_axis_info` holds the three block dims when the axis info is valid. -/
structure _LoweredFunc_ where
  name : String
  args : List Argument
  cuda_axis_info : Option (Int × Int × Int) := none
  deriving DecidableEq, Repr

/-- `CodeGenCUDA_Dev::PrintFuncArg` (codegen_cuda_dev.cc, lines 181-197): the text written
to the stream.  `kCKeywordRestrict` is the constant of this name. -/
def PrintFuncArg (kCKeywordRestrict : String) : Argument → Except CodegenError String
  | .buffer is_input dtype_repr tensor_name =>
      .ok ((if is_input then "const " else "") ++ dtype_repr ++ "* " ++ kCKeywordRestrict ++ " "
        ++ tensor_name)
  | .var is_cpp_handle type_repr name =>
      .ok ((if is_cpp_handle then kCKeywordRestrict else "") ++ type_repr ++ " " ++ name)
  | .other => .error .NotImplemented

/-- Element `i` of a vector (`v[i]`) for an `int` index. -/
def argAt {α : Type} (v : List α) (i : Int) : Except CodegenError α :=
  if i < 0 then .error .OutOfRange
  else
    match v[i.toNat]? with
    | some x => .ok x
    | none => .error .OutOfRange

/-- The loop `for (int i = 0; i < v.size() - 1; i++) { print(v[i]); os << ", "; }` of
`PrintFunctionDeclaration` and of `Visit(const ir::Call *)`: `rounds` bounds the number of
rounds, `i` is the counter and `os` the text written so far.  `v.size() - 1` is a `size_t`
value and `i` is converted to `size_t` for the comparison. -/
def printAllButLast {α : Type} (print : α → Except CodegenError String) (v : List α) :
    Nat → Int → String → Except CodegenError String
  | 0, i, os =>
      if i % 2 ^ 64 < ((v.length : Int) - 1) % 2 ^ 64 then .error .OutOfFuel else .ok os
  | rounds + 1, i, os =>
      if i % 2 ^ 64 < ((v.length : Int) - 1) % 2 ^ 64 then do
        let arg ← argAt v i
        printAllButLast print v rounds (i + 1) (os ++ (← print arg) ++ ", ")
      else .ok os

/-- The last element of a vector (`v.back()`). -/
def argBack {α : Type} (v : List α) : Except CodegenError α :=
  match v.getLast? with
  | some x => .ok x
  | none => .error .OutOfRange

/-- `CodeGenCUDA_Dev::PrintFunctionDeclaration` (codegen_cuda_dev.cc, lines 159-179): the
text written to the stream.  The loop runs at most as many rounds as there are arguments
before it ends or reads outside the vector. -/
def PrintFunctionDeclaration (kCKeywordRestrict : String) (op : _LoweredFunc_) :
    Except CodegenError String := do
  let os := "void "
  let os :=
    match op.cuda_axis_info with
    | some (x, y, z) =>
        os ++ "__launch_bounds__(" ++ toString (int32 (int32 (int32 (1 * x) * y) * z)) ++ ") "
    | none => os
  let os := os ++ op.name ++ "("
  let os ← printAllButLast (PrintFuncArg kCKeywordRestrict) op.args (op.args.length + 1) 0 os
  let os ←
    if !op.args.isEmpty then do
      pure (os ++ (← PrintFuncArg kCKeywordRestrict (← argBack op.args)))
    else pure os
  pure (os ++ ")")

/-- An argument of a call as `Visit(const ir::Call *)` looks at it: a tensor, of which the
name is printed, or another expression, which `Print` prints. -/
inductive CallArg (E : Type) where
  | tensor (name : String)
  | expr (e : E)

/-- A call node (`ir::Call`): its name, the arguments it reads and those it writes. -/
structure Call (E : Type) where
  name : String
  read_args : List (CallArg E)
  write_args : List (CallArg E)

/-- The text `Visit(const ir::Call *)` writes for one argument. -/
def CallArg.print {E : Type} (Print : E → String) : CallArg E → Except CodegenError String
  | .tensor name => .ok name
  | .expr e => .ok (Print e)

/-- `CodeGenCUDA_Dev::Visit(const ir::Call *)` (codegen_cuda_dev.cc, lines 271-312): the text
written to the stream.  `Print` is the printer of expressions. -/
def Visit_Call {E : Type} (Print : E → String) (op : Call E) : Except CodegenError String := do
  let os := op.name ++ "("
  let os ←
    if !op.read_args.isEmpty then do
      let os ← printAllButLast (CallArg.print Print) op.read_args op.read_args.length 0 os
      pure (os ++ (← CallArg.print Print (← argBack op.read_args)))
    else pure os
  let os ←
    if !op.write_args.isEmpty then do
      let os := os ++ ", "
      let os ← printAllButLast (CallArg.print Print) op.write_args op.write_args.length 0 os
      pure (os ++ (← CallArg.print Print (← argBack op.write_args)))
    else pure os
  pure (os ++ ")")

/-! ## Rfactor -/

/-- Tensor contents as a program works on them. -/
structure Store where
  read : Memory

/-- The tensor contents after the value `v` is stored at the index `idx` of `tensor`. -/
def Store.write (s : Store) (tensor : String) (idx : List Int) (v : Int) : Store :=
  ⟨fun t i => if t = tensor ∧ i = idx then v else s.read t i⟩

/-- One execution of a schedule block: its iteration variables are bound to the values of
`iter_values` under the loop variables `env`, and the value of the body is stored at the
block's indices. -/
def ScheduleBlockRealize.run (r : ScheduleBlockRealize) (env : Env) (s : Store) : Store :=
  s.write r.tensor
    (r.indices.map (Expr.eval (bindVars r.iter_vars (r.iter_values.map (Expr.eval env)) env)))
    (r.body.eval s.read (bindVars r.iter_vars (r.iter_values.map (Expr.eval env)) env))

/-- Execution of a statement sequence on tensor contents: a loop runs its body for
`loop_var = 0, 1, ..` below its upper bound, a schedule block is executed once. -/
def Block.run : Block → Env → Store → Store
  | .nil, _, s => s
  | .For l body rest, env, s =>
      rest.run env ((List.range (l.tripCount env)).foldl
        (fun s (i : Nat) => body.run (Function.update env l.loop_var (i : Int)) s) s)
  | .Realize r rest, env, s => rest.run env (r.run env s)

/-- Execution of a module: its trees one after the other. -/
def ModuleExpr.run (m : ModuleExpr) (s : Store) : Store :=
  m.exprs.foldl (fun s e => e.run (fun _ => 0) s) s

/-- The list `l` with `x` inserted at position `n`. -/
def insertAt {α : Type} (n : Nat) (x : α) (l : List α) : List α :=
  l.take n ++ x :: l.drop n

/-- The loops of a perfect nest around a single schedule block, and the block. -/
def Rfactor.chain : Block → Option (List Loop × ScheduleBlockRealize)
  | .Realize r .nil => some ([], r)
  | .For l body .nil => (Rfactor.chain body).map (fun p => (l :: p.1, p.2))
  | _ => none

/-- The parts of a reduction as lowering produces it: the serial loops, the init block,
the reduce loops (a perfect nest after the init block) and the block that accumulates. -/
def Rfactor.parse :
    Block → Option (List Loop × ScheduleBlockRealize × List Loop × ScheduleBlockRealize)
  | .Realize init rest => (Rfactor.chain rest).map (fun p => ([], init, p.1, p.2))
  | .For l body .nil => (Rfactor.parse body).map (fun p => (l :: p.1, p.2.1, p.2.2.1, p.2.2.2))
  | _ => none

/-- The variable of the rfactor loop: `rf_k` for the loop variable `k`. -/
def Rfactor.var : Var → Var
  | .named n => .named ("rf_" ++ n)
  | v => v

/-- The extent of the output tensor along an index of the accumulating block: the extent of
the serial loop the index is bound to. -/
def Rfactor.extent (serial : List Loop) (upd : ScheduleBlockRealize) : Expr → Option Nat
  | ._Var_ v =>
      match (upd.iter_vars.zip upd.iter_values).lookup v with
      | some (._Var_ lv) => (serial.find? (fun l => decide (l.loop_var = lv))).map Loop.extent
      | _ => none
  | _ => none

/-- Modelled from the spec: `IRSchedule::Rfactor(rf_loop, rf_axis)`, which `ir_schedule.h`
only declares, after its documentation there (lines 296-331): the reduction is split into the
rfactor block, in which the reduce loop `rf_loop` is a serial loop outside the serial loops and
the new tensor `rf_` has the loop's axis at position `rf_axis`, and the final block, which
reduces the new tensor over that axis.  Both nests replace the tree of the reduction; the new
tensor is returned.  It fails when the loop is not a reduce loop of a reduction and when the
axis position is out of range of the new tensor's rank. -/
def IRSchedule.Rfactor (ir_sch : ModuleExpr) (rf_loop : LoopHandle) (rf_axis : Int) :
    Except ScheduleError (ModuleExpr × Tensor) :=
  match ir_sch.exprs[rf_loop.expr]? with
  | none => .error .NotFoundError
  | some e =>
    match Rfactor.parse e with
    | none => .error .NotReduceLoop
    | some (serial, init, reduce, upd) =>
      match reduce.find? (fun l => decide (l.loop_var = rf_loop.loop.loop_var)), upd.body with
      | some k, .Add (.Load t idx) rhs =>
        match upd.iter_vars[upd.iter_values.indexOf (._Var_ k.loop_var)]?,
            upd.indices.mapM (Rfactor.extent serial upd) with
        | some vk, some shape =>
          if t ≠ upd.tensor ∨ idx ≠ upd.indices ∨ Expr._Var_ vk ∈ upd.indices then
            .error .NotReduceLoop
          else if rf_axis < 0 ∨ (upd.indices.length : Int) < rf_axis then .error .OutOfRange
          else
            let a := rf_axis.toNat
            let rf := "rf_" ++ upd.tensor
            let rf_indices := insertAt a (Expr._Var_ vk) upd.indices
            let rf_init : ScheduleBlockRealize :=
              { init with name := "rf_" ++ init.name, tensor := rf,
                          iter_vars := insertAt a vk init.iter_vars,
                          iter_values :=
                            insertAt a (Expr._Var_ (Rfactor.var k.loop_var)) init.iter_values,
                          indices := insertAt a (Expr._Var_ vk) init.indices }
            let rf_block : ScheduleBlockRealize :=
              { upd with name := "rf_" ++ upd.name, tensor := rf,
                         iter_values := upd.iter_values.map
                           (Expr.subst [(k.loop_var, Expr._Var_ (Rfactor.var k.loop_var))]),
                         indices := rf_indices,
                         body := .Add (.Load rf rf_indices) rhs }
            let kept := (upd.iter_vars.zip upd.iter_values).filter (fun p =>
              !(reduce.any (fun l =>
                decide (l.loop_var ≠ k.loop_var) && decide (p.2 = Expr._Var_ l.loop_var))))
            let final_block : ScheduleBlockRealize :=
              { upd with iter_vars := kept.map Prod.fst, iter_values := kept.map Prod.snd,
                         body := .Add (.Load upd.tensor upd.indices) (.Load rf rf_indices) }
            let rf_nest := Block.nest ({ k with loop_var := Rfactor.var k.loop_var } :: serial)
              (.Realize rf_init
                (Block.nest (reduce.filter (fun l => decide (l.loop_var ≠ k.loop_var)))
                  (.Realize rf_block .nil)))
            let final_nest := Block.nest serial
              (.Realize init (.For k (.Realize final_block .nil) .nil))
            .ok (⟨ir_sch.exprs.set rf_loop.expr (rf_nest.append final_nest)⟩,
              ⟨rf, (insertAt a k.extent shape).map Int.ofNat⟩)
        | _, _ => .error .NotReduceLoop
      | _, _ => .error .NotReduceLoop

/-- The reduction of the documentation of `Rfactor` (ir_schedule.h, lines 303-309):
`B[i] = sum over j < 20 and k < 30 of A[i, j, k]` for `i < 10`, with the init block `B_init`
inside the serial loop `i` and the accumulating block `B` inside the reduce loops `j`, `k`. -/
def rfactorExample : ModuleExpr :=
  ⟨[.For { loop_var := .named "i", extent := 10 }
      (.Realize { name := "B_init", tensor := "B", iter_vars := [.named "vi"],
                  iter_values := [._Var_ (.named "i")], body := .Const 0 }
        (.For { loop_var := .named "j", extent := 20 }
          (.For { loop_var := .named "k", extent := 30 }
            (.Realize { name := "B", tensor := "B",
                        iter_vars := [.named "vi", .named "vj", .named "vk"],
                        iter_values := [._Var_ (.named "i"), ._Var_ (.named "j"),
                                        ._Var_ (.named "k")],
                        indices := [._Var_ (.named "vi")],
                        body := .Add (.Load "B" [._Var_ (.named "vi")])
                          (.Load "A" [._Var_ (.named "vi"), ._Var_ (.named "vj"),
                                      ._Var_ (.named "vk")]) } .nil)
            .nil)
          .nil))
      .nil]⟩

/-- The handle of the reduce loop `k` of `rfactorExample`. -/
def rfactorLoop : LoopHandle :=
  { expr := 0, path := [0, 1, 0], loop := { loop_var := .named "k", extent := 30 } }

/-- The two nests the documentation of `Rfactor` prints for the rfactor loop `k` and
`rf_axis = 0` (ir_schedule.h, lines 315-328): the rfactor block under the loops `rf_k`, `i`,
`j`, then the final block under the loops `i`, `k`. -/
def rfactorDocumented : ModuleExpr :=
  ⟨[.For { loop_var := .named "rf_k", extent := 30 }
      (.For { loop_var := .named "i", extent := 10 }
        (.Realize { name := "rf_B_init", tensor := "rf_B",
                    iter_vars := [.named "vk", .named "vi"],
                    iter_values := [._Var_ (.named "rf_k"), ._Var_ (.named "i")],
                    body := .Const 0 }
          (.For { loop_var := .named "j", extent := 20 }
            (.Realize { name := "rf_B", tensor := "rf_B",
                        iter_vars := [.named "vi", .named "vj", .named "vk"],
                        iter_values := [._Var_ (.named "i"), ._Var_ (.named "j"),
                                        ._Var_ (.named "rf_k")],
                        indices := [._Var_ (.named "vk"), ._Var_ (.named "vi")],
                        body := .Add (.Load "rf_B" [._Var_ (.named "vk"), ._Var_ (.named "vi")])
                          (.Load "A" [._Var_ (.named "vi"), ._Var_ (.named "vj"),
                                      ._Var_ (.named "vk")]) } .nil)
            .nil))
        .nil)
      (.For { loop_var := .named "i", extent := 10 }
        (.Realize { name := "B_init", tensor := "B", iter_vars := [.named "vi"],
                    iter_values := [._Var_ (.named "i")], body := .Const 0 }
          (.For { loop_var := .named "k", extent := 30 }
            (.Realize { name := "B", tensor := "B",
                        iter_vars := [.named "vi", .named "vk"],
                        iter_values := [._Var_ (.named "i"), ._Var_ (.named "k")],
                        indices := [._Var_ (.named "vi")],
                        body := .Add (.Load "B" [._Var_ (.named "vi")])
                          (.Load "rf_B" [._Var_ (.named "vk"), ._Var_ (.named "vi")]) } .nil)
            .nil))
        .nil)]⟩

theorem Expr.eval_simpAdd (env : Env) (a b : Expr) :
    (Expr.simpAdd a b).eval env = a.eval env + b.eval env := by
  unfold Expr.simpAdd
  split_ifs with h1 h2
  · subst h1; simp [Expr.eval]
  · subst h2; simp [Expr.eval]
  · simp [Expr.eval]

theorem Expr.eval_simpMul (env : Env) (a b : Expr) :
    (Expr.simpMul a b).eval env = a.eval env * b.eval env := by
  unfold Expr.simpMul
  split_ifs with h
  · rcases h with h | h <;> subst h <;> simp [Expr.eval]
  · simp [Expr.eval]

theorem filter_lt_range' (E : Nat) : ∀ (n s : Nat),
    (List.range' s n).filter (fun v => decide (v < E)) = List.range' s (min n (E - s)) := by
  intro n
  induction n with
  | zero => intro s; simp
  | succ n ih =>
    intro s
    rw [List.range'_succ, List.filter_cons]
    by_cases h : s < E
    · simp only [h, decide_True, if_true, ih]
      have : min (n + 1) (E - s) = min n (E - (s + 1)) + 1 := by omega
      rw [this, List.range'_succ]
    · simp only [h, decide_False, if_false, ih]
      have h1 : min n (E - (s + 1)) = 0 := by omega
      have h2 : min (n + 1) (E - s) = 0 := by omega
      simp [h1, h2]

theorem range'_mul_flatMap (P : Nat) : ∀ (f s : Nat),
    List.range' s (f * P) = (List.range f).flatMap (fun j => List.range' (s + j * P) P) := by
  intro f
  induction f with
  | zero => intro s; simp
  | succ f ih =>
    intro s
    rw [List.range_succ, List.flatMap_append, ← ih]
    simp only [List.flatMap_cons, List.flatMap_nil, List.append_nil]
    have : (f + 1) * P = P + f * P := by ring
    rw [this, ← List.range'_append_1]

theorem Split.nest_exec_range (l : Loop) (clipped : Bool) (g : Expr → ScheduleBlockRealize)
    (G : Nat → Instance)
    (hg : ∀ (e : Expr) (env' : Env) (n : Nat), e.eval env' = (n : Int) →
      ((g e).name, (g e).iter_values.map (Expr.eval env')) = G n) :
    ∀ (fs : List Nat), fs ≠ [] → ∀ (i : Nat) (acc : Expr) (env : Env) (a : Nat),
      (∀ env' : Env, (∀ j < i, env' (.split l.loop_var j) = env (.split l.loop_var j)) →
        acc.eval env' = (a : Int)) →
      (clipped = false → (a + 1) * fs.prod ≤ l.extent) →
      (Split.nest l clipped fs i acc
          (.Realize (g (Split.index l.loop_var fs i acc)) .nil)).exec env
        = ((List.range' (a * fs.prod) fs.prod).filter (fun v => decide (v < l.extent))).map G := by
  intro fs
  induction fs with
  | nil => intro h; exact absurd rfl h
  | cons f fs ih =>
    intro _ i acc env a hacc hclip
    have hstep : ∀ (j : Nat) (env' : Env),
        (∀ k < i + 1, env' (.split l.loop_var k)
          = (Function.update env (.split l.loop_var i) (j : Int)) (.split l.loop_var k)) →
        (Expr.simpAdd (Expr.simpMul (.IntImm f) acc) (._Var_ (.split l.loop_var i))).eval env'
          = ((a * f + j : Nat) : Int) := by
      intro j env' hagree
      rw [Expr.eval_simpAdd, Expr.eval_simpMul]
      have h1 : acc.eval env' = (a : Int) := by
        apply hacc
        intro k hk
        rw [hagree k (by omega)]
        rw [Function.update_noteq]
        intro h
        have : k = i := by injection h
        omega
      have h2 : env' (.split l.loop_var i) = (j : Int) := by
        rw [hagree i (by omega)]; simp
      simp only [Expr.eval, h1, h2]
      push_cast; ring
    cases fs with
    | nil =>
      simp only [Split.nest, Split.index, Block.exec, List.append_nil, List.prod_cons,
        List.prod_nil, mul_one]
      rw [filter_lt_range']
      have htrip : Loop.tripCount
          { l with
              loop_var := .split l.loop_var i
              extent := f
              clip := if clipped then
                  some (.Add (.IntImm ((l.extent : Int) - 1))
                    (Expr.simpMul (.IntImm (-(f : Int))) acc))
                else none } env = min f (l.extent - a * f) := by
        have hacc0 : acc.eval env = (a : Int) := hacc env (fun _ _ => rfl)
        cases clipped with
        | true =>
          simp only [Loop.tripCount, Loop.bound, if_true, Expr.eval, Expr.eval_simpMul, hacc0]
          generalize hq : a * f = q
          have hq' : (f : Int) * (a : Int) = (q : Int) := by rw [← hq]; push_cast; ring
          have : -(f : Int) * (a : Int) = -(q : Int) := by rw [← hq']; ring
          rw [this]
          omega
        | false =>
          have := hclip rfl
          simp only [List.prod_cons, List.prod_nil, mul_one] at this
          simp only [Loop.tripCount, Loop.bound, Expr.eval]
          have h3 : a * f + f ≤ l.extent := by nlinarith
          simp
          omega
      rw [htrip, List.range'_eq_map_range, List.map_map]
      generalize min f (l.extent - a * f) = n
      induction n with
      | zero => simp
      | succ n ihn =>
        rw [List.range_succ, List.flatMap_append, List.map_append, ihn]
        simp only [List.flatMap_cons, List.flatMap_nil, List.append_nil, List.map_cons,
          List.map_nil, Function.comp]
        rw [hg _ _ _ (hstep n _ (fun _ _ => rfl))]
    | cons f' fs =>
      rw [show Split.index l.loop_var (f :: f' :: fs) i acc
          = Split.index l.loop_var (f' :: fs) (i + 1)
              (Expr.simpAdd (Expr.simpMul (.IntImm f) acc) (._Var_ (.split l.loop_var i)))
          from rfl]
      simp only [Split.nest, Block.exec, List.append_nil]
      have htrip : Loop.tripCount
          { l with loop_var := .split l.loop_var i, extent := f, clip := none } env = f := by
        simp [Loop.tripCount, Loop.bound, Expr.eval]
      rw [htrip]
      have key : ∀ j : Nat, j < f →
          (Split.nest l clipped (f' :: fs) (i + 1)
            (Expr.simpAdd (Expr.simpMul (.IntImm f) acc) (._Var_ (.split l.loop_var i)))
            (.Realize (g (Split.index l.loop_var (f' :: fs) (i + 1)
              (Expr.simpAdd (Expr.simpMul (.IntImm f) acc) (._Var_ (.split l.loop_var i)))))
              .nil)).exec (Function.update env (.split l.loop_var i) (j : Int))
          = ((List.range' ((a * f + j) * (f' :: fs).prod) (f' :: fs).prod).filter
              (fun v => decide (v < l.extent))).map G := by
        intro j hj
        apply ih (by simp) (i + 1) _ _ (a * f + j) (hstep j)
        intro hc
        have := hclip hc
        rw [List.prod_cons] at this
        calc (a * f + j + 1) * (f' :: fs).prod ≤ (a * f + f) * (f' :: fs).prod :=
              Nat.mul_le_mul_right _ (by omega)
          _ = (a + 1) * (f * (f' :: fs).prod) := by ring
          _ ≤ l.extent := this
      rw [List.prod_cons (a := f)]
      generalize (f' :: fs).prod = P at key ⊢
      rw [range'_mul_flatMap, List.filter_flatMap, List.map_flatMap]
      apply List.flatMap_congr
      intro j hj
      rw [key j (List.mem_range.mp hj)]
      congr 3
      ring

theorem ceilDiv_mul_ge (E p : Nat) (hp : 1 ≤ p) : E ≤ ceilDiv E p * p := by
  unfold ceilDiv
  have h1 := Nat.div_add_mod (E + p - 1) p
  have h2 := Nat.mod_lt (E + p - 1) (by omega : p > 0)
  have h3 : p * ((E + p - 1) / p) = (E + p - 1) / p * p := Nat.mul_comm _ _
  omega

theorem Split.resolve_placeholder (E : Nat) (factors : List Int)
    (hone : factors.count (-1) = 1) (hpos : ∀ f ∈ factors, f = -1 ∨ 0 < f) :
    Split.resolve E factors = .ok (factors.map (fun f =>
      if f = -1 then
        ceilDiv E ((factors.filter (fun f => decide (f ≠ -1))).map Int.toNat).prod
      else f.toNat)) := by
  unfold Split.resolve
  have h1 : ¬ (1 < factors.count (-1)) := by omega
  have h2 : ¬ (factors = [] ∨ factors.any (fun f => decide (f = 0 ∨ f < -1)) = true) := by
    rintro (h | h)
    · subst h; simp at hone
    · rw [List.any_eq_true] at h
      obtain ⟨f, hf, hbad⟩ := h
      have := hpos f hf
      simp at hbad
      omega
  have h3 : ¬ (factors.count (-1) = 0) := by omega
  rw [if_neg h1, if_neg h2]
  simp only [h3, if_false]

theorem Fuse.decompose_snd : ∀ (es : List Nat) (v : Nat),
    (Fuse.decompose es v).2 = v / es.prod := by
  intro es
  induction es with
  | nil => intro v; simp [Fuse.decompose]
  | cons e es ih =>
    intro v
    simp only [Fuse.decompose, ih, List.prod_cons]
    rw [Nat.div_div_eq_div_mul, Nat.mul_comm]

theorem Fuse.decompose_fst_cons (e : Nat) (es : List Nat) (v : Nat) :
    (Fuse.decompose (e :: es) v).1 = (v / es.prod % e) :: (Fuse.decompose es v).1 := by
  simp only [Fuse.decompose, Fuse.decompose_snd]

theorem Fuse.decompose_mod : ∀ (es : List Nat) (v : Nat),
    (Fuse.decompose es (v % es.prod)).1 = (Fuse.decompose es v).1 := by
  intro es
  induction es with
  | nil => intro v; simp [Fuse.decompose]
  | cons e es ih =>
    intro v
    rw [Fuse.decompose_fst_cons, Fuse.decompose_fst_cons, List.prod_cons]
    rw [Nat.mod_mul_left_div_self, Nat.mod_mod]
    rw [← ih (v % (e * es.prod)), Nat.mod_mul_left_mod, ih]

theorem Fuse.decompose_add_mul (e : Nat) (es : List Nat) (i r : Nat)
    (hi : i < e) (hr : r < es.prod) :
    (Fuse.decompose (e :: es) (i * es.prod + r)).1 = i :: (Fuse.decompose es r).1 := by
  rw [Fuse.decompose_fst_cons]
  have hpos : 0 < es.prod := by omega
  have h1 : (i * es.prod + r) / es.prod = i := by
    rw [Nat.add_comm, Nat.add_mul_div_right _ _ hpos, Nat.div_eq_of_lt hr, Nat.zero_add]
  have h2 : (i * es.prod + r) % es.prod = r := by
    rw [Nat.add_comm, Nat.add_mul_mod_self_right, Nat.mod_eq_of_lt hr]
  rw [h1, Nat.mod_eq_of_lt hi, ← Fuse.decompose_mod es (i * es.prod + r), h2]

theorem Fuse.decompose_range : ∀ (es : List Nat),
    (List.range es.prod).map (fun v => (Fuse.decompose es v).1) = lexTuples es := by
  intro es
  induction es with
  | nil => simp [Fuse.decompose, lexTuples]
  | cons e es ih =>
    rw [lexTuples, List.prod_cons, List.range_eq_range', range'_mul_flatMap, List.map_flatMap]
    apply List.flatMap_congr
    intro i hi
    rw [← ih, List.map_map, List.range'_eq_map_range, List.map_map]
    apply List.map_congr_left
    intro r hr
    simp only [Function.comp]
    rw [Nat.zero_add]
    exact Fuse.decompose_add_mul e es i r (List.mem_range.mp hi) (List.mem_range.mp hr)

theorem Fuse.flatten_decompose : ∀ (es : List Nat) (v : Nat), v < es.prod →
    Fuse.flatten es (Fuse.decompose es v).1 = v := by
  intro es
  induction es with
  | nil => intro v hv; simp at hv; simp [Fuse.flatten, hv]
  | cons e es ih =>
    intro v hv
    rw [Fuse.decompose_fst_cons, Fuse.flatten, ← Fuse.decompose_mod]
    rw [List.prod_cons] at hv
    have hpos : 0 < es.prod := by
      rcases Nat.eq_zero_or_pos es.prod with h | h
      · rw [h] at hv; omega
      · exact h
    rw [ih _ (Nat.mod_lt _ hpos)]
    have hlt : v / es.prod < e := by
      rw [Nat.div_lt_iff_lt_mul hpos]; exact hv
    rw [Nat.mod_eq_of_lt hlt, Nat.mul_comm]
    exact Nat.div_add_mod v es.prod

theorem Fuse.flatten_lt : ∀ (es t : List Nat), List.Forall₂ (fun i e => i < e) t es →
    Fuse.flatten es t < es.prod := by
  intro es t h
  induction h with
  | nil => simp [Fuse.flatten]
  | @cons i e t es hie _ ih =>
    rw [Fuse.flatten, List.prod_cons]
    calc i * es.prod + Fuse.flatten es t < i * es.prod + es.prod := by omega
      _ = (i + 1) * es.prod := by ring
      _ ≤ e * es.prod := Nat.mul_le_mul_right _ hie

theorem Fuse.decompose_flatten : ∀ (es t : List Nat), List.Forall₂ (fun i e => i < e) t es →
    (Fuse.decompose es (Fuse.flatten es t)).1 = t := by
  intro es t h
  induction h with
  | nil => simp [Fuse.decompose]
  | @cons i e t es hie hrest ih =>
    rw [Fuse.flatten, Fuse.decompose_add_mul e es i _ hie (Fuse.flatten_lt es t hrest), ih]

theorem Fuse.index_eval (env : Env) : ∀ (ps : List (Var × Nat)) (q : Expr) (n : Nat),
    q.eval env = (n : Int) →
    (Fuse.index ps q).2.eval env = (((Fuse.decompose (ps.map Prod.snd) n).2 : Nat) : Int) ∧
    (Fuse.index ps q).1.map (fun p => p.2.eval env)
      = (Fuse.decompose (ps.map Prod.snd) n).1.map (fun (d : Nat) => (d : Int)) ∧
    (Fuse.index ps q).1.map Prod.fst = ps.map Prod.fst := by
  intro ps
  induction ps with
  | nil => intro q n h; simp [Fuse.index, Fuse.decompose, h]
  | cons p ps ih =>
    intro q n h
    obtain ⟨x, e⟩ := p
    obtain ⟨h1, h2, h3⟩ := ih q n h
    simp only [Fuse.index, Fuse.decompose, List.map_cons, Expr.eval, h1, h2, h3]
    refine ⟨?_, ?_, trivial⟩
    · exact (Int.ofNat_tdiv _ _).symm
    · simp only [List.cons.injEq, and_true]
      exact (Int.ofNat_tmod _ _).symm

theorem lookup_keys_nodup : ∀ (σ : List (Var × Expr)), (σ.map Prod.fst).Nodup →
    (σ.map Prod.fst).map (fun x => (Expr._Var_ x).subst σ) = σ.map Prod.snd := by
  intro σ
  induction σ with
  | nil => intro _; rfl
  | cons p σ ih =>
    intro h
    obtain ⟨x, d⟩ := p
    simp only [List.map_cons, List.nodup_cons] at h
    obtain ⟨hx, hnd⟩ := h
    simp only [List.map_cons, Expr.subst, List.lookup, beq_self_eq_true, Option.getD_some,
      List.cons.injEq, true_and]
    rw [← ih hnd]
    apply List.map_congr_left
    intro y hy
    have hne : (y == x) = false := by
      rw [beq_eq_false_iff_ne]
      intro e; subst e; exact hx hy
    simp only [Expr.subst, List.lookup, hne]

theorem lexTuples_length : ∀ (es : List Nat) (t : List Nat), t ∈ lexTuples es →
    t.length = es.length := by
  intro es
  induction es with
  | nil => intro t h; simp [lexTuples] at h; simp [h]
  | cons e es ih =>
    intro t h
    simp only [lexTuples, List.mem_flatMap, List.mem_map] at h
    obtain ⟨i, _, t', ht', rfl⟩ := h
    simp [ih t' ht']

theorem bindLoops_not_mem : ∀ (ls : List Loop) (t : List Nat) (env : Env) (x : Var),
    x ∉ ls.map Loop.loop_var → bindLoops ls t env x = env x := by
  intro ls
  induction ls with
  | nil => intro t env x _; cases t <;> rfl
  | cons l ls ih =>
    intro t env x hx
    cases t with
    | nil => rfl
    | cons i t =>
      simp only [List.map_cons, List.mem_cons, not_or] at hx
      rw [bindLoops, ih t _ x hx.2, Function.update_noteq hx.1]

theorem bindLoops_vars : ∀ (ls : List Loop) (t : List Nat) (env : Env),
    (ls.map Loop.loop_var).Nodup → t.length = ls.length →
    (ls.map (fun l => Expr._Var_ l.loop_var)).map (Expr.eval (bindLoops ls t env))
      = t.map (fun (d : Nat) => (d : Int)) := by
  intro ls
  induction ls with
  | nil => intro t env _ hlen; cases t with
    | nil => rfl
    | cons _ _ => simp at hlen
  | cons l ls ih =>
    intro t env hnd hlen
    cases t with
    | nil => simp at hlen
    | cons i t =>
      simp only [List.map_cons, List.nodup_cons] at hnd
      simp only [List.length_cons, Nat.add_right_cancel_iff] at hlen
      simp only [List.map_cons, bindLoops, Expr.eval, List.cons.injEq]
      refine ⟨?_, ih t _ hnd.2 hlen⟩
      rw [bindLoops_not_mem ls t _ _ hnd.1, Function.update_same]

theorem Block.nest_exec (r : ScheduleBlockRealize) : ∀ (ls : List Loop) (env : Env),
    (∀ l ∈ ls, l.clip = none) →
    (Block.nest ls (.Realize r .nil)).exec env
      = (lexTuples (ls.map Loop.extent)).map
          (fun t => (r.name, r.iter_values.map (Expr.eval (bindLoops ls t env)))) := by
  intro ls
  induction ls with
  | nil => intro env _; simp [Block.nest, Block.exec, lexTuples, bindLoops]
  | cons l ls ih =>
    intro env hc
    have ht : l.tripCount env = l.extent := by
      simp [Loop.tripCount, Loop.bound, hc l (List.mem_cons_self _ _), Expr.eval]
    simp only [Block.nest, Block.exec, List.append_nil, ht, List.map_cons, lexTuples,
      List.map_flatMap, List.map_map]
    apply List.flatMap_congr
    intro i _
    rw [ih _ (fun l hl => hc l (List.mem_cons_of_mem _ hl))]
    rfl

theorem Fuse.collect_nest (inner : Block) : ∀ (ls : List Loop) (l : Loop),
    Fuse.collect ls.length l (Block.nest ls inner) = .ok (l :: ls, inner) := by
  intro ls
  induction ls with
  | nil => intro l; rfl
  | cons l2 ls ih =>
    intro l
    simp only [List.length_cons, Block.nest, Fuse.collect, ih]

theorem Fuse.index_keys (ps : List (Var × Nat)) (q : Expr) :
    (Fuse.index ps q).1.map Prod.fst = ps.map Prod.fst := by
  induction ps with
  | nil => rfl
  | cons p ps ih => obtain ⟨x, e⟩ := p; simp only [Fuse.index, List.map_cons, ih]

theorem Fuse.apply_nest (l : Loop) (ls : List Loop) (r : ScheduleBlockRealize)
    (hconst : ∀ x ∈ l :: ls, x.clip = none)
    (hnodup : ((l :: ls).map Loop.loop_var).Nodup)
    (hr : r.iter_values = (l :: ls).map (fun x => Expr._Var_ x.loop_var)) :
    Fuse.apply ls.length l (Block.nest ls (.Realize r .nil))
      = .ok ({ l with loop_var := Fuse.var ((l :: ls).map Loop.loop_var)
                      extent := ((l :: ls).map Loop.extent).prod },
          .For { l with loop_var := Fuse.var ((l :: ls).map Loop.loop_var)
                        extent := ((l :: ls).map Loop.extent).prod }
            (.Realize { r with iter_values :=
              ((Fuse.index ((l :: ls).map (fun x => (x.loop_var, x.extent)))
                (._Var_ (Fuse.var ((l :: ls).map Loop.loop_var)))).1).map Prod.snd } .nil)
            .nil) := by
  set σ := (Fuse.index ((l :: ls).map (fun x => (x.loop_var, x.extent)))
    (._Var_ (Fuse.var ((l :: ls).map Loop.loop_var)))).1 with hσ
  have hany : (l :: ls).any (fun x => x.clip.isSome) = false := by
    rw [List.any_eq_false]
    intro x hx
    simp [hconst x hx]
  have hkeys : σ.map Prod.fst = (l :: ls).map Loop.loop_var := by
    rw [hσ, Fuse.index_keys, List.map_map]; rfl
  have hvals : r.iter_values.map (Expr.subst σ) = σ.map Prod.snd := by
    rw [hr, ← lookup_keys_nodup σ (by rw [hkeys]; exact hnodup), hkeys, List.map_map,
      List.map_map]
    rfl
  unfold Fuse.apply
  rw [Fuse.collect_nest]
  simp only [hany, Block.subst, ← hσ, hvals]
  rfl

theorem Fuse.fused_exec (l : Loop) (ps : List (Var × Nat)) (vf : Var)
    (r : ScheduleBlockRealize) (env : Env) (hclip : l.clip = none) :
    (Block.For { l with loop_var := vf, extent := (ps.map Prod.snd).prod }
        (.Realize { r with iter_values := ((Fuse.index ps (._Var_ vf)).1).map Prod.snd } .nil)
        .nil).exec env
      = (List.range (ps.map Prod.snd).prod).map (fun v =>
          (r.name, (Fuse.decompose (ps.map Prod.snd) v).1.map (fun (d : Nat) => (d : Int)))) := by
  have ht : Loop.tripCount { l with loop_var := vf, extent := (ps.map Prod.snd).prod } env
      = (ps.map Prod.snd).prod := by
    simp only [Loop.tripCount, Loop.bound, hclip, Expr.eval]
    omega
  simp only [Block.exec, List.append_nil, ht]
  have hbody : ∀ v : Nat,
      (((Fuse.index ps (._Var_ vf)).1).map Prod.snd).map
          (Expr.eval (Function.update env vf (v : Int)))
        = (Fuse.decompose (ps.map Prod.snd) v).1.map (fun (d : Nat) => (d : Int)) := by
    intro v
    have := (Fuse.index_eval (Function.update env vf (v : Int)) ps (._Var_ vf) v
      (by simp [Expr.eval])).2.1
    rw [← this, List.map_map]
    rfl
  generalize (ps.map Prod.snd).prod = n
  induction n with
  | zero => simp
  | succ n ih =>
    rw [List.range_succ, List.flatMap_append, List.map_append, ih]
    simp [hbody]

theorem Block.nest_exec_vars (ls : List Loop) (r : ScheduleBlockRealize) (env : Env)
    (hconst : ∀ x ∈ ls, x.clip = none)
    (hnodup : (ls.map Loop.loop_var).Nodup)
    (hr : r.iter_values = ls.map (fun x => Expr._Var_ x.loop_var)) :
    (Block.nest ls (.Realize r .nil)).exec env
      = (lexTuples (ls.map Loop.extent)).map (fun t =>
          (r.name, t.map (fun (d : Nat) => (d : Int)))) := by
  rw [Block.nest_exec r ls env hconst]
  apply List.map_congr_left
  intro t ht
  rw [hr, bindLoops_vars ls t env hnodup]
  rw [lexTuples_length _ t ht, List.length_map]

/-- Claim C2: for every non-empty list of directly nested loops with constant extents
`E1 .. En`, `Fuse` returns a single loop whose extent is `E1 * ... * En`; the fused nest runs
the block on the Euclidean decomposition of the fused index `0 .. E1*...*En - 1`, which is
the sequence of the original index tuples in lexicographic order, so fused and original nest
execute the same instances in the same order; decomposition and flattening are inverse to
each other, hence the map from fused index to tuple is a bijection. -/
theorem Fuse_extent_product_and_order (l : Loop) (ls : List Loop) (r : ScheduleBlockRealize)
    (env : Env)
    (hconst : ∀ x ∈ l :: ls, x.clip = none)
    (hnodup : ((l :: ls).map Loop.loop_var).Nodup)
    (hr : r.iter_values = (l :: ls).map (fun x => Expr._Var_ x.loop_var)) :
    ∃ (fused : Loop) (body : Block),
      Fuse.apply ls.length l (Block.nest ls (.Realize r .nil)) = .ok (fused, .For fused body .nil) ∧
      fused.extent = ((l :: ls).map Loop.extent).prod ∧
      fused.clip = none ∧
      (Block.For fused body .nil).exec env
        = (List.range ((l :: ls).map Loop.extent).prod).map (fun v =>
            (r.name, (Fuse.decompose ((l :: ls).map Loop.extent) v).1.map
              (fun (d : Nat) => (d : Int)))) ∧
      (Block.nest (l :: ls) (.Realize r .nil)).exec env
        = (lexTuples ((l :: ls).map Loop.extent)).map (fun t =>
            (r.name, t.map (fun (d : Nat) => (d : Int)))) ∧
      (Block.For fused body .nil).exec env = (Block.nest (l :: ls) (.Realize r .nil)).exec env ∧
      (∀ v, v < ((l :: ls).map Loop.extent).prod →
        Fuse.flatten ((l :: ls).map Loop.extent)
          (Fuse.decompose ((l :: ls).map Loop.extent) v).1 = v) ∧
      (∀ t, List.Forall₂ (fun i e => i < e) t ((l :: ls).map Loop.extent) →
        Fuse.flatten ((l :: ls).map Loop.extent) t < ((l :: ls).map Loop.extent).prod ∧
        (Fuse.decompose ((l :: ls).map Loop.extent)
          (Fuse.flatten ((l :: ls).map Loop.extent) t)).1 = t) := by
  have hclipl : l.clip = none := hconst l (List.mem_cons_self _ _)
  have hsnd : ((l :: ls).map (fun x => (x.loop_var, x.extent))).map Prod.snd
      = (l :: ls).map Loop.extent := by
    rw [List.map_map]; rfl
  have hfused := Fuse.fused_exec l ((l :: ls).map (fun x => (x.loop_var, x.extent)))
    (Fuse.var ((l :: ls).map Loop.loop_var)) r env hclipl
  rw [hsnd] at hfused
  have horig := Block.nest_exec_vars (l :: ls) r env hconst hnodup hr
  refine ⟨_, _, Fuse.apply_nest l ls r hconst hnodup hr, rfl, hclipl, hfused, horig, ?_, ?_, ?_⟩
  · rw [hfused, horig, ← Fuse.decompose_range, List.map_map]
    rfl
  · intro v hv
    exact Fuse.flatten_decompose _ v hv
  · intro t ht
    exact ⟨Fuse.flatten_lt _ t ht, Fuse.decompose_flatten _ t ht⟩

/-- Instance of claim C2: fusing the 2 by 3 by 4 nest gives one loop of extent 24 that runs
the block on the index tuples in lexicographic order. -/
theorem Fuse_extent_product_and_order_witness :
    ∃ (fused : Loop) (body : Block),
      Fuse.apply 2 { loop_var := .named "i", extent := 2 }
        (.For { loop_var := .named "j", extent := 3 }
          (.For { loop_var := .named "k", extent := 4 }
            (.Realize { name := "B", iter_values :=
              [._Var_ (.named "i"), ._Var_ (.named "j"), ._Var_ (.named "k")] } .nil)
            .nil)
          .nil)
        = .ok (fused, .For fused body .nil) ∧
      fused.extent = 24 ∧
      (Block.For fused body .nil).exec (fun _ => 0)
        = (lexTuples [2, 3, 4]).map (fun t => ("B", t.map (fun (d : Nat) => (d : Int)))) := by
  obtain ⟨fused, body, h1, h2, _, _, h5, h6, _, _⟩ :=
    Fuse_extent_product_and_order { loop_var := .named "i", extent := 2 }
      [{ loop_var := .named "j", extent := 3 }, { loop_var := .named "k", extent := 4 }]
      { name := "B", iter_values :=
          [._Var_ (.named "i"), ._Var_ (.named "j"), ._Var_ (.named "k")] }
      (fun _ => 0) (by decide) (by decide) rfl
  exact ⟨fused, body, h1, h2, h6.trans h5⟩

theorem Split.resolve_exact (e1 e2 : Nat) (h1 : 1 ≤ e1) (h2 : 1 ≤ e2) :
    Split.resolve (e1 * (e2 * 1)) [(e1 : Int), (e2 : Int)] = .ok [e1, e2] := by
  unfold Split.resolve
  have hc : List.count (-1 : Int) [(e1 : Int), (e2 : Int)] = 0 := by
    rw [List.count_eq_zero]
    intro h
    simp only [List.mem_cons, List.mem_singleton, List.not_mem_nil, or_false] at h
    omega
  have hany : ¬ ([(e1 : Int), (e2 : Int)] = [] ∨
      [(e1 : Int), (e2 : Int)].any (fun f => decide (f = 0 ∨ f < -1)) = true) := by
    simp only [List.any_cons, List.any_nil, Bool.or_false, Bool.or_eq_true, decide_eq_true_eq,
      reduceCtorEq, false_or]
    omega
  have hf : [(e1 : Int), (e2 : Int)].filter (fun f => decide (f ≠ -1))
      = [(e1 : Int), (e2 : Int)] := by
    rw [List.filter_eq_self]
    intro a ha
    simp only [List.mem_cons, List.mem_singleton, List.not_mem_nil, or_false] at ha
    simp only [decide_eq_true_eq]
    omega
  rw [hc, if_neg (by omega), if_neg hany, hf]
  simp

/-- Claim C3: for every pair of directly nested loops with extents `(E1, E2)`, both at least
`1`, `Fuse` followed by `Split` of the fused loop with factors `(E1, E2)` yields a two-level
nest with extents `(E1, E2)` and no clipping, whose index expressions evaluate at every
iteration `(i, j)` to the original pair `(i, j)`; the nest executes the same instances in the
same order as the nest before `Fuse`. -/
theorem Fuse_then_Split_recovers_indices (li lj : Loop) (r : ScheduleBlockRealize) (env : Env)
    (hi : li.clip = none) (hj : lj.clip = none) (hne : li.loop_var ≠ lj.loop_var)
    (h1 : 1 ≤ li.extent) (h2 : 1 ≤ lj.extent)
    (hr : r.iter_values = [._Var_ li.loop_var, ._Var_ lj.loop_var]) :
    ∃ (fused : Loop) (body : Block) (outer inner : Loop) (r2 : ScheduleBlockRealize),
      Fuse.apply 1 li (.For lj (.Realize r .nil) .nil) = .ok (fused, .For fused body .nil) ∧
      Split.apply fused [(li.extent : Int), (lj.extent : Int)] body
        = .ok ([li.extent, lj.extent], .For outer (.For inner (.Realize r2 .nil) .nil) .nil) ∧
      outer.extent = li.extent ∧ inner.extent = lj.extent ∧
      outer.clip = none ∧ inner.clip = none ∧ r2.name = r.name ∧
      (∀ (i j : Nat) (env' : Env), i < li.extent → j < lj.extent →
        r2.iter_values.map (Expr.eval
            (Function.update (Function.update env' outer.loop_var (i : Int))
              inner.loop_var (j : Int)))
          = [(i : Int), (j : Int)]) ∧
      (Block.For outer (.For inner (.Realize r2 .nil) .nil) .nil).exec env
        = (Block.For li (.For lj (.Realize r .nil) .nil) .nil).exec env := by
  have hconst : ∀ x ∈ [li, lj], x.clip = none := by
    intro x hx
    simp only [List.mem_cons, List.mem_singleton, List.not_mem_nil, or_false] at hx
    rcases hx with rfl | rfl
    · exact hi
    · exact hj
  have hnodup : ([li, lj].map Loop.loop_var).Nodup := by
    simp [hne]
  have hfuse := Fuse.apply_nest li [lj] r hconst hnodup hr
  -- the fused loop and its body
  let vf : Var := .fused li.loop_var lj.loop_var
  let fused : Loop := { li with loop_var := vf, extent := li.extent * (lj.extent * 1) }
  let g : Expr → ScheduleBlockRealize := fun e =>
    { r with iter_values :=
        [.Mod (.Div e (.IntImm lj.extent)) (.IntImm li.extent), .Mod e (.IntImm lj.extent)] }
  let G : Nat → Instance := fun n =>
    (r.name, (Fuse.decompose [li.extent, lj.extent] n).1.map (fun (d : Nat) => (d : Int)))
  have hg : ∀ (e : Expr) (env' : Env) (n : Nat), e.eval env' = (n : Int) →
      ((g e).name, (g e).iter_values.map (Expr.eval env')) = G n := by
    intro e env' n h
    simp only [g, G, List.map_cons, List.map_nil, Expr.eval, h, Fuse.decompose,
      ← Int.ofNat_tdiv, ← Int.ofNat_tmod]
  let S : Expr := Split.index vf [li.extent, lj.extent] 0 (.IntImm 0)
  have hsplit : Split.apply fused [(li.extent : Int), (lj.extent : Int)]
        (.Realize (g (._Var_ vf)) .nil)
      = .ok ([li.extent, lj.extent],
          Split.nest fused false [li.extent, lj.extent] 0 (.IntImm 0) (.Realize (g S) .nil)) := by
    unfold Split.apply
    have hc : fused.clip = none := hi
    rw [hc]
    simp only [Option.isSome_none, Bool.false_eq_true, if_false]
    have hres : Split.resolve fused.extent [(li.extent : Int), (lj.extent : Int)]
        = .ok [li.extent, lj.extent] := Split.resolve_exact _ _ h1 h2
    rw [hres]
    have hd : decide (fused.extent < [li.extent, lj.extent].prod) = false := by
      simp [fused]
    simp only [hd]
    have hb : (Block.Realize (g (._Var_ vf)) .nil).subst
          [(fused.loop_var, Split.index fused.loop_var [li.extent, lj.extent] 0 (.IntImm 0))]
        = .Realize (g S) .nil := by
      simp [Block.subst, g, S, Expr.subst, List.lookup, fused]
    rw [hb]
  have hexec := Split.nest_exec_range fused false g G hg [li.extent, lj.extent] (by simp) 0
    (.IntImm 0) env 0 (fun _ _ => by simp [Expr.eval])
    (fun _ => by simp [fused])
  have horig := Block.nest_exec_vars [li, lj] r env hconst hnodup hr
  refine ⟨fused, .Realize (g (._Var_ vf)) .nil,
    { fused with loop_var := .split vf 0, extent := li.extent, clip := none },
    { fused with loop_var := .split vf 1, extent := lj.extent, clip := none },
    g S, hfuse, hsplit, rfl, rfl, rfl, rfl, rfl, ?_, ?_⟩
  · intro i j env' hi' hj'
    have hS : S.eval (Function.update (Function.update env' (.split vf 0) (i : Int))
        (.split vf 1) (j : Int)) = ((i * lj.extent + j : Nat) : Int) := by
      have hab : (Var.split vf 0) ≠ (Var.split vf 1) := by
        intro h; injection h with _ h0; omega
      simp only [S, Split.index, Expr.eval_simpAdd, Expr.eval_simpMul, Expr.eval,
        Function.update_same, Function.update_noteq hab]
      push_cast; ring
    have := hg S _ _ hS
    simp only [G, Prod.mk.injEq] at this
    rw [this.2]
    have hpos : 0 < lj.extent := h2
    have hd : (i * lj.extent + j) / lj.extent = i := by
      rw [Nat.add_comm, Nat.add_mul_div_right _ _ hpos, Nat.div_eq_of_lt hj', Nat.zero_add]
    have hm : (i * lj.extent + j) % lj.extent = j := by
      rw [Nat.add_comm, Nat.add_mul_mod_self_right, Nat.mod_eq_of_lt hj']
    simp only [Fuse.decompose, hd, hm, Nat.mod_eq_of_lt hi', List.map_cons, List.map_nil]
  · have hnest :
        (Block.For { fused with loop_var := .split vf 0, extent := li.extent, clip := none }
          (.For { fused with loop_var := .split vf 1, extent := lj.extent, clip := none }
            (.Realize (g S) .nil) .nil) .nil)
        = Split.nest fused false [li.extent, lj.extent] 0 (.IntImm 0) (.Realize (g S) .nil) := by
      rfl
    rw [hnest, hexec]
    have horig' : (Block.For li (.For lj (.Realize r .nil) .nil) .nil).exec env
        = (lexTuples [li.extent, lj.extent]).map (fun t =>
            (r.name, t.map (fun (d : Nat) => (d : Int)))) := horig
    rw [horig', ← Fuse.decompose_range, List.map_map, filter_lt_range']
    have hmin : min [li.extent, lj.extent].prod (fused.extent - 0 * [li.extent, lj.extent].prod)
        = [li.extent, lj.extent].prod := by
      simp [fused]
    rw [hmin, Nat.zero_mul, ← List.range_eq_range']
    rfl

/-- Instance of claim C3: fusing the 3 by 4 nest and splitting by `(3, 4)` gives a 3 by 4
nest whose index expressions evaluate to `(2, 1)` at iteration `(2, 1)`. -/
theorem Fuse_then_Split_recovers_indices_witness :
    ∃ (fused : Loop) (body : Block) (outer inner : Loop) (r2 : ScheduleBlockRealize),
      Fuse.apply 1 { loop_var := .named "i", extent := 3 }
          (.For { loop_var := .named "j", extent := 4 }
            (.Realize { name := "B", iter_values := [._Var_ (.named "i"), ._Var_ (.named "j")] }
              .nil) .nil)
        = .ok (fused, .For fused body .nil) ∧
      Split.apply fused [3, 4] body
        = .ok ([3, 4], .For outer (.For inner (.Realize r2 .nil) .nil) .nil) ∧
      outer.extent = 3 ∧ inner.extent = 4 ∧
      r2.iter_values.map (Expr.eval
          (Function.update (Function.update (fun _ => 0) outer.loop_var 2) inner.loop_var 1))
        = [2, 1] := by
  obtain ⟨fused, body, outer, inner, r2, h1, h2, h3, h4, _, _, _, h8, _⟩ :=
    Fuse_then_Split_recovers_indices { loop_var := .named "i", extent := 3 }
      { loop_var := .named "j", extent := 4 }
      { name := "B", iter_values := [._Var_ (.named "i"), ._Var_ (.named "j")] }
      (fun _ => 0) rfl rfl (by decide) (by decide) (by decide) rfl
  exact ⟨fused, body, outer, inner, r2, h1, h2, h3, h4,
    h8 2 1 (fun _ => 0) (by decide) (by decide)⟩

theorem Block.append_nil : ∀ (b : Block), b.append .nil = b := by
  intro b
  induction b with
  | nil => rfl
  | For l body rest _ ih => simp only [Block.append, ih]
  | Realize r rest ih => simp only [Block.append, ih]

theorem Block.nest_GetAllBlocks (body : Block) : ∀ (ls : List Loop),
    (Block.nest ls body).GetAllBlocks = body.GetAllBlocks := by
  intro ls
  induction ls with
  | nil => rfl
  | cons l ls ih => simp only [Block.nest, Block.GetAllBlocks, ih, List.append_nil]

theorem Block.nest_GetLoops (b : ScheduleBlockRealize) (rest : Block) :
    ∀ (ls : List Loop) (pre : List Nat) (i : Nat),
      (Block.nest ls (.Realize b rest)).GetLoops b.name pre i
        = some (match ls with
            | [] => []
            | l :: ls' => (nestHandles 0 (l :: ls') (pre ++ [i])).map (fun h => (h.path, h.loop))) := by
  intro ls
  induction ls with
  | nil => intro pre i; simp [Block.nest, Block.GetLoops]
  | cons l ls ih =>
    intro pre i
    simp only [Block.nest, Block.GetLoops, ih]
    cases ls with
    | nil => simp [nestHandles]
    | cons l2 ls2 => simp [nestHandles]

theorem GetLoops_nest_head (b : ScheduleBlockRealize) (rest : Block) (l : Loop) (ls : List Loop)
    (others : List Block) :
    (ModuleExpr.mk (Block.nest (l :: ls) (.Realize b rest) :: others)).GetLoops b
      = .ok (nestHandles 0 (l :: ls) [0]) := by
  simp only [ModuleExpr.GetLoops, ModuleExpr.GetLoopsByName, GetLoopsIn, Block.nest_GetLoops,
    List.nil_append, List.map_map]
  congr 1
  have : ∀ (ls : List Loop) (p : List Nat),
      (nestHandles 0 ls p).map
        ((fun pl : List Nat × Loop => ({ expr := 0, path := pl.1, loop := pl.2 } : LoopHandle))
          ∘ fun h => (h.path, h.loop)) = nestHandles 0 ls p := by
    intro ls
    induction ls with
    | nil => intro p; rfl
    | cons x xs ih => intro p; simp only [nestHandles, List.map_cons, ih]; rfl
  exact this _ _

theorem contiguous_nestHandles (k : Nat) : ∀ (ls : List Loop) (p : List Nat),
    contiguous (nestHandles k ls p) = true := by
  intro ls
  induction ls with
  | nil => intro p; rfl
  | cons l ls ih =>
    intro p
    cases ls with
    | nil => rfl
    | cons l2 ls2 =>
      have := ih (p ++ [0])
      simp only [nestHandles] at this ⊢
      simp only [contiguous, decide_True, Bool.true_and, this]

theorem nestHandles_loops (k : Nat) : ∀ (ls : List Loop) (p : List Nat),
    (nestHandles k ls p).map LoopHandle.loop = ls := by
  intro ls
  induction ls with
  | nil => intro p; rfl
  | cons l ls ih => intro p; simp only [nestHandles, List.map_cons, ih]

theorem nestHandles_length (k : Nat) : ∀ (ls : List Loop) (p : List Nat),
    (nestHandles k ls p).length = ls.length := by
  intro ls p
  rw [← List.length_map (nestHandles k ls p) LoopHandle.loop, nestHandles_loops]

theorem Replace_head (L : Loop) (body rest : Block) (others : List Block)
    (f : Loop → Block → Except ScheduleError Block) :
    (ModuleExpr.mk (.For L body rest :: others)).Replace ⟨0, [0], L⟩ f
      = match f L body with
        | .ok b => .ok ⟨b.append rest :: others⟩
        | .error e => .error e := by
  simp only [ModuleExpr.Replace, modifyNth, Block.modifyFor, if_true]
  cases f L body <;> rfl

theorem Replace_second (L0 L1 : Loop) (body r1 r0 : Block) (others : List Block)
    (f : Loop → Block → Except ScheduleError Block) :
    (ModuleExpr.mk (.For L0 (.For L1 body r1) r0 :: others)).Replace ⟨0, [0, 0], L1⟩ f
      = match f L1 body with
        | .ok b => .ok ⟨.For L0 (b.append r1) r0 :: others⟩
        | .error e => .error e := by
  simp only [ModuleExpr.Replace, modifyNth, Block.modifyFor, if_true]
  cases f L1 body <;> rfl

theorem Fuse.apply_nest_body (l : Loop) (ls : List Loop) (body : Block)
    (hconst : ∀ x ∈ l :: ls, x.clip = none) :
    Fuse.apply ls.length l (Block.nest ls body)
      = .ok ({ l with loop_var := Fuse.var ((l :: ls).map Loop.loop_var)
                      extent := ((l :: ls).map Loop.extent).prod },
          .For { l with loop_var := Fuse.var ((l :: ls).map Loop.loop_var)
                        extent := ((l :: ls).map Loop.extent).prod }
            (body.subst (Fuse.index ((l :: ls).map (fun x => (x.loop_var, x.extent)))
                (._Var_ (Fuse.var ((l :: ls).map Loop.loop_var)))).1)
            .nil) := by
  have hany : (l :: ls).any (fun x => x.clip.isSome) = false := by
    rw [List.any_eq_false]
    intro x hx
    simp [hconst x hx]
  unfold Fuse.apply
  rw [Fuse.collect_nest]
  simp only [hany]
  rfl

theorem IRSchedule.Fuse_nest (l : Loop) (ls : List Loop) (body : Block) (others : List Block)
    (hconst : ∀ x ∈ l :: ls, x.clip = none) :
    IRSchedule.Fuse ⟨Block.nest (l :: ls) body :: others⟩ (nestHandles 0 (l :: ls) [0])
      = .ok (⟨.For { l with loop_var := Fuse.var ((l :: ls).map Loop.loop_var)
                            extent := ((l :: ls).map Loop.extent).prod }
                (body.subst (Fuse.index ((l :: ls).map (fun x => (x.loop_var, x.extent)))
                    (._Var_ (Fuse.var ((l :: ls).map Loop.loop_var)))).1)
                .nil :: others⟩,
            ⟨0, [0], { l with loop_var := Fuse.var ((l :: ls).map Loop.loop_var)
                              extent := ((l :: ls).map Loop.extent).prod }⟩) := by
  have hany : (l :: ls).any (fun x => x.clip.isSome) = false := by
    rw [List.any_eq_false]
    intro x hx
    simp [hconst x hx]
  have hc := contiguous_nestHandles 0 (l :: ls) [0]
  have hl := nestHandles_loops 0 (l :: ls) [0]
  have hlen := nestHandles_length 0 ls ([0] ++ [0])
  simp only [nestHandles] at hc hl ⊢
  simp only [IRSchedule.Fuse, hc, Bool.true_eq_false, if_false, Block.nest, Replace_head,
    hlen, Fuse.collect_nest, hl, if_true, Fuse.apply_nest_body l ls body hconst,
    Block.append, hany]
  simp only [List.map_cons, List.map_map, Function.comp]
  have h1 : (nestHandles 0 ls ([0] ++ [0])).map (fun h => h.loop.loop_var)
      = ls.map Loop.loop_var := by
    rw [← nestHandles_loops 0 ls ([0] ++ [0]), List.map_map, nestHandles_loops]; rfl
  have h2 : (nestHandles 0 ls ([0] ++ [0])).map (fun h => h.loop.extent)
      = ls.map Loop.extent := by
    rw [← nestHandles_loops 0 ls ([0] ++ [0]), List.map_map, nestHandles_loops]; rfl
  rw [h1, h2]
  rfl

theorem Block.allLoops_unbound : ∀ (b : Block) (pre : List Nat) (i : Nat),
    b.unbound = true → ∀ pl ∈ b.allLoops pre i, pl.2.bind_axis = none := by
  intro b
  induction b with
  | nil => intro pre i _ pl h; simp [Block.allLoops] at h
  | For l body rest ihb ihr =>
    intro pre i hu pl h
    simp only [Block.unbound, Bool.and_eq_true, decide_eq_true_eq] at hu
    simp only [Block.allLoops, List.mem_cons, List.mem_append] at h
    rcases h with h | h | h
    · rw [h]; exact hu.1.1
    · exact ihb _ _ hu.1.2 pl h
    · exact ihr _ _ hu.2 pl h
  | Realize r rest ih =>
    intro pre i hu pl h
    exact ih _ _ hu pl h

theorem Block.unbound_subst (σ : List (Var × Expr)) : ∀ (b : Block),
    (b.subst σ).unbound = b.unbound := by
  intro b
  induction b with
  | nil => rfl
  | For l body rest ihb ihr => simp only [Block.subst, Block.unbound, ihb, ihr]
  | Realize r rest ih => simp only [Block.subst, Block.unbound, ih]

theorem Split.apply_eq (F : Loop) (factors : List Int) (fs : List Nat) (body : Block)
    (hc : F.clip = none) (hres : Split.resolve F.extent factors = .ok fs) :
    Split.apply F factors body
      = .ok (fs, Split.nest F (decide (F.extent < fs.prod)) fs 0 (.IntImm 0)
          (body.subst [(F.loop_var, Split.index F.loop_var fs 0 (.IntImm 0))])) := by
  unfold Split.apply
  rw [hc, hres]
  rfl

theorem IRSchedule.Split_head (F : Loop) (factors : List Int) (fs : List Nat) (body : Block)
    (others : List Block) (hc : F.clip = none)
    (hres : Split.resolve F.extent factors = .ok fs) :
    IRSchedule.Split ⟨.For F body .nil :: others⟩ ⟨0, [0], F⟩ factors
      = .ok (⟨Split.nest F (decide (F.extent < fs.prod)) fs 0 (.IntImm 0)
                (body.subst [(F.loop_var, Split.index F.loop_var fs 0 (.IntImm 0))]) :: others⟩,
            ((Split.nest F (decide (F.extent < fs.prod)) fs 0 (.IntImm 0) .nil).chain
                fs.length [0]).map
              (fun pl => { expr := 0, path := pl.1, loop := pl.2 })) := by
  simp only [IRSchedule.Split, Replace_head, Split.apply_eq F factors fs _ hc hres,
    Block.append_nil, Block.subst]

theorem IRSchedule.Bind_head (L : Loop) (body rest : Block) (others : List Block)
    (axis : String) (ft : ForType) (hft : axisForType axis = some ft)
    (hfree : ∀ pl ∈ body.allLoops [0] 0 ++ rest.allLoops [] 1, pl.2.bind_axis ≠ some axis) :
    IRSchedule.Bind ⟨.For L body rest :: others⟩ ⟨0, [0], L⟩ axis
      = .ok ⟨.For { L with for_type := ft, bind_axis := some axis } body rest :: others⟩ := by
  have hany : ((Block.For L body rest).allLoops [] 0).any (fun pl =>
      decide (pl.1 ≠ [0]) && decide (pl.2.bind_axis = some axis)) = false := by
    rw [List.any_eq_false]
    intro pl hpl
    simp only [Block.allLoops, List.nil_append, List.mem_cons] at hpl
    rcases hpl with h | h
    · rw [h]; simp
    · simp [hfree pl (by simpa using h)]
  simp only [IRSchedule.Bind, hft, List.getElem?_cons_zero, Block.getFor, ne_eq,
    not_true_eq_false, if_false, hany, Bool.false_eq_true, Replace_head, Block.append]

theorem IRSchedule.Bind_second (L0 L1 : Loop) (body r1 r0 : Block) (others : List Block)
    (axis : String) (ft : ForType) (hft : axisForType axis = some ft)
    (h0 : L0.bind_axis ≠ some axis)
    (hfree : ∀ pl ∈ body.allLoops [0, 0] 0 ++ r1.allLoops [0] 1 ++ r0.allLoops [] 1,
      pl.2.bind_axis ≠ some axis) :
    IRSchedule.Bind ⟨.For L0 (.For L1 body r1) r0 :: others⟩ ⟨0, [0, 0], L1⟩ axis
      = .ok ⟨.For L0 (.For { L1 with for_type := ft, bind_axis := some axis } body r1) r0
          :: others⟩ := by
  have hany : ((Block.For L0 (.For L1 body r1) r0).allLoops [] 0).any (fun pl =>
      decide (pl.1 ≠ [0, 0]) && decide (pl.2.bind_axis = some axis)) = false := by
    rw [List.any_eq_false]
    intro pl hpl
    simp only [Block.allLoops, List.nil_append, List.mem_cons, List.cons_append,
      List.mem_append] at hpl
    rcases hpl with h | h | h | h
    · rw [h]; simp [h0]
    · rw [h]; simp
    · have := hfree pl (by
        simp only [List.mem_append]
        rcases h with h | h
        · exact Or.inl (Or.inl h)
        · exact Or.inl (Or.inr h))
      simp [this]
    · have := hfree pl (by simp only [List.mem_append]; exact Or.inr h)
      simp [this]
  simp only [IRSchedule.Bind, hft, List.getElem?_cons_zero, Block.getFor, ne_eq,
    not_true_eq_false, if_false, hany, Bool.false_eq_true, Replace_second, Block.append]

theorem int32_of_range (x : Int) (h1 : -(2 ^ 31) ≤ x) (h2 : x < 2 ^ 31) : int32 x = x := by
  unfold int32
  norm_num at h1 h2 ⊢
  omega

theorem int32_mul_left (a d : Int) : int32 (int32 a * d) = int32 (a * d) := by
  unfold int32
  congr 1
  have h : ((a + 2 ^ 31) % 2 ^ 32 - 2 ^ 31) * d + 2 ^ 31
      = (a * d + 2 ^ 31) + 2 ^ 32 * (-((a + 2 ^ 31) / 2 ^ 32) * d) := by
    have := Int.emod_add_ediv (a + 2 ^ 31) (2 ^ 32)
    have h' : (a + 2 ^ 31) % 2 ^ 32 = (a + 2 ^ 31) - 2 ^ 32 * ((a + 2 ^ 31) / 2 ^ 32) := by
      linarith
    rw [h']
    ring
  rw [h, Int.add_mul_emod_self_left]

theorem int32_foldl : ∀ (shape : List Int) (a : Int),
    shape.foldl (fun acc d => int32 (acc * d)) (int32 a) = int32 (a * shape.prod) := by
  intro shape
  induction shape with
  | nil => intro a; simp
  | cons d ds ih =>
    intro a
    rw [List.foldl_cons, int32_mul_left, ih, List.prod_cons, mul_assoc]

theorem prod_size_eq (shape : List Int) (h1 : -(2 ^ 31) ≤ shape.prod)
    (h2 : shape.prod < 2 ^ 31) :
    shape.foldl (fun acc d => int32 (acc * d)) 1 = shape.prod := by
  have h := int32_foldl shape 1
  rw [int32_of_range 1 (by norm_num) (by norm_num), one_mul] at h
  rw [h, int32_of_range _ h1 h2]

theorem Split.resolve_two (E T : Nat) (hT : 1 ≤ T) :
    Split.resolve E [-1, (T : Int)] = .ok [ceilDiv E T, T] := by
  have h := Split.resolve_placeholder E [-1, (T : Int)]
    (by
      have : ((-1 : Int) == (T : Int)) = false := by
        rw [beq_eq_false_iff_ne]; omega
      simp [List.count_cons, this])
    (by
      intro f hf
      simp only [List.mem_cons, List.mem_singleton, List.not_mem_nil, or_false] at hf
      rcases hf with rfl | rfl
      · left; rfl
      · right; omega)
  rw [h]
  have hne : ¬ ((T : Int) = -1) := by omega
  simp [hne]

theorem Split.resolve_three (E T : Nat) (hT : 1 ≤ T) :
    Split.resolve E [1024, (T : Int), -1] = .ok [1024, T, ceilDiv E (1024 * T)] := by
  have h := Split.resolve_placeholder E [1024, (T : Int), -1]
    (by
      have : ((-1 : Int) == (T : Int)) = false := by
        rw [beq_eq_false_iff_ne]; omega
      simp [List.count_cons, this])
    (by
      intro f hf
      simp only [List.mem_cons, List.mem_singleton, List.not_mem_nil, or_false] at hf
      rcases hf with rfl | rfl | rfl
      · right; norm_num
      · right; omega
      · left; rfl)
  rw [h]
  have hne : ¬ ((T : Int) = -1) := by omega
  simp [hne]

theorem shape_prod_cast (ls : List Loop) :
    (ls.map (fun x => (x.extent : Int))).prod = ((ls.map Loop.extent).prod : Nat) := by
  induction ls with
  | nil => simp
  | cons l ls ih => simp only [List.map_cons, List.prod_cons, ih]; push_cast; ring

theorem IRCudaScheduleInjective_result (l : Loop) (ls : List Loop) (b : ScheduleBlockRealize)
    (rest : Block) (others : List Block) (T : Nat)
    (hT : 1 ≤ T) (hconst : ∀ x ∈ l :: ls, x.clip = none) (hl : l.bind_axis = none)
    (hrest : rest.unbound = true)
    (hP31 : ((l :: ls).map Loop.extent).prod < 2 ^ 31) (hT31 : T * 1024 < 2 ^ 31) :
    ∃ (loops' : List Loop) (b' : ScheduleBlockRealize) (rest' : Block),
      IRCudaScheduleInjective ⟨Block.nest (l :: ls) (.Realize b rest) :: others⟩
          ((l :: ls).map (fun x => (x.extent : Int))) T
        = .ok ⟨Block.nest loops' (.Realize b' rest') :: others⟩ ∧
      b'.name = b.name ∧
      loops'.map (fun x => (x.extent, x.for_type, x.bind_axis))
        = if T * 1024 < ((l :: ls).map Loop.extent).prod then
            [(1024, ForType.GPUBlock, some "blockIdx.x"),
             (T, ForType.GPUThread, some "threadIdx.x"),
             (ceilDiv ((l :: ls).map Loop.extent).prod (1024 * T), l.for_type, none)]
          else if T < ((l :: ls).map Loop.extent).prod then
            [(ceilDiv ((l :: ls).map Loop.extent).prod T, ForType.GPUBlock, some "blockIdx.x"),
             (T, ForType.GPUThread, some "threadIdx.x")]
          else [(((l :: ls).map Loop.extent).prod, ForType.GPUThread, some "threadIdx.x")] := by
  generalize hP : ((l :: ls).map Loop.extent).prod = P at hP31 ⊢
  have hcast := shape_prod_cast (l :: ls)
  rw [hP] at hcast
  have hP0 : (0 : Int) ≤ ((P : Nat) : Int) := Int.ofNat_nonneg _
  have hneg : -(2 : Int) ^ 31 ≤ 0 := by norm_num
  have hprod : ((l :: ls).map (fun x => (x.extent : Int))).foldl
      (fun acc d => int32 (acc * d)) 1 = (P : Int) := by
    rw [prod_size_eq _ (by rw [hcast]; linarith) (by rw [hcast]; exact_mod_cast hP31), hcast]
  have hthr : int32 (int32 ((T : Int) * 1024) * 1) = (T : Int) * 1024 := by
    have h1 : int32 ((T : Int) * 1024) = (T : Int) * 1024 := by
      apply int32_of_range
      · have : (0 : Int) ≤ (T : Int) := Int.ofNat_nonneg _
        linarith
      · exact_mod_cast hT31
    rw [h1, mul_one, h1]
  have hblocks : (ModuleExpr.mk (Block.nest (l :: ls) (.Realize b rest) :: others)).GetAllBlocks
      = b :: (rest.GetAllBlocks ++ others.flatMap Block.GetAllBlocks) := by
    simp [ModuleExpr.GetAllBlocks, Block.nest_GetAllBlocks, Block.GetAllBlocks]
  simp only [IRCudaScheduleInjective, hblocks, vectorAt, List.getElem?_cons_zero, bind,
    Except.bind, GetLoops_nest_head, IRSchedule.Fuse_nest l ls _ others hconst, hprod, hthr,
    hP]
  have hclipF : l.clip = none := hconst l (List.mem_cons_self _ _)
  have hbody : ∀ σ : List (Var × Expr), (Block.subst σ (.Realize b rest)).unbound = true := by
    intro σ; rw [Block.unbound_subst]; exact hrest
  have hfreeOf : ∀ (B : Block) (axis : String) (pre : List Nat) (i : Nat), B.unbound = true →
      ∀ pl ∈ B.allLoops pre i, pl.2.bind_axis ≠ some axis := by
    intro B axis pre i hB pl hpl
    rw [Block.allLoops_unbound B pre i hB pl hpl]
    exact fun h => by cases h
  have hblk : axisForType "blockIdx.x" = some ForType.GPUBlock := by decide
  have hthd : axisForType "threadIdx.x" = some ForType.GPUThread := by decide
  by_cases h1 : T * 1024 < P
  · have hc1 : ((P : Int) > (T : Int) * 1024) := by exact_mod_cast h1
    simp only [hc1, if_true, h1]
    rw [IRSchedule.Split_head
      { l with loop_var := Fuse.var ((l :: ls).map Loop.loop_var), extent := P }
      [1024, (T : Int), -1] [1024, T, ceilDiv P (1024 * T)] _ others
      hclipF (Split.resolve_three P T hT)]
    simp only [Split.nest, Block.chain, List.length_cons, List.length_nil, List.map_cons,
      List.map_nil, List.getElem?_cons_zero, List.getElem?_cons_succ, List.nil_append,
      List.cons_append, Block.subst]
    rw [IRSchedule.Bind_head _ _ _ _ _ _ hblk (by
      intro pl hpl
      rw [List.mem_append] at hpl
      rcases hpl with h | h
      · refine hfreeOf _ _ _ _ ?_ pl h
        simp only [Block.unbound, hl, decide_True, Bool.true_and, Bool.and_true,
          Block.unbound_subst, hrest]
      · simp [Block.allLoops] at h)]
    simp only []
    rw [IRSchedule.Bind_second _ _ _ _ _ _ _ _ hthd (by simp) (by
      intro pl hpl
      rw [List.mem_append, List.mem_append] at hpl
      rcases hpl with (h | h) | h
      · refine hfreeOf _ _ _ _ ?_ pl h
        simp only [Block.unbound, hl, decide_True, Bool.true_and, Bool.and_true,
          Block.unbound_subst, hrest]
      · simp [Block.allLoops] at h
      · simp [Block.allLoops] at h)]
    exact ⟨[_, _, _], _, _, rfl, rfl, by simp [hl]⟩
  · by_cases h2 : T < P
    · have hc1 : ¬ ((P : Int) > (T : Int) * 1024) := by
        intro h; apply h1; exact_mod_cast h
      have hc2 : ((P : Int) > (T : Int)) := by exact_mod_cast h2
      simp only [hc1, hc2, if_true, if_false, h1, h2, Bool.false_eq_true]
      rw [IRSchedule.Split_head
        { l with loop_var := Fuse.var ((l :: ls).map Loop.loop_var), extent := P }
        [-1, (T : Int)] [ceilDiv P T, T] _ others
        hclipF (Split.resolve_two P T hT)]
      simp only [Split.nest, Block.chain, List.length_cons, List.length_nil, List.map_cons,
        List.map_nil, List.getElem?_cons_zero, List.getElem?_cons_succ, List.nil_append,
        List.cons_append, Block.subst]
      rw [IRSchedule.Bind_head _ _ _ _ _ _ hblk (by
        intro pl hpl
        rw [List.mem_append] at hpl
        rcases hpl with h | h
        · refine hfreeOf _ _ _ _ ?_ pl h
          simp only [Block.unbound, hl, decide_True, Bool.true_and, Bool.and_true,
            Block.unbound_subst, hrest]
        · simp [Block.allLoops] at h)]
      simp only []
      rw [IRSchedule.Bind_second _ _ _ _ _ _ _ _ hthd (by simp) (by
        intro pl hpl
        rw [List.mem_append, List.mem_append] at hpl
        rcases hpl with (h | h) | h
        · refine hfreeOf _ _ _ _ ?_ pl h
          simp only [Block.unbound, Block.unbound_subst, hrest]
        · simp [Block.allLoops] at h
        · simp [Block.allLoops] at h)]
      exact ⟨[_, _], _, _, rfl, rfl, by simp⟩
    · have hc1 : ¬ ((P : Int) > (T : Int) * 1024) := by
        intro h; apply h1; exact_mod_cast h
      have hc2 : ¬ ((P : Int) > (T : Int)) := by
        intro h; apply h2; exact_mod_cast h
      simp only [hc1, hc2, if_false, h1, h2, Bool.false_eq_true, Block.subst]
      rw [IRSchedule.Bind_head _ _ _ _ _ _ hthd (by
        intro pl hpl
        rw [List.mem_append] at hpl
        rcases hpl with h | h
        · refine hfreeOf _ _ _ _ ?_ pl h
          simp only [Block.unbound, Block.unbound_subst, hrest]
        · simp [Block.allLoops] at h)]
      exact ⟨[_], _, _, rfl, rfl, by simp⟩

/-- Claim C7: for every output shape whose element count `P` exceeds
`target.max_num_threads() = T` (no `int` overflow), `IRCudaScheduleInjective` on a block with
one loop per dimension fuses all loops and splits the fused loop so that the outermost
resulting loop is bound to `blockIdx.x` and the next one to `threadIdx.x`, and the product of
the resulting extents is at least `P`: the extents are `[ceil(P / T), T]` when
`P <= T * 1024` and `[1024, T, ceil(P / (1024 * T))]` above. -/
theorem IRCudaScheduleInjective_binds_block_then_thread (l : Loop) (ls : List Loop)
    (b : ScheduleBlockRealize) (rest : Block) (others : List Block) (T : Nat)
    (hT : 1 ≤ T) (hconst : ∀ x ∈ l :: ls, x.clip = none) (hl : l.bind_axis = none)
    (hrest : rest.unbound = true)
    (hP31 : ((l :: ls).map Loop.extent).prod < 2 ^ 31) (hT31 : T * 1024 < 2 ^ 31)
    (hPT : T < ((l :: ls).map Loop.extent).prod) :
    ∃ (outer inner : Loop) (tail : List Loop) (b' : ScheduleBlockRealize) (rest' : Block),
      IRCudaScheduleInjective ⟨Block.nest (l :: ls) (.Realize b rest) :: others⟩
          ((l :: ls).map (fun x => (x.extent : Int))) T
        = .ok ⟨Block.nest (outer :: inner :: tail) (.Realize b' rest') :: others⟩ ∧
      b'.name = b.name ∧
      (ModuleExpr.mk (Block.nest (outer :: inner :: tail) (.Realize b' rest') :: others)).GetLoops b'
        = .ok (nestHandles 0 (outer :: inner :: tail) [0]) ∧
      outer.for_type = .GPUBlock ∧ outer.bind_axis = some "blockIdx.x" ∧
      inner.for_type = .GPUThread ∧ inner.bind_axis = some "threadIdx.x" ∧
      (outer :: inner :: tail).map Loop.extent
        = (if T * 1024 < ((l :: ls).map Loop.extent).prod then
            [1024, T, ceilDiv ((l :: ls).map Loop.extent).prod (1024 * T)]
          else [ceilDiv ((l :: ls).map Loop.extent).prod T, T]) ∧
      ((l :: ls).map Loop.extent).prod ≤ ((outer :: inner :: tail).map Loop.extent).prod := by
  obtain ⟨loops', b', rest', hrun, hname, hmap⟩ :=
    IRCudaScheduleInjective_result l ls b rest others T hT hconst hl hrest hP31 hT31
  generalize ((l :: ls).map Loop.extent).prod = P at hPT hmap ⊢
  by_cases h1 : T * 1024 < P
  · rw [if_pos h1] at hmap
    rcases loops' with _ | ⟨o, _ | ⟨i, _ | ⟨t, _ | ⟨u, more⟩⟩⟩⟩ <;>
      first
      | (simp at hmap; done)
      | skip
    · simp only [List.map_cons, List.map_nil, List.cons.injEq, Prod.mk.injEq, and_true] at hmap
      obtain ⟨⟨ho1, ho2, ho3⟩, ⟨hi1, hi2, hi3⟩, ht1, _, _⟩ := hmap
      refine ⟨o, i, [t], b', rest', hrun, hname, GetLoops_nest_head _ _ _ _ _, ho2, ho3, hi2,
        hi3, ?_, ?_⟩
      · simp [ho1, hi1, ht1, h1]
      · simp only [List.map_cons, List.map_nil, List.prod_cons, List.prod_nil, ho1, hi1, ht1,
          mul_one]
        have := ceilDiv_mul_ge P (1024 * T) (by omega)
        calc P ≤ ceilDiv P (1024 * T) * (1024 * T) := this
          _ = 1024 * (T * ceilDiv P (1024 * T)) := by ring
  · rw [if_neg h1, if_pos hPT] at hmap
    rcases loops' with _ | ⟨o, _ | ⟨i, _ | ⟨t, more⟩⟩⟩ <;>
      first
      | (simp at hmap; done)
      | skip
    · simp only [List.map_cons, List.map_nil, List.cons.injEq, Prod.mk.injEq, and_true] at hmap
      obtain ⟨⟨ho1, ho2, ho3⟩, hi1, hi2, hi3⟩ := hmap
      refine ⟨o, i, [], b', rest', hrun, hname, GetLoops_nest_head _ _ _ _ _, ho2, ho3, hi2,
        hi3, ?_, ?_⟩
      · simp [ho1, hi1, h1]
      · simp only [List.map_cons, List.map_nil, List.prod_cons, List.prod_nil, ho1, hi1,
          mul_one]
        exact ceilDiv_mul_ge P T hT

/-- Instance of claim C7: a 100 by 32 output with 1024 threads gives a `blockIdx.x` loop of
extent 4 around a `threadIdx.x` loop of extent 1024. -/
theorem IRCudaScheduleInjective_binds_block_then_thread_witness :
    ∃ (outer inner : Loop) (b' : ScheduleBlockRealize) (rest' : Block),
      IRCudaScheduleInjective
          ⟨[Block.nest [{ loop_var := .named "i", extent := 100 },
                        { loop_var := .named "j", extent := 32 }]
              (.Realize { name := "C", iter_values :=
                [._Var_ (.named "i"), ._Var_ (.named "j")] } .nil)]⟩
          [100, 32] 1024
        = .ok ⟨[Block.nest [outer, inner] (.Realize b' rest')]⟩ ∧
      outer.for_type = .GPUBlock ∧ outer.bind_axis = some "blockIdx.x" ∧ outer.extent = 4 ∧
      inner.for_type = .GPUThread ∧ inner.bind_axis = some "threadIdx.x" ∧
      inner.extent = 1024 ∧ 3200 ≤ outer.extent * inner.extent := by
  obtain ⟨outer, inner, tail, b', rest', hrun, _, _, h1, h2, h3, h4, hext, _⟩ :=
    IRCudaScheduleInjective_binds_block_then_thread { loop_var := .named "i", extent := 100 }
      [{ loop_var := .named "j", extent := 32 }]
      { name := "C", iter_values := [._Var_ (.named "i"), ._Var_ (.named "j")] } .nil [] 1024
      (by decide) (by decide) rfl rfl (by decide) (by decide) (by decide)
  have hext' : (outer :: inner :: tail).map Loop.extent = [4, 1024] := by
    rw [hext]; decide
  rcases tail with _ | ⟨t, more⟩
  · simp only [List.map_cons, List.map_nil, List.cons.injEq, and_true] at hext'
    exact ⟨outer, inner, b', rest', hrun, h1, h2, hext'.1, h3, h4, hext'.2, by
      rw [hext'.1, hext'.2]; decide⟩
  · simp at hext'

/-- Counterexample to claim C8 as stated: a 100 by 32 output with `max_num_threads = 1024` has
3200 elements, which does not exceed `1024 * 1024 * 1`, yet `IRCudaScheduleInjective` splits
the fused loop into a `blockIdx.x` loop of extent 4 and a `threadIdx.x` loop of extent 1024;
the result is not a single fused loop bound to `threadIdx.x`. -/
theorem IRCudaScheduleInjective_splits_below_block_threshold :
    ((3200 : Int) ≤ 1024 * 1024 * 1) ∧
    ((IRCudaScheduleInjective
        ⟨[Block.nest [{ loop_var := .named "i", extent := 100 },
                      { loop_var := .named "j", extent := 32 }]
            (.Realize { name := "C", iter_values :=
              [._Var_ (.named "i"), ._Var_ (.named "j")] } .nil)]⟩
        [100, 32] 1024
      >>= fun m => m.GetLoopsByName "C").map
        (fun hs => hs.map (fun h => (h.loop.extent, h.loop.for_type, h.loop.bind_axis))))
      = .ok [(4, ForType.GPUBlock, some "blockIdx.x"),
             (1024, ForType.GPUThread, some "threadIdx.x")] ∧
    ¬ ∃ (fused : Loop) (b' : ScheduleBlockRealize) (rest' : Block),
      IRCudaScheduleInjective
        ⟨[Block.nest [{ loop_var := .named "i", extent := 100 },
                      { loop_var := .named "j", extent := 32 }]
            (.Realize { name := "C", iter_values :=
              [._Var_ (.named "i"), ._Var_ (.named "j")] } .nil)]⟩
        [100, 32] 1024
      = .ok ⟨[.For fused (.Realize b' rest') .nil]⟩ ∧
      fused.bind_axis = some "threadIdx.x" := by
  have hloops : ((IRCudaScheduleInjective
        ⟨[Block.nest [{ loop_var := .named "i", extent := 100 },
                      { loop_var := .named "j", extent := 32 }]
            (.Realize { name := "C", iter_values :=
              [._Var_ (.named "i"), ._Var_ (.named "j")] } .nil)]⟩
        [100, 32] 1024
      >>= fun m => m.GetLoopsByName "C").map
        (fun hs => hs.map (fun h => (h.loop.extent, h.loop.for_type, h.loop.bind_axis))))
      = .ok [(4, ForType.GPUBlock, some "blockIdx.x"),
             (1024, ForType.GPUThread, some "threadIdx.x")] := by rfl
  refine ⟨by decide, hloops, ?_⟩
  rintro ⟨fused, b', rest', h, hb⟩
  rw [h] at hloops
  simp only [bind, Except.bind, ModuleExpr.GetLoopsByName, GetLoopsIn, Block.GetLoops,
    List.nil_append, Nat.zero_add] at hloops
  by_cases hn : b'.name = "C"
  · simp [hn, Except.map] at hloops
  · simp only [hn, if_false] at hloops
    cases hr : rest'.GetLoops "C" [0] 1 with
    | none => simp [hr, Except.map] at hloops
    | some ls =>
      simp only [hr, Except.map, List.map_cons, Except.ok.injEq, List.cons.injEq,
        Prod.mk.injEq] at hloops
      rw [hb] at hloops
      simp at hloops


/-- Claim C8, amended: `IRCudaScheduleInjective` (no `int` overflow, one loop per dimension)
splits the fused loop into block-bound and thread-bound loops whenever the element count `P`
exceeds `max_num_threads = T`: into the three loops `1024, T, ceil(P / (1024 * T))` when
`P > T * 1024 * 1`, and into the two loops `ceil(P / T), T` when `T < P <= T * 1024 * 1`; it
performs no `Split` and binds the single fused loop directly to `threadIdx.x` exactly when
`P <= T`. -/
theorem IRCudaScheduleInjective_split_thresholds (l : Loop) (ls : List Loop)
    (b : ScheduleBlockRealize) (rest : Block) (others : List Block) (T : Nat)
    (hT : 1 ≤ T) (hconst : ∀ x ∈ l :: ls, x.clip = none) (hl : l.bind_axis = none)
    (hrest : rest.unbound = true)
    (hP31 : ((l :: ls).map Loop.extent).prod < 2 ^ 31) (hT31 : T * 1024 < 2 ^ 31) :
    ∃ (loops' : List Loop) (b' : ScheduleBlockRealize) (rest' : Block),
      IRCudaScheduleInjective ⟨Block.nest (l :: ls) (.Realize b rest) :: others⟩
          ((l :: ls).map (fun x => (x.extent : Int))) T
        = .ok ⟨Block.nest loops' (.Realize b' rest') :: others⟩ ∧
      b'.name = b.name ∧
      (T * 1024 * 1 < ((l :: ls).map Loop.extent).prod →
        loops'.map (fun x => (x.extent, x.for_type, x.bind_axis))
          = [(1024, ForType.GPUBlock, some "blockIdx.x"),
             (T, ForType.GPUThread, some "threadIdx.x"),
             (ceilDiv ((l :: ls).map Loop.extent).prod (1024 * T), l.for_type, none)]) ∧
      (T < ((l :: ls).map Loop.extent).prod →
        ((l :: ls).map Loop.extent).prod ≤ T * 1024 * 1 →
        loops'.map (fun x => (x.extent, x.for_type, x.bind_axis))
          = [(ceilDiv ((l :: ls).map Loop.extent).prod T, ForType.GPUBlock, some "blockIdx.x"),
             (T, ForType.GPUThread, some "threadIdx.x")]) ∧
      (((l :: ls).map Loop.extent).prod ≤ T →
        loops'.map (fun x => (x.extent, x.for_type, x.bind_axis))
          = [(((l :: ls).map Loop.extent).prod, ForType.GPUThread, some "threadIdx.x")]) ∧
      (loops'.length = 1 ↔ ((l :: ls).map Loop.extent).prod ≤ T) := by
  obtain ⟨loops', b', rest', hrun, hname, hmap⟩ :=
    IRCudaScheduleInjective_result l ls b rest others T hT hconst hl hrest hP31 hT31
  generalize ((l :: ls).map Loop.extent).prod = P at hmap ⊢
  have hlen : loops'.length
      = (loops'.map (fun x => (x.extent, x.for_type, x.bind_axis))).length := by
    rw [List.length_map]
  refine ⟨loops', b', rest', hrun, hname, ?_, ?_, ?_, ?_⟩
  · intro h
    rw [hmap, if_pos (by omega)]
  · intro h1 h2
    rw [hmap, if_neg (by omega), if_pos h1]
  · intro h
    rw [hmap, if_neg (by omega), if_neg (by omega)]
  · rw [hlen, hmap]
    by_cases h1 : T * 1024 < P
    · rw [if_pos h1]
      simp only [List.length_cons, List.length_nil]
      constructor <;> intro hh <;> first | trivial | omega
    · by_cases h2 : T < P
      · rw [if_neg h1, if_pos h2]
        simp only [List.length_cons, List.length_nil]
        constructor <;> intro hh <;> first | trivial | omega
      · rw [if_neg h1, if_neg h2]
        simp only [List.length_cons, List.length_nil]
        constructor <;> intro hh <;> first | trivial | omega

/-- Instance of the amended claim C8: a 10 by 32 output with 1024 threads gives the single
fused loop of extent 320 bound to `threadIdx.x`. -/
theorem IRCudaScheduleInjective_split_thresholds_witness :
    ∃ (fused : Loop) (b' : ScheduleBlockRealize) (rest' : Block),
      IRCudaScheduleInjective
          ⟨[Block.nest [{ loop_var := .named "i", extent := 10 },
                        { loop_var := .named "j", extent := 32 }]
              (.Realize { name := "C", iter_values :=
                [._Var_ (.named "i"), ._Var_ (.named "j")] } .nil)]⟩
          [10, 32] 1024
        = .ok ⟨[Block.nest [fused] (.Realize b' rest')]⟩ ∧
      fused.extent = 320 ∧ fused.for_type = .GPUThread ∧
      fused.bind_axis = some "threadIdx.x" := by
  obtain ⟨loops', b', rest', hrun, _, _, _, h3, _⟩ :=
    IRCudaScheduleInjective_split_thresholds { loop_var := .named "i", extent := 10 }
      [{ loop_var := .named "j", extent := 32 }]
      { name := "C", iter_values := [._Var_ (.named "i"), ._Var_ (.named "j")] } .nil [] 1024
      (by decide) (by decide) rfl rfl (by decide) (by decide)
  have h := h3 (by decide)
  rcases loops' with _ | ⟨f, _ | ⟨g, more⟩⟩
  · simp at h
  · simp only [List.map_cons, List.map_nil, List.cons.injEq, Prod.mk.injEq, and_true] at h
    exact ⟨f, b', rest', hrun, by rw [h.1]; rfl, h.2.1, h.2.2⟩
  · simp at h

theorem Block.subst_nest (σ : List (Var × Expr)) (body : Block) : ∀ (ls : List Loop),
    (∀ x ∈ ls, x.clip = none) →
    (Block.nest ls body).subst σ = Block.nest ls (body.subst σ) := by
  intro ls
  induction ls with
  | nil => intro _; rfl
  | cons l ls ih =>
    intro h
    have hl : l.clip = none := h l (List.mem_cons_self _ _)
    simp only [Block.nest, Block.subst, ih (fun x hx => h x (List.mem_cons_of_mem _ hx)), hl,
      Option.map_none']
    congr 1
    cases l
    simp_all

theorem Replace_head_parallel (L : Loop) (body : Block) (others : List Block) :
    IRSchedule.Parallel ⟨.For L body .nil :: others⟩ ⟨0, [0], L⟩
      = .ok ⟨.For { L with for_type := .Parallel } body .nil :: others⟩ := by
  simp only [IRSchedule.Parallel, IRSchedule.MutateForType, Replace_head, reduceCtorEq,
    or_self, false_and, if_false, Block.append]

theorem IRScheduleInjectiveCPU.fusion_high (l1 l2 l3 : Loop) (tail : List Loop)
    (b : ScheduleBlockRealize) (rest : Block) (others : List Block) (output_shape : List Int)
    (hrank : 5 ≤ output_shape.length)
    (hconst : ∀ x ∈ l1 :: l2 :: l3 :: tail, x.clip = none) :
    ∃ (b' : ScheduleBlockRealize) (rest' : Block),
      IRScheduleInjectiveCPU.fusion
          ⟨Block.nest (l1 :: l2 :: l3 :: tail) (.Realize b rest) :: others⟩ output_shape
        = .ok (⟨Block.nest
            ({ l1 with loop_var := Fuse.var [l1.loop_var, l2.loop_var, l3.loop_var]
                       extent := l1.extent * (l2.extent * (l3.extent * 1))
                       for_type := .Parallel } :: tail)
            (.Realize b' rest') :: others⟩, (output_shape.length : Int) - 2) ∧
      b'.name = b.name := by
  have hblocks : (ModuleExpr.mk
        (Block.nest (l1 :: l2 :: l3 :: tail) (.Realize b rest) :: others)).GetAllBlocks
      = b :: (rest.GetAllBlocks ++ others.flatMap Block.GetAllBlocks) := by
    simp [ModuleExpr.GetAllBlocks, Block.nest_GetAllBlocks, Block.GetAllBlocks]
  have hdims : ((output_shape.length : Int) ≥ 5) := by exact_mod_cast hrank
  have hc3 : ∀ x ∈ l1 :: [l2, l3], x.clip = none := by
    intro x hx
    apply hconst x
    simp only [List.mem_cons, List.mem_singleton, List.not_mem_nil, or_false] at hx ⊢
    rcases hx with h | h | h
    · exact Or.inl h
    · exact Or.inr (Or.inl h)
    · exact Or.inr (Or.inr (Or.inl h))
  have hct : ∀ x ∈ tail, x.clip = none := by
    intro x hx
    apply hconst x
    simp only [List.mem_cons]
    exact Or.inr (Or.inr (Or.inr hx))
  have hfuse : IRSchedule.Fuse
        ⟨Block.nest (l1 :: l2 :: l3 :: tail) (.Realize b rest) :: others⟩
        [⟨0, [0], l1⟩, ⟨0, [0] ++ [0], l2⟩, ⟨0, [0] ++ [0] ++ [0], l3⟩] = _ :=
    IRSchedule.Fuse_nest l1 [l2, l3] (Block.nest tail (.Realize b rest)) others hc3
  simp only [IRScheduleInjectiveCPU.fusion, hblocks, vectorAt, List.getElem?_cons_zero, bind,
    Except.bind, GetLoops_nest_head, nestHandles, List.getElem?_cons_succ, hdims, if_true,
    hfuse]
  simp only [Replace_head_parallel, pure, Except.pure, Block.subst_nest _ _ tail hct,
    Block.subst, List.map_cons, List.map_nil, List.prod_cons, List.prod_nil]
  exact ⟨_, _, rfl, rfl⟩

theorem IRScheduleInjectiveCPU.fusion_mid (l1 l2 : Loop) (tail : List Loop)
    (b : ScheduleBlockRealize) (rest : Block) (others : List Block) (output_shape : List Int)
    (hrank : 3 ≤ output_shape.length) (hrank' : output_shape.length < 5)
    (hconst : ∀ x ∈ l1 :: l2 :: tail, x.clip = none) :
    ∃ (b' : ScheduleBlockRealize) (rest' : Block),
      IRScheduleInjectiveCPU.fusion
          ⟨Block.nest (l1 :: l2 :: tail) (.Realize b rest) :: others⟩ output_shape
        = .ok (⟨Block.nest
            ({ l1 with loop_var := Fuse.var [l1.loop_var, l2.loop_var]
                       extent := l1.extent * (l2.extent * 1)
                       for_type := .Parallel } :: tail)
            (.Realize b' rest') :: others⟩, (output_shape.length : Int) - 1) ∧
      b'.name = b.name := by
  have hblocks : (ModuleExpr.mk
        (Block.nest (l1 :: l2 :: tail) (.Realize b rest) :: others)).GetAllBlocks
      = b :: (rest.GetAllBlocks ++ others.flatMap Block.GetAllBlocks) := by
    simp [ModuleExpr.GetAllBlocks, Block.nest_GetAllBlocks, Block.GetAllBlocks]
  have hdims : ¬ ((output_shape.length : Int) ≥ 5) := by
    intro h; have : 5 ≤ output_shape.length := by exact_mod_cast h
    omega
  have hdims' : ((output_shape.length : Int) ≥ 3) := by exact_mod_cast hrank
  have hc2 : ∀ x ∈ l1 :: [l2], x.clip = none := by
    intro x hx
    apply hconst x
    simp only [List.mem_cons, List.mem_singleton, List.not_mem_nil, or_false] at hx ⊢
    rcases hx with h | h
    · exact Or.inl h
    · exact Or.inr (Or.inl h)
  have hct : ∀ x ∈ tail, x.clip = none := by
    intro x hx
    apply hconst x
    simp only [List.mem_cons]
    exact Or.inr (Or.inr hx)
  have hfuse : IRSchedule.Fuse
        ⟨Block.nest (l1 :: l2 :: tail) (.Realize b rest) :: others⟩
        [⟨0, [0], l1⟩, ⟨0, [0] ++ [0], l2⟩] = _ :=
    IRSchedule.Fuse_nest l1 [l2] (Block.nest tail (.Realize b rest)) others hc2
  simp only [IRScheduleInjectiveCPU.fusion, hblocks, vectorAt, List.getElem?_cons_zero, bind,
    Except.bind, GetLoops_nest_head, nestHandles, List.getElem?_cons_succ, hdims, hdims',
    if_true, if_false, hfuse]
  simp only [Replace_head_parallel, pure, Except.pure, Block.subst_nest _ _ tail hct,
    Block.subst, List.map_cons, List.map_nil, List.prod_cons, List.prod_nil]
  exact ⟨_, _, rfl, rfl⟩

theorem IRScheduleInjectiveCPU.fusion_low (l1 : Loop) (tail : List Loop)
    (b : ScheduleBlockRealize) (rest : Block) (others : List Block) (output_shape : List Int)
    (hrank : output_shape.length < 3) :
    IRScheduleInjectiveCPU.fusion
        ⟨Block.nest (l1 :: tail) (.Realize b rest) :: others⟩ output_shape
      = .ok (⟨Block.nest ({ l1 with for_type := .Parallel } :: tail)
          (.Realize b rest) :: others⟩, (output_shape.length : Int)) := by
  have hblocks : (ModuleExpr.mk
        (Block.nest (l1 :: tail) (.Realize b rest) :: others)).GetAllBlocks
      = b :: (rest.GetAllBlocks ++ others.flatMap Block.GetAllBlocks) := by
    simp [ModuleExpr.GetAllBlocks, Block.nest_GetAllBlocks, Block.GetAllBlocks]
  have hdims : ¬ ((output_shape.length : Int) ≥ 5) := by
    intro h; have : 5 ≤ output_shape.length := by exact_mod_cast h
    omega
  have hdims' : ¬ ((output_shape.length : Int) ≥ 3) := by
    intro h; have : 3 ≤ output_shape.length := by exact_mod_cast h
    omega
  simp only [IRScheduleInjectiveCPU.fusion, hblocks, vectorAt, List.getElem?_cons_zero, bind,
    Except.bind, GetLoops_nest_head, nestHandles, hdims, hdims', if_false]
  simp only [Block.nest, Replace_head_parallel, pure, Except.pure]

/-- Claim C9: for every output shape of rank at least 5 whose first block has one loop per
dimension, the fusion step of `IRScheduleInjectiveCPU` fuses exactly the first three loops
into one loop, whose extent is the product of the first three dimensions, and marks that
loop parallel; the other loops stay as they were, so the nest has two loops fewer. -/
theorem IRScheduleInjectiveCPU_fuses_first_three_then_parallel (l1 l2 l3 : Loop)
    (tail : List Loop) (b : ScheduleBlockRealize) (rest : Block) (others : List Block)
    (htail : 2 ≤ tail.length)
    (hconst : ∀ x ∈ l1 :: l2 :: l3 :: tail, x.clip = none) :
    ∃ (fused : Loop) (b' : ScheduleBlockRealize) (rest' : Block),
      IRScheduleInjectiveCPU.fusion
          ⟨Block.nest (l1 :: l2 :: l3 :: tail) (.Realize b rest) :: others⟩
          ((l1 :: l2 :: l3 :: tail).map (fun x => (x.extent : Int)))
        = .ok (⟨Block.nest (fused :: tail) (.Realize b' rest') :: others⟩,
            ((fused :: tail).length : Int)) ∧
      b'.name = b.name ∧
      (ModuleExpr.mk (Block.nest (fused :: tail) (.Realize b' rest') :: others)).GetLoops b'
        = .ok (nestHandles 0 (fused :: tail) [0]) ∧
      fused.extent = l1.extent * l2.extent * l3.extent ∧
      fused.for_type = .Parallel ∧
      (fused :: tail).length + 2 = (l1 :: l2 :: l3 :: tail).length := by
  obtain ⟨b', rest', hrun, hname⟩ :=
    IRScheduleInjectiveCPU.fusion_high l1 l2 l3 tail b rest others
      ((l1 :: l2 :: l3 :: tail).map (fun x => (x.extent : Int)))
      (by simp only [List.length_map, List.length_cons]; omega) hconst
  refine ⟨{ l1 with loop_var := Fuse.var [l1.loop_var, l2.loop_var, l3.loop_var],
                     extent := l1.extent * (l2.extent * (l3.extent * 1)),
                     for_type := .Parallel },
    b', rest', ?_, hname, GetLoops_nest_head _ _ _ _ _, ?_, rfl, ?_⟩
  · rw [hrun]
    simp only [List.length_map, List.length_cons]
    congr 2
    push_cast
    ring
  · simp only [mul_one]
    ring
  · simp only [List.length_cons]

/-- Instance of claim C9: for dims `[2, 3, 4, 5, 6]` the nest after the fusion step has the
three loops of extents `[24, 5, 6]`, the outermost parallel. -/
theorem IRScheduleInjectiveCPU_fuses_first_three_then_parallel_witness :
    ∃ (fused l4 l5 : Loop) (b' : ScheduleBlockRealize) (rest' : Block),
      IRScheduleInjectiveCPU.fusion
          ⟨[Block.nest [{ loop_var := .named "a", extent := 2 },
                        { loop_var := .named "b", extent := 3 },
                        { loop_var := .named "c", extent := 4 },
                        { loop_var := .named "d", extent := 5 },
                        { loop_var := .named "e", extent := 6 }]
              (.Realize { name := "Out", iter_values :=
                [._Var_ (.named "a"), ._Var_ (.named "b"), ._Var_ (.named "c"),
                 ._Var_ (.named "d"), ._Var_ (.named "e")] } .nil)]⟩
          [2, 3, 4, 5, 6]
        = .ok (⟨[Block.nest [fused, l4, l5] (.Realize b' rest')]⟩, 3) ∧
      [fused.extent, l4.extent, l5.extent] = [24, 5, 6] ∧
      fused.for_type = .Parallel := by
  obtain ⟨fused, b', rest', hrun, _, _, hext, hpar, _⟩ :=
    IRScheduleInjectiveCPU_fuses_first_three_then_parallel
      { loop_var := .named "a", extent := 2 } { loop_var := .named "b", extent := 3 }
      { loop_var := .named "c", extent := 4 }
      [{ loop_var := .named "d", extent := 5 }, { loop_var := .named "e", extent := 6 }]
      { name := "Out", iter_values :=
          [._Var_ (.named "a"), ._Var_ (.named "b"), ._Var_ (.named "c"),
           ._Var_ (.named "d"), ._Var_ (.named "e")] } .nil [] (by decide) (by decide)
  exact ⟨fused, _, _, b', rest', hrun, by simp [hext], hpar⟩

/-- Counterexample to claim C10 as stated: for the rank-6 shape `[2, 2, 2, 2, 2, 2]` the
fusion step of `IRScheduleInjectiveCPU` leaves the block with the four loops of extents
`[8, 2, 2, 2]`, more than 3. -/
theorem IRScheduleInjectiveCPU_rank6_keeps_four_loops :
    ((IRScheduleInjectiveCPU.fusion
        ⟨[Block.nest [{ loop_var := .named "a", extent := 2 },
                      { loop_var := .named "b", extent := 2 },
                      { loop_var := .named "c", extent := 2 },
                      { loop_var := .named "d", extent := 2 },
                      { loop_var := .named "e", extent := 2 },
                      { loop_var := .named "f", extent := 2 }]
            (.Realize { name := "Out", iter_values :=
              [._Var_ (.named "a"), ._Var_ (.named "b"), ._Var_ (.named "c"),
               ._Var_ (.named "d"), ._Var_ (.named "e"), ._Var_ (.named "f")] } .nil)]⟩
        [2, 2, 2, 2, 2, 2]
      >>= fun p => p.1.GetLoopsByName "Out").map
        (fun hs => hs.map (fun h => h.loop.extent)))
      = .ok [8, 2, 2, 2] ∧
    ¬ ([8, 2, 2, 2].length ≤ 3) := by
  refine ⟨by rfl, by decide⟩

/-- Claim C10, amended: for every output shape of rank `n >= 1` whose first block has one
loop per dimension, after the fusion step of `IRScheduleInjectiveCPU` the block has `n - 2`
loops when `n >= 5`, `n - 1` loops when `n` is 3 or 4, and `n` loops otherwise; it has at
most 3 loops exactly when `n <= 5`. -/
theorem IRScheduleInjectiveCPU_loops_after_fusion (l : Loop) (ls : List Loop)
    (b : ScheduleBlockRealize) (rest : Block) (others : List Block)
    (hconst : ∀ x ∈ l :: ls, x.clip = none) :
    ∃ (loops' : List Loop) (b' : ScheduleBlockRealize) (rest' : Block),
      IRScheduleInjectiveCPU.fusion
          ⟨Block.nest (l :: ls) (.Realize b rest) :: others⟩
          ((l :: ls).map (fun x => (x.extent : Int)))
        = .ok (⟨Block.nest loops' (.Realize b' rest') :: others⟩, (loops'.length : Int)) ∧
      b'.name = b.name ∧
      (ModuleExpr.mk (Block.nest loops' (.Realize b' rest') :: others)).GetLoops b'
        = .ok (nestHandles 0 loops' [0]) ∧
      loops'.length
        = (if 5 ≤ (l :: ls).length then (l :: ls).length - 2
           else if 3 ≤ (l :: ls).length then (l :: ls).length - 1
           else (l :: ls).length) ∧
      (loops'.length ≤ 3 ↔ (l :: ls).length ≤ 5) := by
  have hlen : ((l :: ls).map (fun x => (x.extent : Int))).length = (l :: ls).length :=
    List.length_map _ _
  by_cases h5 : 5 ≤ (l :: ls).length
  · rcases ls with _ | ⟨l2, _ | ⟨l3, tail⟩⟩
    · simp at h5
    · simp at h5
    · obtain ⟨b', rest', hrun, hname⟩ :=
        IRScheduleInjectiveCPU.fusion_high l l2 l3 tail b rest others
          ((l :: l2 :: l3 :: tail).map (fun x => (x.extent : Int)))
          (by rw [hlen]; exact h5) hconst
      refine ⟨{ l with loop_var := Fuse.var [l.loop_var, l2.loop_var, l3.loop_var],
                       extent := l.extent * (l2.extent * (l3.extent * 1)),
                       for_type := .Parallel } :: tail,
        b', rest', ?_, hname, GetLoops_nest_head _ _ _ _ _, ?_, ?_⟩
      · rw [hrun]
        simp only [List.length_map, List.length_cons]
        congr 2
        push_cast
        ring
      · rw [if_pos h5]; simp only [List.length_cons]; omega
      · simp only [List.length_cons] at h5 ⊢
        constructor <;> intro hh <;> omega
  · by_cases h3 : 3 ≤ (l :: ls).length
    · rcases ls with _ | ⟨l2, tail⟩
      · simp at h3
      · obtain ⟨b', rest', hrun, hname⟩ :=
          IRScheduleInjectiveCPU.fusion_mid l l2 tail b rest others
            ((l :: l2 :: tail).map (fun x => (x.extent : Int)))
            (by rw [hlen]; exact h3) (by rw [hlen]; omega) hconst
        refine ⟨{ l with loop_var := Fuse.var [l.loop_var, l2.loop_var],
                         extent := l.extent * (l2.extent * 1),
                         for_type := .Parallel } :: tail,
          b', rest', ?_, hname, GetLoops_nest_head _ _ _ _ _, ?_, ?_⟩
        · rw [hrun]
          simp only [List.length_map, List.length_cons]
          congr 2
          push_cast
          ring
        · rw [if_neg h5, if_pos h3]; simp only [List.length_cons]; omega
        · simp only [List.length_cons] at h5 h3 ⊢
          constructor <;> intro hh <;> omega
    · have hrun := IRScheduleInjectiveCPU.fusion_low l ls b rest others
        ((l :: ls).map (fun x => (x.extent : Int))) (by rw [hlen]; omega)
      refine ⟨{ l with for_type := .Parallel } :: ls, b, rest, ?_, rfl,
        GetLoops_nest_head _ _ _ _ _, ?_, ?_⟩
      · rw [hrun]
        simp only [List.length_map, List.length_cons]
      · rw [if_neg h5, if_neg h3]; simp only [List.length_cons]
      · simp only [List.length_cons] at h5 h3 ⊢
        constructor <;> intro hh <;> omega

/-- Instance of the amended claim C10: a rank-4 shape leaves three loops. -/
theorem IRScheduleInjectiveCPU_loops_after_fusion_witness :
    ∃ (loops' : List Loop) (b' : ScheduleBlockRealize) (rest' : Block),
      IRScheduleInjectiveCPU.fusion
          ⟨[Block.nest [{ loop_var := .named "n", extent := 8 },
                        { loop_var := .named "c", extent := 3 },
                        { loop_var := .named "h", extent := 4 },
                        { loop_var := .named "w", extent := 4 }]
              (.Realize { name := "Out", iter_values :=
                [._Var_ (.named "n"), ._Var_ (.named "c"), ._Var_ (.named "h"),
                 ._Var_ (.named "w")] } .nil)]⟩
          [8, 3, 4, 4]
        = .ok (⟨[Block.nest loops' (.Realize b' rest')]⟩, 3) ∧
      loops'.length = 3 := by
  obtain ⟨loops', b', rest', hrun, _, _, hlen, _⟩ :=
    IRScheduleInjectiveCPU_loops_after_fusion { loop_var := .named "n", extent := 8 }
      [{ loop_var := .named "c", extent := 3 }, { loop_var := .named "h", extent := 4 },
       { loop_var := .named "w", extent := 4 }]
      { name := "Out", iter_values :=
          [._Var_ (.named "n"), ._Var_ (.named "c"), ._Var_ (.named "h"),
           ._Var_ (.named "w")] } .nil [] (by decide)
  have h3 : loops'.length = 3 := by rw [hlen]; decide
  rw [h3] at hrun
  exact ⟨loops', b', rest', hrun, h3⟩

theorem foldl_max_spec : ∀ (l : List Nat) (a : Nat),
    a ≤ l.foldl max a ∧ (∀ x ∈ l, x ≤ l.foldl max a) ∧ (l.foldl max a = a ∨ l.foldl max a ∈ l) := by
  intro l
  induction l with
  | nil => intro a; simp
  | cons y ys ih =>
    intro a
    obtain ⟨h1, h2, h3⟩ := ih (max a y)
    simp only [List.foldl_cons, List.mem_cons]
    refine ⟨le_trans (le_max_left a y) h1, ?_, ?_⟩
    · intro x hx
      rcases hx with rfl | hx
      · exact le_trans (le_max_right a x) h1
      · exact h2 x hx
    · rcases h3 with h | h
      · rw [h]
        rcases le_total a y with hay | hay
        · right; left; exact max_eq_right hay
        · left; exact max_eq_left hay
      · right; right; exact h

theorem filterMap_getElem?_range {α : Type} : ∀ (xs : List α),
    (List.range xs.length).filterMap (fun k => xs[k]?) = xs := by
  intro xs
  induction xs with
  | nil => rfl
  | cons x xs ih =>
    rw [List.length_cons, List.range_succ_eq_map, List.filterMap_cons]
    simp only [List.getElem?_cons_zero, List.filterMap_map]
    have : ((fun k => (x :: xs)[k]?) ∘ Nat.succ) = (fun k => xs[k]?) := by
      funext k; simp
    rw [this, ih]

theorem Reorder.chain_all : ∀ (chain : List Loop) (pos : Nat) (req : List Nat)
    (pending : List Loop),
    (∀ i, pos ≤ i → i < pos + chain.length → i ∈ req) → pending.length = chain.length →
    Reorder.chain chain pos req pending = pending := by
  intro chain
  induction chain with
  | nil =>
    intro pos req pending _ hlen
    simp only [List.length_nil, List.length_eq_zero] at hlen
    rw [hlen]; rfl
  | cons l rest ih =>
    intro pos req pending hall hlen
    have hpos : pos ∈ req := hall pos (le_refl _) (by simp)
    cases pending with
    | nil => simp at hlen
    | cons p ps =>
      simp only [Reorder.chain, hpos, if_true]
      rw [ih (pos + 1) req ps (fun i h1 h2 => hall i (by omega) (by
        simp only [List.length_cons]; omega)) (by simpa using hlen)]

/-- Claim C4: for every perfect loop nest and every requested ordering of its loops (a
permutation `perm` of the loop positions), `Reorder` succeeds and produces the perfect nest of
the same loop headers (same iteration variables, extents and loop-kind tags), the loop at
level `i` being the one requested at position `i`, around the unchanged innermost body. -/
theorem Reorder_keeps_loops_in_requested_order (l : Loop) (ls : List Loop) (body : Block)
    (perm : List Nat) (hperm : perm.Perm (List.range (l :: ls).length)) :
    Reorder.apply perm l (Block.nest ls body)
      = .ok (Block.nest (perm.filterMap (fun k => (l :: ls)[k]?)) body) ∧
    (perm.filterMap (fun k => (l :: ls)[k]?)).Perm (l :: ls) ∧
    (perm.filterMap (fun k => (l :: ls)[k]?)).length = (l :: ls).length ∧
    (∀ i (hi : i < perm.length),
      (perm.filterMap (fun k => (l :: ls)[k]?))[i]? = (l :: ls)[perm[i]]?) := by
  have hnodup : perm.Nodup := (hperm.nodup_iff).mpr (List.nodup_range _)
  have hmem : ∀ i, i ∈ perm ↔ i < (l :: ls).length := by
    intro i; rw [hperm.mem_iff, List.mem_range]
  have hP : (perm.filterMap (fun k => (l :: ls)[k]?)).Perm (l :: ls) := by
    have := hperm.filterMap (fun k => (l :: ls)[k]?)
    rwa [filterMap_getElem?_range] at this
  have hlen : (perm.filterMap (fun k => (l :: ls)[k]?)).length = (l :: ls).length :=
    hP.length_eq
  have hmax : perm.foldl max 0 = ls.length := by
    obtain ⟨_, h2, h3⟩ := foldl_max_spec perm 0
    have hge : ls.length ≤ perm.foldl max 0 :=
      h2 _ ((hmem _).mpr (by simp))
    rcases h3 with h | h
    · omega
    · have := (hmem _).mp h
      simp only [List.length_cons] at this
      omega
  refine ⟨?_, hP, hlen, ?_⟩
  · unfold Reorder.apply
    rw [if_pos hnodup, hmax, Fuse.collect_nest]
    dsimp only
    rw [Reorder.chain_all _ 0 perm _ (fun i _ h2 => (hmem i).mpr (by omega)) hlen]
  · intro i hi
    have hall : ∀ k ∈ perm, ((l :: ls)[k]?).isSome = true := by
      intro k hk
      have := (hmem k).mp hk
      rw [List.getElem?_eq_getElem this]
      rfl
    clear hperm hnodup hmem hP hlen hmax
    induction perm generalizing i with
    | nil => simp at hi
    | cons k ks ih =>
      have hk := hall k (List.mem_cons_self _ _)
      obtain ⟨x, hx⟩ := Option.isSome_iff_exists.mp hk
      rw [List.filterMap_cons, hx]
      cases i with
      | zero => simp [hx]
      | succ j =>
        simp only [List.getElem?_cons_succ, List.getElem_cons_succ]
        exact ih j (by simpa using hi) (fun k' hk' => hall k' (List.mem_cons_of_mem _ hk'))

/-- Instance of claim C4: the nest `i, j, k` reordered by `[2, 0, 1]` is the nest `k, i, j`
with the same headers, the parallel tag of `j` included. -/
theorem Reorder_keeps_loops_in_requested_order_witness :
    Reorder.apply [2, 0, 1] { loop_var := .named "i", extent := 4 }
        (Block.nest [{ loop_var := .named "j", extent := 5, for_type := .Parallel },
                     { loop_var := .named "k", extent := 6 }]
          (.Realize { name := "B" } .nil))
      = .ok (Block.nest [{ loop_var := .named "k", extent := 6 },
                         { loop_var := .named "i", extent := 4 },
                         { loop_var := .named "j", extent := 5, for_type := .Parallel }]
          (.Realize { name := "B" } .nil)) :=
  (Reorder_keeps_loops_in_requested_order { loop_var := .named "i", extent := 4 }
    [{ loop_var := .named "j", extent := 5, for_type := .Parallel },
     { loop_var := .named "k", extent := 6 }]
    (.Realize { name := "B" } .nil) [2, 0, 1] (by decide)).1

theorem Block.removeBlock_GetAllBlocks (n : String) : ∀ (B : Block),
    (B.removeBlock n).GetAllBlocks = B.GetAllBlocks.filter (fun r => decide (r.name ≠ n)) := by
  intro B
  induction B with
  | nil => rfl
  | For l body rest ihb ihr =>
    simp only [Block.removeBlock, Block.GetAllBlocks, List.filter_append]
    rw [← ihb, ← ihr]
    cases h : body.removeBlock n <;> simp [Block.GetAllBlocks]
  | Realize r rest ihr =>
    simp only [Block.removeBlock, Block.GetAllBlocks]
    by_cases hn : r.name = n
    · simp [hn, ihr]
    · simp [hn, ihr, Block.GetAllBlocks]

theorem Block.mapBodies_GetAllBlocks (f : Value → Value) : ∀ (B : Block),
    (B.mapBodies f).GetAllBlocks = B.GetAllBlocks.map (fun r => { r with body := f r.body }) := by
  intro B
  induction B with
  | nil => rfl
  | For l body rest ihb ihr => simp [Block.mapBodies, Block.GetAllBlocks, ihb, ihr]
  | Realize r rest ihr => simp [Block.mapBodies, Block.GetAllBlocks, ihr]

theorem GetAllBlocks_inlined (n : String) (f : Value → Value) : ∀ (es : List Block),
    (es.map (fun e => (e.removeBlock n).mapBodies f)).flatMap Block.GetAllBlocks =
      ((es.flatMap Block.GetAllBlocks).filter (fun r => decide (r.name ≠ n))).map
        (fun r => { r with body := f r.body }) := by
  intro es
  induction es with
  | nil => rfl
  | cons e es ih =>
    simp only [List.map_cons, List.flatMap_cons, List.filter_append, List.map_append, ih,
      Block.mapBodies_GetAllBlocks, Block.removeBlock_GetAllBlocks]

theorem Expr.eval_subst (σ : List (Var × Expr)) (env : Env) : ∀ (e : Expr),
    (e.subst σ).eval env =
      e.eval (fun x => ((σ.lookup x).map (Expr.eval env)).getD (env x)) := by
  intro e
  induction e with
  | IntImm v => rfl
  | _Var_ x =>
    simp only [Expr.subst, Expr.eval]
    cases σ.lookup x <;> simp [Expr.eval]
  | Add a b iha ihb => simp only [Expr.subst, Expr.eval, iha, ihb]
  | Sub a b iha ihb => simp only [Expr.subst, Expr.eval, iha, ihb]
  | Mul a b iha ihb => simp only [Expr.subst, Expr.eval, iha, ihb]
  | Div a b iha ihb => simp only [Expr.subst, Expr.eval, iha, ihb]
  | Mod a b iha ihb => simp only [Expr.subst, Expr.eval, iha, ihb]
  | Min a b iha ihb => simp only [Expr.subst, Expr.eval, iha, ihb]

theorem Value.eval_subst_indices (σ : List (Var × Expr)) (mem : Memory) (env : Env) : ∀ (v : Value),
    (v.subst σ).eval mem env =
      v.eval mem (fun x => ((σ.lookup x).map (Expr.eval env)).getD (env x)) := by
  intro v
  induction v with
  | Const c => rfl
  | Load t idx =>
    simp only [Value.subst, Value.eval, List.map_map]
    congr 1
    apply List.map_congr_left
    intro e _
    exact Expr.eval_subst σ env e
  | Add a b iha ihb => simp only [Value.subst, Value.eval, iha, ihb]
  | Sub a b iha ihb => simp only [Value.subst, Value.eval, iha, ihb]
  | Mul a b iha ihb => simp only [Value.subst, Value.eval, iha, ihb]

theorem lookup_zip_map (f : Expr → Int) (x : Var) : ∀ (vars : List Var) (idx : List Expr),
    (vars.zip (idx.map f)).lookup x = ((vars.zip idx).lookup x).map f := by
  intro vars
  induction vars with
  | nil => intro idx; simp
  | cons v vars ih =>
    intro idx
    cases idx with
    | nil => simp
    | cons i idx =>
      simp only [List.map_cons, List.zip_cons_cons, List.lookup_cons]
      cases x == v <;> simp [ih]

theorem Value.subst_reads (σ : List (Var × Expr)) : ∀ (v : Value),
    (v.subst σ).reads = v.reads := by
  intro v
  induction v with
  | Const c => rfl
  | Load t idx => rfl
  | Add a b iha ihb => simp only [Value.subst, Value.reads, iha, ihb]
  | Sub a b iha ihb => simp only [Value.subst, Value.reads, iha, ihb]
  | Mul a b iha ihb => simp only [Value.subst, Value.reads, iha, ihb]

theorem Value.inline_reads (tensor : String) (vars : List Var) (defn : Value)
    (h : tensor ∉ defn.reads) : ∀ (v : Value),
    tensor ∉ (Value.inline tensor vars defn v).reads := by
  intro v
  induction v with
  | Const c => simp [Value.inline, Value.reads]
  | Load t idx =>
    simp only [Value.inline]
    by_cases ht : t = tensor
    · simp only [ht, if_true, Value.subst_reads]; exact h
    · simp only [ht, if_false, Value.reads, List.mem_singleton]; exact fun e => ht e.symm
  | Add a b iha ihb => simp [Value.inline, Value.reads, iha, ihb]
  | Sub a b iha ihb => simp [Value.inline, Value.reads, iha, ihb]
  | Mul a b iha ihb => simp [Value.inline, Value.reads, iha, ihb]

theorem Value.inline_eval (tensor : String) (vars : List Var) (defn : Value) (mem : Memory)
    (hmem : ∀ (vals : List Int) (env : Env), vals.length = vars.length →
      mem tensor vals = defn.eval mem (bindVars vars vals env)) : ∀ (v : Value) (env : Env),
    v.readsRanked tensor vars.length = true →
    (Value.inline tensor vars defn v).eval mem env = v.eval mem env := by
  intro v env
  induction v with
  | Const c => intro _; rfl
  | Load t idx =>
    intro hr
    simp only [Value.inline]
    by_cases ht : t = tensor
    · subst ht
      simp only [if_true, Value.eval_subst_indices, Value.eval]
      simp only [Value.readsRanked, decide_eq_true_eq, forall_const] at hr
      rw [hmem (idx.map (Expr.eval env)) env (by simpa using hr)]
      congr 1
      funext x
      simp only [bindVars, lookup_zip_map]
    · simp only [ht, if_false]
  | Add a b iha ihb =>
    intro hr
    simp only [Value.readsRanked, Bool.and_eq_true] at hr
    simp only [Value.inline, Value.eval, iha hr.1, ihb hr.2]
  | Sub a b iha ihb =>
    intro hr
    simp only [Value.readsRanked, Bool.and_eq_true] at hr
    simp only [Value.inline, Value.eval, iha hr.1, ihb hr.2]
  | Mul a b iha ihb =>
    intro hr
    simp only [Value.readsRanked, Bool.and_eq_true] at hr
    simp only [Value.inline, Value.eval, iha hr.1, ihb hr.2]

/-- Claim C6: for every module and every schedule block `b` in it that can be inlined,
`ComputeInline(b)` succeeds; afterwards `GetAllBlocks()` holds no block named like `b` and is
otherwise the previous sequence in the same order, one block fewer, where each remaining body
is the previous body with every read of the output of `b` at indices `idx` replaced by the
defining expression of `b` with its iteration variables substituted by `idx`.  No read of the
output of `b` remains, and when the output of `b` holds what its defining expression computes,
every remaining body evaluates to what it did before. -/
theorem ComputeInline_removes_block_and_substitutes (m : ModuleExpr) (b : ScheduleBlockRealize)
    (hb : m.GetBlock b.name = .ok b) (hinl : inlinable m b = true) :
    ∃ m', IRSchedule.ComputeInline m b = .ok m' ∧
      (∀ r ∈ m'.GetAllBlocks, r.name ≠ b.name) ∧
      m'.GetAllBlocks =
        (m.GetAllBlocks.filter (fun r => decide (r.name ≠ b.name))).map
          (fun r => { r with body := Value.inline b.tensor b.iter_vars b.body r.body }) ∧
      m'.GetAllBlocks.length + 1 = m.GetAllBlocks.length ∧
      (∀ idx, Value.inline b.tensor b.iter_vars b.body (.Load b.tensor idx) =
        b.body.subst (b.iter_vars.zip idx)) ∧
      (∀ t idx, t ≠ b.tensor →
        Value.inline b.tensor b.iter_vars b.body (.Load t idx) = .Load t idx) ∧
      (∀ r ∈ m'.GetAllBlocks, b.tensor ∉ r.body.reads) ∧
      (∀ (mem : Memory),
        (∀ (vals : List Int) (env : Env), vals.length = b.iter_vars.length →
          mem b.tensor vals = b.body.eval mem (bindVars b.iter_vars vals env)) →
        ∀ r ∈ m.GetAllBlocks, ∀ (env : Env),
          (Value.inline b.tensor b.iter_vars b.body r.body).eval mem env =
            r.body.eval mem env) := by
  have hall : (⟨m.exprs.map (fun e =>
      (e.removeBlock b.name).mapBodies (Value.inline b.tensor b.iter_vars b.body))⟩
        : ModuleExpr).GetAllBlocks =
      (m.GetAllBlocks.filter (fun r => decide (r.name ≠ b.name))).map
        (fun r => { r with body := Value.inline b.tensor b.iter_vars b.body r.body }) :=
    GetAllBlocks_inlined _ _ _
  have hfilter : m.GetAllBlocks.filter (fun r => decide (r.name = b.name)) = [b] := by
    unfold ModuleExpr.GetBlock at hb
    split at hb
    · rename_i b' hf
      simp only [Except.ok.injEq] at hb
      rw [hf, hb]
    · simp at hb
  have hinl0 := hinl
  simp only [inlinable, Bool.and_eq_true, decide_eq_true_eq, List.all_eq_true] at hinl
  obtain ⟨⟨⟨⟨_, _⟩, hself⟩, _⟩, hranked⟩ := hinl
  refine ⟨⟨m.exprs.map (fun e =>
      (e.removeBlock b.name).mapBodies (Value.inline b.tensor b.iter_vars b.body))⟩,
    ?_, ?_, hall, ?_, ?_, ?_, ?_, ?_⟩
  · simp only [IRSchedule.ComputeInline, hb, hinl0, if_true]
  · intro r hr
    rw [hall] at hr
    simp only [List.mem_map, List.mem_filter, decide_eq_true_eq] at hr
    obtain ⟨r0, ⟨_, hne⟩, rfl⟩ := hr
    exact hne
  · rw [hall, List.length_map]
    have h := List.length_eq_length_filter_add (l := m.GetAllBlocks)
      (fun r => decide (r.name = b.name))
    rw [hfilter] at h
    have e : (fun r : ScheduleBlockRealize => decide (r.name ≠ b.name)) =
        (fun r => !(decide (r.name = b.name))) := by
      funext r; simp
    rw [e]
    simp only [List.length_singleton] at h
    omega
  · intro idx
    simp [Value.inline]
  · intro t idx ht
    simp [Value.inline, ht]
  · intro r hr
    rw [hall] at hr
    simp only [List.mem_map, List.mem_filter, decide_eq_true_eq] at hr
    obtain ⟨r0, _, rfl⟩ := hr
    exact Value.inline_reads _ _ _ hself _
  · intro mem hmem r hr env
    exact Value.inline_eval _ _ _ mem hmem r.body env (hranked r hr)

/-- Instance of claim C6 on `shuffleReduceModule`: its block `reshape` can be inlined, and
`ComputeInline` leaves the blocks `internal` and `out`, the first now reading `A` at
`x * 8 + y`. -/
theorem ComputeInline_removes_block_and_substitutes_witness :
    shuffleReduceModule.GetBlock reshapeBlock.name = .ok reshapeBlock ∧
    inlinable shuffleReduceModule reshapeBlock = true ∧
    IRSchedule.ComputeInline shuffleReduceModule reshapeBlock = .ok shuffleReduceInlined ∧
    shuffleReduceInlined.GetAllBlocks.map (fun r => r.name) = ["internal", "out"] ∧
    ∃ m', IRSchedule.ComputeInline shuffleReduceModule reshapeBlock = .ok m' ∧
      m'.GetAllBlocks.length + 1 = shuffleReduceModule.GetAllBlocks.length :=
  ⟨by rfl, by rfl, by rfl, by rfl,
   (ComputeInline_removes_block_and_substitutes shuffleReduceModule reshapeBlock
      (by rfl) (by rfl)).imp (fun _ h => ⟨h.1, h.2.2.2.1⟩)⟩

theorem replicate_zero_append (n : Nat) (q : List Nat) (hq : q ≠ []) :
    ∃ k p, List.replicate n 0 ++ q = k :: p ∧ (n = 0 → k :: p = q) := by
  cases n with
  | zero =>
    cases q with
    | nil => exact absurd rfl hq
    | cons k p => exact ⟨k, p, rfl, fun _ => rfl⟩
  | succ n => exact ⟨0, List.replicate n 0 ++ q, by simp [List.replicate_succ], fun h => by omega⟩

theorem Block.modifyFor_nest (g : Loop → Block → Except ScheduleError Block) (X : Block)
    (q : List Nat) (hq : q ≠ []) : ∀ (pre : List Loop),
    (Block.nest pre X).modifyFor g (List.replicate pre.length 0 ++ q)
      = match X.modifyFor g q with
        | .ok X' => .ok (Block.nest pre X')
        | .error e => .error e := by
  intro pre
  induction pre with
  | nil =>
    simp only [Block.nest, List.length_nil, List.replicate_zero, List.nil_append]
    cases X.modifyFor g q <;> rfl
  | cons l pre ih =>
    obtain ⟨k, p, hkp, _⟩ := replicate_zero_append pre.length q hq
    simp only [Block.nest, List.length_cons, List.replicate_succ, List.cons_append]
    rw [hkp] at ih ⊢
    simp only [Block.modifyFor, ih]
    cases X.modifyFor g q <;> rfl

theorem Replace_nest (pre : List Loop) (L : Loop) (body rest : Block) (others : List Block)
    (f : Loop → Block → Except ScheduleError Block) :
    (ModuleExpr.mk (Block.nest pre (.For L body rest) :: others)).Replace
        ⟨0, List.replicate pre.length 0 ++ [0], L⟩ f
      = match f L body with
        | .ok b => .ok ⟨Block.nest pre (b.append rest) :: others⟩
        | .error e => .error e := by
  simp only [ModuleExpr.Replace, modifyNth,
    Block.modifyFor_nest _ _ [0] (by simp) pre, Block.modifyFor, if_true]
  cases f L body <;> rfl

theorem Block.getFor_nest (L : Loop) (body rest : Block) : ∀ (pre : List Loop),
    (Block.nest pre (.For L body rest)).getFor (List.replicate pre.length 0 ++ [0])
      = some (L, body) := by
  intro pre
  induction pre with
  | nil => rfl
  | cons l pre ih =>
    obtain ⟨k, p, hkp, _⟩ := replicate_zero_append pre.length [0] (by simp)
    simp only [Block.nest, List.length_cons, List.replicate_succ, List.cons_append]
    rw [hkp] at ih ⊢
    simp only [Block.getFor, ih]

theorem Block.allLoops_freeOf (axis : String) : ∀ (b : Block) (pre : List Nat) (i : Nat),
    b.freeOf axis = true → ∀ pl ∈ b.allLoops pre i, pl.2.bind_axis ≠ some axis := by
  intro b
  induction b with
  | nil => intro pre i _ pl h; simp [Block.allLoops] at h
  | For l body rest ihb ihr =>
    intro pre i hu pl h
    simp only [Block.freeOf, Bool.and_eq_true, decide_eq_true_eq] at hu
    simp only [Block.allLoops, List.mem_cons, List.mem_append] at h
    rcases h with h | h | h
    · rw [h]; exact hu.1.1
    · exact ihb _ _ hu.1.2 pl h
    · exact ihr _ _ hu.2 pl h
  | Realize r rest ih =>
    intro pre i hu pl h
    exact ih _ _ hu pl h

theorem Block.allLoops_nest_mem (X : Block) : ∀ (pre : List Loop) (k : Nat)
    (pl : List Nat × Loop),
    pl ∈ (Block.nest pre X).allLoops (List.replicate k 0) 0 →
      pl.2 ∈ pre ∨ pl ∈ X.allLoops (List.replicate (k + pre.length) 0) 0 := by
  intro pre
  induction pre with
  | nil => intro k pl h; right; simpa [Block.nest] using h
  | cons l pre ih =>
    intro k pl h
    simp only [Block.nest, Block.allLoops, List.append_nil, List.mem_cons] at h
    rcases h with h | h
    · left; rw [h]; exact List.mem_cons_self _ _
    · rw [← List.replicate_succ'] at h
      rcases ih (k + 1) pl h with h' | h'
      · left; exact List.mem_cons_of_mem _ h'
      · right
        have e : k + 1 + pre.length = k + (l :: pre).length := by
          simp only [List.length_cons]; omega
        rw [← e]; exact h'

theorem IRSchedule.Bind_nest (pre : List Loop) (L : Loop) (body rest : Block)
    (others : List Block) (axis : String) (ft : ForType) (hft : axisForType axis = some ft)
    (hpre : ∀ l ∈ pre, l.bind_axis ≠ some axis)
    (hbody : body.freeOf axis = true) (hrest : rest.freeOf axis = true) :
    IRSchedule.Bind ⟨Block.nest pre (.For L body rest) :: others⟩
        ⟨0, List.replicate pre.length 0 ++ [0], L⟩ axis
      = .ok ⟨Block.nest pre (.For { L with for_type := ft, bind_axis := some axis } body rest)
          :: others⟩ := by
  have hany : ((Block.nest pre (.For L body rest)).allLoops [] 0).any (fun pl =>
      decide (pl.1 ≠ List.replicate pre.length 0 ++ [0])
        && decide (pl.2.bind_axis = some axis)) = false := by
    rw [List.any_eq_false]
    intro pl hpl
    rcases Block.allLoops_nest_mem _ pre 0 pl (by simpa using hpl) with h | h
    · simp [hpre _ h]
    · simp only [Nat.zero_add, Block.allLoops, List.mem_cons, List.mem_append] at h
      rcases h with h | h | h
      · rw [h]; simp
      · simp [Block.allLoops_freeOf axis body _ _ hbody pl h]
      · simp [Block.allLoops_freeOf axis rest _ _ hrest pl h]
  simp only [IRSchedule.Bind, hft, List.getElem?_cons_zero, Block.getFor_nest, ne_eq,
    not_true_eq_false, if_false, hany, Bool.false_eq_true, Replace_nest, Block.append]

theorem IRSchedule.Split_nest (pre : List Loop) (F : Loop) (factors : List Int)
    (fs : List Nat) (body : Block) (others : List Block) (hc : F.clip = none)
    (hres : Split.resolve F.extent factors = .ok fs) :
    IRSchedule.Split ⟨Block.nest pre (.For F body .nil) :: others⟩
        ⟨0, List.replicate pre.length 0 ++ [0], F⟩ factors
      = .ok (⟨Block.nest pre (Split.nest F (decide (F.extent < fs.prod)) fs 0 (.IntImm 0)
                (body.subst [(F.loop_var, Split.index F.loop_var fs 0 (.IntImm 0))]))
              :: others⟩,
            ((Split.nest F (decide (F.extent < fs.prod)) fs 0 (.IntImm 0) .nil).chain
                fs.length (List.replicate pre.length 0 ++ [0])).map
              (fun pl => { expr := 0, path := pl.1, loop := pl.2 })) := by
  simp only [IRSchedule.Split, Replace_nest, Split.apply_eq F factors fs _ hc hres,
    Block.append_nil, Block.subst]

theorem IRSchedule.MutateForType_nest (pre : List Loop) (L : Loop) (body rest : Block)
    (others : List Block) (for_type : ForType) (factor : Int)
    (hc : L.clip = none) :
    IRSchedule.MutateForType ⟨Block.nest pre (.For L body rest) :: others⟩
        ⟨0, List.replicate pre.length 0 ++ [0], L⟩ for_type factor
      = .ok ⟨Block.nest pre (.For { L with
                for_type := for_type
                vectorize_factor := if for_type = .Vectorized then some factor
                  else L.vectorize_factor } body rest) :: others⟩ := by
  simp only [IRSchedule.MutateForType, Replace_nest, hc, Option.isSome_none,
    Bool.false_eq_true, and_false, if_false, Block.append]

theorem nestHandles_append (k : Nat) : ∀ (pre post : List Loop) (p : List Nat),
    nestHandles k (pre ++ post) p
      = nestHandles k pre p ++ nestHandles k post (p ++ List.replicate pre.length 0) := by
  intro pre
  induction pre with
  | nil => intro post p; simp [nestHandles]
  | cons l pre ih =>
    intro post p
    have h := ih post (p ++ [0])
    simp only [List.cons_append, nestHandles, List.length_cons, List.replicate_succ]
    rw [show pre.append post = pre ++ post from rfl, h]
    simp only [List.append_assoc, List.singleton_append, List.cons_append, List.nil_append]

theorem nestHandles_getElem (k : Nat) (pre : List Loop) (L : Loop) (post : List Loop) :
    (nestHandles k (pre ++ L :: post) [0])[pre.length]?
      = some ⟨k, List.replicate pre.length 0 ++ [0], L⟩ := by
  rw [nestHandles_append, List.getElem?_append_right (by rw [nestHandles_length])]
  simp only [nestHandles_length, Nat.sub_self, nestHandles, List.getElem?_cons_zero]
  congr 2
  rw [← List.replicate_succ', List.replicate_succ]
  rfl

theorem IRSchedule.Fuse_in_nest (pre : List Loop) (l : Loop) (ls : List Loop) (body : Block)
    (others : List Block) (hconst : ∀ x ∈ l :: ls, x.clip = none) :
    IRSchedule.Fuse ⟨Block.nest pre (Block.nest (l :: ls) body) :: others⟩
        (nestHandles 0 (l :: ls) (List.replicate pre.length 0 ++ [0]))
      = .ok (⟨Block.nest pre (.For
                { l with loop_var := Fuse.var ((l :: ls).map Loop.loop_var)
                         extent := ((l :: ls).map Loop.extent).prod }
                (body.subst (Fuse.index ((l :: ls).map (fun x => (x.loop_var, x.extent)))
                    (._Var_ (Fuse.var ((l :: ls).map Loop.loop_var)))).1)
                .nil) :: others⟩,
            ⟨0, List.replicate pre.length 0 ++ [0],
              { l with loop_var := Fuse.var ((l :: ls).map Loop.loop_var)
                       extent := ((l :: ls).map Loop.extent).prod }⟩) := by
  have hany : (l :: ls).any (fun x => x.clip.isSome) = false := by
    rw [List.any_eq_false]
    intro x hx
    simp [hconst x hx]
  have hc := contiguous_nestHandles 0 (l :: ls) (List.replicate pre.length 0 ++ [0])
  have hl := nestHandles_loops 0 (l :: ls) (List.replicate pre.length 0 ++ [0])
  have hlen := nestHandles_length 0 ls (List.replicate pre.length 0 ++ [0] ++ [0])
  simp only [nestHandles] at hc hl ⊢
  simp only [IRSchedule.Fuse, hc, Bool.true_eq_false, if_false, Block.nest, Replace_nest,
    hlen, Fuse.collect_nest, hl, if_true, Fuse.apply_nest_body l ls body hconst,
    Block.append, hany]
  simp only [List.map_cons, List.map_map, Function.comp]
  have h1 : (nestHandles 0 ls (List.replicate pre.length 0 ++ [0] ++ [0])).map
      (fun h => h.loop.loop_var) = ls.map Loop.loop_var := by
    rw [← nestHandles_loops 0 ls (List.replicate pre.length 0 ++ [0] ++ [0]), List.map_map,
      nestHandles_loops]; rfl
  have h2 : (nestHandles 0 ls (List.replicate pre.length 0 ++ [0] ++ [0])).map
      (fun h => h.loop.extent) = ls.map Loop.extent := by
    rw [← nestHandles_loops 0 ls (List.replicate pre.length 0 ++ [0] ++ [0]), List.map_map,
      nestHandles_loops]; rfl
  rw [h1, h2]
  rfl

theorem IRScheduleInjectiveCPU.fusion_shape (l : Loop) (ls : List Loop)
    (b : ScheduleBlockRealize) (rest : Block) (others : List Block)
    (hconst : ∀ x ∈ l :: ls, x.clip = none) :
    ∃ (F : Loop) (tail : List Loop) (b' : ScheduleBlockRealize) (rest' : Block),
      IRScheduleInjectiveCPU.fusion
          ⟨Block.nest (l :: ls) (.Realize b rest) :: others⟩
          ((l :: ls).map (fun x => (x.extent : Int)))
        = .ok (⟨Block.nest (F :: tail) (.Realize b' rest') :: others⟩,
            ((F :: tail).length : Int)) ∧
      b'.name = b.name ∧ F.clip = none ∧ F.for_type = .Parallel ∧
      (∀ x ∈ tail, x.clip = none) ∧ (tail = [] ↔ ls = []) ∧
      tail.getLast? = ls.getLast? ∧
      (ls = [] → F.extent = l.extent ∧ F.loop_var = l.loop_var) := by
  have hlen : ((l :: ls).map (fun x => (x.extent : Int))).length = (l :: ls).length :=
    List.length_map _ _
  have hcl : l.clip = none := hconst l (List.mem_cons_self _ _)
  by_cases h5 : 5 ≤ (l :: ls).length
  · rcases ls with _ | ⟨l2, _ | ⟨l3, tail⟩⟩
    · simp at h5
    · simp at h5
    · obtain ⟨b', rest', hrun, hname⟩ :=
        IRScheduleInjectiveCPU.fusion_high l l2 l3 tail b rest others
          ((l :: l2 :: l3 :: tail).map (fun x => (x.extent : Int)))
          (by rw [hlen]; exact h5) hconst
      have htl : tail ≠ [] := by
        intro h; subst h; simp at h5
      refine ⟨{ l with loop_var := Fuse.var [l.loop_var, l2.loop_var, l3.loop_var],
                       extent := l.extent * (l2.extent * (l3.extent * 1)),
                       for_type := .Parallel }, tail, b', rest', ?_, hname, hcl, rfl,
        ?_, ?_, ?_, ?_⟩
      · rw [hrun]
        simp only [List.length_map, List.length_cons]
        congr 2
        push_cast
        ring
      · intro x hx
        exact hconst x (by simp only [List.mem_cons]; exact Or.inr (Or.inr (Or.inr hx)))
      · simp [htl]
      · rcases tail with _ | ⟨t, ts⟩
        · exact absurd rfl htl
        · simp [List.getLast?_cons_cons]
      · intro h; simp at h
  · by_cases h3 : 3 ≤ (l :: ls).length
    · rcases ls with _ | ⟨l2, tail⟩
      · simp at h3
      · obtain ⟨b', rest', hrun, hname⟩ :=
          IRScheduleInjectiveCPU.fusion_mid l l2 tail b rest others
            ((l :: l2 :: tail).map (fun x => (x.extent : Int)))
            (by rw [hlen]; exact h3) (by rw [hlen]; omega) hconst
        have htl : tail ≠ [] := by
          intro h; subst h; simp at h3
        refine ⟨{ l with loop_var := Fuse.var [l.loop_var, l2.loop_var],
                         extent := l.extent * (l2.extent * 1),
                         for_type := .Parallel }, tail, b', rest', ?_, hname, hcl, rfl,
          ?_, ?_, ?_, ?_⟩
        · rw [hrun]
          simp only [List.length_map, List.length_cons]
          congr 2
          push_cast
          ring
        · intro x hx
          exact hconst x (by simp only [List.mem_cons]; exact Or.inr (Or.inr hx))
        · simp [htl]
        · rcases tail with _ | ⟨t, ts⟩
          · exact absurd rfl htl
          · simp [List.getLast?_cons_cons]
        · intro h; simp at h
    · have hrun := IRScheduleInjectiveCPU.fusion_low l ls b rest others
          ((l :: ls).map (fun x => (x.extent : Int))) (by rw [hlen]; omega)
      refine ⟨{ l with for_type := .Parallel }, ls, b, rest, ?_, rfl, hcl, rfl, ?_, Iff.rfl,
        rfl, ?_⟩
      · rw [hrun]
        simp only [List.length_map, List.length_cons]
      · intro x hx
        exact hconst x (List.mem_cons_of_mem _ hx)
      · intro _; exact ⟨rfl, rfl⟩

theorem Block.nest_append (X : Block) (x : Loop) : ∀ (pre : List Loop),
    Block.nest (pre ++ [x]) X = Block.nest pre (.For x X .nil) := by
  intro pre
  induction pre with
  | nil => rfl
  | cons l pre ih =>
    simp only [List.cons_append, Block.nest]
    rw [show pre.append [x] = pre ++ [x] from rfl, ih]

theorem ceilDiv_of_dvd (E T : Nat) (hT : 1 ≤ T) (h : T ∣ E) : ceilDiv E T * T = E := by
  obtain ⟨k, rfl⟩ := h
  unfold ceilDiv
  have : (T * k + T - 1) / T = k := by
    have e : T * k + T - 1 = (T - 1) + T * k := by omega
    rw [e, Nat.add_mul_div_left _ _ (by omega : 0 < T)]
    have : (T - 1) / T = 0 := Nat.div_eq_of_lt (by omega)
    omega
  rw [this, Nat.mul_comm]

theorem IRSchedule.MutateForType_nest_second (pre : List Loop) (O I : Loop)
    (body rest : Block) (others : List Block) (for_type : ForType) (factor : Int)
    (hc : I.clip = none) :
    IRSchedule.MutateForType ⟨Block.nest pre (.For O (.For I body rest) .nil) :: others⟩
        ⟨0, List.replicate pre.length 0 ++ [0] ++ [0], I⟩ for_type factor
      = .ok ⟨Block.nest pre (.For O (.For { I with
                for_type := for_type
                vectorize_factor := if for_type = .Vectorized then some factor
                  else I.vectorize_factor } body rest) .nil) :: others⟩ := by
  have h := IRSchedule.MutateForType_nest (pre ++ [O]) I body rest others for_type factor hc
  simp only [Block.nest_append, List.length_append, List.length_cons, List.length_nil,
    Nat.zero_add, List.replicate_succ'] at h
  exact h

/-- Claim C11: for every output shape of rank at least 1 whose first block has one loop per
dimension, with `vectorizable = true` and a vectorize factor that is positive and divides
the extent of the innermost loop, the loop that `IRScheduleInjectiveCPU` splits by
`{-1, factor}` is the innermost loop `last` of the block after fusion (index `dims - 1`, the
nest after fusion being `pre ++ [last]` with `dims = pre.length + 1`); the inner loop of the
split is marked vectorized with `factor = GetVectorizeFactor(extent of last, basic factor)`
and has that extent; the outer split loop is marked parallel when the rank is 1 and keeps the
tag of the original innermost loop for every higher rank. -/
theorem IRScheduleInjectiveCPU_vectorizes_innermost (l : Loop) (ls : List Loop)
    (b : ScheduleBlockRealize) (rest : Block) (others : List Block)
    (basic_factor : Int) (GetVectorizeFactor : Int → Int → Int)
    (hconst : ∀ x ∈ l :: ls, x.clip = none)
    (hpos : 0 < GetVectorizeFactor
      (((l :: ls).getLast (List.cons_ne_nil l ls)).extent : Int) basic_factor)
    (hdvd : (GetVectorizeFactor
      (((l :: ls).getLast (List.cons_ne_nil l ls)).extent : Int) basic_factor).toNat ∣
        ((l :: ls).getLast (List.cons_ne_nil l ls)).extent) :
    ∃ (pre : List Loop) (last outer inner : Loop) (b0 b' : ScheduleBlockRealize)
      (rest0 rest' : Block),
      IRScheduleInjectiveCPU.fusion
          ⟨Block.nest (l :: ls) (.Realize b rest) :: others⟩
          ((l :: ls).map (fun x => (x.extent : Int)))
        = .ok (⟨Block.nest (pre ++ [last]) (.Realize b0 rest0) :: others⟩,
            ((pre.length : Int) + 1)) ∧
      IRScheduleInjectiveCPU ⟨Block.nest (l :: ls) (.Realize b rest) :: others⟩
          ((l :: ls).map (fun x => (x.extent : Int))) basic_factor GetVectorizeFactor true
        = .ok ⟨Block.nest (pre ++ [outer, inner]) (.Realize b' rest') :: others⟩ ∧
      b'.name = b.name ∧
      last.extent = ((l :: ls).getLast (List.cons_ne_nil l ls)).extent ∧
      (ls ≠ [] → last = (l :: ls).getLast (List.cons_ne_nil l ls)) ∧
      (pre = [] ↔ ls = []) ∧
      outer.loop_var = .split last.loop_var 0 ∧ inner.loop_var = .split last.loop_var 1 ∧
      outer.clip = none ∧ inner.clip = none ∧
      inner.for_type = .Vectorized ∧
      inner.vectorize_factor = some (GetVectorizeFactor (last.extent : Int) basic_factor) ∧
      (inner.extent : Int) = GetVectorizeFactor (last.extent : Int) basic_factor ∧
      outer.extent * inner.extent = last.extent ∧
      outer.for_type = (if ls = [] then ForType.Parallel else last.for_type) := by
  obtain ⟨F, tail, b0, rest0, hrun, hname, hFc, hFp, htc, htnil, hlast, hF1⟩ :=
    IRScheduleInjectiveCPU.fusion_shape l ls b rest others hconst
  obtain ⟨pre, L, hpl⟩ : ∃ pre L, F :: tail = pre ++ [L] :=
    ⟨(F :: tail).dropLast, (F :: tail).getLast (List.cons_ne_nil _ _),
      (List.dropLast_append_getLast _).symm⟩
  have hLmem : L ∈ F :: tail := by rw [hpl]; simp
  have hLc : L.clip = none := by
    rcases List.mem_cons.mp hLmem with h | h
    · rw [h]; exact hFc
    · exact htc L h
  have hlen : (F :: tail).length = pre.length + 1 := by rw [hpl]; simp
  have hpre : pre = [] ↔ ls = [] := by
    rw [← htnil]
    constructor
    · intro h; subst h
      have := hlen
      simp only [List.length_cons, List.length_nil] at this
      exact List.eq_nil_of_length_eq_zero (by omega)
    · intro h; subst h
      simp only [List.length_cons, List.length_nil] at hlen
      exact List.eq_nil_of_length_eq_zero (by omega)
  have hLlast : (F :: tail).getLast? = some L := by rw [hpl]; simp
  have hLE : L.extent = ((l :: ls).getLast (List.cons_ne_nil l ls)).extent ∧
      (ls ≠ [] → L = (l :: ls).getLast (List.cons_ne_nil l ls)) ∧
      (ls = [] → L = F) := by
    by_cases hls : ls = []
    · have ht : tail = [] := htnil.mpr hls
      subst hls; subst ht
      simp only [List.getLast?_singleton, Option.some.injEq] at hLlast
      subst hLlast
      exact ⟨(hF1 rfl).1, fun h => absurd rfl h, fun _ => rfl⟩
    · have ht : tail ≠ [] := fun h => hls (htnil.mp h)
      have h1 : (F :: tail).getLast? = tail.getLast? := by
        rcases tail with _ | ⟨t, ts⟩
        · exact absurd rfl ht
        · simp [List.getLast?_cons_cons]
      have h2 : (l :: ls).getLast? = ls.getLast? := by
        rcases ls with _ | ⟨t, ts⟩
        · exact absurd rfl hls
        · simp [List.getLast?_cons_cons]
      have h3 : (l :: ls).getLast? = some L := by rw [h2, ← hlast, ← h1, hLlast]
      rw [List.getLast?_eq_getLast _ (List.cons_ne_nil l ls)] at h3
      simp only [Option.some.injEq] at h3
      exact ⟨by rw [h3], fun _ => h3.symm, fun h => absurd h hls⟩
  rw [← hLE.1] at hpos hdvd
  generalize hT : (GetVectorizeFactor (L.extent : Int) basic_factor).toNat = T at hdvd
  have hTf : GetVectorizeFactor (L.extent : Int) basic_factor = (T : Int) := by
    rw [← hT, Int.toNat_of_nonneg (le_of_lt hpos)]
  have hT1 : 1 ≤ T := by
    have : (0 : Int) < (T : Int) := by rw [← hTf]; exact hpos
    omega
  have hloops := GetLoops_nest_head b0 rest0 F tail others
  rw [hpl] at hrun hloops
  have hblocks : (ModuleExpr.mk
        (Block.nest (pre ++ [L]) (.Realize b0 rest0) :: others)).GetAllBlocks
      = b0 :: (rest0.GetAllBlocks ++ others.flatMap Block.GetAllBlocks) := by
    simp [ModuleExpr.GetAllBlocks, Block.nest_GetAllBlocks, Block.GetAllBlocks]
  have hget := nestHandles_getElem 0 pre L []
  have hres := Split.resolve_two L.extent T hT1
  have hnc : decide (L.extent < [ceilDiv L.extent T, T].prod) = false := by
    simp only [List.prod_cons, List.prod_nil, Nat.mul_one, ceilDiv_of_dvd _ _ hT1 hdvd,
      Nat.lt_irrefl, decide_False]
  have hsplit := IRSchedule.Split_nest pre L [-1, (T : Int)] _ (.Realize b0 rest0) others
    hLc hres
  rw [hnc, ← Block.nest_append] at hsplit
  have hd1 : ¬ ((pre.length : Int) + 1 - 1 < 0) := by omega
  have hd2 : ((pre.length : Int) + 1 - 1).toNat = pre.length := by omega
  have hrun' : IRScheduleInjectiveCPU.fusion
          ⟨Block.nest (l :: ls) (.Realize b rest) :: others⟩
          ((l :: ls).map (fun x => (x.extent : Int)))
        = .ok (⟨Block.nest (pre ++ [L]) (.Realize b0 rest0) :: others⟩,
            ((pre.length : Int) + 1)) := by
    rw [hrun]; simp
  simp only [IRScheduleInjectiveCPU, hrun', bind, Except.bind, hblocks, vectorAt,
    List.getElem?_cons_zero, hloops, hd1, if_false, hd2, hget, GetLoopExtent, hTf, hsplit,
    if_true, pure, Except.pure]
  simp only [Split.nest, Block.chain, List.length_cons, List.length_nil,
    List.map_cons, List.map_nil, List.getElem?_cons_succ, List.getElem?_cons_zero,
    Bool.false_eq_true, if_false, Block.subst, IRSchedule.Vectorize,
    IRSchedule.MutateForType_nest_second, if_true, Nat.zero_add]
  have hmul : ceilDiv L.extent T * T = L.extent := ceilDiv_of_dvd _ _ hT1 hdvd
  generalize hσ : [(L.loop_var, Split.index L.loop_var [ceilDiv L.extent T, T] 0 (.IntImm 0))]
    = σ
  by_cases hp : pre = []
  · have hls : ls = [] := hpre.mp hp
    subst hp
    simp only [List.length_nil, Nat.cast_zero, Int.zero_add, if_true,
      List.replicate_zero, List.nil_append, Block.nest, Replace_head_parallel]
    exact ⟨[], L,
      { L with loop_var := .split L.loop_var 0, extent := ceilDiv L.extent T, clip := none, for_type := .Parallel },
      { L with loop_var := .split L.loop_var 1, extent := T, clip := none, for_type := .Vectorized, vectorize_factor := some (T : Int) },
      b0, { b0 with iter_values := b0.iter_values.map (Expr.subst σ) }, rest0, rest0.subst σ,
      rfl, rfl, hname, hLE.1, hLE.2.1, hpre, rfl, rfl,
      rfl, rfl, rfl, by rw [hTf], hTf.symm, hmul, by rw [if_pos hls]⟩
  · have hls : ¬ ls = [] := fun h => hp (hpre.mpr h)
    have hd : ¬ ((pre.length : Int) + 1 = 1) := by
      intro h
      have : pre.length = 0 := by omega
      exact hp (List.eq_nil_of_length_eq_zero this)
    simp only [hd, if_false]
    refine ⟨pre, L,
      { L with loop_var := .split L.loop_var 0, extent := ceilDiv L.extent T, clip := none },
      { L with loop_var := .split L.loop_var 1, extent := T, clip := none, for_type := .Vectorized, vectorize_factor := some (T : Int) },
      b0, { b0 with iter_values := b0.iter_values.map (Expr.subst σ) }, rest0, rest0.subst σ,
      rfl, ?_, hname, hLE.1, hLE.2.1, hpre, rfl, rfl,
      rfl, rfl, rfl, by rw [hTf], hTf.symm, hmul, by rw [if_neg hls]⟩
    rw [show ∀ (x y : Loop), pre ++ [x, y] = (pre ++ [x]) ++ [y] from fun x y => by simp,
      Block.nest_append, Block.nest_append]

/-- Instance of claim C11: for the shape `[4, 16]` with basic factor 8 the innermost loop of
extent 16 is split into an outer serial loop of extent 2 and an inner loop of extent 8
vectorized with factor 8, below the parallel loop of extent 4. -/
theorem IRScheduleInjectiveCPU_vectorizes_innermost_witness :
    ((IRScheduleInjectiveCPU
        ⟨[Block.nest [{ loop_var := .named "i", extent := 4 },
                      { loop_var := .named "j", extent := 16 }]
            (.Realize { name := "Out", iter_values :=
              [._Var_ (.named "i"), ._Var_ (.named "j")] } .nil)]⟩
        [4, 16] 8 (fun shape factor => if shape % factor = 0 then factor else 1) true
      >>= fun m => m.GetLoopsByName "Out").map
        (fun hs => hs.map (fun h =>
          (h.loop.extent, h.loop.for_type, h.loop.vectorize_factor))))
      = .ok [(4, ForType.Parallel, none), (2, ForType.Serial, none),
             (8, ForType.Vectorized, some 8)] ∧
    ∃ (pre : List Loop) (outer inner : Loop) (b' : ScheduleBlockRealize) (rest' : Block),
      IRScheduleInjectiveCPU
        ⟨[Block.nest [{ loop_var := .named "i", extent := 4 },
                      { loop_var := .named "j", extent := 16 }]
            (.Realize { name := "Out", iter_values :=
              [._Var_ (.named "i"), ._Var_ (.named "j")] } .nil)]⟩
        [4, 16] 8 (fun shape factor => if shape % factor = 0 then factor else 1) true
        = .ok ⟨[Block.nest (pre ++ [outer, inner]) (.Realize b' rest')]⟩ ∧
      inner.for_type = .Vectorized ∧ inner.vectorize_factor = some 8 ∧
      outer.extent * inner.extent = 16 ∧ outer.for_type = .Serial := by
  refine ⟨by rfl, ?_⟩
  obtain ⟨pre, last, outer, inner, b0, b', rest0, rest', _, hrun, _, hE, hlast, _, _, _, _, _,
      hv, hf, _, hmul, hot⟩ :=
    IRScheduleInjectiveCPU_vectorizes_innermost { loop_var := .named "i", extent := 4 }
      [{ loop_var := .named "j", extent := 16 }]
      { name := "Out", iter_values := [._Var_ (.named "i"), ._Var_ (.named "j")] } .nil []
      8 (fun shape factor => if shape % factor = 0 then factor else 1)
      (by decide) (by decide) (by decide)
  have hl := hlast (by simp)
  simp only [List.getLast_cons_cons, List.getLast_singleton] at hE hl
  refine ⟨pre, outer, inner, b', rest', hrun, hv, ?_, ?_, ?_⟩
  · rw [hf, hE]; rfl
  · rw [hmul, hE]
  · rw [hot, hl]; rfl

theorem IRCudaScheduleReduce.threads_eq (A : List Int) : ∀ (B C : List Int) (acc : Int),
    IRCudaScheduleReduce.threads (A ++ B ++ C) B.length
        ((A.length : Int) + (B.length : Int) - 1) acc
      = .ok (B.reverse.foldl (fun a d => int32 (a * d)) acc) := by
  intro B
  induction B using List.reverseRecOn with
  | nil => intro C acc; rfl
  | append_singleton B d ih =>
    intro C acc
    have hidx : ¬ ((A.length : Int) + ((B ++ [d]).length : Int) - 1 < 0) := by
      simp only [List.length_append, List.length_singleton]; omega
    have hnat : ((A.length : Int) + ((B ++ [d]).length : Int) - 1).toNat
        = A.length + B.length := by
      simp only [List.length_append, List.length_singleton]; omega
    have hget : (A ++ (B ++ [d]) ++ C)[A.length + B.length]? = some d := by
      rw [show A ++ (B ++ [d]) ++ C = (A ++ B) ++ (d :: C) by simp,
        List.getElem?_append_right (by simp)]
      simp
    have hstep : (A.length : Int) + ((B ++ [d]).length : Int) - 1 - 1
        = (A.length : Int) + (B.length : Int) - 1 := by
      simp only [List.length_append, List.length_singleton]; push_cast; ring
    have hl : (B ++ [d]).length = B.length + 1 := by simp
    rw [hl]
    simp only [IRCudaScheduleReduce.threads, vectorAtInt, vectorAt]
    rw [hl] at hidx hnat hstep
    simp only [hidx, if_false, hnat, hget, hstep]
    rw [show A ++ (B ++ [d]) ++ C = A ++ B ++ ([d] ++ C) by simp, ih]
    simp

theorem IRCudaScheduleReduce.threads_prod (A B : List Int) (h1 : -(2 ^ 31) ≤ B.prod)
    (h2 : B.prod < 2 ^ 31) :
    IRCudaScheduleReduce.threads (A ++ B) B.length
        ((A.length : Int) + (B.length : Int) - 1) 1 = .ok B.prod := by
  have h := IRCudaScheduleReduce.threads_eq A B [] 1
  rw [List.append_nil] at h
  rw [h, prod_size_eq B.reverse (by rwa [List.prod_reverse]) (by rwa [List.prod_reverse]),
    List.prod_reverse]

theorem GetAllBlocks_single (ls : List Loop) (b : ScheduleBlockRealize) :
    (ModuleExpr.mk [Block.nest ls (.Realize b .nil)]).GetAllBlocks = [b] := by
  simp [ModuleExpr.GetAllBlocks, Block.nest_GetAllBlocks, Block.GetAllBlocks]

theorem GetLoops_nest (b : ScheduleBlockRealize) (rest : Block) (ls : List Loop)
    (others : List Block) :
    (ModuleExpr.mk (Block.nest ls (.Realize b rest) :: others)).GetLoops b
      = .ok (nestHandles 0 ls [0]) := by
  cases ls with
  | nil => simp [ModuleExpr.GetLoops, ModuleExpr.GetLoopsByName, GetLoopsIn, Block.nest,
      Block.GetLoops, nestHandles]
  | cons l ls => exact GetLoops_nest_head b rest l ls others

theorem vectorAtInt_nestHandles (pre : List Loop) (L : Loop) (post : List Loop) :
    vectorAtInt (nestHandles 0 (pre ++ L :: post) [0]) (pre.length : Int)
      = .ok ⟨0, List.replicate pre.length 0 ++ [0], L⟩ := by
  have h : ¬ ((pre.length : Int) < 0) := by omega
  simp only [vectorAtInt, h, if_false, vectorAt, Int.toNat_ofNat, nestHandles_getElem]

theorem Block.nest_nest (X : Block) (post : List Loop) : ∀ (pre : List Loop),
    Block.nest (pre ++ post) X = Block.nest pre (Block.nest post X) := by
  intro pre
  induction pre with
  | nil => rfl
  | cons l pre ih =>
    simp only [List.cons_append, Block.nest]
    rw [show pre.append post = pre ++ post from rfl, ih]

theorem Block.subst_nest_header (σ : List (Var × Expr)) (body : Block) :
    ∀ (ls : List Loop), ∃ ls', (Block.nest ls body).subst σ = Block.nest ls' (body.subst σ) ∧
      ls'.map Loop.header = ls.map Loop.header := by
  intro ls
  induction ls with
  | nil => exact ⟨[], rfl, rfl⟩
  | cons l ls ih =>
    obtain ⟨ls', h1, h2⟩ := ih
    refine ⟨{ l with clip := l.clip.map (Expr.subst σ) } :: ls', ?_, ?_⟩
    · simp only [Block.nest, Block.subst, h1]
    · simp only [List.map_cons, h2, Loop.header, Option.isSome_map']

theorem Block.freeOf_nest (axis : String) (X : Block) : ∀ (ls : List Loop),
    (∀ l ∈ ls, l.bind_axis ≠ some axis) → X.freeOf axis = true →
    (Block.nest ls X).freeOf axis = true := by
  intro ls
  induction ls with
  | nil => intro _ h; exact h
  | cons l ls ih =>
    intro h hX
    simp only [Block.nest, Block.freeOf, Bool.and_eq_true, decide_eq_true_eq, and_true]
    exact ⟨h l (List.mem_cons_self _ _), ih (fun x hx => h x (List.mem_cons_of_mem _ hx)) hX⟩

theorem IRCudaScheduleReduce.fuseAt_step (pre : List Loop) (l1 l2 : Loop)
    (post : List Loop) (b : ScheduleBlockRealize)
    (h1 : l1.clip = none) (h2 : l2.clip = none) :
    ∃ (F : Loop) (post' : List Loop) (b' : ScheduleBlockRealize),
      IRCudaScheduleReduce.fuseAt (pre.length : Int)
          ⟨[Block.nest (pre ++ l1 :: l2 :: post) (.Realize b .nil)]⟩
        = .ok ⟨[Block.nest (pre ++ F :: post') (.Realize b' .nil)]⟩ ∧
      F.extent = l1.extent * l2.extent ∧ F.clip = none ∧ F.for_type = l1.for_type ∧
      F.bind_axis = l1.bind_axis ∧ post'.map Loop.header = post.map Loop.header ∧
      b'.name = b.name := by
  have hc : ∀ x ∈ l1 :: [l2], x.clip = none := by
    intro x hx
    simp only [List.mem_cons, List.mem_singleton, List.not_mem_nil, or_false] at hx
    rcases hx with h | h
    · rw [h]; exact h1
    · rw [h]; exact h2
  have hfuse := IRSchedule.Fuse_in_nest pre l1 [l2] (Block.nest post (.Realize b .nil)) [] hc
  obtain ⟨post', hsub, hhdr⟩ := Block.subst_nest_header
    (Fuse.index ((l1 :: [l2]).map (fun x => (x.loop_var, x.extent)))
      (._Var_ (Fuse.var ((l1 :: [l2]).map Loop.loop_var)))).1 (.Realize b .nil) post
  rw [hsub] at hfuse
  have hg1 := vectorAtInt_nestHandles pre l1 (l2 :: post)
  have hg2 := vectorAtInt_nestHandles (pre ++ [l1]) l2 post
  simp only [List.length_append, List.length_singleton, List.append_assoc,
    List.singleton_append, Nat.cast_add, Nat.cast_one, List.replicate_succ'] at hg2
  have hm : Block.nest (pre ++ l1 :: l2 :: post) (.Realize b .nil)
      = Block.nest pre (Block.nest (l1 :: [l2]) (Block.nest post (.Realize b .nil))) := by
    rw [← Block.nest_nest, ← Block.nest_nest]; simp
  simp only [nestHandles, List.append_assoc, List.cons_append, List.nil_append] at hfuse
  simp only [IRCudaScheduleReduce.fuseAt, GetAllBlocks_single, vectorBack,
    List.getLast?_singleton, bind, Except.bind, GetLoops_nest, hg1, hg2]
  rw [hm, hfuse]
  generalize (Fuse.index ((l1 :: [l2]).map (fun x => (x.loop_var, x.extent)))
      (._Var_ (Fuse.var ((l1 :: [l2]).map Loop.loop_var)))).1 = σ
  refine ⟨{ l1 with loop_var := Fuse.var ((l1 :: [l2]).map Loop.loop_var), extent := ((l1 :: [l2]).map Loop.extent).prod },
    post', { b with iter_values := b.iter_values.map (Expr.subst σ) }, ?_, ?_, h1, rfl, rfl,
    hhdr, rfl⟩
  · simp only [pure, Except.pure, Block.subst]
    rw [show ∀ (x : Loop), pre ++ x :: post' = pre ++ ([x] ++ post') from fun x => rfl,
      Block.nest_nest, Block.nest_nest]
    rfl
  · simp

theorem header_map {α : Type} (g : Nat × ForType × Option String × Bool → α)
    (ls' ls : List Loop) (h : ls'.map Loop.header = ls.map Loop.header) :
    ls'.map (fun x => g x.header) = ls.map (fun x => g x.header) := by
  have := congrArg (List.map g) h
  simpa [List.map_map, Function.comp] using this

theorem header_extent (ls' ls : List Loop) (h : ls'.map Loop.header = ls.map Loop.header) :
    ls'.map Loop.extent = ls.map Loop.extent :=
  header_map (fun t => t.1) ls' ls h

theorem header_all (P : Nat × ForType × Option String × Bool → Prop)
    (ls' ls : List Loop) (h : ls'.map Loop.header = ls.map Loop.header)
    (hP : ∀ x ∈ ls, P x.header) : ∀ x ∈ ls', P x.header := by
  intro x hx
  have : x.header ∈ ls'.map Loop.header := List.mem_map_of_mem _ hx
  rw [h, List.mem_map] at this
  obtain ⟨y, hy, he⟩ := this
  rw [← he]; exact hP y hy

theorem header_clip (ls' ls : List Loop) (h : ls'.map Loop.header = ls.map Loop.header)
    (hc : ∀ x ∈ ls, x.clip = none) : ∀ x ∈ ls', x.clip = none := by
  intro x hx
  have := header_all (fun t => t.2.2.2 = false) ls' ls h
    (fun y hy => by simp [Loop.header, hc y hy]) x hx
  simpa [Loop.header] using this

theorem IRCudaScheduleReduce.fuse_run (pre : List Loop) : ∀ (n : Nat) (mid : List Loop)
    (l : Loop) (tl : List Loop) (b : ScheduleBlockRealize),
    mid.length = n → l.clip = none → (∀ x ∈ mid, x.clip = none) →
    ∃ (F : Loop) (tl' : List Loop) (b' : ScheduleBlockRealize),
      forLoop n (IRCudaScheduleReduce.fuseAt (pre.length : Int))
          ⟨[Block.nest (pre ++ l :: (mid ++ tl)) (.Realize b .nil)]⟩
        = .ok ⟨[Block.nest (pre ++ F :: tl') (.Realize b' .nil)]⟩ ∧
      F.extent = l.extent * (mid.map Loop.extent).prod ∧ F.clip = none ∧
      F.for_type = l.for_type ∧ F.bind_axis = l.bind_axis ∧
      tl'.map Loop.header = tl.map Loop.header ∧ b'.name = b.name := by
  intro n
  induction n with
  | zero =>
    intro mid l tl b hlen hl _
    have : mid = [] := List.eq_nil_of_length_eq_zero hlen
    subst this
    exact ⟨l, tl, b, rfl, by simp, hl, rfl, rfl, rfl, rfl⟩
  | succ n ih =>
    intro mid l tl b hlen hl hmid
    rcases mid with _ | ⟨l2, mid'⟩
    · simp at hlen
    · have hl2 : l2.clip = none := hmid l2 (List.mem_cons_self _ _)
      obtain ⟨F1, post', b1, hstep, hE1, hc1, hf1, hb1, hhdr, hn1⟩ :=
        IRCudaScheduleReduce.fuseAt_step pre l l2 (mid' ++ tl) b hl hl2
      rw [List.map_append] at hhdr
      obtain ⟨mid'', tl'', hsplit, hm, ht⟩ := List.map_eq_append_iff.mp hhdr
      subst hsplit
      have hlen'' : mid''.length = n := by
        have := congrArg List.length hm
        simp only [List.length_map] at this
        simp only [List.length_cons] at hlen
        omega
      have hmid'' : ∀ x ∈ mid'', x.clip = none :=
        header_clip mid'' mid' hm (fun x hx => hmid x (List.mem_cons_of_mem _ hx))
      obtain ⟨F, tl', b', hrun, hE, hc, hf, hb, hh, hn⟩ := ih mid'' F1 tl'' b1 hlen'' hc1 hmid''
      refine ⟨F, tl', b', ?_, ?_, hc, hf.trans hf1, hb.trans hb1, hh.trans ht, hn.trans hn1⟩
      · simp only [forLoop, List.cons_append]
        rw [hstep]
        exact hrun
      · rw [hE, hE1, header_extent mid'' mid' hm, List.map_cons, List.prod_cons, Nat.mul_assoc]

theorem ok_bind_eq {ε α β : Type} (a : α) (f : α → Except ε β) :
    (Except.ok a >>= f) = f a := rfl

theorem Block.nest_two (pre : List Loop) (A B : Loop) (X : Block) :
    Block.nest pre (.For A (.For B X .nil) .nil) = Block.nest (pre ++ [A, B]) X := by
  rw [show pre ++ [A, B] = (pre ++ [A]) ++ [B] by simp, Block.nest_append, Block.nest_append]

theorem IRSchedule.Bind_nest_second (pre : List Loop) (O I : Loop) (body rest : Block)
    (others : List Block) (axis : String) (ft : ForType) (hft : axisForType axis = some ft)
    (hpre : ∀ l ∈ pre, l.bind_axis ≠ some axis) (hO : O.bind_axis ≠ some axis)
    (hbody : body.freeOf axis = true) (hrest : rest.freeOf axis = true) :
    IRSchedule.Bind ⟨Block.nest pre (.For O (.For I body rest) .nil) :: others⟩
        ⟨0, List.replicate pre.length 0 ++ [0] ++ [0], I⟩ axis
      = .ok ⟨Block.nest pre (.For O (.For { I with for_type := ft, bind_axis := some axis }
          body rest) .nil) :: others⟩ := by
  have h := IRSchedule.Bind_nest (pre ++ [O]) I body rest others axis ft hft
    (by
      intro x hx
      simp only [List.mem_append, List.mem_singleton] at hx
      rcases hx with h | h
      · exact hpre x h
      · rw [h]; exact hO)
    hbody hrest
  simp only [Block.nest_append, List.length_append, List.length_cons, List.length_nil,
    Nat.zero_add, List.replicate_succ'] at h
  exact h

theorem IRCudaScheduleReduce.bindThread_small (pre : List Loop) (F : Loop)
    (b : ScheduleBlockRealize) (ptn : Int) (hsmall : ¬ ptn > 1024)
    (hpre : ∀ x ∈ pre, x.bind_axis ≠ some "threadIdx.x") :
    IRCudaScheduleReduce.bindThread ⟨[Block.nest (pre ++ [F]) (.Realize b .nil)]⟩
        (pre.length : Int) ptn
      = .ok ⟨[Block.nest (pre ++ [{ F with for_type := .GPUThread, bind_axis := some "threadIdx.x" }]) (.Realize b .nil)]⟩ := by
  unfold IRCudaScheduleReduce.bindThread
  dsimp only
  rw [if_neg hsmall, GetAllBlocks_single, vectorBack]
  simp only [List.getLast?_singleton]
  rw [ok_bind_eq, GetLoops_nest, ok_bind_eq, vectorAtInt_nestHandles, ok_bind_eq,
    Block.nest_append, IRSchedule.Bind_nest pre F _ _ _ "threadIdx.x" .GPUThread (by decide)
      hpre (by rfl) (by rfl), Block.nest_append]

theorem IRCudaScheduleReduce.bindThread_big (pre : List Loop) (F : Loop)
    (b : ScheduleBlockRealize) (ptn : Int) (hbig : ptn > 1024)
    (hpre : ∀ x ∈ pre, x.bind_axis ≠ some "threadIdx.x") (hFc : F.clip = none)
    (hFb : F.bind_axis ≠ some "threadIdx.x") :
    ∃ (O I : Loop) (b' : ScheduleBlockRealize),
      IRCudaScheduleReduce.bindThread ⟨[Block.nest (pre ++ [F]) (.Realize b .nil)]⟩
          (pre.length : Int) ptn
        = .ok ⟨[Block.nest (pre ++ [O, I]) (.Realize b' .nil)]⟩ ∧
      b'.name = b.name ∧
      O.extent = ceilDiv F.extent 1024 ∧ O.for_type = F.for_type ∧
      O.bind_axis = F.bind_axis ∧ O.clip = none ∧
      I.extent = 1024 ∧ I.for_type = .GPUThread ∧ I.bind_axis = some "threadIdx.x" := by
  have hres := Split.resolve_two F.extent 1024 (by norm_num)
  have hsplit := IRSchedule.Split_nest pre F [-1, ((1024 : Nat) : Int)] _ (.Realize b .nil) []
    hFc hres
  rw [← Block.nest_append] at hsplit
  simp only [Nat.cast_ofNat] at hsplit
  generalize hσ : [(F.loop_var, Split.index F.loop_var [ceilDiv F.extent 1024, 1024] 0
    (.IntImm 0))] = σ at hsplit
  generalize hcl : decide (F.extent < [ceilDiv F.extent 1024, 1024].prod) = clipped at hsplit
  unfold IRCudaScheduleReduce.bindThread
  dsimp only
  rw [if_pos hbig, GetAllBlocks_single, vectorBack]
  simp only [List.getLast?_singleton]
  rw [ok_bind_eq, GetLoops_nest, ok_bind_eq, vectorAtInt_nestHandles, ok_bind_eq, hsplit,
    ok_bind_eq]
  simp only [Split.nest, Block.chain, List.length_cons, List.length_nil, List.map_cons,
    List.map_nil, vectorAt, List.getElem?_cons_succ, List.getElem?_cons_zero, Block.subst,
    Nat.zero_add]
  rw [ok_bind_eq, IRSchedule.Bind_nest_second pre
    { F with loop_var := .split F.loop_var 0, extent := ceilDiv F.extent 1024, clip := none }
    _ _ _ _ "threadIdx.x" .GPUThread (by decide) hpre hFb (by rfl) (by rfl)]
  rw [Block.nest_two]
  exact ⟨_, _, _, rfl, rfl, rfl, rfl, rfl, rfl, rfl, rfl, rfl⟩

theorem IRCudaScheduleReduce.bindBlock_run (pre tl : List Loop) (b : ScheduleBlockRealize)
    (hprec : ∀ x ∈ pre, x.clip = none)
    (htl : ∀ x ∈ tl, x.bind_axis ≠ some "blockIdx.x")
    (hlen : (pre.length : Int) < 2 ^ 31) :
    ∃ (lead tl' : List Loop) (b' : ScheduleBlockRealize),
      IRCudaScheduleReduce.bindBlock ⟨[Block.nest (pre ++ tl) (.Realize b .nil)]⟩
          (pre.length : Int)
        = .ok ⟨[Block.nest (lead ++ tl') (.Realize b' .nil)]⟩ ∧
      b'.name = b.name ∧ tl'.map Loop.header = tl.map Loop.header ∧
      lead.map (fun x => (x.extent, x.for_type, x.bind_axis))
        = (if pre = [] then []
           else [((pre.map Loop.extent).prod, ForType.GPUBlock, some "blockIdx.x")]) := by
  have i4 : int32 ((pre.length : Int) - 1) = (pre.length : Int) - 1 :=
    int32_of_range _ (by omega) (by omega)
  unfold IRCudaScheduleReduce.bindBlock
  rw [i4]
  rcases pre with _ | ⟨p0, prest⟩
  · have h0 : ¬ (((([] : List Loop).length : Nat) : Int) > 0) := by simp
    have c0 : (((([] : List Loop).length : Nat) : Int) - 1).toNat = 0 := by simp
    rw [c0]
    simp only [forLoop]
    rw [ok_bind_eq, if_neg h0]
    exact ⟨[], tl, b, rfl, rfl, rfl, rfl⟩
  · have h0 : ((((p0 :: prest).length : Nat) : Int) > 0) := by
      simp only [List.length_cons]; omega
    have c0 : ((((p0 :: prest).length : Nat) : Int) - 1).toNat = prest.length := by
      simp only [List.length_cons]; omega
    obtain ⟨G, tl', b', hrun, hGE, hGc, hGt, hGb, hh, hn⟩ :=
      IRCudaScheduleReduce.fuse_run [] prest.length prest p0 tl b rfl
        (hprec p0 (List.mem_cons_self _ _))
        (fun x hx => hprec x (List.mem_cons_of_mem _ hx))
    simp only [List.length_nil, Nat.cast_zero, List.nil_append] at hrun
    have htl' : ∀ x ∈ tl', x.bind_axis ≠ some "blockIdx.x" := by
      intro x hx
      have := header_all (fun t => t.2.2.1 ≠ some "blockIdx.x") tl' tl hh
        (fun y hy => by simpa [Loop.header] using htl y hy) x hx
      simpa [Loop.header] using this
    have hget := vectorAtInt_nestHandles [] G tl'
    simp only [List.length_nil, Nat.cast_zero, List.nil_append, List.replicate_zero] at hget
    have hbind := IRSchedule.Bind_nest [] G (Block.nest tl' (.Realize b' .nil)) .nil []
      "blockIdx.x" .GPUBlock (by decide) (by simp)
      (Block.freeOf_nest _ _ tl' htl' (by rfl)) (by rfl)
    simp only [List.length_nil, List.nil_append, List.replicate_zero, Block.nest] at hbind
    rw [c0, List.cons_append, hrun, ok_bind_eq, if_pos h0]
    dsimp only
    rw [GetAllBlocks_single, vectorBack]
    simp only [List.getLast?_singleton]
    rw [ok_bind_eq, GetLoops_nest, ok_bind_eq, hget, ok_bind_eq]
    simp only [Block.nest]
    rw [hbind]
    refine ⟨[{ G with for_type := .GPUBlock, bind_axis := some "blockIdx.x" }], tl', b', rfl, hn,
      hh, ?_⟩
    simp [hGE]

theorem IRCudaScheduleReduce_result (pre : List Loop) (l : Loop) (post : List Loop)
    (b : ScheduleBlockRealize)
    (hconst : ∀ x ∈ pre ++ l :: post, x.clip = none)
    (hfree : ∀ x ∈ pre ++ l :: post, x.bind_axis = none)
    (hP31 : ((l :: post).map Loop.extent).prod < 2 ^ 31)
    (hn31 : (pre ++ l :: post).length < 2 ^ 31) :
    ∃ (loops' : List Loop) (b' : ScheduleBlockRealize),
      IRCudaScheduleReduce ⟨[Block.nest (pre ++ l :: post) (.Realize b .nil)]⟩
          ((pre ++ l :: post).map (fun x => (x.extent : Int))) ((post.length : Int) + 1)
        = .ok ⟨[Block.nest loops' (.Realize b' .nil)]⟩ ∧
      b'.name = b.name ∧
      loops'.map (fun x => (x.extent, x.for_type, x.bind_axis))
        = (if pre = [] then []
           else [((pre.map Loop.extent).prod, ForType.GPUBlock, some "blockIdx.x")]) ++
          (if 1024 < ((l :: post).map Loop.extent).prod then
            [(ceilDiv ((l :: post).map Loop.extent).prod 1024, l.for_type, none),
             (1024, ForType.GPUThread, some "threadIdx.x")]
           else [(((l :: post).map Loop.extent).prod, ForType.GPUThread,
                  some "threadIdx.x")]) := by
  have hlc : l.clip = none := hconst l (by simp)
  have hpostc : ∀ x ∈ post, x.clip = none := fun x hx => hconst x (by simp [hx])
  have hprec : ∀ x ∈ pre, x.clip = none := fun x hx => hconst x (by simp [hx])
  have hpref : ∀ x ∈ pre, x.bind_axis = none := fun x hx => hfree x (by simp [hx])
  have hlf : l.bind_axis = none := hfree l (by simp)
  -- the sizes
  have hsize : (((pre ++ l :: post).map (fun x => (x.extent : Int))).length : Int)
      = (pre.length : Int) + (post.length : Int) + 1 := by
    simp only [List.length_map, List.length_append, List.length_cons]; push_cast; ring
  have hn : (pre.length : Int) + (post.length : Int) + 1 < 2 ^ 31 := by
    have := hn31
    simp only [List.length_append, List.length_cons] at this
    omega
  have i1 : int32 ((pre.length : Int) + (post.length : Int) + 1 - 1)
      = (pre.length : Int) + (post.length : Int) := by
    rw [int32_of_range _ (by omega) (by omega)]; ring
  have i2 : int32 ((pre.length : Int) + (post.length : Int) + 1)
      = (pre.length : Int) + (post.length : Int) + 1 :=
    int32_of_range _ (by omega) (by omega)
  have i3 : int32 ((pre.length : Int) + (post.length : Int) + 1 - ((post.length : Int) + 1))
      = (pre.length : Int) := by
    rw [int32_of_range _ (by omega) (by omega)]; ring
  have i4 : int32 ((pre.length : Int) - 1) = (pre.length : Int) - 1 :=
    int32_of_range _ (by omega) (by omega)
  have c1 : ((pre.length : Int) + (post.length : Int) - (pre.length : Int) + 1).toNat
      = post.length + 1 := by omega
  have c2 : ((pre.length : Int) + (post.length : Int) - (pre.length : Int)).toNat
      = post.length := by omega
  have c3 : ((pre.length : Int) - 1).toNat = pre.length - 1 := by omega
  -- the thread count
  have hprod : ((l :: post).map (fun x => (x.extent : Int))).prod
      = ((((l :: post).map Loop.extent).prod : Nat) : Int) := shape_prod_cast (l :: post)
  have hthreads := IRCudaScheduleReduce.threads_prod (pre.map (fun x => (x.extent : Int)))
    ((l :: post).map (fun x => (x.extent : Int)))
    (by rw [hprod]; have : (0 : Int) ≤ ((((l :: post).map Loop.extent).prod : Nat) : Int) :=
          Int.natCast_nonneg _
        linarith)
    (by rw [hprod]; exact_mod_cast hP31)
  rw [← List.map_append, hprod] at hthreads
  simp only [List.length_map, List.length_cons] at hthreads
  have hidx : (pre.length : Int) + ((post.length + 1 : Nat) : Int) - 1
      = (pre.length : Int) + (post.length : Int) := by push_cast; ring
  rw [hidx] at hthreads
  generalize hP : ((l :: post).map Loop.extent).prod = P at hthreads hP31 ⊢
  -- phase 1
  obtain ⟨F, tl0, b1, hrun1, hFE, hFc, hFt, hFb, htl0, hb1⟩ :=
    IRCudaScheduleReduce.fuse_run pre post.length post l [] b rfl hlc hpostc
  have htl0' : tl0 = [] := by simpa using htl0
  subst htl0'
  rw [List.append_nil] at hrun1
  have hFE' : F.extent = P := by
    rw [hFE, ← hP, List.map_cons, List.prod_cons]
  have hplen : (pre.length : Int) < 2 ^ 31 := by omega
  unfold IRCudaScheduleReduce
  dsimp only
  simp only [hsize, i1, i2, i3, c1, c2]
  rw [hthreads, ok_bind_eq, GetAllBlocks_single, vectorBack]
  simp only [List.getLast?_singleton]
  rw [ok_bind_eq, GetLoops_nest, ok_bind_eq, hrun1, ok_bind_eq]
  have hpre' : ∀ x ∈ pre, x.bind_axis ≠ some "threadIdx.x" := by
    intro x hx; rw [hpref x hx]; simp
  by_cases hbig : 1024 < P
  · have hbig' : ((P : Nat) : Int) > 1024 := by omega
    obtain ⟨O, I, b2, hbt, hb2, hOE, hOt, hOb, hOc, hIE, hIt, hIb⟩ :=
      IRCudaScheduleReduce.bindThread_big pre F b1 (P : Int) hbig' hpre' hFc
        (by rw [hFb, hlf]; simp)
    obtain ⟨lead, tl', b3, hbb, hb3, hh, hlead⟩ :=
      IRCudaScheduleReduce.bindBlock_run pre [O, I] b2 hprec
        (by
          intro x hx
          simp only [List.mem_cons, List.mem_singleton, List.not_mem_nil, or_false] at hx
          rcases hx with h | h
          · rw [h, hOb, hFb, hlf]; simp
          · rw [h, hIb]; decide)
        hplen
    rw [hbt, ok_bind_eq, hbb]
    refine ⟨lead ++ tl', b3, rfl, by rw [hb3, hb2, hb1], ?_⟩
    have := header_map (fun t => (t.1, t.2.1, t.2.2.1)) tl' [O, I] hh
    simp only [Loop.header] at this
    rw [List.map_append, hlead, if_pos hbig, this]
    simp only [List.map_cons, List.map_nil, hOE, hOt, hOb, hIE, hIt, hIb, hFE', hFt, hFb, hlf]
  · have hsmall : ¬ (((P : Nat) : Int) > 1024) := by omega
    obtain ⟨lead, tl', b3, hbb, hb3, hh, hlead⟩ :=
      IRCudaScheduleReduce.bindBlock_run pre
        [{ F with for_type := .GPUThread, bind_axis := some "threadIdx.x" }] b1 hprec
        (by
          intro x hx
          simp only [List.mem_singleton] at hx
          rw [hx]; simp)
        hplen
    rw [IRCudaScheduleReduce.bindThread_small pre F b1 (P : Int) hsmall hpre', ok_bind_eq, hbb]
    refine ⟨lead ++ tl', b3, rfl, by rw [hb3, hb1], ?_⟩
    have := header_map (fun t => (t.1, t.2.1, t.2.2.1)) tl'
      [{ F with for_type := .GPUThread, bind_axis := some "threadIdx.x" }] hh
    simp only [Loop.header] at this
    rw [List.map_append, hlead, if_neg hbig, this]
    simp only [List.map_cons, List.map_nil, hFE']

/-- Counterexample to claim C12 as stated: for the output shape `[65536, 65536]` with
`last_dimension_num = 2` the product of the last two dims is `2 ^ 32`, which the `int`
`parallel_thread_num` of the code cannot hold: it wraps to 0, the test
`parallel_thread_num > 1024` fails, no split is made, and the fusion of the two loops, a loop
of extent 4294967296, is bound to `threadIdx.x`. -/
theorem IRCudaScheduleReduce_overflowing_product_binds_unsplit_loop :
    ((IRCudaScheduleReduce
        ⟨[Block.nest [{ loop_var := .named "i", extent := 65536 },
                      { loop_var := .named "j", extent := 65536 }]
            (.Realize { name := "R", iter_values :=
              [._Var_ (.named "i"), ._Var_ (.named "j")] } .nil)]⟩
        [65536, 65536] 2
      >>= fun m => m.GetLoopsByName "R").map
        (fun hs => hs.map (fun h => (h.loop.extent, h.loop.for_type, h.loop.bind_axis))))
      = .ok [(4294967296, ForType.GPUThread, some "threadIdx.x")] ∧
    int32 (65536 * 65536) = 0 ∧
    ¬ ((4294967296 : Nat) ≤ 1024) := by
  refine ⟨by rfl, by rfl, by decide⟩

/-- Claim C12, amended: for every output shape whose last `last_dimension_num` dims have a
product `P` below `2 ^ 31`, so that the `int` `parallel_thread_num` of the code holds it, and
every `last_dimension_num` between 1 and the rank (the loops of the block are
`pre ++ l :: post`, one per dimension, and `last_dimension_num` is `post.length + 1`),
`IRCudaScheduleReduce` binds exactly one loop to `threadIdx.x`; it is the innermost loop and
its extent is at most 1024: `P` when `P <= 1024`, and otherwise the inner loop of extent 1024
of the `{-1, 1024}` split of the fusion of the last dims, below an outer loop of extent
`ceil(P / 1024)`. -/
theorem IRCudaScheduleReduce_binds_one_thread_loop (pre : List Loop) (l : Loop)
    (post : List Loop) (b : ScheduleBlockRealize)
    (hconst : ∀ x ∈ pre ++ l :: post, x.clip = none)
    (hfree : ∀ x ∈ pre ++ l :: post, x.bind_axis = none)
    (hP31 : ((l :: post).map Loop.extent).prod < 2 ^ 31)
    (hn31 : (pre ++ l :: post).length < 2 ^ 31) :
    ∃ (init : List Loop) (thread : Loop) (b' : ScheduleBlockRealize),
      IRCudaScheduleReduce ⟨[Block.nest (pre ++ l :: post) (.Realize b .nil)]⟩
          ((pre ++ l :: post).map (fun x => (x.extent : Int))) ((post.length : Int) + 1)
        = .ok ⟨[Block.nest (init ++ [thread]) (.Realize b' .nil)]⟩ ∧
      b'.name = b.name ∧
      thread.bind_axis = some "threadIdx.x" ∧ thread.for_type = .GPUThread ∧
      (∀ x ∈ init, x.bind_axis ≠ some "threadIdx.x") ∧
      thread.extent = (if ((l :: post).map Loop.extent).prod ≤ 1024
        then ((l :: post).map Loop.extent).prod else 1024) ∧
      thread.extent ≤ 1024 ∧
      (1024 < ((l :: post).map Loop.extent).prod →
        ∃ (lead : List Loop) (outer : Loop), init = lead ++ [outer] ∧
          outer.extent = ceilDiv ((l :: post).map Loop.extent).prod 1024 ∧
          outer.bind_axis = none ∧
          ((l :: post).map Loop.extent).prod ≤ outer.extent * thread.extent) := by
  obtain ⟨loops', b', hrun, hname, hmap⟩ :=
    IRCudaScheduleReduce_result pre l post b hconst hfree hP31 hn31
  generalize ((l :: post).map Loop.extent).prod = P at hmap ⊢
  generalize hlead : (if pre = [] then []
      else [((pre.map Loop.extent).prod, ForType.GPUBlock, some "blockIdx.x")]) = A at hmap
  have hA : ∀ t ∈ A, t.2.2 ≠ some "threadIdx.x" := by
    intro t ht
    rw [← hlead] at ht
    split_ifs at ht
    · simp at ht
    · simp only [List.mem_singleton] at ht
      rw [ht]; simp
  by_cases hbig : 1024 < P
  · rw [if_pos hbig] at hmap
    obtain ⟨lead, tl, hsplit, hl1, hl2⟩ := List.map_eq_append_iff.mp hmap
    rcases tl with _ | ⟨o, _ | ⟨t, _ | ⟨u, more⟩⟩⟩ <;>
      first
      | (simp at hl2; done)
      | skip
    simp only [List.map_cons, List.map_nil, List.cons.injEq, Prod.mk.injEq, and_true] at hl2
    obtain ⟨⟨ho1, ho2, ho3⟩, ht1, ht2, ht3⟩ := hl2
    subst hsplit
    refine ⟨lead ++ [o], t, b', by rw [hrun]; simp, hname, ht3, ht2, ?_, ?_, ?_, ?_⟩
    · intro x hx
      simp only [List.mem_append, List.mem_singleton] at hx
      rcases hx with h | h
      · have := hA _ (by rw [← hl1]; exact List.mem_map_of_mem _ h)
        exact this
      · rw [h, ho3]; simp
    · rw [ht1, if_neg (by omega)]
    · omega
    · intro _
      refine ⟨lead, o, rfl, ho1, ho3, ?_⟩
      rw [ho1, ht1]
      exact ceilDiv_mul_ge P 1024 (by norm_num)
  · rw [if_neg hbig] at hmap
    obtain ⟨lead, tl, hsplit, hl1, hl2⟩ := List.map_eq_append_iff.mp hmap
    rcases tl with _ | ⟨t, _ | ⟨u, more⟩⟩ <;>
      first
      | (simp at hl2; done)
      | skip
    simp only [List.map_cons, List.map_nil, List.cons.injEq, Prod.mk.injEq, and_true] at hl2
    obtain ⟨ht1, ht2, ht3⟩ := hl2
    subst hsplit
    refine ⟨lead, t, b', hrun, hname, ht3, ht2, ?_, ?_, ?_, ?_⟩
    · intro x hx
      exact hA _ (by rw [← hl1]; exact List.mem_map_of_mem _ hx)
    · rw [ht1, if_pos (by omega)]
    · omega
    · intro h; exact absurd h hbig

/-- Instance of the amended claim C12: for the shape `[4, 8, 2000]` with
`last_dimension_num = 1` the last loop is split into an outer loop of extent 2 and an inner
loop of extent 1024, which alone is bound to `threadIdx.x`. -/
theorem IRCudaScheduleReduce_binds_one_thread_loop_witness :
    ((IRCudaScheduleReduce
        ⟨[Block.nest [{ loop_var := .named "i", extent := 4 },
                      { loop_var := .named "j", extent := 8 },
                      { loop_var := .named "k", extent := 2000 }]
            (.Realize { name := "R", iter_values :=
              [._Var_ (.named "i"), ._Var_ (.named "j"), ._Var_ (.named "k")] } .nil)]⟩
        [4, 8, 2000] 1
      >>= fun m => m.GetLoopsByName "R").map
        (fun hs => hs.map (fun h => (h.loop.extent, h.loop.for_type, h.loop.bind_axis))))
      = .ok [(32, ForType.GPUBlock, some "blockIdx.x"), (2, ForType.Serial, none),
             (1024, ForType.GPUThread, some "threadIdx.x")] ∧
    ∃ (init : List Loop) (thread : Loop) (b' : ScheduleBlockRealize),
      IRCudaScheduleReduce
        ⟨[Block.nest [{ loop_var := .named "i", extent := 4 },
                      { loop_var := .named "j", extent := 8 },
                      { loop_var := .named "k", extent := 2000 }]
            (.Realize { name := "R", iter_values :=
              [._Var_ (.named "i"), ._Var_ (.named "j"), ._Var_ (.named "k")] } .nil)]⟩
        [4, 8, 2000] 1
        = .ok ⟨[Block.nest (init ++ [thread]) (.Realize b' .nil)]⟩ ∧
      thread.bind_axis = some "threadIdx.x" ∧
      (∀ x ∈ init, x.bind_axis ≠ some "threadIdx.x") ∧ thread.extent = 1024 := by
  refine ⟨by rfl, ?_⟩
  obtain ⟨init, thread, b', hrun, _, hb, _, hinit, hext, _, _⟩ :=
    IRCudaScheduleReduce_binds_one_thread_loop
      [{ loop_var := .named "i", extent := 4 }, { loop_var := .named "j", extent := 8 }]
      { loop_var := .named "k", extent := 2000 } []
      { name := "R", iter_values :=
          [._Var_ (.named "i"), ._Var_ (.named "j"), ._Var_ (.named "k")] }
      (by decide) (by decide) (by decide) (by decide)
  exact ⟨init, thread, b', hrun, hb, hinit, by rw [hext]; decide⟩

/-- Counterexample to claim C13 as stated: for the shape `[1, 8]` with
`last_dimension_num = 1` the leading loop of extent 1 is bound to `blockIdx.x`, so a loop
bound to `blockIdx.x` need not have an extent greater than 1. -/
theorem IRCudaScheduleReduce_binds_block_of_extent_one :
    ((IRCudaScheduleReduce
        ⟨[Block.nest [{ loop_var := .named "i", extent := 1 },
                      { loop_var := .named "j", extent := 8 }]
            (.Realize { name := "R", iter_values :=
              [._Var_ (.named "i"), ._Var_ (.named "j")] } .nil)]⟩
        [1, 8] 1
      >>= fun m => m.GetLoopsByName "R").map
        (fun hs => hs.map (fun h => (h.loop.extent, h.loop.bind_axis))))
      = .ok [(1, some "blockIdx.x"), (8, some "threadIdx.x")] ∧
    ¬ ((1 : Nat) > 1) := by
  refine ⟨by rfl, by decide⟩

/-- Claim C13, amended: for every output shape and every `last_dimension_num` between 1 and
the rank (the loops of the block are `pre ++ l :: post`, `last_dimension_num` is
`post.length + 1`; no `int` overflow), `IRCudaScheduleReduce` binds no loop to `blockIdx.x`
when the rank equals `last_dimension_num`; otherwise it binds exactly the outermost loop to
`blockIdx.x`, and that loop is the fusion of all `rank - last_dimension_num` leading loops:
its extent is the product of the leading dims, whatever that product is. -/
theorem IRCudaScheduleReduce_block_binding (pre : List Loop) (l : Loop)
    (post : List Loop) (b : ScheduleBlockRealize)
    (hconst : ∀ x ∈ pre ++ l :: post, x.clip = none)
    (hfree : ∀ x ∈ pre ++ l :: post, x.bind_axis = none)
    (hP31 : ((l :: post).map Loop.extent).prod < 2 ^ 31)
    (hn31 : (pre ++ l :: post).length < 2 ^ 31) :
    ∃ (loops' : List Loop) (b' : ScheduleBlockRealize),
      IRCudaScheduleReduce ⟨[Block.nest (pre ++ l :: post) (.Realize b .nil)]⟩
          ((pre ++ l :: post).map (fun x => (x.extent : Int))) ((post.length : Int) + 1)
        = .ok ⟨[Block.nest loops' (.Realize b' .nil)]⟩ ∧
      b'.name = b.name ∧
      (pre = [] → ∀ x ∈ loops', x.bind_axis ≠ some "blockIdx.x") ∧
      (pre ≠ [] → ∃ (block : Loop) (rest : List Loop), loops' = block :: rest ∧
        block.bind_axis = some "blockIdx.x" ∧ block.for_type = .GPUBlock ∧
        block.extent = (pre.map Loop.extent).prod ∧
        (∀ x ∈ rest, x.bind_axis ≠ some "blockIdx.x")) := by
  obtain ⟨loops', b', hrun, hname, hmap⟩ :=
    IRCudaScheduleReduce_result pre l post b hconst hfree hP31 hn31
  generalize ((l :: post).map Loop.extent).prod = P at hmap
  generalize hB : (if 1024 < P then
            [(ceilDiv P 1024, l.for_type, (none : Option String)),
             (1024, ForType.GPUThread, some "threadIdx.x")]
           else [(P, ForType.GPUThread, some "threadIdx.x")]) = B at hmap
  have hBfree : ∀ t ∈ B, t.2.2 ≠ some "blockIdx.x" := by
    intro t ht
    rw [← hB] at ht
    split_ifs at ht
    · simp only [List.mem_cons, List.mem_singleton, List.not_mem_nil, or_false] at ht
      rcases ht with h | h <;> rw [h] <;> simp
    · simp only [List.mem_singleton] at ht
      rw [ht]; simp
  have hfree' : ∀ (xs : List Loop),
      xs.map (fun x => (x.extent, x.for_type, x.bind_axis)) = B →
      ∀ x ∈ xs, x.bind_axis ≠ some "blockIdx.x" := by
    intro xs hxs x hx
    exact hBfree _ (by rw [← hxs]; exact List.mem_map_of_mem _ hx)
  refine ⟨loops', b', hrun, hname, ?_, ?_⟩
  · intro hp
    rw [if_pos hp, List.nil_append] at hmap
    exact hfree' loops' hmap
  · intro hp
    rw [if_neg hp] at hmap
    rcases loops' with _ | ⟨g, rest⟩
    · simp at hmap
    · simp only [List.map_cons, List.singleton_append, List.cons.injEq, Prod.mk.injEq] at hmap
      obtain ⟨⟨h1, h2, h3⟩, h4⟩ := hmap
      exact ⟨g, rest, rfl, h3, h2, h1, hfree' rest h4⟩

/-- Instance of the amended claim C13: for the shape `[1, 8]` with
`last_dimension_num = 1` the outermost loop is bound to `blockIdx.x` and has extent 1. -/
theorem IRCudaScheduleReduce_block_binding_witness :
    ∃ (block : Loop) (rest : List Loop) (b' : ScheduleBlockRealize),
      IRCudaScheduleReduce
        ⟨[Block.nest [{ loop_var := .named "i", extent := 1 },
                      { loop_var := .named "j", extent := 8 }]
            (.Realize { name := "R", iter_values :=
              [._Var_ (.named "i"), ._Var_ (.named "j")] } .nil)]⟩
        [1, 8] 1
        = .ok ⟨[Block.nest (block :: rest) (.Realize b' .nil)]⟩ ∧
      block.bind_axis = some "blockIdx.x" ∧ block.extent = 1 ∧
      (∀ x ∈ rest, x.bind_axis ≠ some "blockIdx.x") := by
  obtain ⟨loops', b', hrun, _, _, hblock⟩ :=
    IRCudaScheduleReduce_block_binding [{ loop_var := .named "i", extent := 1 }]
      { loop_var := .named "j", extent := 8 } []
      { name := "R", iter_values := [._Var_ (.named "i"), ._Var_ (.named "j")] }
      (by decide) (by decide) (by decide) (by decide)
  obtain ⟨block, rest, hl, hb, _, he, hr⟩ := hblock (by simp)
  subst hl
  exact ⟨block, rest, b', hrun, hb, by rw [he]; rfl, hr⟩

theorem int32_zero : int32 0 = 0 := by
  unfold int32; norm_num

theorem IRCudaScheduleConv.halve_exit (w : Int) : ∀ (rounds : Nat) (thread_z f_inner : Int),
    thread_z.natAbs ≤ rounds →
    ¬ (int32 (w * (IRCudaScheduleConv.halve w rounds thread_z f_inner).1) > 1024 ∧
        (IRCudaScheduleConv.halve w rounds thread_z f_inner).1.tmod 2 = 0) := by
  intro rounds
  induction rounds with
  | zero =>
    intro tz fi h
    have : tz = 0 := Int.natAbs_eq_zero.mp (Nat.le_zero.mp h)
    subst this
    simp [IRCudaScheduleConv.halve, int32_zero]
  | succ n ih =>
    intro tz fi h
    unfold IRCudaScheduleConv.halve
    by_cases hc : int32 (w * tz) > 1024 ∧ tz.tmod 2 = 0
    · rw [if_pos hc]
      apply ih
      have hne : tz ≠ 0 := by
        intro h0
        rw [h0, mul_zero, int32_zero] at hc
        omega
      have hpos : 0 < tz.natAbs := Int.natAbs_pos.mpr hne
      rw [Int.natAbs_tdiv]
      have : (2 : Int).natAbs = 2 := rfl
      rw [this]
      show tz.natAbs / 2 ≤ n
      omega
    · rw [if_neg hc]
      exact hc

theorem vectorAt_cons_zero {α : Type} (a : α) (l : List α) : vectorAt (a :: l) 0 = .ok a := by
  simp [vectorAt]

theorem vectorAt_cons_succ {α : Type} (a : α) (l : List α) (i : Nat) :
    vectorAt (a :: l) (i + 1) = vectorAt l i := by
  simp [vectorAt]

theorem IRCudaScheduleConv.key_ok (in0 in1 in2 in3 w0 w1 w2 w3 o0 o1 o2 o3 : Int)
    (ni nw no : String) :
    ∃ key, IRCudaScheduleConv.key ⟨ni, [in0, in1, in2, in3]⟩ ⟨nw, [w0, w1, w2, w3]⟩
      ⟨no, [o0, o1, o2, o3]⟩ = .ok key := ⟨_, rfl⟩

/-- Counterexample to claim C14 as stated: for the three-block convolution module of output
shape `(1, 1, 1, 1025)`, with an empty parameter table and `GetInnerSplitter`, `SplitEven`
returning the positive divisor 1, inlining the padded input succeeds and the generic path of
`IRCudaScheduleConv` then stops on its own fatal check `CHECK_LE(w * thread_z, 1024)`. -/
theorem IRCudaScheduleConv_wide_output_fails_own_check :
    (IRSchedule.ComputeInline (convModule 1025) { name := "input_pad" }).toOption.isSome = true ∧
    IRCudaScheduleConv [] (convTensor 1025) (fun _ _ => ⟨"weights_dilation", [1, 1, 3, 3]⟩)
      (fun _ _ => 1) (fun _ => 1) (fun m _ _ _ _ => .ok m) (fun m _ _ _ => .ok m)
      (fun m _ _ => .ok m) (convModule 1025) = .error .CheckFailed := by
  constructor
  · rfl
  · rfl

/-- Claim C14, amended: for a module of exactly three blocks whose tensors have four dims and
whose shape key is absent from the parameter table, with `GetInnerSplitter` and `SplitEven`
positive and the inlining of the first block succeeding, `IRCudaScheduleConv` never calls the
saved-parameter schedule; it takes the generic path, whose halving loop ends with its
condition false, and whose one fatal check is `CHECK_LE(w * thread_z, 1024)`: the call fails
on that check when the halved `thread_z` has `w * thread_z > 1024`, and otherwise is exactly
the run of the tiling primitives. -/
theorem IRCudaScheduleConv_generic_path_single_check (res : List String)
    (GetTensor : ScheduleBlockRealize → Tensor)
    (GetReadTensor : ScheduleBlockRealize → Int → Tensor)
    (GetInnerSplitter : Int → Int → Int) (SplitEven : Int → Int)
    (IRCudaScheduleConv2 : ModuleExpr → Tensor → Tensor → Tensor → String →
      Except ScheduleError ModuleExpr)
    (CacheWrite : ModuleExpr → ScheduleBlockRealize → Int → String →
      Except ScheduleError ModuleExpr)
    (ComputeAt : ModuleExpr → ScheduleBlockRealize → LoopHandle →
      Except ScheduleError ModuleExpr)
    (ir_sch m1 : ModuleExpr) (b0 b1 b2 : ScheduleBlockRealize)
    (i0 i1 i2 i3 n c h w : Int) (key : String)
    (hblocks : ir_sch.GetAllBlocks = [b0, b1, b2])
    (hin : (GetTensor b0).shape = [i0, i1, i2, i3])
    (hout : (GetTensor b2).shape = [n, c, h, w])
    (hkey : IRCudaScheduleConv.key (GetTensor b0) (GetReadTensor b2 2) (GetTensor b2) = .ok key)
    (hmiss : res.count key = 0)
    (_hpos : 0 < n ∧ 0 < c ∧ 0 < h ∧ 0 < w ∧ 0 < i1)
    (_hf : 0 < GetInnerSplitter c h)
    (_hz : 0 < SplitEven (c.tdiv (GetInnerSplitter c h)))
    (hinline : IRSchedule.ComputeInline ir_sch b0 = .ok m1) :
    ¬ (int32 (w * (IRCudaScheduleConv.halve w
          ((c.tdiv (GetInnerSplitter c h)).tdiv
            (SplitEven (c.tdiv (GetInnerSplitter c h)))).natAbs
          ((c.tdiv (GetInnerSplitter c h)).tdiv (SplitEven (c.tdiv (GetInnerSplitter c h))))
          (GetInnerSplitter c h)).1) > 1024 ∧
        (IRCudaScheduleConv.halve w
          ((c.tdiv (GetInnerSplitter c h)).tdiv
            (SplitEven (c.tdiv (GetInnerSplitter c h)))).natAbs
          ((c.tdiv (GetInnerSplitter c h)).tdiv (SplitEven (c.tdiv (GetInnerSplitter c h))))
          (GetInnerSplitter c h)).1.tmod 2 = 0) ∧
    IRCudaScheduleConv res GetTensor GetReadTensor GetInnerSplitter SplitEven
        IRCudaScheduleConv2 CacheWrite ComputeAt ir_sch =
      if int32 (w * (IRCudaScheduleConv.halve w
          ((c.tdiv (GetInnerSplitter c h)).tdiv
            (SplitEven (c.tdiv (GetInnerSplitter c h)))).natAbs
          ((c.tdiv (GetInnerSplitter c h)).tdiv (SplitEven (c.tdiv (GetInnerSplitter c h))))
          (GetInnerSplitter c h)).1) ≤ 1024 then
        IRCudaScheduleConv.tiling CacheWrite ComputeAt m1
          (IRCudaScheduleConv.halve w
            ((c.tdiv (GetInnerSplitter c h)).tdiv
              (SplitEven (c.tdiv (GetInnerSplitter c h)))).natAbs
            ((c.tdiv (GetInnerSplitter c h)).tdiv (SplitEven (c.tdiv (GetInnerSplitter c h))))
            (GetInnerSplitter c h)).1
          (IRCudaScheduleConv.halve w
            ((c.tdiv (GetInnerSplitter c h)).tdiv
              (SplitEven (c.tdiv (GetInnerSplitter c h)))).natAbs
            ((c.tdiv (GetInnerSplitter c h)).tdiv (SplitEven (c.tdiv (GetInnerSplitter c h))))
            (GetInnerSplitter c h)).2
          (SplitEven i1)
      else .error .CheckFailed := by
  refine ⟨IRCudaScheduleConv.halve_exit w _ _ _ le_rfl, ?_⟩
  unfold IRCudaScheduleConv
  dsimp only
  rw [hblocks]
  simp only [CHECK, List.length_cons, List.length_nil, decide_True, if_true,
    vectorAt_cons_zero, vectorAt_cons_succ, ok_bind_eq, hout, hin, Nat.reduceAdd,
    Nat.zero_add]
  rw [hkey, ok_bind_eq, if_pos hmiss]
  unfold IRCudaScheduleConv.generic
  dsimp only
  rw [vectorAt_cons_zero, ok_bind_eq, hinline, ok_bind_eq]
  unfold CHECK
  by_cases hc : int32 (w * (IRCudaScheduleConv.halve w
          ((c.tdiv (GetInnerSplitter c h)).tdiv
            (SplitEven (c.tdiv (GetInnerSplitter c h)))).natAbs
          ((c.tdiv (GetInnerSplitter c h)).tdiv (SplitEven (c.tdiv (GetInnerSplitter c h))))
          (GetInnerSplitter c h)).1) ≤ 1024
  · rw [if_pos hc, if_pos (by simpa using hc), ok_bind_eq]
  · rw [if_neg hc, if_neg (by simpa using hc)]
    rfl

/-- Instance of claim C14 (amended) at the module of output shape `(1, 1, 1, 32)`: the
padded input is inlined and the call is the run of the tiling primitives with
`thread_z = f_inner = rc_factor = 1`. -/
theorem IRCudaScheduleConv_generic_path_single_check_witness :
    ∃ m1, IRSchedule.ComputeInline (convModule 32) { name := "input_pad" } = .ok m1 ∧
      IRCudaScheduleConv [] (convTensor 32) (fun _ _ => ⟨"weights_dilation", [1, 1, 3, 3]⟩)
          (fun _ _ => 1) (fun _ => 1) (fun m _ _ _ _ => .ok m) (fun m _ _ _ => .ok m)
          (fun m _ _ => .ok m) (convModule 32) =
        IRCudaScheduleConv.tiling (fun m _ _ _ => .ok m) (fun m _ _ => .ok m) m1 1 1 1 := by
  refine ⟨(IRSchedule.ComputeInline (convModule 32) { name := "input_pad" }).toOption.getD ⟨[]⟩,
    by rfl, ?_⟩
  exact (IRCudaScheduleConv_generic_path_single_check [] (convTensor 32)
    (fun _ _ => ⟨"weights_dilation", [1, 1, 3, 3]⟩)
    (fun _ _ => 1) (fun _ => 1) (fun m _ _ _ _ => .ok m) (fun m _ _ _ => .ok m)
    (fun m _ _ => .ok m) (convModule 32) _
    _ _ _ 1 1 3 34 1 1 1 32 _ (by rfl) (by rfl) (by rfl) (by rfl) (by rfl)
    (by decide) (by decide) (by decide) (by rfl)).2

theorem filter_eq_singleton_length {α : Type} (p : α → Bool) (l : List α) (b : α)
    (h : l.filter p = [b]) : l.countP p = 1 ∧ b ∈ l ∧ p b = true := by
  have hb : b ∈ l.filter p := by rw [h]; exact List.mem_singleton_self b
  refine ⟨?_, (List.mem_filter.mp hb).1, (List.mem_filter.mp hb).2⟩
  rw [List.countP_eq_length_filter, h]
  rfl

/-- Claim C16: for every module and name, `GetBlock(name)` returns a block exactly when
precisely one block of `GetAllBlocks()` carries the name, and then it returns that block (the
one block of the module with this name); when no block or more than one block carries the name
it fails with `NotFoundError`, so it never picks the first of several matches. -/
theorem GetBlock_returns_the_unique_match (m : ModuleExpr) (block_name : String) :
    ((∃ b, m.GetBlock block_name = .ok b) ↔
      m.GetAllBlocks.countP (fun b => decide (b.name = block_name)) = 1) ∧
    (∀ b, m.GetBlock block_name = .ok b →
      b ∈ m.GetAllBlocks ∧ b.name = block_name ∧
      m.GetAllBlocks.filter (fun r => decide (r.name = block_name)) = [b]) ∧
    (m.GetAllBlocks.countP (fun b => decide (b.name = block_name)) = 0 →
      m.GetBlock block_name = .error .NotFoundError) ∧
    (1 < m.GetAllBlocks.countP (fun b => decide (b.name = block_name)) →
      m.GetBlock block_name = .error .NotFoundError) := by
  have key : ∀ b, m.GetBlock block_name = .ok b ↔
      m.GetAllBlocks.filter (fun r => decide (r.name = block_name)) = [b] := by
    intro b
    unfold ModuleExpr.GetBlock
    constructor
    · intro h
      split at h
      · next b' hb' =>
          have : b' = b := by injection h
          rw [← this]; exact hb'
      · exact absurd h (by simp)
    · intro h
      rw [h]
  have hne : ∀ n, n ≠ 1 → m.GetAllBlocks.countP (fun b => decide (b.name = block_name)) = n →
      m.GetBlock block_name = .error .NotFoundError := by
    intro n hn hc
    cases hg : m.GetBlock block_name with
    | error e =>
        unfold ModuleExpr.GetBlock at hg
        split at hg
        · exact absurd hg (by simp)
        · injection hg with he
          rw [← he]
    | ok b =>
        have := (filter_eq_singleton_length _ _ _ ((key b).mp hg)).1
        omega
  refine ⟨⟨?_, ?_⟩, ?_, ?_, ?_⟩
  · rintro ⟨b, hb⟩
    exact (filter_eq_singleton_length _ _ _ ((key b).mp hb)).1
  · intro hc
    rw [List.countP_eq_length_filter] at hc
    obtain ⟨b, hb⟩ := List.length_eq_one.mp hc
    exact ⟨b, (key b).mpr hb⟩
  · intro b hb
    have h := filter_eq_singleton_length _ _ _ ((key b).mp hb)
    exact ⟨h.2.1, by simpa using h.2.2, (key b).mp hb⟩
  · intro h0
    exact hne 0 (by decide) h0
  · intro h1
    exact hne _ (by omega) rfl

/-- Instance of claim C16: in the module of the three convolution blocks the name
`weights_dilation` is carried by one block, which `GetBlock` returns; in a module of two
kernels whose blocks are both named `A` the lookup of `A` fails. -/
theorem GetBlock_returns_the_unique_match_witness :
    (∃ b, (convModule 8).GetBlock "weights_dilation" = .ok b ∧
      b ∈ (convModule 8).GetAllBlocks ∧ b.name = "weights_dilation") ∧
    ModuleExpr.GetBlock ⟨[singleLoopKernel "A" "i" 4, singleLoopKernel "A" "j" 4]⟩ "A" =
      .error .NotFoundError := by
  have hb : ∃ b, (convModule 8).GetBlock "weights_dilation" = .ok b := ⟨_, by rfl⟩
  obtain ⟨b, hb⟩ := hb
  have h := (GetBlock_returns_the_unique_match (convModule 8) "weights_dilation").2.1 b hb
  exact ⟨⟨b, hb, h.1, h.2.1⟩,
    (GetBlock_returns_the_unique_match
      ⟨[singleLoopKernel "A" "i" 4, singleLoopKernel "A" "j" 4]⟩ "A").2.2.2 (by decide)⟩

theorem Block.append_GetAllBlocks : ∀ (a b : Block),
    (a.append b).GetAllBlocks = a.GetAllBlocks ++ b.GetAllBlocks := by
  intro a b
  induction a with
  | nil => rfl
  | For l body rest _ ih => simp [Block.append, Block.GetAllBlocks, ih]
  | Realize r rest ih => simp [Block.append, Block.GetAllBlocks, ih]

theorem foldr_append_GetAllBlocks : ∀ (es : List Block),
    (es.foldr Block.append .nil).GetAllBlocks = es.flatMap Block.GetAllBlocks := by
  intro es
  induction es with
  | nil => rfl
  | cons e es ih => simp [List.foldr, Block.append_GetAllBlocks, ih]

/-- Claim C17: `MergeExprs` is a total function of the module (it has no failure), applying it
twice yields the same module as applying it once, a merged module has at most one tree, and
the sequence `GetAllBlocks()` returns is the same before and after merging: the concatenation
of the per-tree block sequences. -/
theorem MergeExprs_idempotent_and_keeps_all_blocks (m : ModuleExpr) :
    IRSchedule.MergeExprs (IRSchedule.MergeExprs m) = IRSchedule.MergeExprs m ∧
    (IRSchedule.MergeExprs m).exprs.length ≤ 1 ∧
    (IRSchedule.MergeExprs m).GetAllBlocks = m.GetAllBlocks ∧
    m.GetAllBlocks = (m.exprs.map Block.GetAllBlocks).flatten := by
  obtain ⟨es⟩ := m
  cases es with
  | nil => exact ⟨rfl, by simp [IRSchedule.MergeExprs], rfl, rfl⟩
  | cons e es =>
    refine ⟨?_, by simp [IRSchedule.MergeExprs], ?_, ?_⟩
    · simp [IRSchedule.MergeExprs, Block.append_nil]
    · simp only [IRSchedule.MergeExprs, ModuleExpr.GetAllBlocks]
      rw [List.flatMap_cons, List.flatMap_nil, List.append_nil, foldr_append_GetAllBlocks]
    · simp [ModuleExpr.GetAllBlocks, List.flatMap]

theorem elemAt_append_cons {α : Type} (A : List α) (x : α) (B : List α) (k : Int)
    (hk : k = (A.length : Int)) : elemAt (A ++ x :: B) k = .ok x := by
  subst hk
  unfold elemAt
  rw [if_neg (by omega)]
  have : (A ++ x :: B)[((A.length : Int)).toNat]? = some x := by
    rw [Int.toNat_ofNat, List.getElem?_append_right (le_refl _)]
    simp
  rw [this]

theorem exists_snoc_of_length_succ {α : Type} {n : Nat} (l : List α) (h : l.length = n + 1) :
    ∃ l' x, l = l' ++ [x] ∧ l'.length = n := by
  rcases List.eq_nil_or_concat l with h0 | ⟨l', x, h1⟩
  · subst h0; simp at h
  · refine ⟨l', x, by simpa using h1, ?_⟩
    subst h1
    simpa using h

theorem GetBroadcastShape.pad_run (pre : List ShapeExpr) : ∀ (n : Nat)
    (mid post s2n : List ShapeExpr) (out : BroadcastShape) (size1 i : Int),
    mid.length = n → size1 = ((pre ++ mid ++ post).length : Int) →
    i = (post.length : Int) + 1 →
    GetBroadcastShape.pad (pre ++ mid ++ post) size1 n i s2n out =
      .ok (s2n ++ List.replicate n (.IntImm 1),
        { common_shape := mid ++ out.common_shape
          broadcast_flag1 := out.broadcast_flag1 ++ List.replicate n true
          broadcast_flag2 := out.broadcast_flag2 ++ List.replicate n false
          axis_offset := out.axis_offset }) := by
  intro n
  induction n with
  | zero =>
    intro mid post s2n out size1 i hm _ _
    have : mid = [] := List.length_eq_zero.mp hm
    subst this
    simp [GetBroadcastShape.pad]
  | succ n ih =>
    intro mid post s2n out size1 i hm hs hi
    obtain ⟨mid', x, h, hm'⟩ := exists_snoc_of_length_succ mid hm
    subst h
    have hl : pre ++ (mid' ++ [x]) ++ post = pre ++ mid' ++ (x :: post) := by simp
    rw [hl] at hs ⊢
    unfold GetBroadcastShape.pad
    have hacc : elemAt (pre ++ mid' ++ x :: post) (size1 - i) = .ok x := by
      apply elemAt_append_cons
      rw [hs, hi]
      simp only [List.length_append, List.length_cons]
      push_cast
      ring
    rw [hacc, ok_bind_eq]
    rw [ih mid' (x :: post) _ _ size1 (i + 1) hm' hs (by rw [hi]; simp)]
    simp [GetBroadcastShape.insert, List.replicate_succ]

theorem GetBroadcastShape.leading_run (pre : List ShapeExpr) : ∀ (n : Nat)
    (mid post : List ShapeExpr) (out : BroadcastShape) (max_size i : Int),
    mid.length = n → max_size = ((pre ++ mid ++ post).length : Int) →
    i = (post.length : Int) + 1 →
    GetBroadcastShape.leading (pre ++ mid ++ post) max_size true n i out =
      .ok { common_shape := mid ++ out.common_shape
            broadcast_flag1 := out.broadcast_flag1 ++ List.replicate n true
            broadcast_flag2 := out.broadcast_flag2 ++ List.replicate n false
            axis_offset := out.axis_offset } := by
  intro n
  induction n with
  | zero =>
    intro mid post out size1 i hm _ _
    have : mid = [] := List.length_eq_zero.mp hm
    subst this
    simp [GetBroadcastShape.leading]
  | succ n ih =>
    intro mid post out size1 i hm hs hi
    obtain ⟨mid', x, h, hm'⟩ := exists_snoc_of_length_succ mid hm
    subst h
    have hl : pre ++ (mid' ++ [x]) ++ post = pre ++ mid' ++ (x :: post) := by simp
    rw [hl] at hs ⊢
    unfold GetBroadcastShape.leading
    have hacc : elemAt (pre ++ mid' ++ x :: post) (size1 - i) = .ok x := by
      apply elemAt_append_cons
      rw [hs, hi]
      simp only [List.length_append, List.length_cons]
      push_cast
      ring
    rw [hacc, ok_bind_eq, if_pos rfl]
    rw [ih mid' (x :: post) _ size1 (i + 1) hm' hs (by rw [hi]; simp)]
    simp [GetBroadcastShape.insert, List.replicate_succ]

theorem broadcastPairs_append : ∀ (A1 A2 B1 B2 : List Int), A1.length = A2.length →
    broadcastPairs (A1 ++ B1) (A2 ++ B2) =
      match broadcastPairs A1 A2, broadcastPairs B1 B2 with
      | some x, some y => some (x ++ y)
      | _, _ => none := by
  intro A1
  induction A1 with
  | nil =>
    intro A2 B1 B2 h
    have : A2 = [] := List.length_eq_zero.mp h.symm
    subst this
    simp only [List.nil_append, broadcastPairs]
    cases broadcastPairs B1 B2 <;> rfl
  | cons a A1 ih =>
    intro A2 B1 B2 h
    cases A2 with
    | nil => simp at h
    | cons b A2 =>
      have h' : A1.length = A2.length := by simpa using h
      have e1 : broadcastPairs (a :: A1 ++ B1) (b :: A2 ++ B2) =
          match broadcastPair a b, broadcastPairs (A1 ++ B1) (A2 ++ B2) with
          | some d, some ds => some (d :: ds)
          | _, _ => none := rfl
      have e2 : broadcastPairs (a :: A1) (b :: A2) =
          match broadcastPair a b, broadcastPairs A1 A2 with
          | some d, some ds => some (d :: ds)
          | _, _ => none := rfl
      rw [e1, e2, ih A2 B1 B2 h']
      cases broadcastPair a b <;> cases broadcastPairs A1 A2 <;>
        cases broadcastPairs B1 B2 <;> rfl

theorem GetBroadcastShape.dim_int (MathEqual : ShapeExpr → ShapeExpr → Bool)
    (hME : ∀ a b : Int, MathEqual (.IntImm a) (.IntImm b) = decide (a = b))
    (a b : Int) (out : BroadcastShape) :
    GetBroadcastShape.dim MathEqual (.IntImm a) (.IntImm b) out =
      match broadcastPair a b with
      | some d => .ok (GetBroadcastShape.insert out (.IntImm d)
          (decide (a = b ∨ a ≠ 1)) (decide (a = b ∨ a = 1)))
      | none => .error .IncompatibleDims := by
  unfold GetBroadcastShape.dim broadcastPair
  simp only [hME, ShapeExpr.isVar, decide_eq_true_eq]
  by_cases h1 : a = b
  · simp [h1]
  · by_cases h2 : a = 1
    · have h3 : ¬ (1 = b) := fun h => h1 (h2.trans h)
      simp [h1, h2, h3]
    · have h2' : ¬ (1 = a) := fun h => h2 h.symm
      by_cases h3 : b = 1
      · simp [h1, h2, h2', h3]
      · have h3' : ¬ (1 = b) := fun h => h3 h.symm
        simp [h1, h2, h2', h3, h3']

theorem GetBroadcastShape.common_run (MathEqual : ShapeExpr → ShapeExpr → Bool)
    (hME : ∀ a b : Int, MathEqual (.IntImm a) (.IntImm b) = decide (a = b))
    (pre1 pre2 : List ShapeExpr) : ∀ (n : Nat) (M1 M2 : List Int)
    (post1 post2 : List ShapeExpr) (out : BroadcastShape) (size1 size2 i : Int),
    M1.length = n → M2.length = n →
    size1 = ((pre1 ++ M1.map ShapeExpr.IntImm ++ post1).length : Int) →
    size2 = ((pre2 ++ M2.map ShapeExpr.IntImm ++ post2).length : Int) →
    i = (post1.length : Int) + 1 → i = (post2.length : Int) + 1 →
    GetBroadcastShape.common MathEqual (pre1 ++ M1.map ShapeExpr.IntImm ++ post1)
        (pre2 ++ M2.map ShapeExpr.IntImm ++ post2) size1 size2 n i out =
      match broadcastPairs M1 M2 with
      | some ds => .ok (i + n,
          { common_shape := ds.map ShapeExpr.IntImm ++ out.common_shape
            broadcast_flag1 := out.broadcast_flag1 ++
              (List.zipWith (fun a b => decide (a = b ∨ a ≠ 1)) M1 M2).reverse
            broadcast_flag2 := out.broadcast_flag2 ++
              (List.zipWith (fun a b => decide (a = b ∨ a = 1)) M1 M2).reverse
            axis_offset := out.axis_offset })
      | none => .error .IncompatibleDims := by
  intro n
  induction n with
  | zero =>
    intro M1 M2 post1 post2 out size1 size2 i h1 h2 _ _ _ _
    have e1 : M1 = [] := List.length_eq_zero.mp h1
    have e2 : M2 = [] := List.length_eq_zero.mp h2
    subst e1; subst e2
    simp [GetBroadcastShape.common, broadcastPairs]
  | succ n ih =>
    intro M1 M2 post1 post2 out size1 size2 i h1 h2 hs1 hs2 hi1 hi2
    obtain ⟨M1', a, e1, h1'⟩ := exists_snoc_of_length_succ M1 h1
    obtain ⟨M2', b, e2, h2'⟩ := exists_snoc_of_length_succ M2 h2
    subst e1; subst e2
    have hl1 : pre1 ++ List.map ShapeExpr.IntImm (M1' ++ [a]) ++ post1 =
        pre1 ++ List.map ShapeExpr.IntImm M1' ++ (ShapeExpr.IntImm a :: post1) := by simp
    have hl2 : pre2 ++ List.map ShapeExpr.IntImm (M2' ++ [b]) ++ post2 =
        pre2 ++ List.map ShapeExpr.IntImm M2' ++ (ShapeExpr.IntImm b :: post2) := by simp
    rw [hl1] at hs1 ⊢
    rw [hl2] at hs2 ⊢
    unfold GetBroadcastShape.common
    have hacc1 : elemAt (pre1 ++ List.map ShapeExpr.IntImm M1' ++ ShapeExpr.IntImm a :: post1)
        (size1 - i) = .ok (ShapeExpr.IntImm a) := by
      apply elemAt_append_cons
      rw [hs1, hi1]
      simp only [List.length_append, List.length_cons]
      push_cast
      ring
    have hacc2 : elemAt (pre2 ++ List.map ShapeExpr.IntImm M2' ++ ShapeExpr.IntImm b :: post2)
        (size2 - i) = .ok (ShapeExpr.IntImm b) := by
      apply elemAt_append_cons
      rw [hs2, hi2]
      simp only [List.length_append, List.length_cons]
      push_cast
      ring
    rw [hacc1, ok_bind_eq, hacc2, ok_bind_eq, GetBroadcastShape.dim_int MathEqual hME,
      broadcastPairs_append M1' M2' [a] [b] (h1'.trans h2'.symm)]
    have hone : broadcastPairs [a] [b] = (broadcastPair a b).map (fun d => [d]) := by
      simp only [broadcastPairs]
      cases broadcastPair a b <;> rfl
    rw [hone]
    cases hp : broadcastPair a b with
    | none =>
      cases broadcastPairs M1' M2' <;> rfl
    | some d =>
      rw [ok_bind_eq, ih M1' M2' (ShapeExpr.IntImm a :: post1) (ShapeExpr.IntImm b :: post2) _
        size1 size2 (i + 1) h1' h2' hs1 hs2 (by rw [hi1]; simp) (by rw [hi2]; simp)]
      cases broadcastPairs M1' M2' with
      | none => rfl
      | some ds =>
        simp only [Option.map_some', GetBroadcastShape.insert]
        rw [List.zipWith_append _ _ _ _ _ (h1'.trans h2'.symm),
          List.zipWith_append _ _ _ _ _ (h1'.trans h2'.symm)]
        simp only [List.zipWith_cons_cons, List.zipWith_nil_right, List.reverse_append,
          List.reverse_cons, List.reverse_nil, List.nil_append, List.map_append, List.map_cons,
          List.map_nil, List.append_assoc, List.singleton_append, Nat.cast_add, Nat.cast_one]
        congr 2
        ring

theorem BroadcastError.CHECK_true : BroadcastError.CHECK true = .ok () := rfl

theorem GetBroadcastShape.aligned_run (L M P s2 : List Int) (axis : Int)
    (hM : M.length = s2.length)
    (hax : (axis = -1 ∧ P = []) ∨ axis = (L.length : Int))
    (hlen : (L ++ M ++ P).length < 2 ^ 31) :
    GetBroadcastShape.aligned ((L ++ M ++ P).map ShapeExpr.IntImm) (s2.map ShapeExpr.IntImm)
        { common_shape := [], broadcast_flag1 := [], broadcast_flag2 := [], axis_offset := 0 }
        (some axis) =
      .ok (s2.map ShapeExpr.IntImm ++ List.replicate P.length (.IntImm 1),
        { common_shape := P.map ShapeExpr.IntImm
          broadcast_flag1 := List.replicate P.length true
          broadcast_flag2 := List.replicate P.length false
          axis_offset := (P.length : Int) }) := by
  have hl : ((L ++ M ++ P).length : Int) = L.length + M.length + P.length := by
    simp only [List.length_append]; push_cast; ring
  have hlen' : (L.length : Int) + M.length + P.length < 2 ^ 31 := by
    rw [← hl]; exact_mod_cast hlen
  have hd : int32 (((List.map ShapeExpr.IntImm (L ++ M ++ P)).length : Int) -
      ((List.map ShapeExpr.IntImm s2).length : Int)) = (L.length : Int) + P.length := by
    rw [List.length_map, List.length_map, hl, ← hM]
    rw [int32_of_range _ (by omega) (by omega)]
    ring
  unfold GetBroadcastShape.aligned
  dsimp only
  have c1 : decide (axis ≥ -1) = true := by
    rw [decide_eq_true_eq]
    rcases hax with ⟨h, _⟩ | h <;> omega
  have c2 : decide ((List.map ShapeExpr.IntImm (L ++ M ++ P)).length ≥
      (List.map ShapeExpr.IntImm s2).length) = true := by
    simp only [List.length_map, List.length_append, decide_eq_true_eq]
    omega
  have c3 : decide (axis ≤ int32 (((List.map ShapeExpr.IntImm (L ++ M ++ P)).length : Int) -
      ((List.map ShapeExpr.IntImm s2).length : Int))) = true := by
    rw [hd, decide_eq_true_eq]
    rcases hax with ⟨h, _⟩ | h <;> omega
  rw [c1, c2, c3, BroadcastError.CHECK_true, ok_bind_eq, ok_bind_eq, ok_bind_eq]
  rcases hax with ⟨h, hP⟩ | h
  · subst hP
    rw [if_neg (by omega)]
    simp
  · rw [if_pos (by omega)]
    have ho : int32 (((List.map ShapeExpr.IntImm (L ++ M ++ P)).length : Int) -
        ((List.map ShapeExpr.IntImm s2).length : Int) - axis) = (P.length : Int) := by
      rw [List.length_map, List.length_map, hl, ← hM, h]
      rw [int32_of_range _ (by omega) (by omega)]
      ring
    have hs1 : int32 ((List.map ShapeExpr.IntImm (L ++ M ++ P)).length : Int) =
        (((List.map ShapeExpr.IntImm (L ++ M) ++ List.map ShapeExpr.IntImm P ++ []).length
          : Nat) : Int) := by
      rw [List.length_map, hl, int32_of_range _ (by omega) (by omega)]
      simp only [List.length_append, List.length_map, List.length_nil]
      push_cast
      ring
    rw [ho, Int.toNat_ofNat]
    have hsh : List.map ShapeExpr.IntImm (L ++ M ++ P) =
        List.map ShapeExpr.IntImm (L ++ M) ++ List.map ShapeExpr.IntImm P ++ [] := by simp
    rw [hs1]
    nth_rewrite 1 [hsh]
    rw [GetBroadcastShape.pad_run _ P.length (List.map ShapeExpr.IntImm P) [] _ _ _ 1
      (by simp) rfl (by simp)]
    simp

theorem GetBroadcastShape_run (MathEqual : ShapeExpr → ShapeExpr → Bool)
    (hME : ∀ a b : Int, MathEqual (.IntImm a) (.IntImm b) = decide (a = b))
    (L M P s2 : List Int) (axis : Int)
    (hM : M.length = s2.length)
    (hax : (axis = -1 ∧ P = []) ∨ axis = (L.length : Int))
    (hlen : (L ++ M ++ P).length < 2 ^ 31) :
    GetBroadcastShape MathEqual ((L ++ M ++ P).map ShapeExpr.IntImm)
        (s2.map ShapeExpr.IntImm)
        { common_shape := [], broadcast_flag1 := [], broadcast_flag2 := [], axis_offset := 0 }
        (some axis) =
      match broadcastPairs M s2 with
      | some ds => .ok
          { common_shape := (L ++ ds ++ P).map ShapeExpr.IntImm
            broadcast_flag1 := List.replicate P.length true ++
              (List.zipWith (fun a b => decide (a = b ∨ a ≠ 1)) M s2).reverse ++
              List.replicate L.length true
            broadcast_flag2 := List.replicate P.length false ++
              (List.zipWith (fun a b => decide (a = b ∨ a = 1)) M s2).reverse ++
              List.replicate L.length false
            axis_offset := (P.length : Int) }
      | none => .error .IncompatibleDims := by
  have hl : ((L ++ M ++ P).length : Int) = L.length + M.length + P.length := by
    simp only [List.length_append]; push_cast; ring
  have hlen' : (L.length : Int) + M.length + P.length < 2 ^ 31 := by
    rw [← hl]; exact_mod_cast hlen
  unfold GetBroadcastShape
  dsimp only
  rw [GetBroadcastShape.aligned_run L M P s2 axis hM hax hlen, ok_bind_eq]
  dsimp only
  have hs1 : int32 ((List.map ShapeExpr.IntImm (L ++ M ++ P)).length : Int) =
      (L.length : Int) + M.length + P.length := by
    rw [List.length_map, hl, int32_of_range _ (by omega) (by omega)]
  have hs2 : int32 ((List.map ShapeExpr.IntImm s2 ++
      List.replicate P.length (ShapeExpr.IntImm 1)).length : Int) =
      (M.length : Int) + P.length := by
    rw [List.length_append, List.length_map, List.length_replicate, ← hM]
    push_cast
    rw [int32_of_range _ (by omega) (by omega)]
  rw [hs1, hs2]
  have hn : (min ((L.length : Int) + M.length + P.length) ((M.length : Int) + P.length) + 1 -
      ((P.length : Int) + 1)).toNat = M.length := by
    rw [min_eq_right (by omega)]
    omega
  rw [hn]
  have hsh1 : List.map ShapeExpr.IntImm (L ++ M ++ P) =
      List.map ShapeExpr.IntImm L ++ List.map ShapeExpr.IntImm M ++
        List.map ShapeExpr.IntImm P := by simp
  have hsh2 : List.map ShapeExpr.IntImm s2 ++ List.replicate P.length (ShapeExpr.IntImm 1) =
      [] ++ List.map ShapeExpr.IntImm s2 ++ List.replicate P.length (ShapeExpr.IntImm 1) := by
    simp
  rw [hsh1, hsh2]
  rw [GetBroadcastShape.common_run MathEqual hME _ _ M.length M s2 _ _ _ _ _ _ rfl hM.symm
    (by simp only [List.length_append, List.length_map]; push_cast; ring)
    (by simp only [List.length_append, List.length_map, List.length_replicate,
          List.length_nil]; push_cast; rw [hM]; ring)
    (by simp) (by simp)]
  cases hb : broadcastPairs M s2 with
  | none => rfl
  | some ds =>
    dsimp only
    rw [ok_bind_eq]
    dsimp only
    by_cases hL : L = []
    · subst hL
      rw [if_neg (by simp)]
      simp
    · have hLpos : 0 < L.length := List.length_pos.mpr hL
      rw [if_pos (by omega)]
      have hmax : max ((L.length : Int) + M.length + P.length) ((M.length : Int) + P.length) =
          (L.length : Int) + M.length + P.length := max_eq_left (by omega)
      rw [hmax, if_pos (by omega)]
      have hdec : decide ((L.length : Int) + M.length + P.length >
          (M.length : Int) + P.length) = true := by
        rw [decide_eq_true_eq]; omega
      have hn2 : ((L.length : Int) + M.length + P.length + 1 -
          ((P.length : Int) + 1 + (M.length : Int))).toNat = L.length := by omega
      rw [hdec, hn2]
      have hsh3 : List.map ShapeExpr.IntImm L ++ List.map ShapeExpr.IntImm M ++
          List.map ShapeExpr.IntImm P =
          [] ++ List.map ShapeExpr.IntImm L ++
            (List.map ShapeExpr.IntImm M ++ List.map ShapeExpr.IntImm P) := by simp
      rw [hsh3]
      rw [GetBroadcastShape.leading_run [] L.length (List.map ShapeExpr.IntImm L) _ _ _ _
        (by simp)
        (by simp only [List.length_append, List.length_map, List.length_nil]; push_cast; ring)
        (by simp only [List.length_append, List.length_map]; push_cast; ring)]
      simp

theorem mapM_as_int32 : ∀ (l : List Int),
    (l.map ShapeExpr.IntImm).mapM ShapeExpr.as_int32 = .ok l := by
  intro l
  induction l with
  | nil => rfl
  | cons a l ih =>
    rw [List.map_cons, List.mapM_cons, ih]
    rfl

theorem broadcastPairs_ones : ∀ (P : List Int),
    broadcastPairs P (List.replicate P.length 1) = some P := by
  intro P
  induction P with
  | nil => rfl
  | cons a P ih =>
    have e : broadcastPairs (a :: P) (List.replicate (a :: P).length 1) =
        match broadcastPair a 1, broadcastPairs P (List.replicate P.length 1) with
        | some d, some ds => some (d :: ds)
        | _, _ => none := rfl
    rw [e, ih]
    have : broadcastPair a 1 = some a := by
      unfold broadcastPair
      by_cases h : a = 1
      · simp [h]
      · simp [h]
    rw [this]

theorem broadcastPairs_eq_none_iff : ∀ (A B : List Int),
    broadcastPairs A B = none ↔ ∃ p ∈ A.zip B, p.1 ≠ p.2 ∧ p.1 ≠ 1 ∧ p.2 ≠ 1 := by
  intro A
  induction A with
  | nil => intro B; simp [broadcastPairs]
  | cons a A ih =>
    intro B
    cases B with
    | nil => simp [broadcastPairs]
    | cons b B =>
      have e : broadcastPairs (a :: A) (b :: B) =
          match broadcastPair a b, broadcastPairs A B with
          | some d, some ds => some (d :: ds)
          | _, _ => none := rfl
      rw [e, List.zip_cons_cons]
      have hp : broadcastPair a b = none ↔ (a ≠ b ∧ a ≠ 1 ∧ b ≠ 1) := by
        unfold broadcastPair
        split_ifs with h1 h2 h3
        · simp [h1]
        · simp [h2]
        · simp [h3]
        · simp [h1, h2, h3]
      constructor
      · intro h
        cases hab : broadcastPair a b with
        | none => exact ⟨(a, b), List.mem_cons_self _ _, hp.mp hab⟩
        | some d =>
          rw [hab] at h
          cases hAB : broadcastPairs A B with
          | none =>
            obtain ⟨p, hpm, hpp⟩ := (ih B).mp hAB
            exact ⟨p, List.mem_cons_of_mem _ hpm, hpp⟩
          | some ds => rw [hAB] at h; exact absurd h (by simp)
      · rintro ⟨p, hpm, hpp⟩
        rcases List.mem_cons.mp hpm with h | h
        · subst h
          rw [hp.mpr hpp]
        · have := (ih B).mpr ⟨p, h, hpp⟩
          rw [this]
          cases broadcastPair a b <;> rfl

theorem numpyBroadcast_split (L M P s2 : List Int) (hM : M.length = s2.length) :
    numpyBroadcast (L ++ M ++ P) (s2 ++ List.replicate P.length 1) =
      (broadcastPairs M s2).map (fun ds => L ++ ds ++ P) := by
  unfold numpyBroadcast
  have hk : (L ++ M ++ P).length - (s2 ++ List.replicate P.length 1).length = L.length := by
    simp only [List.length_append, List.length_replicate]
    omega
  rw [hk]
  have hd : List.drop L.length (L ++ M ++ P) = M ++ P := by
    rw [List.append_assoc, List.drop_left]
  have ht : List.take L.length (L ++ M ++ P) = L := by
    rw [List.append_assoc, List.take_left]
  rw [hd, ht, broadcastPairs_append M s2 P _ hM, broadcastPairs_ones]
  cases broadcastPairs M s2 <;> simp

/-- Claim C18: for integer shapes `s1`, `s2` and `axis` with `rank(s1) >= rank(s2)` and
`-1 <= axis <= rank(s1) - rank(s2)`, `GetBroadcastOutShape` returns the NumPy-style broadcast
of `s1` with `s2` right-padded by `rank(s1) - rank(s2) - axis` ones when `axis >= 0` (unpadded
when `axis = -1`), and it fails, with the fatal log for incompatible dims, exactly when some
aligned pair is unequal with neither member equal to 1.  `MathEqual` tells integer constants
apart by their values, and the rank of `s1` is that of a vector (below `2^31`). -/
theorem GetBroadcastOutShape_is_numpy_broadcast (MathEqual : ShapeExpr → ShapeExpr → Bool)
    (hME : ∀ a b : Int, MathEqual (.IntImm a) (.IntImm b) = decide (a = b))
    (s1 s2 : List Int) (axis : Int)
    (hlen : s1.length < 2 ^ 31) (hrank : s2.length ≤ s1.length)
    (hlo : -1 ≤ axis) (hhi : axis ≤ (s1.length : Int) - (s2.length : Int)) :
    GetBroadcastOutShape MathEqual s1 s2 [] axis =
      (match numpyBroadcast s1 (paddedShape s1 s2 axis) with
       | some d => .ok d
       | none => .error .IncompatibleDims) ∧
    ((∃ e, GetBroadcastOutShape MathEqual s1 s2 [] axis = .error e) ↔
      ∃ p ∈ (s1.drop (s1.length - (paddedShape s1 s2 axis).length)).zip
          (paddedShape s1 s2 axis), p.1 ≠ p.2 ∧ p.1 ≠ 1 ∧ p.2 ≠ 1) := by
  -- the leading dims, the dims aligned with `s2`, and the dims aligned with the padding
  obtain ⟨L, M, P, hs1, hM, hax, hpad⟩ : ∃ L M P : List Int, s1 = L ++ M ++ P ∧
      M.length = s2.length ∧ ((axis = -1 ∧ P = []) ∨ axis = (L.length : Int)) ∧
      paddedShape s1 s2 axis = s2 ++ List.replicate P.length 1 := by
    by_cases h0 : 0 ≤ axis
    · refine ⟨s1.take axis.toNat, (s1.drop axis.toNat).take s2.length,
        s1.drop (axis.toNat + s2.length), ?_, ?_, Or.inr ?_, ?_⟩
      · rw [List.append_assoc, ← List.drop_drop, List.take_append_drop,
          List.take_append_drop]
      · rw [List.length_take, List.length_drop]; omega
      · rw [List.length_take]; omega
      · unfold paddedShape
        rw [if_pos h0, List.length_drop]
        congr 2
        omega
    · have ha : axis = -1 := by omega
      refine ⟨s1.take (s1.length - s2.length), s1.drop (s1.length - s2.length), [], ?_, ?_,
        Or.inl ⟨ha, rfl⟩, ?_⟩
      · simp
      · rw [List.length_drop]; omega
      · unfold paddedShape
        rw [if_neg (by omega)]
        simp
  subst hs1
  have hrun : GetBroadcastOutShape MathEqual (L ++ M ++ P) s2 [] axis =
      (match numpyBroadcast (L ++ M ++ P) (paddedShape (L ++ M ++ P) s2 axis) with
       | some d => .ok d
       | none => .error .IncompatibleDims) := by
    unfold GetBroadcastOutShape
    dsimp only
    rw [GetBroadcastShape_run MathEqual hME L M P s2 axis hM hax hlen, hpad,
      numpyBroadcast_split L M P s2 hM]
    cases broadcastPairs M s2 with
    | none => rfl
    | some ds =>
      dsimp only
      rw [ok_bind_eq]
      dsimp only
      rw [mapM_as_int32, ok_bind_eq]
      rfl
  refine ⟨hrun, ?_⟩
  rw [hrun, hpad]
  have hk : (L ++ M ++ P).length - (s2 ++ List.replicate P.length 1).length = L.length := by
    simp only [List.length_append, List.length_replicate]
    omega
  have hd : List.drop L.length (L ++ M ++ P) = M ++ P := by
    rw [List.append_assoc, List.drop_left]
  rw [hk, hd, ← broadcastPairs_eq_none_iff]
  have hnb : numpyBroadcast (L ++ M ++ P) (s2 ++ List.replicate P.length 1) =
      (broadcastPairs (M ++ P) (s2 ++ List.replicate P.length 1)).map
        (fun ds => L ++ ds) := by
    unfold numpyBroadcast
    rw [hk, hd, List.append_assoc, List.take_left]
  rw [hnb]
  cases broadcastPairs (M ++ P) (s2 ++ List.replicate P.length 1) with
  | none => simp
  | some ds => simp

theorem elemAt_reverse_flag {α : Type} (A : List α) (x : α) (B : List α) (N i : Int)
    (hN : N = ((A ++ x :: B).length : Int)) (hi : i = (A.length : Int)) :
    elemAt (A ++ x :: B).reverse (N - 1 - i) = .ok x := by
  have : (A ++ x :: B).reverse = B.reverse ++ x :: A.reverse := by simp
  rw [this]
  apply elemAt_append_cons
  rw [hN, hi]
  simp only [List.length_append, List.length_cons, List.length_reverse]
  push_cast
  ring

theorem GetBroadcastIndice.loop_step (rank_b : Nat) (axis_offset : Int)
    (R1 R2 : List Bool) (X : List Expr)
    (A1 B1 A2 B2 : List Bool) (f1 f2 : Bool) (AX BX : List Expr) (x : Expr)
    (N i : Int) (n : Nat) (b1 b2 : List Expr)
    (hR1 : R1 = A1 ++ f1 :: B1) (hR2 : R2 = A2 ++ f2 :: B2) (hX : X = AX ++ x :: BX)
    (hN1 : N = (R1.length : Int)) (hN2 : N = (R2.length : Int))
    (hi1 : i = (A1.length : Int)) (hi2 : i = (A2.length : Int)) (hiX : i = (AX.length : Int)) :
    GetBroadcastIndice.loop X rank_b axis_offset R1.reverse R2.reverse N (n + 1) i (b1, b2) =
      GetBroadcastIndice.loop X rank_b axis_offset R1.reverse R2.reverse N n (i + 1)
        (b1 ++ [if f1 then x else Expr.IntImm 0],
         if f2 then b2 ++ [x]
         else if (N - i) % 2 ^ 64 ≤ ((rank_b : Int) + axis_offset) % 2 ^ 64 ∧
             b2.length < rank_b then b2 ++ [Expr.IntImm 0]
         else b2) := by
  have h1 : elemAt R1.reverse (N - 1 - i) = .ok f1 := by
    rw [hR1]; exact elemAt_reverse_flag A1 f1 B1 N i (by rw [hN1, hR1]) hi1
  have h2 : elemAt R2.reverse (N - 1 - i) = .ok f2 := by
    rw [hR2]; exact elemAt_reverse_flag A2 f2 B2 N i (by rw [hN2, hR2]) hi2
  have hx : elemAt X i = .ok x := by
    rw [hX]; exact elemAt_append_cons AX x BX i hiX
  conv_lhs => unfold GetBroadcastIndice.loop
  rw [h1, h2]
  cases f1 <;> cases f2 <;> simp only [ok_bind_eq, hx, pure, Except.pure, if_true, if_false,
    Bool.false_eq_true] <;> split_ifs <;> rfl

theorem GetBroadcastIndice.quiet_phase (rank_b : Nat) (axis_offset : Int)
    (R1 R2 : List Bool) (X : List Expr) (N : Int) (r : Nat)
    (hN1 : N = (R1.length : Int)) (hN2 : N = (R2.length : Int)) :
    ∀ (n : Nat) (S1 : List Bool) (SX : List Expr) (A1 B1 A2 B2 : List Bool)
      (AX BX : List Expr) (i : Int) (b1 b2 : List Expr),
    S1.length = n → SX.length = n →
    R1 = A1 ++ S1 ++ B1 → R2 = A2 ++ List.replicate n false ++ B2 → X = AX ++ SX ++ BX →
    i = (A1.length : Int) → i = (A2.length : Int) → i = (AX.length : Int) →
    ((∀ j : Nat, j < n →
        ¬ (N - (i + j)) % 2 ^ 64 ≤ ((rank_b : Int) + axis_offset) % 2 ^ 64) ∨
      rank_b ≤ b2.length) →
    GetBroadcastIndice.loop X rank_b axis_offset R1.reverse R2.reverse N (n + r) i (b1, b2) =
      GetBroadcastIndice.loop X rank_b axis_offset R1.reverse R2.reverse N r (i + n)
        (b1 ++ List.zipWith (fun (f : Bool) x => if f then x else Expr.IntImm 0) S1 SX, b2) := by
  intro n
  induction n with
  | zero =>
    intro S1 SX A1 B1 A2 B2 AX BX i b1 b2 h1 hx _ _ _ _ _ _ _
    have e1 : S1 = [] := List.length_eq_zero.mp h1
    subst e1
    simp
  | succ n ih =>
    intro S1 SX A1 B1 A2 B2 AX BX i b1 b2 h1 hx hR1 hR2 hX hi1 hi2 hiX hq
    cases S1 with
    | nil => simp at h1
    | cons f S1 =>
    cases SX with
    | nil => simp at hx
    | cons x SX =>
      have h1' : S1.length = n := by simpa using h1
      have hx' : SX.length = n := by simpa using hx
      have e : n + 1 + r = (n + r) + 1 := by omega
      rw [e, GetBroadcastIndice.loop_step rank_b axis_offset R1 R2 X A1 (S1 ++ B1) A2
        (List.replicate n false ++ B2) f false AX (SX ++ BX) x N i (n + r) b1 b2
        (by rw [hR1]; simp) (by rw [hR2]; simp [List.replicate_succ]) (by rw [hX]; simp)
        hN1 hN2 hi1 hi2 hiX]
      have hcond : ¬ ((N - i) % 2 ^ 64 ≤ ((rank_b : Int) + axis_offset) % 2 ^ 64 ∧
          b2.length < rank_b) := by
        rintro ⟨hc1, hc2⟩
        rcases hq with hq | hq
        · have := hq 0 (by omega)
          simp only [Nat.cast_zero, add_zero] at this
          exact this hc1
        · omega
      rw [if_neg Bool.false_ne_true, if_neg hcond]
      rw [ih S1 SX (A1 ++ [f]) B1 (A2 ++ [false]) B2 (AX ++ [x]) BX (i + 1) _ b2 h1' hx'
        (by rw [hR1]; simp) (by rw [hR2]; simp [List.replicate_succ]) (by rw [hX]; simp)
        (by rw [hi1]; simp) (by rw [hi2]; simp) (by rw [hiX]; simp)
        (by
          rcases hq with hq | hq
          · left
            intro j hj
            have := hq (j + 1) (by omega)
            have e2 : i + 1 + (j : Int) = i + ((j + 1 : Nat) : Int) := by push_cast; ring
            rw [e2]; exact this
          · right; exact hq)]
      simp only [List.zipWith_cons_cons, List.append_assoc, List.singleton_append,
        Nat.cast_add, Nat.cast_one]
      congr 1
      ring

theorem GetBroadcastIndice.push_phase (rank_b : Nat) (axis_offset : Int)
    (R1 R2 : List Bool) (X : List Expr) (N : Int) (r : Nat)
    (hN1 : N = (R1.length : Int)) (hN2 : N = (R2.length : Int)) :
    ∀ (n : Nat) (S1 S2 : List Bool) (SX : List Expr) (A1 B1 A2 B2 : List Bool)
      (AX BX : List Expr) (i : Int) (b1 b2 : List Expr),
    S1.length = n → S2.length = n → SX.length = n →
    R1 = A1 ++ S1 ++ B1 → R2 = A2 ++ S2 ++ B2 → X = AX ++ SX ++ BX →
    i = (A1.length : Int) → i = (A2.length : Int) → i = (AX.length : Int) →
    (∀ j : Nat, j < n → (N - (i + j)) % 2 ^ 64 ≤ ((rank_b : Int) + axis_offset) % 2 ^ 64) →
    b2.length + n ≤ rank_b →
    GetBroadcastIndice.loop X rank_b axis_offset R1.reverse R2.reverse N (n + r) i (b1, b2) =
      GetBroadcastIndice.loop X rank_b axis_offset R1.reverse R2.reverse N r (i + n)
        (b1 ++ List.zipWith (fun (f : Bool) x => if f then x else Expr.IntImm 0) S1 SX,
         b2 ++ List.zipWith (fun (f : Bool) x => if f then x else Expr.IntImm 0) S2 SX) := by
  intro n
  induction n with
  | zero =>
    intro S1 S2 SX A1 B1 A2 B2 AX BX i b1 b2 h1 h2 hx _ _ _ _ _ _ _ _
    have e1 : S1 = [] := List.length_eq_zero.mp h1
    have e2 : S2 = [] := List.length_eq_zero.mp h2
    subst e1; subst e2
    simp
  | succ n ih =>
    intro S1 S2 SX A1 B1 A2 B2 AX BX i b1 b2 h1 h2 hx hR1 hR2 hX hi1 hi2 hiX hq hb
    cases S1 with
    | nil => simp at h1
    | cons f S1 =>
    cases S2 with
    | nil => simp at h2
    | cons g S2 =>
    cases SX with
    | nil => simp at hx
    | cons x SX =>
      have h1' : S1.length = n := by simpa using h1
      have h2' : S2.length = n := by simpa using h2
      have hx' : SX.length = n := by simpa using hx
      have e : n + 1 + r = (n + r) + 1 := by omega
      rw [e, GetBroadcastIndice.loop_step rank_b axis_offset R1 R2 X A1 (S1 ++ B1) A2
        (S2 ++ B2) f g AX (SX ++ BX) x N i (n + r) b1 b2
        (by rw [hR1]; simp) (by rw [hR2]; simp) (by rw [hX]; simp)
        hN1 hN2 hi1 hi2 hiX]
      have hcond : (N - i) % 2 ^ 64 ≤ ((rank_b : Int) + axis_offset) % 2 ^ 64 ∧
          b2.length < rank_b := by
        refine ⟨?_, by omega⟩
        have := hq 0 (by omega)
        simpa using this
      rw [if_pos hcond]
      have hnew : (if g = true then b2 ++ [x] else b2 ++ [Expr.IntImm 0]) =
          b2 ++ [if g = true then x else Expr.IntImm 0] := by
        cases g <;> simp
      rw [hnew]
      rw [ih S1 S2 SX (A1 ++ [f]) B1 (A2 ++ [g]) B2 (AX ++ [x]) BX (i + 1) _ _ h1' h2' hx'
        (by rw [hR1]; simp) (by rw [hR2]; simp) (by rw [hX]; simp)
        (by rw [hi1]; simp) (by rw [hi2]; simp) (by rw [hiX]; simp)
        (by
          intro j hj
          have := hq (j + 1) (by omega)
          have e2 : i + 1 + (j : Int) = i + ((j + 1 : Nat) : Int) := by push_cast; ring
          rw [e2]; exact this)
        (by simp only [List.length_append, List.length_singleton]; omega)]
      simp only [List.zipWith_cons_cons, List.append_assoc, List.singleton_append,
        Nat.cast_add, Nat.cast_one]
      congr 1
      ring

theorem zipWith_replicate_true : ∀ (X : List Expr),
    List.zipWith (fun (f : Bool) x => if f then x else Expr.IntImm 0)
      (List.replicate X.length true) X = X := by
  intro X
  induction X with
  | nil => rfl
  | cons x X ih => simp [List.replicate_succ, ih]

theorem GetBroadcastIndice_run (L M P s2 : List Int) (XL XM XP : List Expr)
    (Z1 Z2 : List Bool) (hM : M.length = s2.length)
    (hXL : XL.length = L.length) (hXM : XM.length = M.length) (hXP : XP.length = P.length)
    (hZ1 : Z1.length = M.length) (hZ2 : Z2.length = M.length)
    (hlen : (L ++ M ++ P).length < 2 ^ 31) :
    GetBroadcastIndice (XL ++ XM ++ XP) s2.length (P.length : Int) [] []
        (List.replicate P.length true ++ Z1.reverse ++ List.replicate L.length true)
        (List.replicate P.length false ++ Z2.reverse ++ List.replicate L.length false) =
      .ok (XL ++ List.zipWith (fun (f : Bool) x => if f then x else Expr.IntImm 0) Z1 XM ++ XP,
           List.zipWith (fun (f : Bool) x => if f then x else Expr.IntImm 0) Z2 XM) := by
  have hl : ((L ++ M ++ P).length : Int) = L.length + M.length + P.length := by
    simp only [List.length_append]; push_cast; ring
  have hlen' : (L.length : Int) + M.length + P.length < 2 ^ 31 := by
    rw [← hl]; exact_mod_cast hlen
  have hF1 : List.replicate P.length true ++ Z1.reverse ++ List.replicate L.length true =
      (List.replicate L.length true ++ Z1 ++ List.replicate P.length true).reverse := by
    simp [List.reverse_replicate]
  have hF2 : List.replicate P.length false ++ Z2.reverse ++ List.replicate L.length false =
      (List.replicate L.length false ++ Z2 ++ List.replicate P.length false).reverse := by
    simp [List.reverse_replicate]
  have hN : int32 (((List.replicate P.length true ++ Z1.reverse ++
      List.replicate L.length true).length : Nat) : Int) =
      (L.length : Int) + M.length + P.length := by
    simp only [List.length_append, List.length_replicate, List.length_reverse, hZ1]
    push_cast
    rw [int32_of_range _ (by omega) (by omega)]
    ring
  unfold GetBroadcastIndice
  rw [if_pos (by rfl)]
  dsimp only
  rw [hN]
  clear hN
  have hchk : decide ((((XL ++ XM ++ XP).length : Nat) : Int) % 2 ^ 64 ≥
      ((L.length : Int) + M.length + P.length) % 2 ^ 64) = true := by
    rw [decide_eq_true_eq]
    simp only [List.length_append, hXL, hXM, hXP]
    push_cast
    exact le_refl _
  rw [hchk, BroadcastError.CHECK_true, ok_bind_eq, hF1, hF2]
  clear hchk hF1 hF2
  have hcnt : ((L.length : Int) + M.length + P.length).toNat =
      L.length + (M.length + (P.length + 0)) := by omega
  rw [hcnt]
  have hR1 : (((List.replicate L.length true ++ Z1 ++ List.replicate P.length true).length
      : Nat) : Int) = (L.length : Int) + M.length + P.length := by
    simp only [List.length_append, List.length_replicate, hZ1]; push_cast; ring
  have hR2 : (((List.replicate L.length false ++ Z2 ++ List.replicate P.length false).length
      : Nat) : Int) = (L.length : Int) + M.length + P.length := by
    simp only [List.length_append, List.length_replicate, hZ2]; push_cast; ring
  have hem : ∀ v : Int, 0 ≤ v → v < 2 ^ 31 → v % 2 ^ 64 = v := by
    intro v h0 h1
    exact Int.emod_eq_of_lt h0 (by omega)
  -- the leading dims
  rw [GetBroadcastIndice.quiet_phase s2.length (P.length : Int) _ _ _ _ _ hR1.symm hR2.symm
    L.length (List.replicate L.length true) XL [] (Z1 ++ List.replicate P.length true) []
    (Z2 ++ List.replicate P.length false) [] (XM ++ XP) 0 [] []
    (by simp) hXL (by simp) (by simp) (by simp) (by simp) (by simp) (by simp)
    (Or.inl (by
      intro j hj
      rw [hem _ (by omega) (by omega), hem _ (by omega) (by omega)]
      omega))]
  -- the dims aligned with the second shape
  rw [GetBroadcastIndice.push_phase s2.length (P.length : Int) _ _ _ _ _ hR1.symm hR2.symm
    M.length Z1 Z2 XM (List.replicate L.length true) (List.replicate P.length true)
    (List.replicate L.length false) (List.replicate P.length false) XL XP _ _ []
    hZ1 hZ2 hXM rfl rfl rfl (by simp) (by simp) (by simp [hXL])
    (by
      intro j hj
      rw [hem _ (by omega) (by omega), hem _ (by omega) (by omega)]
      omega)
    (by simp [hM])]
  -- the dims aligned with the padding
  rw [GetBroadcastIndice.quiet_phase s2.length (P.length : Int) _ _ _ _ _ hR1.symm hR2.symm
    P.length (List.replicate P.length true) XP (List.replicate L.length true ++ Z1) []
    (List.replicate L.length false ++ Z2) [] (XL ++ XM) [] _ _ _
    (by simp) hXP (by simp) (by simp) (by simp)
    (by simp only [List.length_append, List.length_replicate, hZ1]; push_cast; ring)
    (by simp only [List.length_append, List.length_replicate, hZ2]; push_cast; ring)
    (by simp only [List.length_append, hXL, hXM]; push_cast; ring)
    (Or.inr (by
      simp only [List.nil_append, List.length_zipWith, hZ2, hXM, hM, min_self, le_refl]))]
  unfold GetBroadcastIndice.loop
  have e1 := zipWith_replicate_true XL
  have e2 := zipWith_replicate_true XP
  rw [hXL] at e1
  rw [hXP] at e2
  rw [e1, e2]
  simp

theorem zip_map_flags (g : Int → Int → Expr → Expr) (f : Int → Int → Bool) :
    ∀ (M s2 : List Int) (XM : List Expr),
    (∀ p ∈ M.zip s2, ∀ x, g p.1 p.2 x = if f p.1 p.2 then x else Expr.IntImm 0) →
    (M.zip (s2.zip XM)).map (fun t => g t.1 t.2.1 t.2.2) =
      List.zipWith (fun (f : Bool) x => if f then x else Expr.IntImm 0)
        (List.zipWith f M s2) XM := by
  intro M
  induction M with
  | nil => intro s2 XM _; simp
  | cons a M ih =>
    intro s2 XM h
    cases s2 with
    | nil => simp
    | cons b s2 =>
      cases XM with
      | nil => simp
      | cons x XM =>
        simp only [List.zip_cons_cons, List.map_cons, List.zipWith_cons_cons]
        rw [h (a, b) (by simp) x, ih s2 XM (fun p hp x => h p (by simp [hp]) x)]

theorem zip_map_ones (g : Int → Int → Expr → Expr) (hg : ∀ a x, g a 1 x = x) :
    ∀ (L : List Int) (XL : List Expr), XL.length = L.length →
    (L.zip ((List.replicate L.length (1 : Int)).zip XL)).map (fun t => g t.1 t.2.1 t.2.2) =
      XL := by
  intro L
  induction L with
  | nil =>
    intro XL h
    have : XL = [] := List.length_eq_zero.mp h
    subst this; rfl
  | cons a L ih =>
    intro XL h
    cases XL with
    | nil => simp at h
    | cons x XL =>
      simp only [List.length_cons, List.replicate_succ, List.zip_cons_cons, List.map_cons, hg]
      rw [ih XL (by simpa using h)]

theorem zip3_append {α β γ : Type} (A1 A2 : List α) (B1 B2 : List β) (C1 C2 : List γ)
    (h1 : A1.length = B1.length) (h2 : B1.length = C1.length) :
    (A1 ++ A2).zip ((B1 ++ B2).zip (C1 ++ C2)) =
      A1.zip (B1.zip C1) ++ A2.zip (B2.zip C2) := by
  rw [List.zip_append h2, List.zip_append (by rw [List.length_zip, ← h2, min_self, h1])]

theorem zip_append_left_only {α β : Type} (A : List α) (B C : List β)
    (h : A.length = B.length) : A.zip (B ++ C) = A.zip B := by
  have e := @List.zip_append α β A [] B C h
  rw [List.append_nil, List.zip_nil_left, List.append_nil] at e
  exact e

theorem zip_append_right_only {α β : Type} (A C : List α) (B : List β)
    (h : A.length = B.length) : (A ++ C).zip B = A.zip B := by
  have e := @List.zip_append α β A C B [] h
  rw [List.append_nil, List.zip_nil_right, List.append_nil] at e
  exact e

/-- Claim C19: for integer shapes `s1`, `s2` with `rank(s1) >= rank(s2)` and an `axis` that
`GetBroadcastShape` accepts, and an index vector as long as the output shape,
`GetBroadcastIndice` applied to the flags and `axis_offset` that `GetBroadcastShape` produced
yields an index list for the first tensor of length exactly `rank(s1)` and one for the second
tensor of length exactly `rank(s2)`; each entry is the output index of the aligned position,
or 0 where that tensor's dim is 1 and its partner's is not.  The same lists are what the index
function of `Broadcast` reads the tensors at. -/
theorem GetBroadcastIndice_ranks_and_entries (MathEqual : ShapeExpr → ShapeExpr → Bool)
    (hME : ∀ a b : Int, MathEqual (.IntImm a) (.IntImm b) = decide (a = b))
    (s1 s2 : List Int) (axis : Int) (indice : List Expr) (out : BroadcastShape)
    (hlen : s1.length < 2 ^ 31) (hrank : s2.length ≤ s1.length)
    (hlo : -1 ≤ axis) (hhi : axis ≤ (s1.length : Int) - (s2.length : Int))
    (hok : GetBroadcastShape MathEqual (s1.map ShapeExpr.IntImm) (s2.map ShapeExpr.IntImm)
      { common_shape := [], broadcast_flag1 := [], broadcast_flag2 := [], axis_offset := 0 }
      (some axis) = .ok out)
    (hind : indice.length = out.common_shape.length) :
    ∃ bi1 bi2,
      GetBroadcastIndice indice s2.length out.axis_offset [] [] out.broadcast_flag1
        out.broadcast_flag2 = .ok (bi1, bi2) ∧
      Broadcast.indices MathEqual (s1.map ShapeExpr.IntImm) (s2.map ShapeExpr.IntImm)
        (some axis) indice = .ok (bi1, bi2) ∧
      bi1.length = s1.length ∧ bi2.length = s2.length ∧
      bi1 = (s1.zip ((List.replicate (s1.length - (paddedShape s1 s2 axis).length) 1 ++
          paddedShape s1 s2 axis).zip indice)).map
        (fun t => if t.1 = 1 ∧ t.2.1 ≠ 1 then Expr.IntImm 0 else t.2.2) ∧
      bi2 = ((s1.drop (s1.length - (paddedShape s1 s2 axis).length)).zip
          (s2.zip (indice.drop (s1.length - (paddedShape s1 s2 axis).length)))).map
        (fun t => if t.2.1 = 1 ∧ t.1 ≠ 1 then Expr.IntImm 0 else t.2.2) := by
  obtain ⟨L, M, P, hs1, hM, hax, hpad⟩ : ∃ L M P : List Int, s1 = L ++ M ++ P ∧
      M.length = s2.length ∧ ((axis = -1 ∧ P = []) ∨ axis = (L.length : Int)) ∧
      paddedShape s1 s2 axis = s2 ++ List.replicate P.length 1 := by
    by_cases h0 : 0 ≤ axis
    · refine ⟨s1.take axis.toNat, (s1.drop axis.toNat).take s2.length,
        s1.drop (axis.toNat + s2.length), ?_, ?_, Or.inr ?_, ?_⟩
      · rw [List.append_assoc, ← List.drop_drop, List.take_append_drop,
          List.take_append_drop]
      · rw [List.length_take, List.length_drop]; omega
      · rw [List.length_take]; omega
      · unfold paddedShape
        rw [if_pos h0, List.length_drop]
        congr 2
        omega
    · have ha : axis = -1 := by omega
      refine ⟨s1.take (s1.length - s2.length), s1.drop (s1.length - s2.length), [], ?_, ?_,
        Or.inl ⟨ha, rfl⟩, ?_⟩
      · simp
      · rw [List.length_drop]; omega
      · unfold paddedShape
        rw [if_neg (by omega)]
        simp
  subst hs1
  rw [GetBroadcastShape_run MathEqual hME L M P s2 axis hM hax hlen] at hok
  cases hb : broadcastPairs M s2 with
  | none => rw [hb] at hok; exact absurd hok (by simp)
  | some ds =>
  rw [hb] at hok
  have hout := (Except.ok.inj hok).symm
  have hds : ds.length = M.length := by
    have : ∀ (A B : List Int) (ds : List Int), A.length = B.length →
        broadcastPairs A B = some ds → ds.length = A.length := by
      intro A
      induction A with
      | nil =>
        intro B ds _ h
        simp only [broadcastPairs] at h
        rw [← Option.some.inj h]
      | cons a A ih =>
        intro B ds hl h
        cases B with
        | nil => simp at hl
        | cons b B =>
          have e : broadcastPairs (a :: A) (b :: B) =
              match broadcastPair a b, broadcastPairs A B with
              | some d, some ds => some (d :: ds)
              | _, _ => none := rfl
          rw [e] at h
          cases h1 : broadcastPair a b with
          | none => rw [h1] at h; exact absurd h (by simp)
          | some d =>
            cases h2 : broadcastPairs A B with
            | none => rw [h1, h2] at h; exact absurd h (by simp)
            | some ds' =>
              rw [h1, h2] at h
              rw [← Option.some.inj h, List.length_cons, ih B ds' (by simpa using hl) h2,
                List.length_cons]
    exact this M s2 ds hM hb
  have hcompat : ∀ p ∈ M.zip s2, ¬ (p.1 ≠ p.2 ∧ p.1 ≠ 1 ∧ p.2 ≠ 1) := by
    intro p hp hbad
    have := (broadcastPairs_eq_none_iff M s2).mpr ⟨p, hp, hbad⟩
    rw [hb] at this
    exact absurd this (by simp)
  have hindl : indice.length = L.length + M.length + P.length := by
    rw [hind, hout]
    simp only [List.length_map, List.length_append, hds]
  obtain ⟨XL, XM, XP, hX, hXL, hXM, hXP⟩ : ∃ XL XM XP : List Expr,
      indice = XL ++ XM ++ XP ∧ XL.length = L.length ∧ XM.length = M.length ∧
      XP.length = P.length := by
    refine ⟨indice.take L.length, (indice.drop L.length).take M.length,
      indice.drop (L.length + M.length), ?_, ?_, ?_, ?_⟩
    · rw [List.append_assoc, ← List.drop_drop, List.take_append_drop, List.take_append_drop]
    · rw [List.length_take]; omega
    · rw [List.length_take, List.length_drop]; omega
    · rw [List.length_drop]; omega
  subst hX
  have hrun := GetBroadcastIndice_run L M P s2 XL XM XP
    (List.zipWith (fun a b => decide (a = b ∨ a ≠ 1)) M s2)
    (List.zipWith (fun a b => decide (a = b ∨ a = 1)) M s2) hM hXL hXM hXP
    (by simp [hM]) (by simp [hM]) hlen
  have hk : (L ++ M ++ P).length - (s2 ++ List.replicate P.length (1 : Int)).length =
      L.length := by
    simp only [List.length_append, List.length_replicate]
    omega
  refine ⟨XL ++ List.zipWith (fun (f : Bool) x => if f then x else Expr.IntImm 0)
      (List.zipWith (fun a b => decide (a = b ∨ a ≠ 1)) M s2) XM ++ XP,
    List.zipWith (fun (f : Bool) x => if f then x else Expr.IntImm 0)
      (List.zipWith (fun a b => decide (a = b ∨ a = 1)) M s2) XM, ?_, ?_, ?_, ?_, ?_, ?_⟩
  · rw [hout]; exact hrun
  · unfold Broadcast.indices
    rw [GetBroadcastShape_run MathEqual hME L M P s2 axis hM hax hlen, hb]
    dsimp only
    rw [ok_bind_eq, List.length_map]
    exact hrun
  · simp only [List.length_append, List.length_zipWith, hXL, hXM, hXP, hM, min_self]
  · simp only [List.length_zipWith, hXM, hM, min_self]
  · rw [hpad, hk]
    have e1 : (L ++ M ++ P).zip ((List.replicate L.length (1 : Int) ++
        (s2 ++ List.replicate P.length 1)).zip (XL ++ XM ++ XP)) =
        L.zip ((List.replicate L.length (1 : Int)).zip XL) ++
          (M.zip (s2.zip XM) ++ P.zip ((List.replicate P.length (1 : Int)).zip XP)) := by
      rw [List.append_assoc, List.append_assoc,
        zip3_append L (M ++ P) _ _ XL (XM ++ XP) (by simp) (by simp [hXL]),
        zip3_append M P s2 _ XM XP hM (by rw [hXM, hM])]
    rw [e1, List.map_append, List.map_append]
    rw [zip_map_ones (fun a b x => if a = 1 ∧ b ≠ 1 then Expr.IntImm 0 else x)
        (by intro a x; simp) L XL hXL,
      zip_map_ones (fun a b x => if a = 1 ∧ b ≠ 1 then Expr.IntImm 0 else x)
        (by intro a x; simp) P XP hXP,
      zip_map_flags (fun a b x => if a = 1 ∧ b ≠ 1 then Expr.IntImm 0 else x)
        (fun a b => decide (a = b ∨ a ≠ 1)) M s2 XM
        (by
          intro p _ x
          by_cases h1 : p.1 = 1
          · by_cases h2 : p.2 = 1
            · simp [h1, h2]
            · have : ¬ (1 = p.2) := fun h => h2 h.symm
              simp [h1, h2, this]
          · simp [h1])]
    simp
  · rw [hpad, hk]
    have e1 : List.drop L.length (L ++ M ++ P) = M ++ P := by
      rw [List.append_assoc, List.drop_left]
    have e2 : List.drop L.length (XL ++ XM ++ XP) = XM ++ XP := by
      rw [List.append_assoc, ← hXL, List.drop_left]
    have e3 : (M ++ P).zip (s2.zip (XM ++ XP)) = M.zip (s2.zip XM) := by
      rw [zip_append_left_only s2 XM XP (by rw [hXM, hM]),
        zip_append_right_only M P _ (by rw [List.length_zip, hXM, hM, min_self])]
    rw [e1, e2, e3]
    rw [zip_map_flags (fun a b x => if b = 1 ∧ a ≠ 1 then Expr.IntImm 0 else x)
        (fun a b => decide (a = b ∨ a = 1)) M s2 XM
        (by
          intro p hp x
          have hc := hcompat p hp
          by_cases h1 : p.1 = p.2
          · by_cases h2 : p.1 = 1
            · simp [h1, h2]
            · have : ¬ (p.2 = 1) := fun h => h2 (h1.trans h)
              simp [h1, this]
          · by_cases h2 : p.1 = 1
            · simp [h1, h2]
            · have h3 : p.2 = 1 := by
                by_contra h3
                exact hc ⟨h1, h2, h3⟩
              simp [h1, h2, h3])]

/-- Instance of claim C18: the shapes `[2, 1, 4, 1]` and `[3, 1, 5]` aligned at `axis = 1`
broadcast to `[2, 3, 4, 5]`. -/
theorem GetBroadcastOutShape_is_numpy_broadcast_witness :
    GetBroadcastOutShape (fun a b => decide (a = b)) [2, 1, 4, 1] [3, 1, 5] [] 1 =
      .ok [2, 3, 4, 5] :=
  (GetBroadcastOutShape_is_numpy_broadcast (fun a b => decide (a = b))
    (by intro a b; simp) [2, 1, 4, 1] [3, 1, 5] 1 (by norm_num) (by decide) (by decide)
    (by decide)).1.trans (by rfl)

/-- Instance of claim C19: for the shapes `[2, 1, 4, 1]` and `[3, 1, 5]` aligned at
`axis = 1` and the output index `(i, j, k, l)`, the first tensor is read at `(i, 0, k, 0)`,
the second at `(j, 0, l)`. -/
theorem GetBroadcastIndice_ranks_and_entries_witness :
    Broadcast.indices (fun a b => decide (a = b))
        ([2, 1, 4, 1].map ShapeExpr.IntImm) ([3, 1, 5].map ShapeExpr.IntImm) (some 1)
        [._Var_ (.named "i"), ._Var_ (.named "j"), ._Var_ (.named "k"), ._Var_ (.named "l")] =
      .ok ([._Var_ (.named "i"), .IntImm 0, ._Var_ (.named "k"), .IntImm 0],
           [._Var_ (.named "j"), .IntImm 0, ._Var_ (.named "l")]) := by
  obtain ⟨bi1, bi2, _, h2, _, _, h5, h6⟩ :=
    GetBroadcastIndice_ranks_and_entries (fun a b => decide (a = b))
      (by intro a b; simp) [2, 1, 4, 1] [3, 1, 5] 1
      [._Var_ (.named "i"), ._Var_ (.named "j"), ._Var_ (.named "k"), ._Var_ (.named "l")]
      { common_shape := [.IntImm 2, .IntImm 3, .IntImm 4, .IntImm 5]
        broadcast_flag1 := [false, true, false, true]
        broadcast_flag2 := [true, false, true, false]
        axis_offset := 0 }
      (by norm_num) (by decide) (by decide) (by decide) (by rfl) (by rfl)
  rw [h2, h5, h6]
  rfl

/-- Claim C20 fails on the code: for the NHWC input `[1, 8, 8, 3]` (H = W = 8) and the filter
`[3, 1, 3, 3]` (channel multiplier 1, `f_h = f_w = 3`) with padding 0 and stride 1,
`InferShapeForDepthwiseConv2d` returns height 8 and width 6, where the claim's formulas give
`(8 - 3 + 2 * 0) / 1 + 1 = 6` for both, the sizes the NCHW branch returns for the same H, W,
filter, padding and stride: the NHWC branch subtracts the filter dims 1 and 2 (channel
multiplier and `f_h`) instead of 2 and 3. -/
theorem InferShapeForDepthwiseConv2d_nhwc_reads_filter_dims_one_and_two :
    InferShapeForDepthwiseConv2d [[1, 8, 8, 3], [3, 1, 3, 3]]
        { padding := some [0, 0], stride := some [1, 1], data_format := some "NHWC" } =
      .ok [[1, 8, 6, 3]] ∧
    InferShapeForDepthwiseConv2d [[1, 3, 8, 8], [3, 1, 3, 3]]
        { padding := some [0, 0], stride := some [1, 1], data_format := some "NCHW" } =
      .ok [[1, 3, 6, 6]] ∧
    ((8 : Int) - 3 + 2 * 0).tdiv 1 + 1 = 6 := by
  refine ⟨by rfl, by rfl, by decide⟩

/-- Claim C22 fails on the code: for the NHWC input `[1, 8, 8, 3]` with the filter
`[4, 3, 3, 3]` and default attributes `InferShapeForConv2d` returns the one shape
`[1, 6, 6, 4]`, where the operator is registered with four outputs, `InferDtypeForConv2d`
returns four types and the NCHW branch returns four shapes. -/
theorem InferShapeForConv2d_nhwc_returns_one_shape :
    InferShapeForConv2d (fun _ _ _ _ _ _ => 1) [[1, 8, 8, 3], [4, 3, 3, 3]]
        { data_format := some "NHWC" } = .ok [[1, 6, 6, 4]] ∧
    conv2d_num_outputs = 4 ∧
    InferDtypeForConv2d ["float32", "float32"] =
      .ok ["float32", "float32", "float32", "float32"] ∧
    InferShapeForConv2d (fun _ _ _ _ _ _ => 1) [[1, 3, 8, 8], [4, 3, 3, 3]]
        { data_format := some "NCHW" } =
      .ok [[1, 4, 6, 6], [1, 4, 6, 6, 1], [4, 3, 3, 3, 1, 1], [1, 3, 8, 8, 1]] := by
  refine ⟨by rfl, by rfl, by rfl, by rfl⟩

theorem Except.bind_ok_elim {ε α β : Type} {x : Except ε α} {f : α → Except ε β} {r : β}
    (h : (x >>= f) = .ok r) : ∃ a, x = .ok a ∧ f a = .ok r := by
  cases x with
  | error e => exact absurd h (by rintro ⟨⟩)
  | ok a => exact ⟨a, rfl, h⟩

/-- The NHWC branch of `InferShapeForConv2d` returns one shape whatever the dims, the
attributes other than the layout and the factor table are. -/
theorem InferShapeForConv2d_nhwc_length
    (conv2d_factors : List Int → List Int → List Int → List Int → List Int → String → Int)
    (inputs_shape : List (List Int)) (attrs : Conv2dAttrs) (res : List (List Int))
    (hfmt : attrs.data_format = some "NHWC")
    (h : InferShapeForConv2d conv2d_factors inputs_shape attrs = .ok res) :
    res.length = 1 := by
  unfold InferShapeForConv2d at h
  rw [hfmt] at h
  simp only [Option.getD_some] at h
  iterate 6 (replace h := (Except.bind_ok_elim h).choose_spec.2)
  rw [if_neg (by decide), if_pos trivial] at h
  iterate 13 (replace h := (Except.bind_ok_elim h).choose_spec.2)
  have e := Except.ok.inj h
  rw [← e]
  rfl

theorem convExtent_exact (input filter dilation padding stride : Int)
    (hs : 1 ≤ stride) (hd : 1 ≤ dilation) (hf : 1 ≤ filter)
    (hp : 0 ≤ padding) (hi : 0 ≤ input) (hmax : input + 2 * padding < 2 ^ 31)
    (hfit : (filter - 1) * dilation + 1 ≤ input + 2 * padding) :
    convExtent input filter dilation padding stride =
      (input + 2 * padding - ((filter - 1) * dilation + 1)) / stride + 1 ∧
    addInt (addInt (mulInt (subInt (convExtent input filter dilation padding stride) 1) stride)
        (mulInt (subInt filter 1) dilation)) 1 =
      ((input + 2 * padding - ((filter - 1) * dilation + 1)) / stride + 1 - 1) * stride +
        (filter - 1) * dilation + 1 ∧
    ((input + 2 * padding - ((filter - 1) * dilation + 1)) / stride + 1 - 1) * stride +
        (filter - 1) * dilation + 1 ≤ input + 2 * padding ∧
    addInt input (mulInt 2 padding) = input + 2 * padding := by
  have hK0 : 0 ≤ (filter - 1) * dilation := mul_nonneg (by omega) (by omega)
  have hfK : filter - 1 ≤ (filter - 1) * dilation := le_mul_of_one_le_right (by omega) hd
  generalize hK : (filter - 1) * dilation = K at hK0 hfit hfK ⊢
  have hX0 : 0 ≤ input + 2 * padding - (K + 1) := by omega
  generalize hX : input + 2 * padding - (K + 1) = X at hX0 ⊢
  have hq0 : 0 ≤ X / stride := Int.ediv_nonneg hX0 (by omega)
  have hqs : X / stride * stride ≤ X := Int.ediv_mul_le X (by omega)
  have hqX : X / stride ≤ X := by
    have : X / stride * 1 ≤ X / stride * stride := mul_le_mul_of_nonneg_left hs hq0
    omega
  generalize hq : X / stride = q at hq0 hqs hqX ⊢
  generalize hqs' : q * stride = qs at hqs
  have hqs0 : 0 ≤ qs := by rw [← hqs']; exact mul_nonneg hq0 (by omega)
  have e1 : convExtent input filter dilation padding stride = q + 1 := by
    unfold convExtent addInt subInt mulInt divInt
    rw [int32_of_range (filter - 1) (by omega) (by omega), hK,
      int32_of_range K (by omega) (by omega),
      int32_of_range (K + 1) (by omega) (by omega),
      int32_of_range (input - (K + 1)) (by omega) (by omega),
      int32_of_range (2 * padding) (by omega) (by omega),
      int32_of_range (input - (K + 1) + 2 * padding) (by omega) (by omega)]
    have hX' : input - (K + 1) + 2 * padding = X := by omega
    rw [hX', Int.tdiv_eq_ediv hX0 (by omega), hq,
      int32_of_range q (by omega) (by omega), int32_of_range (q + 1) (by omega) (by omega)]
  refine ⟨e1, ?_, ?_, ?_⟩
  · rw [e1]
    unfold addInt subInt mulInt
    rw [int32_of_range (q + 1 - 1) (by omega) (by omega)]
    have : q + 1 - 1 = q := by ring
    rw [this, hqs', int32_of_range qs (by omega) (by omega),
      int32_of_range (filter - 1) (by omega) (by omega), hK,
      int32_of_range K (by omega) (by omega),
      int32_of_range (qs + K) (by omega) (by omega),
      int32_of_range (qs + K + 1) (by omega) (by omega)]
  · have : q + 1 - 1 = q := by ring
    rw [this, hqs']
    omega
  · unfold addInt mulInt
    rw [int32_of_range (2 * padding) (by omega) (by omega),
      int32_of_range (input + 2 * padding) (by omega) (by omega)]

/-- Claim C23: in `InferShapeForConv2dNCHWc`, for stride, dilation and filter size at least 1
and a padding such that the dilated kernel fits (`h_in + 2 * pad_h >= (h_f - 1) * dilation +
1`), the bound `(out_h - 1) * stride + (h_f - 1) * dilation + 1` does not exceed `h_in + 2 *
pad_h`, so the padded-input height returned is that bound; the same holds for the width.
The dims are non-negative `int` values, the padding is non-negative and the padded sizes fit
an `int`. -/
theorem InferShapeForConv2dNCHWc_pad_bound_is_the_min
    (batch ic_chunk h_in w_in ic_bn oc_chunk f_1 h_f w_f f_4 oc_bn : Int)
    (pad_h pad_w stride_h stride_w dilation_h dilation_w : Int)
    (hsh : 1 ≤ stride_h) (hsw : 1 ≤ stride_w) (hdh : 1 ≤ dilation_h) (hdw : 1 ≤ dilation_w)
    (hfh : 1 ≤ h_f) (hfw : 1 ≤ w_f) (hph : 0 ≤ pad_h) (hpw : 0 ≤ pad_w)
    (hih : 0 ≤ h_in) (hiw : 0 ≤ w_in)
    (hmh : h_in + 2 * pad_h < 2 ^ 31) (hmw : w_in + 2 * pad_w < 2 ^ 31)
    (hfith : (h_f - 1) * dilation_h + 1 ≤ h_in + 2 * pad_h)
    (hfitw : (w_f - 1) * dilation_w + 1 ≤ w_in + 2 * pad_w) :
    ((h_in + 2 * pad_h - ((h_f - 1) * dilation_h + 1)) / stride_h + 1 - 1) * stride_h +
        (h_f - 1) * dilation_h + 1 ≤ h_in + 2 * pad_h ∧
    ((w_in + 2 * pad_w - ((w_f - 1) * dilation_w + 1)) / stride_w + 1 - 1) * stride_w +
        (w_f - 1) * dilation_w + 1 ≤ w_in + 2 * pad_w ∧
    InferShapeForConv2dNCHWc
        [[batch, ic_chunk, h_in, w_in, ic_bn], [oc_chunk, f_1, h_f, w_f, f_4, oc_bn]]
        { padding := some [pad_h, pad_w], stride := some [stride_h, stride_w],
          dilation := some [dilation_h, dilation_w] } =
      .ok [[batch, oc_chunk, (h_in + 2 * pad_h - ((h_f - 1) * dilation_h + 1)) / stride_h + 1,
              (w_in + 2 * pad_w - ((w_f - 1) * dilation_w + 1)) / stride_w + 1, oc_bn],
           [batch, oc_chunk, (h_in + 2 * pad_h - ((h_f - 1) * dilation_h + 1)) / stride_h + 1,
              (w_in + 2 * pad_w - ((w_f - 1) * dilation_w + 1)) / stride_w + 1, oc_bn],
           [batch, ic_chunk,
              ((h_in + 2 * pad_h - ((h_f - 1) * dilation_h + 1)) / stride_h + 1 - 1) * stride_h +
                (h_f - 1) * dilation_h + 1,
              ((w_in + 2 * pad_w - ((w_f - 1) * dilation_w + 1)) / stride_w + 1 - 1) * stride_w +
                (w_f - 1) * dilation_w + 1, ic_bn]] := by
  obtain ⟨eh1, eh2, eh3, eh4⟩ :=
    convExtent_exact h_in h_f dilation_h pad_h stride_h hsh hdh hfh hph hih hmh hfith
  obtain ⟨ew1, ew2, ew3, ew4⟩ :=
    convExtent_exact w_in w_f dilation_w pad_w stride_w hsw hdw hfw hpw hiw hmw hfitw
  refine ⟨eh3, ew3, ?_⟩
  have hrun : InferShapeForConv2dNCHWc
      [[batch, ic_chunk, h_in, w_in, ic_bn], [oc_chunk, f_1, h_f, w_f, f_4, oc_bn]]
      { padding := some [pad_h, pad_w], stride := some [stride_h, stride_w],
        dilation := some [dilation_h, dilation_w] } =
      .ok [[batch, oc_chunk, convExtent h_in h_f dilation_h pad_h stride_h,
              convExtent w_in w_f dilation_w pad_w stride_w, oc_bn],
           [batch, oc_chunk, convExtent h_in h_f dilation_h pad_h stride_h,
              convExtent w_in w_f dilation_w pad_w stride_w, oc_bn],
           [batch, ic_chunk,
              min (addInt (addInt (mulInt (subInt
                  (convExtent h_in h_f dilation_h pad_h stride_h) 1) stride_h)
                  (mulInt (subInt h_f 1) dilation_h)) 1) (addInt h_in (mulInt 2 pad_h)),
              min (addInt (addInt (mulInt (subInt
                  (convExtent w_in w_f dilation_w pad_w stride_w) 1) stride_w)
                  (mulInt (subInt w_f 1) dilation_w)) 1) (addInt w_in (mulInt 2 pad_w)),
              ic_bn]] := by
    rfl
  rw [hrun, eh2, ew2, eh4, ew4, min_eq_left eh3, min_eq_left ew3, eh1, ew1]

/-- Instance of claim C23: an 8 by 8 input, a 3 by 3 filter, stride 2, no padding: the
output is 3 by 3 and the padded input 7 by 7, below the 8 by 8 of the input. -/
theorem InferShapeForConv2dNCHWc_pad_bound_is_the_min_witness :
    InferShapeForConv2dNCHWc [[1, 1, 8, 8, 3], [4, 1, 3, 3, 3, 1]]
        { padding := some [0, 0], stride := some [2, 2], dilation := some [1, 1] } =
      .ok [[1, 4, 3, 3, 1], [1, 4, 3, 3, 1], [1, 1, 7, 7, 3]] :=
  (InferShapeForConv2dNCHWc_pad_bound_is_the_min 1 1 8 8 3 4 1 3 3 3 1 0 0 2 2 1 1
    (by decide) (by decide) (by decide) (by decide) (by decide) (by decide) (by decide)
    (by decide) (by decide) (by decide) (by decide) (by decide) (by decide)
    (by decide)).2.2.trans (by rfl)

theorem poolExtent_global (ceil_mode : Bool) (input stride : Int)
    (hs : 1 ≤ stride) (hmax : stride < 2 ^ 31) :
    poolExtent ceil_mode input input 0 0 stride = 1 := by
  have h0 : int32 0 = 0 := int32_zero
  have h1 : int32 1 = 1 := int32_of_range 1 (by norm_num) (by norm_num)
  unfold poolExtent addInt subInt divInt
  cases ceil_mode
  · simp only [Bool.false_eq_true, if_false, sub_self, h0, add_zero, Int.zero_tdiv, zero_add, h1]
  · simp only [if_true, sub_self, h0, add_zero, zero_add]
    rw [int32_of_range stride (by omega) (by omega),
      int32_of_range (stride - 1) (by omega) (by omega),
      Int.tdiv_eq_ediv (by omega) (by omega), Int.ediv_eq_zero_of_lt (by omega) (by omega),
      h0, zero_add, h1]

theorem InferShapeForPool2d_first_input (input : List Int) (rest : List (List Int))
    (attrs : PoolAttrs) :
    InferShapeForPool2d (input :: rest) attrs = InferShapeForPool2d [input] attrs := by
  unfold InferShapeForPool2d
  have h1 : dimAt (input :: rest) 0 = Except.ok input := by simp [dimAt]
  have h2 : dimAt [input] 0 = Except.ok input := by simp [dimAt]
  rw [h1, h2]

/-- Counterexample to claim C24 as stated: with `global_pooling = true`, `adaptive = false`,
a 4-D NCHW input and stride `[1, 1]`, a `kernel_size` attribute of one entry makes
`InferShapeForPool2d` stop on its check `CHECK_EQ(kernel_size.size(), 2U)`, which comes
before the kernel size is replaced by the input's height and width. -/
theorem InferShapeForPool2d_global_checks_kernel_size_first :
    InferShapeForPool2d [[1, 3, 8, 8]]
        { kernel_size := some [7], stride_size := some [1, 1], global_pooling := some true,
          adaptive := some false, data_format := some "NCHW" } = .error .CheckFailed := by
  rfl

/-- Claim C24, amended: for every 4-D or 5-D input shape, every stride with both entries at
least 1, either ceil mode and `data_format` NCHW, NHWC or AnyLayout, `InferShapeForPool2d`
with `global_pooling = true` and `adaptive = false` returns the input shape with the height
and width entries both replaced by 1 and every other entry unchanged, whatever the two
entries of the `kernel_size` attribute are and whatever `padding_size` attribute was passed
(none included). -/
theorem InferShapeForPool2d_global_pooling (input : List Int) (rest : List (List Int))
    (k0 k1 s0 s1 : Int) (padding_size : Option (List Int)) (ceil_mode exclusive : Option Bool)
    (data_format : String) (h w : Nat)
    (hrank : input.length = 4 ∨ input.length = 5)
    (hs0 : 1 ≤ s0) (hs1 : 1 ≤ s1) (hm0 : s0 < 2 ^ 31) (hm1 : s1 < 2 ^ 31)
    (hfmt : (data_format = "NCHW" ∧ h = 2 ∧ w = 3) ∨ (data_format = "NHWC" ∧ h = 1 ∧ w = 2) ∨
      (data_format = "AnyLayout" ∧ h = 2 ∧ w = 3)) :
    InferShapeForPool2d (input :: rest)
        { kernel_size := some [k0, k1], stride_size := some [s0, s1],
          padding_size := padding_size, ceil_mode := ceil_mode, exclusive := exclusive,
          global_pooling := some true, data_format := some data_format,
          adaptive := some false } =
      .ok [(input.set h 1).set w 1] := by
  rw [InferShapeForPool2d_first_input]
  have hp0 := fun (x : Int) => poolExtent_global (ceil_mode.getD false) x s0 hs0 hm0
  have hp1 := fun (x : Int) => poolExtent_global (ceil_mode.getD false) x s1 hs1 hm1
  obtain ⟨a, b, c, d, hin⟩ | ⟨a, b, c, d, e, hin⟩ : (∃ a b c d, input = [a, b, c, d]) ∨
      (∃ a b c d e, input = [a, b, c, d, e]) := by
    match input, hrank with
    | [a, b, c, d], _ => exact Or.inl ⟨a, b, c, d, rfl⟩
    | [a, b, c, d, e], _ => exact Or.inr ⟨a, b, c, d, e, rfl⟩
    | [], h => simp at h
    | [_], h => simp at h
    | [_, _], h => simp at h
    | [_, _, _], h => simp at h
    | _ :: _ :: _ :: _ :: _ :: _ :: _, h => simp at h
  · subst hin
    rcases hfmt with ⟨hf, hh, hw⟩ | ⟨hf, hh, hw⟩ | ⟨hf, hh, hw⟩ <;> subst hf <;> subst hh <;>
      subst hw
    · refine (show _ = Except.ok [[a, b, poolExtent (ceil_mode.getD false) c c 0 0 s0,
        poolExtent (ceil_mode.getD false) d d 0 0 s1]] from by rfl).trans ?_
      rw [hp0, hp1]
      rfl
    · refine (show _ = Except.ok [[a, poolExtent (ceil_mode.getD false) b b 0 0 s0,
        poolExtent (ceil_mode.getD false) c c 0 0 s1, d]] from by rfl).trans ?_
      rw [hp0, hp1]
      rfl
    · refine (show _ = Except.ok [[a, b, poolExtent (ceil_mode.getD false) c c 0 0 s0,
        poolExtent (ceil_mode.getD false) d d 0 0 s1]] from by rfl).trans ?_
      rw [hp0, hp1]
      rfl
  · subst hin
    rcases hfmt with ⟨hf, hh, hw⟩ | ⟨hf, hh, hw⟩ | ⟨hf, hh, hw⟩ <;> subst hf <;> subst hh <;>
      subst hw
    · refine (show _ = Except.ok [[a, b, poolExtent (ceil_mode.getD false) c c 0 0 s0,
        poolExtent (ceil_mode.getD false) d d 0 0 s1, e]] from by rfl).trans ?_
      rw [hp0, hp1]
      rfl
    · refine (show _ = Except.ok [[a, poolExtent (ceil_mode.getD false) b b 0 0 s0,
        poolExtent (ceil_mode.getD false) c c 0 0 s1, d, e]] from by rfl).trans ?_
      rw [hp0, hp1]
      rfl
    · refine (show _ = Except.ok [[a, b, poolExtent (ceil_mode.getD false) c c 0 0 s0,
        poolExtent (ceil_mode.getD false) d d 0 0 s1, e]] from by rfl).trans ?_
      rw [hp0, hp1]
      rfl

/-- Instance of claim C24 (amended): the NHWC input `[1, 8, 8, 3]` with a 7 by 7 kernel,
stride `[2, 3]` and ceil mode pools to `[1, 1, 1, 3]`. -/
theorem InferShapeForPool2d_global_pooling_witness :
    InferShapeForPool2d [[1, 8, 8, 3]]
        { kernel_size := some [7, 7], stride_size := some [2, 3], padding_size := none,
          ceil_mode := some true, exclusive := none, global_pooling := some true,
          data_format := some "NHWC", adaptive := some false } = .ok [[1, 1, 1, 3]] :=
  InferShapeForPool2d_global_pooling [1, 8, 8, 3] [] 7 7 2 3 none (some true) none "NHWC" 1 2
    (Or.inl rfl) (by decide) (by decide) (by decide) (by decide)
    (Or.inr (Or.inl ⟨rfl, rfl, rfl⟩))

/-- The read outside the argument vector does not depend on the name, the launch bounds or
the keyword: for a function without arguments the loop of `PrintFunctionDeclaration` is
entered and reads `op->args[0]`. -/
theorem PrintFunctionDeclaration_no_args (kCKeywordRestrict name : String)
    (cuda_axis_info : Option (Int × Int × Int)) :
    PrintFunctionDeclaration kCKeywordRestrict
      { name := name, args := [], cuda_axis_info := cuda_axis_info } = .error .OutOfRange := by
  rfl

/-- Claim C25 fails on the code: for a lowered function without arguments (`n = 0`) the loop
bound `op->args.size() - 1` is the `size_t` value `2^64 - 1`, so the loop is entered with
`i = 0` and reads `op->args[0]`, an index `>= n`, where the claim has `fn()` written without
any access; with one or two arguments the declaration is written as the claim says. -/
theorem PrintFunctionDeclaration_without_args_reads_args_zero :
    PrintFunctionDeclaration "__restrict__" { name := "fn", args := [] } =
      .error .OutOfRange ∧
    argAt ([] : List Argument) 0 = .error .OutOfRange ∧
    ((0 : Int) % 2 ^ 64 < (((([] : List Argument).length : Nat) : Int) - 1) % 2 ^ 64) ∧
    PrintFunctionDeclaration "__restrict__"
        { name := "fn", args := [.buffer true "float" "A"] } =
      .ok "void fn(const float* __restrict__ A)" ∧
    PrintFunctionDeclaration "__restrict__"
        { name := "fn", args := [.buffer true "float" "A", .buffer false "float" "B"] } =
      .ok "void fn(const float* __restrict__ A, float* __restrict__ B)" := by
  refine ⟨by rfl, by rfl, by decide, by rfl, by rfl⟩

/-- A call without read arguments and with one write argument is printed with a separator
right after the opening bracket, whatever the name and the argument are. -/
theorem Visit_Call_no_reads_one_write {E : Type} (Print : E → String) (name : String)
    (w : CallArg E) (text : String) (hw : CallArg.print Print w = .ok text) :
    Visit_Call Print { name := name, read_args := [], write_args := [w] } =
      .ok (name ++ "(" ++ ", " ++ text ++ ")") := by
  have h : Visit_Call Print { name := name, read_args := [], write_args := [w] } =
      (CallArg.print Print w >>= fun t => .ok (name ++ "(" ++ ", " ++ t ++ ")")) := by
    rfl
  rw [h, hw]
  rfl

/-- Claim C26 fails on the code: for a call `f` with no read argument and the one write
argument `w` the text is `f(, w)`, with a leading separator, and with the write arguments
`w`, `v` it is `f(, w, v)`, where the claim has `f(w)` and `f(w, v)`; with read arguments
the text is as the claim says. -/
theorem Visit_Call_without_reads_prints_leading_separator :
    Visit_Call (fun (e : String) => e) ⟨"f", [], [.tensor "w"]⟩ = .ok "f(, w)" ∧
    Visit_Call (fun (e : String) => e) ⟨"f", [], [.tensor "w", .expr "v"]⟩ =
      .ok "f(, w, v)" ∧
    Visit_Call (fun (e : String) => e)
      ⟨"f", [.expr "x", .tensor "y"], [.tensor "w", .tensor "v"]⟩ = .ok "f(x, y, w, v)" ∧
    Visit_Call (fun (e : String) => e) ⟨"f", [.expr "x"], []⟩ = .ok "f(x)" ∧
    Visit_Call (fun (e : String) => e) ⟨"f", [], []⟩ = .ok "f()" := by
  refine ⟨by rfl, by rfl, by rfl, by rfl, by rfl⟩

theorem digitChar_inj : ∀ (a b : Nat), a < 10 → b < 10 →
    Nat.digitChar a = Nat.digitChar b → a = b := by
  intro a b ha hb h
  interval_cases a <;> interval_cases b <;> first | rfl | (exact absurd h (by decide))

theorem digitChar_not_sep : ∀ (a : Nat), a < 10 →
    Nat.digitChar a ≠ ' ' ∧ Nat.digitChar a ≠ '-' := by
  intro a ha
  interval_cases a <;> exact ⟨by decide, by decide⟩

theorem toDigitsCore_digits : ∀ (fuel n : Nat) (ds : List Char), n < fuel → 0 < n →
    Nat.toDigitsCore 10 fuel n ds = ((Nat.digits 10 n).map Nat.digitChar).reverse ++ ds := by
  intro fuel
  induction fuel with
  | zero => intro n ds h; omega
  | succ fuel ih =>
    intro n ds hlt hpos
    unfold Nat.toDigitsCore
    have hd : Nat.digits 10 n = (n % 10) :: Nat.digits 10 (n / 10) :=
      Nat.digits_def' (by norm_num) hpos
    by_cases h0 : n / 10 = 0
    · simp only [h0, if_true]
      rw [hd, h0]
      simp
    · simp only [h0, if_false]
      rw [ih (n / 10) _ (by omega) (by omega), hd]
      simp

theorem toDigits_digits (n : Nat) (hpos : 0 < n) :
    Nat.toDigits 10 n = ((Nat.digits 10 n).map Nat.digitChar).reverse := by
  unfold Nat.toDigits
  rw [toDigitsCore_digits (n + 1) n [] (by omega) hpos, List.append_nil]

theorem toDigits_zero : Nat.toDigits 10 0 = ['0'] := by rfl

theorem toDigits_not_sep (n : Nat) : ∀ c ∈ Nat.toDigits 10 n, c ≠ ' ' ∧ c ≠ '-' := by
  intro c hc
  rcases Nat.eq_zero_or_pos n with h0 | hpos
  · subst h0
    rw [toDigits_zero] at hc
    have : c = '0' := by simpa using hc
    subst this
    exact ⟨by decide, by decide⟩
  · rw [toDigits_digits n hpos] at hc
    simp only [List.mem_reverse, List.mem_map] at hc
    obtain ⟨d, hd, rfl⟩ := hc
    exact digitChar_not_sep d (Nat.digits_lt_base (by norm_num) hd)

theorem toDigits_ne_nil (n : Nat) : Nat.toDigits 10 n ≠ [] := by
  rcases Nat.eq_zero_or_pos n with h0 | hpos
  · subst h0; rw [toDigits_zero]; simp
  · rw [toDigits_digits n hpos]
    have : Nat.digits 10 n ≠ [] := Nat.digits_ne_nil_iff_ne_zero.mpr (by omega)
    simpa using this

theorem map_digitChar_inj : ∀ (l1 l2 : List Nat), (∀ d ∈ l1, d < 10) → (∀ d ∈ l2, d < 10) →
    l1.map Nat.digitChar = l2.map Nat.digitChar → l1 = l2 := by
  intro l1
  induction l1 with
  | nil =>
    intro l2 _ _ h
    cases l2 with
    | nil => rfl
    | cons b l2 => simp at h
  | cons a l1 ih =>
    intro l2 h1 h2 h
    cases l2 with
    | nil => simp at h
    | cons b l2 =>
      simp only [List.map_cons, List.cons.injEq] at h
      have hab := digitChar_inj a b (h1 a (by simp)) (h2 b (by simp)) h.1
      rw [hab, ih l2 (fun d hd => h1 d (by simp [hd])) (fun d hd => h2 d (by simp [hd])) h.2]

theorem toDigits_inj (n m : Nat) (h : Nat.toDigits 10 n = Nat.toDigits 10 m) : n = m := by
  have key : ∀ a b : Nat, 0 < a → Nat.toDigits 10 a = Nat.toDigits 10 b → a = b := by
    intro a b ha hab
    rcases Nat.eq_zero_or_pos b with h0 | hb
    · subst h0
      rw [toDigits_digits a ha, toDigits_zero] at hab
      have hd : Nat.digits 10 a = (a % 10) :: Nat.digits 10 (a / 10) :=
        Nat.digits_def' (by norm_num) ha
      have hlast := Nat.getLast_digit_ne_zero 10 (by omega : a ≠ 0)
      have hrev : ((Nat.digits 10 a).map Nat.digitChar) = ['0'] := by
        have := congrArg List.reverse hab
        simpa using this
      have hone : (Nat.digits 10 a).map Nat.digitChar = [0].map Nat.digitChar := by
        rw [hrev]; rfl
      have hz := map_digitChar_inj _ _
        (fun d hd => Nat.digits_lt_base (by norm_num) hd) (by simp) hone
      simp only [hz, List.getLast_singleton] at hlast
      exact absurd rfl hlast
    · rw [toDigits_digits a ha, toDigits_digits b hb] at hab
      have hrev := congrArg List.reverse hab
      simp only [List.reverse_reverse] at hrev
      have := map_digitChar_inj _ _
        (fun d hd => Nat.digits_lt_base (by norm_num) hd)
        (fun d hd => Nat.digits_lt_base (by norm_num) hd) hrev
      exact Nat.digits_inj_iff.mp this
  rcases Nat.eq_zero_or_pos n with h0 | hn
  · rcases Nat.eq_zero_or_pos m with h1 | hm
    · rw [h0, h1]
    · exact (key m n hm h.symm).symm
  · exact key n m hn h

/-- The characters of the decimal rendering of an `int` (`std::to_string`). -/
theorem toString_int_data (x : Int) :
    (toString x).data =
      match x with
      | Int.ofNat m => Nat.toDigits 10 m
      | Int.negSucc m => '-' :: Nat.toDigits 10 (m + 1) := by
  cases x with
  | ofNat m => rfl
  | negSucc m => rfl

theorem toString_int_no_space (x : Int) : ' ' ∉ (toString x).data := by
  rw [toString_int_data]
  cases x with
  | ofNat m =>
    intro h
    exact (toDigits_not_sep m ' ' h).1 rfl
  | negSucc m =>
    intro h
    rcases List.mem_cons.mp h with h | h
    · exact absurd h (by decide)
    · exact (toDigits_not_sep (m + 1) ' ' h).1 rfl

theorem toString_int_inj (x y : Int) (h : toString x = toString y) : x = y := by
  have hd : (toString x).data = (toString y).data := by rw [h]
  rw [toString_int_data, toString_int_data] at hd
  cases x with
  | ofNat m =>
    cases y with
    | ofNat k =>
      have := toDigits_inj m k hd
      rw [this]
    | negSucc k =>
      exfalso
      have hmem : '-' ∈ Nat.toDigits 10 m := by
        have : Nat.toDigits 10 m = '-' :: Nat.toDigits 10 (k + 1) := hd
        rw [this]; exact List.mem_cons_self _ _
      exact (toDigits_not_sep m '-' hmem).2 rfl
  | negSucc m =>
    cases y with
    | ofNat k =>
      exfalso
      have hmem : '-' ∈ Nat.toDigits 10 k := by
        have : '-' :: Nat.toDigits 10 (m + 1) = Nat.toDigits 10 k := hd
        rw [← this]; exact List.mem_cons_self _ _
      exact (toDigits_not_sep k '-' hmem).2 rfl
    | negSucc k =>
      have h1 : Nat.toDigits 10 (m + 1) = Nat.toDigits 10 (k + 1) := by
        have : '-' :: Nat.toDigits 10 (m + 1) = '-' :: Nat.toDigits 10 (k + 1) := hd
        exact (List.cons.inj this).2
      have := toDigits_inj _ _ h1
      have hmk : m = k := by omega
      rw [hmk]

theorem split_at_space : ∀ (a b r s : List Char), ' ' ∉ a → ' ' ∉ b →
    a ++ ' ' :: r = b ++ ' ' :: s → a = b ∧ r = s := by
  intro a
  induction a with
  | nil =>
    intro b r s _ hb h
    cases b with
    | nil => exact ⟨rfl, (List.cons.inj h).2⟩
    | cons c b =>
      exfalso
      have hc : ' ' = c := (List.cons.inj h).1
      exact hb (by rw [← hc]; exact List.mem_cons_self _ _)
  | cons c a ih =>
    intro b r s ha hb h
    cases b with
    | nil =>
      exfalso
      have hc : c = ' ' := (List.cons.inj h).1
      exact ha (by rw [hc]; exact List.mem_cons_self _ _)
    | cons d b =>
      have h1 := List.cons.inj h
      have := ih b r s (fun hm => ha (List.mem_cons_of_mem _ hm))
        (fun hm => hb (List.mem_cons_of_mem _ hm)) h1.2
      exact ⟨by rw [h1.1, this.1], this.2⟩

theorem toString_int_data_inj (x y : Int) (h : (toString x).data = (toString y).data) :
    x = y :=
  toString_int_inj x y (String.ext h)

/-- Claim C27: the schedule-table key `IRCudaScheduleConv` builds is
`"CudaDirectConvSchedule "` followed by the decimal renderings of the four `input_pad` dims,
the four weight dims and the four output dims, in that order, separated by single spaces;
and the key is injective: two shape signatures have the same key exactly when all twelve
dims are equal. -/
theorem IRCudaScheduleConv_key_is_injective (ni nw no mi mw mo : String)
    (i0 i1 i2 i3 w0 w1 w2 w3 o0 o1 o2 o3 j0 j1 j2 j3 v0 v1 v2 v3 p0 p1 p2 p3 : Int) :
    IRCudaScheduleConv.key ⟨ni, [i0, i1, i2, i3]⟩ ⟨nw, [w0, w1, w2, w3]⟩
        ⟨no, [o0, o1, o2, o3]⟩ =
      .ok ("CudaDirectConvSchedule " ++ toString i0 ++ " " ++ toString i1 ++ " " ++
        toString i2 ++ " " ++ toString i3 ++ " " ++ toString w0 ++ " " ++ toString w1 ++ " " ++
        toString w2 ++ " " ++ toString w3 ++ " " ++ toString o0 ++ " " ++ toString o1 ++ " " ++
        toString o2 ++ " " ++ toString o3) ∧
    (IRCudaScheduleConv.key ⟨ni, [i0, i1, i2, i3]⟩ ⟨nw, [w0, w1, w2, w3]⟩
        ⟨no, [o0, o1, o2, o3]⟩ =
      IRCudaScheduleConv.key ⟨mi, [j0, j1, j2, j3]⟩ ⟨mw, [v0, v1, v2, v3]⟩
        ⟨mo, [p0, p1, p2, p3]⟩ ↔
      [i0, i1, i2, i3, w0, w1, w2, w3, o0, o1, o2, o3] =
        [j0, j1, j2, j3, v0, v1, v2, v3, p0, p1, p2, p3]) := by
  have hkey : ∀ (n1 n2 n3 : String) (a0 a1 a2 a3 b0 b1 b2 b3 c0 c1 c2 c3 : Int),
      IRCudaScheduleConv.key ⟨n1, [a0, a1, a2, a3]⟩ ⟨n2, [b0, b1, b2, b3]⟩
          ⟨n3, [c0, c1, c2, c3]⟩ =
        .ok ("CudaDirectConvSchedule " ++ toString a0 ++ " " ++ toString a1 ++ " " ++
          toString a2 ++ " " ++ toString a3 ++ " " ++ toString b0 ++ " " ++ toString b1 ++ " "
          ++ toString b2 ++ " " ++ toString b3 ++ " " ++ toString c0 ++ " " ++ toString c1 ++
          " " ++ toString c2 ++ " " ++ toString c3) := by
    intro n1 n2 n3 a0 a1 a2 a3 b0 b1 b2 b3 c0 c1 c2 c3
    rfl
  refine ⟨hkey _ _ _ _ _ _ _ _ _ _ _ _ _ _ _, ?_⟩
  rw [hkey, hkey]
  constructor
  · intro h
    have hs := congrArg String.data (Except.ok.inj h)
    simp only [String.data_append, List.append_assoc] at hs
    have hsp : (" " : String).data = [' '] := rfl
    simp only [hsp, List.singleton_append] at hs
    have h := List.append_cancel_left hs
    obtain ⟨e0, h⟩ := split_at_space _ _ _ _ (toString_int_no_space i0)
      (toString_int_no_space j0) h
    obtain ⟨e1, h⟩ := split_at_space _ _ _ _ (toString_int_no_space i1)
      (toString_int_no_space j1) h
    obtain ⟨e2, h⟩ := split_at_space _ _ _ _ (toString_int_no_space i2)
      (toString_int_no_space j2) h
    obtain ⟨e3, h⟩ := split_at_space _ _ _ _ (toString_int_no_space i3)
      (toString_int_no_space j3) h
    obtain ⟨e4, h⟩ := split_at_space _ _ _ _ (toString_int_no_space w0)
      (toString_int_no_space v0) h
    obtain ⟨e5, h⟩ := split_at_space _ _ _ _ (toString_int_no_space w1)
      (toString_int_no_space v1) h
    obtain ⟨e6, h⟩ := split_at_space _ _ _ _ (toString_int_no_space w2)
      (toString_int_no_space v2) h
    obtain ⟨e7, h⟩ := split_at_space _ _ _ _ (toString_int_no_space w3)
      (toString_int_no_space v3) h
    obtain ⟨e8, h⟩ := split_at_space _ _ _ _ (toString_int_no_space o0)
      (toString_int_no_space p0) h
    obtain ⟨e9, h⟩ := split_at_space _ _ _ _ (toString_int_no_space o1)
      (toString_int_no_space p1) h
    obtain ⟨e10, h⟩ := split_at_space _ _ _ _ (toString_int_no_space o2)
      (toString_int_no_space p2) h
    rw [toString_int_data_inj _ _ e0, toString_int_data_inj _ _ e1,
      toString_int_data_inj _ _ e2, toString_int_data_inj _ _ e3,
      toString_int_data_inj _ _ e4, toString_int_data_inj _ _ e5,
      toString_int_data_inj _ _ e6, toString_int_data_inj _ _ e7,
      toString_int_data_inj _ _ e8, toString_int_data_inj _ _ e9,
      toString_int_data_inj _ _ e10, toString_int_data_inj _ _ h]
  · intro h
    simp only [List.cons.injEq, and_true] at h
    obtain ⟨e0, e1, e2, e3, e4, e5, e6, e7, e8, e9, e10, e11⟩ := h
    rw [e0, e1, e2, e3, e4, e5, e6, e7, e8, e9, e10, e11]

/-- Instance of claim C27: the key of the shapes `(1, 1, 3, 34)`, `(1, 1, 3, 3)`,
`(1, 1, 1, 32)` is `CudaDirectConvSchedule 1 1 3 34 1 1 3 3 1 1 1 32`, and the shapes that
differ from these only in the last output dim (`-32` for `32`) have another key. -/
theorem IRCudaScheduleConv_key_is_injective_witness :
    IRCudaScheduleConv.key ⟨"input_pad", [1, 1, 3, 34]⟩ ⟨"weights", [1, 1, 3, 3]⟩
        ⟨"out", [1, 1, 1, 32]⟩ = .ok "CudaDirectConvSchedule 1 1 3 34 1 1 3 3 1 1 1 32" ∧
    IRCudaScheduleConv.key ⟨"input_pad", [1, 1, 3, 34]⟩ ⟨"weights", [1, 1, 3, 3]⟩
        ⟨"out", [1, 1, 1, 32]⟩ ≠
      IRCudaScheduleConv.key ⟨"input_pad", [1, 1, 3, 34]⟩ ⟨"weights", [1, 1, 3, 3]⟩
        ⟨"out", [1, 1, 1, -32]⟩ :=
  ⟨by rfl, fun h =>
    absurd ((IRCudaScheduleConv_key_is_injective "input_pad" "weights" "out" "input_pad"
      "weights" "out" 1 1 3 34 1 1 3 3 1 1 1 32 1 1 3 34 1 1 3 3 1 1 1 (-32)).2.mp h)
      (by decide)⟩

theorem Store.ext_read {a b : Store} (h : ∀ t i, a.read t i = b.read t i) : a = b := by
  cases a; cases b
  simp only [Store.mk.injEq]
  funext t i
  exact h t i

theorem Store.read_write (s : Store) (t : String) (idx : List Int) (v : Int) (t' : String)
    (idx' : List Int) :
    (s.write t idx v).read t' idx' = if t' = t ∧ idx' = idx then v else s.read t' idx' := rfl

theorem Store.read_write_same (s : Store) (t : String) (idx : List Int) (v : Int) :
    (s.write t idx v).read t idx = v := by
  simp [Store.read_write]

theorem Store.read_write_tensor_ne (s : Store) (t : String) (idx : List Int) (v : Int)
    (t' : String) (idx' : List Int) (h : t' ≠ t) :
    (s.write t idx v).read t' idx' = s.read t' idx' := by
  simp [Store.read_write, h]

theorem Store.write_write (s : Store) (t : String) (idx : List Int) (v w : Int) :
    (s.write t idx v).write t idx w = s.write t idx w := by
  apply Store.ext_read
  intro t' i'
  simp only [Store.read_write]
  split_ifs <;> rfl

theorem Store.foldl_accumulate (t : String) (idx : List Int) (f : Nat → Store → Int)
    (hf : ∀ x (a b : Store), (∀ t' i', t' ≠ t → a.read t' i' = b.read t' i') → f x a = f x b)
    (s : Store) (n : Nat) :
    (List.range n).foldl (fun s x => s.write t idx (s.read t idx + f x s)) s
      = s.write t idx (s.read t idx + ∑ x in Finset.range n, f x s) := by
  induction n with
  | zero =>
    apply Store.ext_read
    intro t' i'
    simp only [List.range_zero, List.foldl_nil, Finset.range_zero, Finset.sum_empty, add_zero,
      Store.read_write]
    split_ifs with h
    · rw [h.1, h.2]
    · rfl
  | succ n ih =>
    rw [List.range_succ, List.foldl_append, ih]
    simp only [List.foldl_cons, List.foldl_nil]
    rw [Store.write_write, Store.read_write_same, Finset.sum_range_succ,
      hf n (s.write t idx _) s (fun t' i' h => Store.read_write_tensor_ne _ _ _ _ _ _ h),
      add_assoc]

theorem Store.foldl_disjoint_writes (t : String) (cells : Nat → List Int → Prop)
    (val : Nat → List Int → Store → Int) (step : Nat → Store → Store)
    (hframe : ∀ x s t' idx, (t' ≠ t ∨ ¬ cells x idx) → (step x s).read t' idx = s.read t' idx)
    (hval : ∀ x s idx, cells x idx → (step x s).read t idx = val x idx s)
    (hdep : ∀ x idx (a b : Store), (∀ t' i', t' ≠ t → a.read t' i' = b.read t' i') →
      val x idx a = val x idx b)
    (hdisj : ∀ x y idx, cells x idx → cells y idx → x = y)
    (s : Store) (n : Nat) :
    (∀ t' idx, (t' ≠ t ∨ ∀ x, x < n → ¬ cells x idx) →
        ((List.range n).foldl (fun s x => step x s) s).read t' idx = s.read t' idx) ∧
    (∀ x idx, x < n → cells x idx →
        ((List.range n).foldl (fun s x => step x s) s).read t idx = val x idx s) := by
  induction n with
  | zero =>
    refine ⟨fun _ _ _ => rfl, fun x idx hx _ => absurd hx (Nat.not_lt_zero x)⟩
  | succ n ih =>
    obtain ⟨ih1, ih2⟩ := ih
    rw [List.range_succ, List.foldl_append]
    simp only [List.foldl_cons, List.foldl_nil]
    constructor
    · intro t' idx h
      rw [hframe n _ t' idx (h.imp id (fun h => h n (Nat.lt_succ_self n)))]
      exact ih1 t' idx (h.imp id (fun h x hx => h x (Nat.lt_succ_of_lt hx)))
    · intro x idx hx hc
      rcases Nat.lt_succ_iff_lt_or_eq.mp hx with hlt | heq
      · have hn : ¬ cells n idx := fun hcn => (Nat.ne_of_lt hlt) (hdisj x n idx hc hcn)
        rw [hframe n _ t idx (Or.inr hn)]
        exact ih2 x idx hlt hc
      · subst heq
        rw [hval x _ idx hc]
        exact hdep x idx _ s (fun t' i' h => ih1 t' i' (Or.inl h))

theorem Var.named_beq (a b : String) : (Var.named a == Var.named b) = decide (a = b) := by
  show decide (Var.named a = Var.named b) = decide (a = b)
  simp

theorem Store.foldl_init_accumulate (t : String) (idx : List Int) (f : Nat → Store → Int)
    (hf : ∀ x (a b : Store), (∀ t' i', t' ≠ t → a.read t' i' = b.read t' i') → f x a = f x b)
    (s : Store) (n : Nat) :
    (List.range n).foldl (fun s x => s.write t idx (s.read t idx + f x s)) (s.write t idx 0)
      = s.write t idx (∑ x in Finset.range n, f x s) := by
  rw [Store.foldl_accumulate t idx f hf, Store.write_write, Store.read_write_same, zero_add]
  congr 1
  exact Finset.sum_congr rfl (fun x _ =>
    hf x _ s (fun t' i' h => Store.read_write_tensor_ne _ _ _ _ _ _ h))

theorem Store.foldl_writes (t : String) (c : Nat → List Int) (h : Nat → Store → Int)
    (hdep : ∀ x (a b : Store), (∀ t' i', t' ≠ t → a.read t' i' = b.read t' i') → h x a = h x b)
    (hinj : ∀ x y, c x = c y → x = y) (s : Store) (n : Nat) :
    (∀ t' idx, (t' ≠ t ∨ ∀ x, x < n → idx ≠ c x) →
        ((List.range n).foldl (fun s x => s.write t (c x) (h x s)) s).read t' idx
          = s.read t' idx) ∧
    (∀ x, x < n →
        ((List.range n).foldl (fun s x => s.write t (c x) (h x s)) s).read t (c x) = h x s) := by
  have key := Store.foldl_disjoint_writes t (fun x idx => idx = c x) (fun x _ s => h x s)
    (fun x s => s.write t (c x) (h x s))
    (fun x s t' idx hne => by
      rw [Store.read_write, if_neg]
      rintro ⟨h1, h2⟩
      rcases hne with hne | hne
      · exact hne h1
      · exact hne h2)
    (fun x s idx hc => by rw [hc, Store.read_write_same])
    (fun x _ a b hab => hdep x a b hab)
    (fun x y idx hx hy => hinj x y (hx.symm.trans hy)) s n
  exact ⟨key.1, fun x hx => key.2 x (c x) hx rfl⟩

theorem rfactorExample_run (s : Store) :
    rfactorExample.run s = (List.range 10).foldl (fun s i =>
      (List.range 20).foldl (fun s j =>
        (List.range 30).foldl (fun s k =>
          s.write "B" [(i : Int)]
            (s.read "B" [(i : Int)] + s.read "A" [(i : Int), (j : Int), (k : Int)])) s)
        (s.write "B" [(i : Int)] 0)) s := by
  unfold rfactorExample ModuleExpr.run
  simp only [List.foldl_cons, List.foldl_nil]
  simp only [Block.run]
  simp only [Loop.tripCount, Loop.bound, Expr.eval]
  simp only [ScheduleBlockRealize.run, List.map_cons, List.map_nil, Value.eval, Expr.eval]
  simp only [bindVars, List.zip_cons_cons, List.zip_nil_right, List.lookup_cons, List.lookup_nil,
    Function.update_apply]
  simp [Var.named_beq]

theorem rfactorDocumented_run (s : Store) :
    rfactorDocumented.run s =
      (List.range 10).foldl (fun s i =>
        (List.range 30).foldl (fun s k =>
          s.write "B" [(i : Int)]
            (s.read "B" [(i : Int)] + s.read "rf_B" [(k : Int), (i : Int)]))
          (s.write "B" [(i : Int)] 0))
        ((List.range 30).foldl (fun s k =>
          (List.range 10).foldl (fun s i =>
            (List.range 20).foldl (fun s j =>
              s.write "rf_B" [(k : Int), (i : Int)]
                (s.read "rf_B" [(k : Int), (i : Int)]
                  + s.read "A" [(i : Int), (j : Int), (k : Int)]))
              (s.write "rf_B" [(k : Int), (i : Int)] 0)) s) s) := by
  unfold rfactorDocumented ModuleExpr.run
  simp only [List.foldl_cons, List.foldl_nil]
  simp only [Block.run]
  simp only [Loop.tripCount, Loop.bound, Expr.eval]
  simp only [ScheduleBlockRealize.run, List.map_cons, List.map_nil, Value.eval, Expr.eval]
  simp only [bindVars, List.zip_cons_cons, List.zip_nil_right, List.lookup_cons, List.lookup_nil,
    Function.update_apply]
  simp [Var.named_beq]

theorem rfactorExample_run_read (s : Store) (i : Nat) (hi : i < 10) :
    (rfactorExample.run s).read "B" [(i : Int)]
      = ∑ j in Finset.range 20, ∑ k in Finset.range 30,
          s.read "A" [(i : Int), (j : Int), (k : Int)] := by
  rw [rfactorExample_run]
  have hstep : (fun (s : Store) (i : Nat) =>
      (List.range 20).foldl (fun s j =>
        (List.range 30).foldl (fun s k =>
          s.write "B" [(i : Int)]
            (s.read "B" [(i : Int)] + s.read "A" [(i : Int), (j : Int), (k : Int)])) s)
        (s.write "B" [(i : Int)] 0))
      = (fun s i => s.write "B" [(i : Int)] (∑ j in Finset.range 20, ∑ k in Finset.range 30,
          s.read "A" [(i : Int), (j : Int), (k : Int)])) := by
    funext s i
    have hk : (fun (s : Store) (j : Nat) =>
        (List.range 30).foldl (fun s k =>
          s.write "B" [(i : Int)]
            (s.read "B" [(i : Int)] + s.read "A" [(i : Int), (j : Int), (k : Int)])) s)
        = (fun s j => s.write "B" [(i : Int)] (s.read "B" [(i : Int)]
            + ∑ k in Finset.range 30, s.read "A" [(i : Int), (j : Int), (k : Int)])) := by
      funext s j
      exact Store.foldl_accumulate "B" [(i : Int)]
        (fun k s => s.read "A" [(i : Int), (j : Int), (k : Int)])
        (fun k a b hab => hab "A" _ (by decide)) s 30
    rw [hk]
    exact Store.foldl_init_accumulate "B" [(i : Int)]
      (fun j s => ∑ k in Finset.range 30, s.read "A" [(i : Int), (j : Int), (k : Int)])
      (fun j a b hab => Finset.sum_congr rfl (fun k _ => hab "A" _ (by decide))) s 20
  rw [hstep]
  exact (Store.foldl_writes "B" (fun i => [(i : Int)])
    (fun i s => ∑ j in Finset.range 20, ∑ k in Finset.range 30,
      s.read "A" [(i : Int), (j : Int), (k : Int)])
    (fun i a b hab => Finset.sum_congr rfl (fun j _ =>
      Finset.sum_congr rfl (fun k _ => hab "A" _ (by decide))))
    (fun x y h => by simpa using h) s 10).2 i hi

theorem rfactorDocumented_rf_nest (s : Store) :
    (∀ t' idx, t' ≠ "rf_B" →
      ((List.range 30).foldl (fun s k =>
          (List.range 10).foldl (fun s i =>
            (List.range 20).foldl (fun s j =>
              s.write "rf_B" [(k : Int), (i : Int)]
                (s.read "rf_B" [(k : Int), (i : Int)]
                  + s.read "A" [(i : Int), (j : Int), (k : Int)]))
              (s.write "rf_B" [(k : Int), (i : Int)] 0)) s) s).read t' idx = s.read t' idx) ∧
    (∀ k i : Nat, k < 30 → i < 10 →
      ((List.range 30).foldl (fun s k =>
          (List.range 10).foldl (fun s i =>
            (List.range 20).foldl (fun s j =>
              s.write "rf_B" [(k : Int), (i : Int)]
                (s.read "rf_B" [(k : Int), (i : Int)]
                  + s.read "A" [(i : Int), (j : Int), (k : Int)]))
              (s.write "rf_B" [(k : Int), (i : Int)] 0)) s) s).read "rf_B" [(k : Int), (i : Int)]
        = ∑ j in Finset.range 20, s.read "A" [(i : Int), (j : Int), (k : Int)]) := by
  have hstep : (fun (s : Store) (k : Nat) =>
      (List.range 10).foldl (fun s i =>
        (List.range 20).foldl (fun s j =>
          s.write "rf_B" [(k : Int), (i : Int)]
            (s.read "rf_B" [(k : Int), (i : Int)]
              + s.read "A" [(i : Int), (j : Int), (k : Int)]))
          (s.write "rf_B" [(k : Int), (i : Int)] 0)) s)
      = (fun s k => (List.range 10).foldl (fun s i =>
          s.write "rf_B" [(k : Int), (i : Int)]
            (∑ j in Finset.range 20, s.read "A" [(i : Int), (j : Int), (k : Int)])) s) := by
    funext s k
    congr 1
    funext s i
    exact Store.foldl_init_accumulate "rf_B" [(k : Int), (i : Int)]
      (fun j s => s.read "A" [(i : Int), (j : Int), (k : Int)])
      (fun j a b hab => hab "A" _ (by decide)) s 20
  rw [hstep]
  have inner := fun (k : Nat) (s : Store) =>
    Store.foldl_writes "rf_B" (fun i => [(k : Int), (i : Int)])
      (fun i s => ∑ j in Finset.range 20, s.read "A" [(i : Int), (j : Int), (k : Int)])
      (fun i a b hab => Finset.sum_congr rfl (fun j _ => hab "A" _ (by decide)))
      (fun x y h => by simpa using h) s 10
  have key := fun n => Store.foldl_disjoint_writes "rf_B"
    (fun k idx => ∃ i : Nat, i < 10 ∧ idx = [(k : Int), (i : Int)])
    (fun k idx s => ∑ j in Finset.range 20, s.read "A" [idx.getD 1 0, (j : Int), (k : Int)])
    (fun k s => (List.range 10).foldl (fun s (i : Nat) =>
          s.write "rf_B" [(k : Int), (i : Int)]
            (∑ j in Finset.range 20, s.read "A" [(i : Int), (j : Int), (k : Int)])) s)
    (fun k s t' idx hne => (inner k s).1 t' idx
      (hne.imp id (fun hne i hi hidx => hne ⟨i, hi, hidx⟩)))
    (fun k s idx hc => by
      obtain ⟨i, hi, rfl⟩ := hc
      exact (inner k s).2 i hi)
    (fun k idx a b hab => Finset.sum_congr rfl (fun j _ => hab "A" _ (by decide)))
    (fun x y idx hx hy => by
      obtain ⟨i, _, rfl⟩ := hx
      obtain ⟨i', _, h⟩ := hy
      simpa using (List.cons.inj h).1) s n
  refine ⟨fun t' idx h => (key 30).1 t' idx (Or.inl h), fun k i hk hi => ?_⟩
  exact (key 30).2 k [(k : Int), (i : Int)] hk ⟨i, hi, rfl⟩

theorem rfactorDocumented_final_nest (s : Store) :
    (∀ t' idx, t' ≠ "B" →
      ((List.range 10).foldl (fun s i =>
        (List.range 30).foldl (fun s k =>
          s.write "B" [(i : Int)]
            (s.read "B" [(i : Int)] + s.read "rf_B" [(k : Int), (i : Int)]))
          (s.write "B" [(i : Int)] 0)) s).read t' idx = s.read t' idx) ∧
    (∀ i : Nat, i < 10 →
      ((List.range 10).foldl (fun s i =>
        (List.range 30).foldl (fun s k =>
          s.write "B" [(i : Int)]
            (s.read "B" [(i : Int)] + s.read "rf_B" [(k : Int), (i : Int)]))
          (s.write "B" [(i : Int)] 0)) s).read "B" [(i : Int)]
        = ∑ k in Finset.range 30, s.read "rf_B" [(k : Int), (i : Int)]) := by
  have hstep : (fun (s : Store) (i : Nat) =>
      (List.range 30).foldl (fun s k =>
        s.write "B" [(i : Int)]
          (s.read "B" [(i : Int)] + s.read "rf_B" [(k : Int), (i : Int)]))
        (s.write "B" [(i : Int)] 0))
      = (fun s i => s.write "B" [(i : Int)]
          (∑ k in Finset.range 30, s.read "rf_B" [(k : Int), (i : Int)])) := by
    funext s i
    exact Store.foldl_init_accumulate "B" [(i : Int)]
      (fun k s => s.read "rf_B" [(k : Int), (i : Int)])
      (fun k a b hab => hab "rf_B" _ (by decide)) s 30
  rw [hstep]
  have key := Store.foldl_writes "B" (fun i => [(i : Int)])
    (fun i s => ∑ k in Finset.range 30, s.read "rf_B" [(k : Int), (i : Int)])
    (fun i a b hab => Finset.sum_congr rfl (fun k _ => hab "rf_B" _ (by decide)))
    (fun x y h => by simpa using h) s 10
  exact ⟨fun t' idx h => key.1 t' idx (Or.inl h), fun i hi => key.2 i hi⟩

theorem rfactorDocumented_run_read (s : Store) :
    (∀ k i : Nat, k < 30 → i < 10 →
      (rfactorDocumented.run s).read "rf_B" [(k : Int), (i : Int)]
        = ∑ j in Finset.range 20, s.read "A" [(i : Int), (j : Int), (k : Int)]) ∧
    (∀ i : Nat, i < 10 →
      (rfactorDocumented.run s).read "B" [(i : Int)]
        = ∑ k in Finset.range 30, (rfactorDocumented.run s).read "rf_B" [(k : Int), (i : Int)]) := by
  rw [rfactorDocumented_run]
  obtain ⟨_, v1⟩ := rfactorDocumented_rf_nest s
  constructor
  · intro k i hk hi
    rw [(rfactorDocumented_final_nest _).1 "rf_B" _ (by decide)]
    exact v1 k i hk hi
  · intro i hi
    rw [(rfactorDocumented_final_nest _).2 i hi]
    exact Finset.sum_congr rfl (fun k _ =>
      ((rfactorDocumented_final_nest _).1 "rf_B" _ (by decide)).symm)

/-- Claim C15: on the reduction of the documentation, `B[i] = sum over j < 20 and k < 30 of
A[i, j, k]` for `i < 10`, `Rfactor` on the loop `k` with `rf_axis = 0` gives the two nests of
the documentation and the new tensor `rf_B` of shape `[30, 10]`: its rank is 2, one more than
the rank of `B`, and the axis of `k` comes first.  Run on any tensor contents `s`, the new nests
leave `rf_B[k, i] = sum over j of A[i, j, k]`, the final block leaves
`B[i] = sum over k of rf_B[k, i]`, and that is the `B[i]` the original reduction computes, the
sum over `j` and `k` of `A[i, j, k]`, in integer arithmetic. -/
theorem Rfactor_documented_reduction_is_factorized :
    (∃ rf : Tensor,
      IRSchedule.Rfactor rfactorExample rfactorLoop 0 = .ok (rfactorDocumented, rf) ∧
      rf.name = "rf_B" ∧ rf.shape = [30, 10] ∧ rf.shape.length = 2) ∧
    ∀ (s : Store) (k : Fin 30) (i : Fin 10),
      (rfactorDocumented.run s).read "rf_B" [(k.val : Int), (i.val : Int)]
        = ∑ j in Finset.range 20, s.read "A" [(i.val : Int), (j : Int), (k.val : Int)] ∧
      (rfactorDocumented.run s).read "B" [(i.val : Int)]
        = ∑ x in Finset.range 30,
            (rfactorDocumented.run s).read "rf_B" [(x : Int), (i.val : Int)] ∧
      (rfactorDocumented.run s).read "B" [(i.val : Int)]
        = (rfactorExample.run s).read "B" [(i.val : Int)] ∧
      (rfactorExample.run s).read "B" [(i.val : Int)]
        = ∑ j in Finset.range 20, ∑ x in Finset.range 30,
            s.read "A" [(i.val : Int), (j : Int), (x : Int)] := by
  refine ⟨⟨⟨"rf_B", [30, 10]⟩, by rfl, rfl, rfl, rfl⟩, fun s k i => ?_⟩
  obtain ⟨h1, h2⟩ := rfactorDocumented_run_read s
  refine ⟨h1 k.val i.val k.isLt i.isLt, h2 i.val i.isLt, ?_,
    rfactorExample_run_read s i.val i.isLt⟩
  rw [h2 i.val i.isLt, rfactorExample_run_read s i.val i.isLt, Finset.sum_comm]
  exact Finset.sum_congr rfl (fun k hk =>
    h1 k i.val (Finset.mem_range.mp hk) i.isLt)

end cinn
